import Mathlib

/-!
# Periodic nearest-neighbour search (`nnpair.H`)

A shallow embedding of the grid construction, atom binning and pair
enumeration routines of `nnpair.H`, followed by the properties proved about
them.

Conventions of the embedding:

* `double` values are elements of an arbitrary linearly ordered field `α` with
  a floor function (exact arithmetic); the real numbers are one instance and
  the rationals, on which every definition below can be run, another.
* `sqrt` of `<math.h>` is a parameter `sqrt : α → α`; theorems assume `IsSqrt`.
* in the first part `int` values are mathematical integers; loop counters and
  element counts, which start at zero and are only incremented, are natural
  numbers.
* the part `Machine arithmetic` gives the same routines with the arithmetic of
  the machine (definitions with the suffix `_fp`): 32-bit `int`s, the
  conversion `(int)` with its limited range, and the rounding of every
  floating-point operation as a parameter, which is the identity for exact
  arithmetic and `fl` for IEEE doubles.  Properties that depend on the range
  of `int` or on rounding are stated there; the first part supplies the exact
  values.
* input arrays (`cart`, `u`, `Ngrid`) are functions of the index;
  arrays the routines allocate are lists.
-/

namespace NNPair

variable {α : Type} [LinearOrderedField α] [FloorRing α]

/-! ## Primitive conversions -/

/-- The C++ conversion `(int) x`: truncation toward zero, into the mathematical integers
(`double_to_int` is the conversion with the range of `int`). -/
def toInt (x : α) : ℤ := if 0 ≤ x then ⌊x⌋ else ⌈x⌉

/-- Exact square root: what the theorems assume of the `sqrt` parameter. -/
def IsSqrt (sqrt : α → α) : Prop := ∀ x, 0 ≤ x → 0 ≤ sqrt x ∧ sqrt x * sqrt x = x

/-- The loop `for (j = a; j <= b; ++j)` over `int`: the values visited, in order. -/
def loop_incl (a b : ℤ) : List ℤ := (List.range (b + 1 - a).toNat).map fun (t : ℕ) => a + (t : ℤ)

/-- An array given by its entries (zero beyond them), as a function of the index. -/
def arr {β : Type} [Zero β] (l : List β) : ℕ → β := fun k => l.getD k 0

/-- The coordinate array `u` of the atoms listed, `u[n][k]` being entry `k` of atom `n`. -/
def atoms {β : Type} [Zero β] (l : List (List β)) : ℕ → ℕ → β := fun n k => (l.getD n []).getD k 0

/-! ## Structures -/

/-- `grid_elem_type`: a grid block with its neighbour blocks and its atoms.
`atomlist` is the allocated array (its length is the capacity); only the first
`Natoms` entries are meaningful. -/
structure grid_elem_type where
  Nneigh : ℕ
  neighlist : List ℤ
  Natoms : ℕ
  atomlist : List ℕ
deriving DecidableEq

instance : Inhabited grid_elem_type := ⟨⟨0, [], 0, []⟩⟩

/-- The atoms of a block: the entries `atomlist[0 .. Natoms-1]`. -/
def cell_atoms (g : grid_elem_type) : List ℕ := g.atomlist.take g.Natoms

/-- The neighbours of a block: the entries `neighlist[0 .. Nneigh-1]`. -/
def cell_neighs (g : grid_elem_type) : List ℤ := g.neighlist.take g.Nneigh

/-- `nn_pair_type`: a bond `i`-`j`, its length and the unit vector from `i` to `j`. -/
structure nn_pair_type (α : Type) where
  i : ℕ
  j : ℕ
  r : α
  v_ij : α × α × α
deriving DecidableEq

/-! ## calc_grid -/

/-- The scalar triple product `a1.(a2 x a3)` of `calc_grid`, before the sign is dropped. -/
def triple_product (cart : ℕ → α) : α :=
  cart 0 * (cart 4 * cart 8 - cart 7 * cart 5) -
    cart 1 * (cart 3 * cart 8 - cart 6 * cart 5) +
    cart 2 * (cart 3 * cart 7 - cart 6 * cart 4)

/-- The variable `det_cart` of `calc_grid` after `if (det_cart < 0) det_cart = -det_cart`. -/
def det_cart (cart : ℕ → α) : α :=
  if triple_product cart < 0 then -triple_product cart else triple_product cart

/-- Component `l` of `aj x ak` for the axis `i` in `calc_grid`. -/
def ajXak (cart : ℕ → α) (i l : ℕ) : α :=
  cart (3 * ((i + 1) % 3) + (l + 1) % 3) * cart (3 * ((i + 2) % 3) + (l + 2) % 3)
    - cart (3 * ((i + 1) % 3) + (l + 2) % 3) * cart (3 * ((i + 2) % 3) + (l + 1) % 3)

/-- The variable `ajXak_len` of `calc_grid` for the axis `i`. -/
def ajXak_len (cart : ℕ → α) (i : ℕ) : α :=
  0 + ajXak cart i 0 * ajXak cart i 0 + ajXak cart i 1 * ajXak cart i 1
    + ajXak cart i 2 * ajXak cart i 2

/-- The entry `len[i]` of `calc_grid`: the perpendicular spacing of axis `i`. -/
def calc_len (sqrt : α → α) (cart : ℕ → α) (i : ℕ) : α :=
  det_cart cart / sqrt (ajXak_len cart i)

/-- `calc_grid`: the number of grid blocks in each direction, with an exact quotient and an
unbounded count (`calc_grid_fp` is the version in machine arithmetic). -/
def calc_grid (sqrt : α → α) (cart : ℕ → α) (Rcut : α) : ℕ → ℤ := fun i =>
  if toInt (calc_len sqrt cart i / Rcut) = 0 then 1 else toInt (calc_len sqrt cart i / Rcut)

/-! ## make_grid -/

/-- `trip2int`: from an integer triplet to a single index. -/
def trip2int (Ngrid : ℕ → ℤ) (i0 i1 i2 : ℤ) : ℤ := i0 + Ngrid 0 * (i1 + Ngrid 1 * i2)

/-- `grid_elem`: the grid block a fractional vector lies inside, with exact products and an
unbounded index (`grid_elem_fp` is the version in machine arithmetic). -/
def grid_elem (Ngrid : ℕ → ℤ) (u_vect : ℕ → α) : ℤ :=
  toInt (u_vect 0 * (Ngrid 0 : α))
    + Ngrid 0 * (toInt (u_vect 1 * (Ngrid 1 : α))
      + Ngrid 1 * toInt (u_vect 2 * (Ngrid 2 : α)))

/-- The entry `start[k]` of `make_grid` for a direction with `n` blocks
(left unset by the source, here `0`, when `n < 1`). -/
def grid_start (n : ℤ) : ℤ := if n = 1 then 0 else if n = 2 then 0 else if 3 ≤ n then -1 else 0

/-- The entry `end[k]` of `make_grid` for a direction with `n` blocks
(left unset by the source, here `0`, when `n < 1`). -/
def grid_end (n : ℤ) : ℤ := if n = 1 then 0 else if n = 2 then 1 else if 3 ≤ n then 1 else 0

/-- The factor a direction with `n` blocks contributes to `nneigh` in `make_grid`. -/
def grid_nfactor (n : ℤ) : ℕ := if n = 1 then 1 else if n = 2 then 2 else if 3 ≤ n then 3 else 1

/-- The neighbour list `make_grid` fills in for the block `(i0, i1, i2)`. -/
def make_neighlist (Ngrid : ℕ → ℤ) (i0 i1 i2 : ℤ) : List ℤ :=
  (loop_incl (i0 + grid_start (Ngrid 0)) (i0 + grid_end (Ngrid 0))).flatMap fun j0 =>
    (loop_incl (i1 + grid_start (Ngrid 1)) (i1 + grid_end (Ngrid 1))).flatMap fun j1 =>
      (loop_incl (i2 + grid_start (Ngrid 2)) (i2 + grid_end (Ngrid 2))).map fun j2 =>
        trip2int Ngrid ((j0 + Ngrid 0).tmod (Ngrid 0)) ((j1 + Ngrid 1).tmod (Ngrid 1))
          ((j2 + Ngrid 2).tmod (Ngrid 2))

/-- The wrapped coordinates `jtemp[k]` that the loop over `j[k]` of `make_grid` visits, for a
direction with `n` blocks and the block coordinate `i`. -/
def axis_neighs (n i : ℤ) : List ℤ :=
  (loop_incl (i + grid_start n) (i + grid_end n)).map fun j => (j + n).tmod n

/-- The block `make_grid` stores for `(i0, i1, i2)`: connected, with no atoms. -/
def make_cell (Ngrid : ℕ → ℤ) (i : ℤ × ℤ × ℤ) : grid_elem_type :=
  { Nneigh := grid_nfactor (Ngrid 0) * grid_nfactor (Ngrid 1) * grid_nfactor (Ngrid 2)
    neighlist := make_neighlist Ngrid i.1 i.2.1 i.2.2
    Natoms := 0
    atomlist := [] }

/-- The triples `(i[0], i[1], i[2])` visited by the outer loops of `make_grid`, in order. -/
def grid_triples (Ngrid : ℕ → ℤ) : List (ℤ × ℤ × ℤ) :=
  (loop_incl 0 (Ngrid 0 - 1)).flatMap fun i0 =>
    (loop_incl 0 (Ngrid 1 - 1)).flatMap fun i1 =>
      (loop_incl 0 (Ngrid 2 - 1)).map fun i2 => (i0, i1, i2)

/-- `make_grid`: allocates `Nelem` blocks and writes each visited block at its index. -/
def make_grid (Ngrid : ℕ → ℤ) : List grid_elem_type :=
  (grid_triples Ngrid).foldl
    (fun grid_list i => grid_list.set (trip2int Ngrid i.1 i.2.1 i.2.2).toNat (make_cell Ngrid i))
    (List.replicate (Ngrid 0 * Ngrid 1 * Ngrid 2).toNat default)

/-! ## populate_grid -/

/-- The initial capacity `Nalloc0` of every block's atom list in `populate_grid`. -/
def populate_Nalloc0 (α : Type) [LinearOrderedField α] [FloorRing α]
    (Ngrid : ℕ → ℤ) (Natoms : ℕ) : ℕ :=
  if toInt (2 * ((Natoms : α) / ((Ngrid 0 * Ngrid 1 * Ngrid 2 : ℤ) : α))) < 4 then 4
  else (toInt (2 * ((Natoms : α) / ((Ngrid 0 * Ngrid 1 * Ngrid 2 : ℤ) : α)))).toNat

/-- The first loop of `populate_grid`: every block `i < Ngridelem` is emptied and given a
fresh array of `Nalloc0` entries; `none` when the grid has fewer than `Ngridelem` blocks. -/
def populate_init (Ngridelem Nalloc0 : ℕ) (grid_list : List grid_elem_type) :
    Option (List grid_elem_type × List ℕ) :=
  if grid_list.length < Ngridelem then none
  else some
    ((grid_list.take Ngridelem).map (fun g =>
        { g with Natoms := 0, atomlist := List.replicate Nalloc0 0 })
      ++ grid_list.drop Ngridelem,
     List.replicate Ngridelem Nalloc0)

/-- One pass of the atom loop of `populate_grid` for the atom `n`; the state is the grid and
the array `Nalloc`.  `none` when the block index or the insertion index is out of bounds. -/
def populate_step (Ngrid : ℕ → ℤ) (u : ℕ → ℕ → α)
    (st : List grid_elem_type × List ℕ) (n : ℕ) : Option (List grid_elem_type × List ℕ) :=
  let i := grid_elem Ngrid (u n)
  if i < 0 then none
  else
    match st.1[i.toNat]?, st.2[i.toNat]? with
    | some g, some cap =>
      let cap1 := if g.Natoms = cap then 2 * cap else cap
      let list1 :=
        if g.Natoms = cap then
          g.atomlist.take g.Natoms ++ List.replicate (2 * cap - g.Natoms) 0
        else g.atomlist
      if g.Natoms < list1.length then
        some (st.1.set i.toNat
                { g with atomlist := list1.set g.Natoms n, Natoms := g.Natoms + 1 },
              st.2.set i.toNat cap1)
      else none
    | _, _ => none

/-- `populate_grid`: bins the atoms `0 .. Natoms-1`.  Returns the grid and whether the
sanity check at the end printed its error (`found n atoms, not Natoms atoms`);
`none` stands for an access outside an array. -/
def populate_grid (Ngrid : ℕ → ℤ) (grid_list : List grid_elem_type) (Natoms : ℕ)
    (u : ℕ → ℕ → α) : Option (List grid_elem_type × Bool) :=
  let Ngridelem := (Ngrid 0 * Ngrid 1 * Ngrid 2).toNat
  match populate_init Ngridelem (populate_Nalloc0 α Ngrid Natoms) grid_list with
  | none => none
  | some st0 =>
    match (List.range Natoms).foldlM (populate_step Ngrid u) st0 with
    | none => none
    | some st =>
      some (st.1, decide (((st.1.take Ngridelem).map (fun g => g.Natoms)).sum ≠ Natoms))

/-- Loop invariant of the atom loop of `populate_grid` once the atoms `0 .. k-1` are binned,
for a grid of `M` blocks that started as `gl0`. -/
def populate_inv (Ngrid : ℕ → ℤ) (u : ℕ → ℕ → α) (gl0 : List grid_elem_type) (M k : ℕ)
    (st : List grid_elem_type × List ℕ) : Prop :=
  st.1.length = M ∧ st.2.length = M ∧ (st.1.map fun g => g.Natoms).sum = k ∧
  ∀ c, c < M → ∃ g cap, st.1[c]? = some g ∧ st.2[c]? = some cap ∧
    g.atomlist.length = cap ∧ g.Natoms ≤ cap ∧ 0 < cap ∧
    cell_atoms g = (List.range k).filter (fun n => (grid_elem Ngrid (u n)).toNat = c) ∧
    ∃ g0, gl0[c]? = some g0 ∧ g.Nneigh = g0.Nneigh ∧ g.neighlist = g0.neighlist

/-! ## nn_grid -/

/-- `diff`: meant to keep the difference between two numbers between -0.5 and 0.5; exact sums
and an unbounded conversion (`diff_fp` is the version in machine arithmetic). -/
def diff (x : α) : α := x + 2 - ((toInt (x + 5 / 2) : ℤ) : α)

/-- Component `k` of `vect` in `nn_grid` for the atoms `i`, `j`. -/
def grid_vect (cart : ℕ → α) (u : ℕ → ℕ → α) (i j k : ℕ) : α :=
  cart k * diff (u j 0 - u i 0) + cart (3 + k) * diff (u j 1 - u i 1)
    + cart (6 + k) * diff (u j 2 - u i 2)

/-- The value of `r2` in `nn_grid` for the atoms `i`, `j` once the `k` loop is done. -/
def grid_r2 (cart : ℕ → α) (u : ℕ → ℕ → α) (i j : ℕ) : α :=
  0 + grid_vect cart u i j 0 * grid_vect cart u i j 0
    + grid_vect cart u i j 1 * grid_vect cart u i j 1
    + grid_vect cart u i j 2 * grid_vect cart u i j 2

/-- The body of the innermost loop of `nn_grid`: the record added for `i`, `j`, if any. -/
def grid_pair (sqrt : α → α) (cart : ℕ → α) (u : ℕ → ℕ → α) (Rcut : α) (i j : ℕ) :
    Option (nn_pair_type α) :=
  if i = j then none
  else if Rcut * Rcut < grid_r2 cart u i j then none
  else some
    { i := i
      j := j
      r := sqrt (grid_r2 cart u i j)
      v_ij := (1 / sqrt (grid_r2 cart u i j) * grid_vect cart u i j 0,
               1 / sqrt (grid_r2 cart u i j) * grid_vect cart u i j 1,
               1 / sqrt (grid_r2 cart u i j) * grid_vect cart u i j 2) }

/-- The capacity `npair` that `nn_grid` allocates for its pair list. -/
def nn_grid_capacity (Ngridelem : ℕ) (grid_list : List grid_elem_type) (Natoms : ℕ) : ℕ :=
  let m := (List.range Ngridelem).foldl
    (fun (m : ℕ × ℕ) ng =>
      (if m.1 < (grid_list.getD ng default).Natoms then (grid_list.getD ng default).Natoms
        else m.1,
       if m.2 < (grid_list.getD ng default).Nneigh then (grid_list.getD ng default).Nneigh
        else m.2))
    (0, 0)
  m.1 * m.2 * Natoms

/-- `nn_grid`: the pair records in the order they are written; `NNpairs` is the length.
Exact arithmetic, and the list is not limited by the size `npair` the source allocates
(`nn_grid_fp` is the version with rounding and with the `int` size of the list). -/
def nn_grid (sqrt : α → α) (cart : ℕ → α) (Ngridelem : ℕ) (grid_list : List grid_elem_type)
    (u : ℕ → ℕ → α) (Rcut : α) : List (nn_pair_type α) :=
  (List.range Ngridelem).flatMap fun ng =>
    (cell_atoms (grid_list.getD ng default)).flatMap fun i =>
      (cell_neighs (grid_list.getD ng default)).flatMap fun ngn =>
        (cell_atoms (grid_list.getD ngn.toNat default)).filterMap fun j =>
          grid_pair sqrt cart u Rcut i j

/-- The grid path: `calc_grid`, `make_grid`, `populate_grid`, then `nn_grid`, in exact
arithmetic with unbounded integers (`grid_path_fp` is the version in machine arithmetic). -/
def grid_path (sqrt : α → α) (cart : ℕ → α) (Natoms : ℕ) (u : ℕ → ℕ → α) (Rcut : α) :
    Option (List (nn_pair_type α)) :=
  match populate_grid (calc_grid sqrt cart Rcut) (make_grid (calc_grid sqrt cart Rcut))
      Natoms u with
  | none => none
  | some p =>
    some (nn_grid sqrt cart
      (calc_grid sqrt cart Rcut 0 * calc_grid sqrt cart Rcut 1 * calc_grid sqrt cart Rcut 2).toNat
      p.1 u Rcut)

/-- The neighbour list `make_grid` gives the block that `grid_elem` assigns to atom `n`. -/
def atom_neighs (Ngrid : ℕ → ℤ) (u : ℕ → ℕ → α) (n : ℕ) : List ℤ :=
  make_neighlist Ngrid (toInt (u n 0 * (Ngrid 0 : α))) (toInt (u n 1 * (Ngrid 1 : α)))
    (toInt (u n 2 * (Ngrid 2 : α)))

/-! ## nn_raw -/

/-- Component `k` of `vect` in the pairing loop of `nn_raw` for the shift `n`. -/
def raw_vect (cart : ℕ → α) (u : ℕ → ℕ → α) (i j : ℕ) (n : ℤ × ℤ × ℤ) (k : ℕ) : α :=
  cart k * (u j 0 - u i 0 + (n.1 : α)) + cart (3 + k) * (u j 1 - u i 1 + (n.2.1 : α))
    + cart (6 + k) * (u j 2 - u i 2 + (n.2.2 : α))

/-- The value of `r2` in the pairing loop of `nn_raw`. -/
def raw_r2 (cart : ℕ → α) (u : ℕ → ℕ → α) (i j : ℕ) (n : ℤ × ℤ × ℤ) : α :=
  0 + raw_vect cart u i j n 0 * raw_vect cart u i j n 0
    + raw_vect cart u i j n 1 * raw_vect cart u i j n 1
    + raw_vect cart u i j n 2 * raw_vect cart u i j n 2

/-- The shifts `(n[0], n[1], n[2])` with every entry in `-m .. m`, in loop order. -/
def shifts (m : ℤ) : List (ℤ × ℤ × ℤ) :=
  (loop_incl (-m) m).flatMap fun n0 =>
    (loop_incl (-m) m).flatMap fun n1 =>
      (loop_incl (-m) m).map fun n2 => (n0, n1, n2)

/-- The squared length of the lattice translation `n` in the first loop of `nn_raw`. -/
def shift_r2 (cart : ℕ → α) (n : ℤ × ℤ × ℤ) : α :=
  ((n.1 : α) * cart 0 + (n.2.1 : α) * cart 3 + (n.2.2 : α) * cart 6)
      * ((n.1 : α) * cart 0 + (n.2.1 : α) * cart 3 + (n.2.2 : α) * cart 6)
    + ((n.1 : α) * cart 1 + (n.2.1 : α) * cart 4 + (n.2.2 : α) * cart 7)
      * ((n.1 : α) * cart 1 + (n.2.1 : α) * cart 4 + (n.2.2 : α) * cart 7)
    + ((n.1 : α) * cart 2 + (n.2.1 : α) * cart 5 + (n.2.2 : α) * cart 8)
      * ((n.1 : α) * cart 2 + (n.2.1 : α) * cart 5 + (n.2.2 : α) * cart 8)

/-- The variable `min_dist` of `nn_raw` after the search over `RANGE = 3`. -/
def raw_min_dist (cart : ℕ → α) : α :=
  (shifts 3).foldl
    (fun min_dist n =>
      if n.1 = 0 ∧ n.2.1 = 0 ∧ n.2.2 = 0 then min_dist
      else if shift_r2 cart n < min_dist then shift_r2 cart n else min_dist)
    ((10 : α) ^ 20)

/-- The variable `maxn` of `nn_raw`, with an exact sum and an unbounded conversion
(`raw_maxn_fp` is the version in machine arithmetic). -/
def raw_maxn (sqrt : α → α) (cart : ℕ → α) (Rcut : α) : ℤ :=
  toInt (Rcut / sqrt (raw_min_dist cart) + 1)

/-- The body of the innermost loop of `nn_raw`: the record added for `i`, `n`, `j`, if any. -/
def raw_pair (sqrt : α → α) (cart : ℕ → α) (u : ℕ → ℕ → α) (Rcut : α) (i : ℕ)
    (n : ℤ × ℤ × ℤ) (j : ℕ) : Option (nn_pair_type α) :=
  if i = j ∧ n.1 = 0 ∧ n.2.1 = 0 ∧ n.2.2 = 0 then none
  else if Rcut * Rcut < raw_r2 cart u i j n then none
  else some
    { i := i
      j := j
      r := sqrt (raw_r2 cart u i j n)
      v_ij := (1 / sqrt (raw_r2 cart u i j n) * raw_vect cart u i j n 0,
               1 / sqrt (raw_r2 cart u i j n) * raw_vect cart u i j n 1,
               1 / sqrt (raw_r2 cart u i j n) * raw_vect cart u i j n 2) }

/-- The triples `(i, n, j)` that the pairing loops of `nn_raw` visit, in order, for `Natoms`
atoms and shifts up to `m`. -/
def raw_triples (Natoms : ℕ) (m : ℤ) : List (ℕ × (ℤ × ℤ × ℤ) × ℕ) :=
  (List.range Natoms).flatMap fun i =>
    (shifts m).flatMap fun n =>
      (List.range Natoms).map fun j => (i, n, j)

/-- `nn_raw`: the pair records in the order they are written; `NNpairs` is the length.
Exact arithmetic, and the list is not limited by the size `npair` the source allocates
(`nn_raw_fp` is the version with rounding and with the `int` size of the list). -/
def nn_raw (sqrt : α → α) (cart : ℕ → α) (Natoms : ℕ) (u : ℕ → ℕ → α) (Rcut : α) :
    List (nn_pair_type α) :=
  (List.range Natoms).flatMap fun i =>
    (shifts (raw_maxn sqrt cart Rcut)).flatMap fun n =>
      (List.range Natoms).filterMap fun j => raw_pair sqrt cart u Rcut i n j

/-! ## Grid sizing as the specification words it -/

/-- The basis vector `a_(m+1)`: the entries `cart[3m .. 3m+2]`. -/
def basis_vec (cart : ℕ → α) (m : ℕ) : ℕ → α := fun c => cart (3 * m + c)

/-- The dot product of two vectors with three components. -/
def dot3 (x y : ℕ → α) : α := x 0 * y 0 + x 1 * y 1 + x 2 * y 2

/-- The cross product of two vectors with three components. -/
def cross3 (x y : ℕ → α) : ℕ → α := fun c =>
  if c = 0 then x 1 * y 2 - x 2 * y 1
  else if c = 1 then x 2 * y 0 - x 0 * y 2
  else x 0 * y 1 - x 1 * y 0

/-- The perpendicular spacing of axis `k` as the specification words it: the cell volume
`|a1 . (a2 x a3)|` over the length of the cross product of the other two basis vectors. -/
def spec_perp_spacing (sqrt : α → α) (cart : ℕ → α) (k : ℕ) : α :=
  |dot3 (basis_vec cart 0) (cross3 (basis_vec cart 1) (basis_vec cart 2))|
    / sqrt (dot3 (cross3 (basis_vec cart ((k + 1) % 3)) (basis_vec cart ((k + 2) % 3)))
        (cross3 (basis_vec cart ((k + 1) % 3)) (basis_vec cart ((k + 2) % 3))))

/-- A list of first atom indices is grouped contiguously: whenever two positions hold the
same index, so does every position between them. -/
def grouped (ks : List ℕ) : Prop :=
  ∀ a b c, a < b → b < c → c < ks.length → ks[a]? = ks[c]? → ks[b]? = ks[a]?

/-! ## sort_pair_list and sort_nn_list -/

instance : Inhabited (nn_pair_type α) := ⟨⟨0, 0, 0, (0, 0, 0)⟩⟩

/-- The bond length `nn_pair_list[k].r` (a read beyond the list gives `0`). -/
def pair_r (nn_pair_list : List (nn_pair_type α)) (k : ℕ) : α := (nn_pair_list.getD k default).r

/-- The body of the inner loop of `sort_pair_list` for the position `j`: the entries `j` and
`j-1` are exchanged when the bond at `j` is strictly shorter. -/
def sort_swap (nn_pair_list : List (nn_pair_type α)) (list : List ℕ) (j : ℕ) : List ℕ :=
  if pair_r nn_pair_list (list.getD j 0) < pair_r nn_pair_list (list.getD (j - 1) 0) then
    (list.set j (list.getD (j - 1) 0)).set (j - 1) (list.getD j 0)
  else list

/-- `sort_pair_list`: for `i = 0 .. Npairs-1` the positions `j = Npairs-1` down to `i+1` are
visited; the array `list` is returned as it is left. -/
def sort_pair_list (nn_pair_list : List (nn_pair_type α)) (Npairs : ℕ) (list : List ℕ) :
    List ℕ :=
  (List.range Npairs).foldl
    (fun l i =>
      ((List.range (Npairs - 1 - i)).map fun (t : ℕ) => Npairs - 1 - t).foldl
        (sort_swap nn_pair_list) l)
    list

/-- One pass of the inner loop of `sort_pair_list` over a whole list, told from its end: the
shortest bond (the first of them among equals) moves to the front. -/
def bubble (key : ℕ → α) : List ℕ → List ℕ
  | [] => []
  | a :: rest =>
    match bubble key rest with
    | [] => [a]
    | b :: rest' => if key b < key a then b :: a :: rest' else a :: b :: rest'

/-- The passes of `sort_pair_list` over a list of length `n`, told functionally: each pass
fixes one more entry at the front. -/
def bubble_sort (key : ℕ → α) : ℕ → List ℕ → List ℕ
  | 0, l => l
  | n + 1, l =>
    match bubble key l with
    | [] => []
    | m :: rest => m :: bubble_sort key n rest

/-- How a run of `sort_nn_list` ends: with a result, with an access outside an array, with a
division by zero, or (for the bounded loop of the model) out of steps. -/
inductive run_result (β : Type) where
  | done (b : β)
  | out_of_bounds
  | div_by_zero
  | out_of_fuel
deriving DecidableEq

/-- The variables of `sort_nn_list` at the head of its `while` loop.  An entry of `nn_list` is
`none` while the pointer `nn_list[i]` is unset. -/
structure sort_state where
  p : ℕ
  count : ℕ
  i : ℤ
  inew : ℤ
  tlist : List ℕ
  nn_list : List (Option (List ℕ))
deriving DecidableEq

/-- One pass of the `while` loop of `sort_nn_list`: the next state, or the finished table
when the loop is left through `break`. -/
def sort_nn_step (NNpairs : ℕ) (nn_pair_list : List (nn_pair_type α)) (st : sort_state) :
    run_result (sort_state ⊕ List (Option (List ℕ))) :=
  if st.inew = st.i then
    if st.count < st.tlist.length then
      if st.p + 1 ≠ NNpairs then
        match nn_pair_list[st.p + 1]? with
        | none => run_result.out_of_bounds
        | some q =>
          run_result.done (Sum.inl
            { st with tlist := st.tlist.set st.count st.p, count := st.count + 1,
                      p := st.p + 1, inew := (q.i : ℤ) })
      else
        run_result.done (Sum.inl
          { st with tlist := st.tlist.set st.count st.p, count := st.count + 1,
                    p := st.p + 1, inew := -1 })
    else run_result.out_of_bounds
  else
    if 0 ≤ st.i ∧ st.i.toNat < st.nn_list.length then
      if st.inew = -1 then
        run_result.done (Sum.inr
          (st.nn_list.set st.i.toNat
            (some (st.count :: (sort_pair_list nn_pair_list st.count st.tlist).take st.count))))
      else
        run_result.done (Sum.inl
          { st with tlist := sort_pair_list nn_pair_list st.count st.tlist,
                    nn_list := st.nn_list.set st.i.toNat
                      (some (st.count ::
                        (sort_pair_list nn_pair_list st.count st.tlist).take st.count)),
                    i := st.inew, count := 0 })
    else run_result.out_of_bounds

/-- The `while` loop of `sort_nn_list`, run for at most `fuel` passes. -/
def sort_nn_loop (NNpairs : ℕ) (nn_pair_list : List (nn_pair_type α)) :
    ℕ → sort_state → run_result (List (Option (List ℕ)))
  | 0, _ => run_result.out_of_fuel
  | fuel + 1, st =>
    match sort_nn_step NNpairs nn_pair_list st with
    | run_result.done (Sum.inl st') => sort_nn_loop NNpairs nn_pair_list fuel st'
    | run_result.done (Sum.inr r) => run_result.done r
    | run_result.out_of_bounds => run_result.out_of_bounds
    | run_result.div_by_zero => run_result.div_by_zero
    | run_result.out_of_fuel => run_result.out_of_fuel

/-- The size of the temporary list `tlist` of `sort_nn_list`. -/
def sort_buffer_size (NNpairs Natoms : ℕ) : ℕ :=
  if 10 * NNpairs / Natoms < 10 then 10 else 10 * NNpairs / Natoms

/-- `sort_nn_list`: the table `nn_list` it leaves, `nn_list[i]` being `[count, bonds ...]`.
The argument `nn_list` is `none` for a `NULL` pointer.  The loop is given
`2 * (NNpairs + length) + 2` passes, more than it can take. -/
def sort_nn_list (NNpairs : ℕ) (nn_pair_list : List (nn_pair_type α)) (Natoms : ℕ)
    (nn_list : Option (List (Option (List ℕ)))) : run_result (List (Option (List ℕ))) :=
  if Natoms = 0 then run_result.div_by_zero
  else
    match nn_pair_list[0]? with
    | none => run_result.out_of_bounds
    | some q =>
      sort_nn_loop NNpairs nn_pair_list (2 * (NNpairs + nn_pair_list.length) + 2)
        { p := 0
          count := 0
          i := (q.i : ℤ)
          inew := (q.i : ℤ)
          tlist := List.replicate (sort_buffer_size NNpairs Natoms) 0
          nn_list := nn_list.getD (List.replicate Natoms none) }

/-! ## Reading the adjacency table -/

/-- First atom index of the record at position `q` of the pair list. -/
def pair_i (nn_pair_list : List (nn_pair_type α)) (q : ℕ) : ℕ := (nn_pair_list.getD q default).i

/-- Pair-list indices of the records whose first index is atom `a`, in list order. -/
def atom_records (nn_pair_list : List (nn_pair_type α)) (a : ℕ) : List ℕ :=
  (List.range nn_pair_list.length).filter fun q => decide (pair_i nn_pair_list q = a)

/-- The count stored at `nn_list[a][0]`; an entry that was never set reads as `0`. -/
def nn_count (nn_list : List (Option (List ℕ))) (a : ℕ) : ℕ :=
  ((nn_list.getD a none).getD []).getD 0 0

/-- Loop invariant of the `while(-1)` loop of `sort_nn_list`, for the run of records that
starts at position `s`: `nn_list0` is the table before the loop and `cap` the length of
`tlist`. -/
structure sort_inv (nn_pair_list : List (nn_pair_type α)) (Natoms cap : ℕ)
    (nn_list0 : List (Option (List ℕ))) (s : ℕ) (st : sort_state) : Prop where
  hp : st.p = s + st.count
  hpn : st.p ≤ nn_pair_list.length
  hs : s < nn_pair_list.length
  hi : st.i = (pair_i nn_pair_list s : ℤ)
  hrun : ∀ q, s ≤ q → q < st.p → pair_i nn_pair_list q = pair_i nn_pair_list s
  hlen : st.tlist.length = cap
  htake : st.tlist.take st.count = List.range' s st.count
  hinew : st.inew = if st.p = nn_pair_list.length then -1 else (pair_i nn_pair_list st.p : ℤ)
  hleft : ∀ q, q < s → pair_i nn_pair_list q ≠ pair_i nn_pair_list s
  hnl : st.nn_list.length = Natoms
  hdone : ∀ a, (∃ q, q < s ∧ pair_i nn_pair_list q = a) →
    st.nn_list[a]? = some (some ((atom_records nn_pair_list a).length ::
      bubble_sort (pair_r nn_pair_list) (atom_records nn_pair_list a).length
        (atom_records nn_pair_list a)))
  hkeep : ∀ a, (∀ q, q < s → pair_i nn_pair_list q ≠ a) → st.nn_list[a]? = nn_list0[a]?

/-! ## dcomp.H -/

/-- The `for` loop of `insidecell`: while `y >= 1.0` do `y -= 1.0`.  `none` when the loop has
not left after `fuel` passes. -/
def insidecell_loop : ℕ → α → Option α
  | 0, _ => none
  | fuel + 1, y => if 1 ≤ y then insidecell_loop fuel (y - 1) else some y

/-- `insidecell`: meant to return a value less than 1 and greater than or equal to 0.  The
loop is run with enough passes for the start value `x + 1 + 1.e-13 - (int)(x)`. -/
def insidecell (x : α) : Option α :=
  match insidecell_loop (⌊x + 1 + 1 / 10 ^ 13 - ((toInt x : ℤ) : α)⌋.toNat + 1)
      (x + 1 + 1 / 10 ^ 13 - ((toInt x : ℤ) : α)) with
  | none => none
  | some y => if y - 1 / 10 ^ 13 < 0 then some 0 else some (y - 1 / 10 ^ 13)

/-! ## drawfig.H -/

/-- `FONT_DEFAULT`. -/
def FONT_DEFAULT : ℤ := -1

/-- `FONT_COURIER`. -/
def FONT_COURIER : ℤ := 12

/-- `FONT_MAX`. -/
def FONT_MAX : ℤ := 34

/-- `BLACK`. -/
def BLACK : ℤ := 0

/-- `NOFILL`. -/
def NOFILL : ℤ := -1

/-- The drawing parameters of the class `drawfig` (the output stream and the page set-up are
left out: `textstyle` does not touch them). -/
structure drawfig (α : Type) where
  VERBOSE : ℤ
  INITIALIZED : ℤ
  color_p : ℤ
  thick_p : ℤ
  style_p : ℤ
  dotdist_p : α
  depth_p : ℤ
  arrow_type : ℤ
  arrow_filled : ℤ
  arrow_thick : α
  arrow_width : α
  arrow_height : α
  fillcolor_p : ℤ
  fillstyle_p : ℤ
  font_p : ℤ
  point_p : α

/-- `drawfig::default_values`: the state every constructor starts from. -/
def default_values : drawfig α :=
  { VERBOSE := 0, INITIALIZED := 0, color_p := BLACK, thick_p := 1, style_p := 0,
    dotdist_p := 0, depth_p := 50, arrow_type := 2, arrow_filled := 1, arrow_thick := 1,
    arrow_width := 1 / 10, arrow_height := 2 / 10, fillcolor_p := BLACK,
    fillstyle_p := NOFILL, font_p := FONT_COURIER, point_p := 10 }

/-- `drawfig::textstyle`. -/
def textstyle (d : drawfig α) (font : ℤ) (pointsize : α) : drawfig α :=
  let d1 := if 0 < pointsize then { d with point_p := pointsize } else d
  if 0 ≤ d1.font_p ∧ d1.font_p ≤ FONT_MAX then { d1 with font_p := font } else d1

/-! ## elastic.H -/

/-- `NCLASSES`. -/
def NCLASSES : ℕ := 11

/-- `CIJ_matrix`: the table of elastic-constant codes of the 11 crystal classes. -/
def CIJ_matrix : List (List (List ℤ)) :=
  [[[1, 2, 3, 4, 5, 6], [2, 7, 8, 9, 10, 11], [3, 8, 12, 13, 14, 15],
    [4, 9, 13, 16, 17, 18], [5, 10, 14, 17, 19, 20], [6, 11, 15, 18, 20, 21]],
   [[1, 2, 3, 0, 4, 0], [2, 5, 6, 0, 7, 0], [3, 6, 8, 0, 9, 0],
    [0, 0, 0, 10, 0, 11], [4, 7, 9, 0, 12, 0], [0, 0, 0, 11, 0, 13]],
   [[1, 2, 3, 0, 0, 4], [2, 5, 6, 0, 0, 7], [3, 6, 8, 0, 0, 9],
    [0, 0, 0, 10, 11, 0], [0, 0, 0, 11, 12, 0], [4, 7, 9, 0, 0, 13]],
   [[1, 2, 3, 0, 0, 0], [2, 4, 5, 0, 0, 0], [3, 5, 6, 0, 0, 0],
    [0, 0, 0, 7, 0, 0], [0, 0, 0, 0, 8, 0], [0, 0, 0, 0, 0, 9]],
   [[1, 2, 2, 0, 0, 0], [2, 1, 2, 0, 0, 0], [2, 2, 1, 0, 0, 0],
    [0, 0, 0, 3, 0, 0], [0, 0, 0, 0, 3, 0], [0, 0, 0, 0, 0, 3]],
   [[1, 2, 3, 0, 0, 4], [2, 1, 3, 0, 0, -4], [3, 3, 5, 0, 0, 0],
    [0, 0, 0, 6, 0, 0], [0, 0, 0, 0, 6, 0], [4, -4, 0, 0, 0, 7]],
   [[1, 2, 3, 0, 0, 0], [2, 1, 3, 0, 0, 0], [3, 3, 4, 0, 0, 0],
    [0, 0, 0, 5, 0, 0], [0, 0, 0, 0, 5, 0], [0, 0, 0, 0, 0, 6]],
   [[1, 2, 3, 4, -5, 0], [2, 1, 3, -4, 5, 0], [3, 3, 6, 0, 0, 0],
    [4, -4, 0, 7, 0, 5], [-5, 5, 0, 0, 7, -4], [0, 0, 0, 5, -4, 99]],
   [[1, 2, 3, 4, 0, 0], [2, 1, 3, -4, 0, 0], [3, 3, 5, 0, 0, 0],
    [4, -4, 0, 6, 0, 0], [0, 0, 0, 0, 6, -4], [0, 0, 0, 0, -4, 99]],
   [[1, 2, 3, 0, 0, 0], [2, 1, 3, 0, 0, 0], [3, 3, 4, 0, 0, 0],
    [0, 0, 0, 5, 0, 0], [0, 0, 0, 0, 5, 0], [0, 0, 0, 0, 0, 99]],
   [[1, 2, 2, 0, 0, 0], [2, 1, 2, 0, 0, 0], [2, 2, 1, 0, 0, 0],
    [0, 0, 0, 99, 0, 0], [0, 0, 0, 0, 99, 0], [0, 0, 0, 0, 0, 99]]]

/-- `class_Cij`: the names of the independent constants of each class. -/
def class_Cij : List (List ℤ) :=
  [[11, 12, 13, 14, 15, 16, 22, 23, 24, 25, 26, 33, 34, 35, 36, 44, 45, 46, 55, 56, 66],
   [11, 12, 13, 15, 22, 23, 25, 33, 35, 44, 46, 55, 66, 0, 0, 0, 0, 0, 0, 0, 0],
   [11, 12, 13, 16, 22, 23, 26, 33, 36, 44, 45, 55, 66, 0, 0, 0, 0, 0, 0, 0, 0],
   [11, 12, 13, 22, 23, 33, 44, 55, 66, 0, 0, 0, 0, 0, 0, 0, 0, 0, 0, 0, 0],
   [11, 12, 44, 0, 0, 0, 0, 0, 0, 0, 0, 0, 0, 0, 0, 0, 0, 0, 0, 0, 0],
   [11, 12, 13, 16, 33, 44, 66, 0, 0, 0, 0, 0, 0, 0, 0, 0, 0, 0, 0, 0, 0],
   [11, 12, 13, 33, 44, 66, 0, 0, 0, 0, 0, 0, 0, 0, 0, 0, 0, 0, 0, 0, 0],
   [11, 12, 13, 14, 25, 33, 44, 0, 0, 0, 0, 0, 0, 0, 0, 0, 0, 0, 0, 0, 0],
   [11, 12, 13, 14, 33, 44, 0, 0, 0, 0, 0, 0, 0, 0, 0, 0, 0, 0, 0, 0, 0],
   [11, 12, 13, 33, 44, 0, 0, 0, 0, 0, 0, 0, 0, 0, 0, 0, 0, 0, 0, 0, 0],
   [11, 12, 0, 0, 0, 0, 0, 0, 0, 0, 0, 0, 0, 0, 0, 0, 0, 0, 0, 0, 0]]

/-- `class_len`: the number of independent constants of each class. -/
def class_len : List ℕ := [21, 13, 13, 9, 3, 7, 6, 7, 6, 5, 2]

/-- `ij2m`: from the index pair `ij` to the Voigt index `m`. -/
def ij2m : List (List ℕ) := [[0, 5, 4], [5, 1, 3], [4, 3, 2]]

/-- The entry `CIJ_matrix[c][m][n]`. -/
def CIJ_at (c m n : ℕ) : ℤ := ((CIJ_matrix.getD c []).getD m []).getD n 0

/-- The entry `ij2m[i][j]`. -/
def ij2m_at (i j : ℕ) : ℕ := (ij2m.getD i []).getD j 0

/-- The read `Cmn_list[k]`; `none` outside the list. -/
def Cmn_at (Cmn_list : List α) (k : ℤ) : Option α :=
  if 0 ≤ k then Cmn_list[k.toNat]? else none

/-- The assignment `Cijkl[p][q] = v`. -/
def Cijkl_set (Cijkl : ℕ → ℕ → α) (p q : ℕ) (v : α) : ℕ → ℕ → α :=
  fun a b => if a = p ∧ b = q then v else Cijkl a b

/-- The value the loop body of `make_Cijkl` assigns for `i, j, k, l`, given `C99`; `none`
when it reads outside `Cmn_list`. -/
def make_Cijkl_value (c : ℕ) (Cmn_list : List α) (C99 : α) (i j k l : ℕ) : Option α :=
  if CIJ_at c (ij2m_at i j) (ij2m_at k l) = 0 then some 0
  else if CIJ_at c (ij2m_at i j) (ij2m_at k l) = 99 then some C99
  else if 0 < CIJ_at c (ij2m_at i j) (ij2m_at k l) then
    Cmn_at Cmn_list (CIJ_at c (ij2m_at i j) (ij2m_at k l) - 1)
  else (Cmn_at Cmn_list (-CIJ_at c (ij2m_at i j) (ij2m_at k l) - 1)).map fun v => -v

/-- The index quadruples `(i, j, k, l)` in the order of the four loops of `make_Cijkl`. -/
def Cijkl_loop : List (ℕ × ℕ × ℕ × ℕ) :=
  (List.range 3).flatMap fun i => (List.range 3).flatMap fun j =>
    (List.range 3).flatMap fun k => (List.range 3).map fun l => (i, j, k, l)

/-- `make_Cijkl`.  The function `index` of `matrix.H` is not part of the sources and is a
parameter; the array `Cijkl` is a function of its two indices.  `none` stands for a read
outside `Cmn_list`. -/
def make_Cijkl (index : ℕ → ℕ → ℕ) (c : ℕ) (Cmn_list : List α) (Cijkl : ℕ → ℕ → α) :
    Option (ℕ → ℕ → α) :=
  match Cmn_at Cmn_list (CIJ_at c 0 0 - 1), Cmn_at Cmn_list (CIJ_at c 0 1 - 1) with
  | some c11, some c12 =>
    Cijkl_loop.foldlM
      (fun A q =>
        (make_Cijkl_value c Cmn_list (1 / 2 * (c11 - c12)) q.1 q.2.1 q.2.2.1 q.2.2.2).map
          fun v => Cijkl_set A (index q.1 q.2.1) (index q.2.2.1 q.2.2.2) v)
      Cijkl
  | _, _ => none

/-- The threefold rotation about the axis `x3`, with `s` standing for the square root
of 3. -/
def rot3 (s : α) (i j : ℕ) : α :=
  if i = 0 ∧ j = 0 then -(1 / 2) else if i = 0 ∧ j = 1 then -(s / 2)
  else if i = 1 ∧ j = 0 then s / 2 else if i = 1 ∧ j = 1 then -(1 / 2)
  else if i = 2 ∧ j = 2 then 1 else 0

/-- The tensor `C` turned by the matrix `R`: `sum_{a,b,c,d} R_ia R_jb R_kc R_ld C_abcd`. -/
def rotate4 (R : ℕ → ℕ → α) (C : ℕ → ℕ → ℕ → ℕ → α) (i j k l : ℕ) : α :=
  Finset.sum (Finset.range 3) fun a => Finset.sum (Finset.range 3) fun b =>
    Finset.sum (Finset.range 3) fun c => Finset.sum (Finset.range 3) fun d =>
      R i a * R j b * R k c * R l d * C a b c d

/-- The value a 32-bit `int` holds when the mathematical result of a sum or product is `z`
(two's complement). -/
def wrap_int (z : ℤ) : ℤ := (z + 2147483648) % 4294967296 - 2147483648

/-- The conversion `(int) x` as the processor performs it: truncation toward zero, and
`-2^31` when the truncated value is outside the range of `int`. -/
def double_to_int (x : α) : ℤ :=
  if -2147483648 ≤ toInt x ∧ toInt x ≤ 2147483647 then toInt x else -2147483648

/-- The integer nearest to `y`, the even one of the two when `y` lies half-way. -/
def round_even (y : α) : ℤ :=
  if y - (⌊y⌋ : α) < 1 / 2 then ⌊y⌋
  else if 1 / 2 < y - (⌊y⌋ : α) then ⌊y⌋ + 1
  else if ⌊y⌋ % 2 = 0 then ⌊y⌋ else ⌊y⌋ + 1

/-- Rounding to the nearest IEEE double (53 significant bits, ties to even); the range of
the exponent is not limited. -/
def fl (x : α) : α :=
  (round_even (x / (2 : α) ^ (Int.log 2 |x| - 52)) : α) * (2 : α) ^ (Int.log 2 |x| - 52)

/-! ### calc_grid -/

/-- The scalar triple product of `calc_grid`, every operation rounded. -/
def triple_product_fp (rnd : α → α) (cart : ℕ → α) : α :=
  rnd (rnd (rnd (cart 0 * rnd (rnd (cart 4 * cart 8) - rnd (cart 7 * cart 5))) -
      rnd (cart 1 * rnd (rnd (cart 3 * cart 8) - rnd (cart 6 * cart 5)))) +
    rnd (cart 2 * rnd (rnd (cart 3 * cart 7) - rnd (cart 6 * cart 4))))

/-- The variable `det_cart` of `calc_grid` after `if (det_cart < 0) det_cart = -det_cart`. -/
def det_cart_fp (rnd : α → α) (cart : ℕ → α) : α :=
  if triple_product_fp rnd cart < 0 then -triple_product_fp rnd cart
  else triple_product_fp rnd cart

/-- Component `l` of `aj x ak` for the axis `i` in `calc_grid`, every operation rounded. -/
def ajXak_fp (rnd : α → α) (cart : ℕ → α) (i l : ℕ) : α :=
  rnd (rnd (cart (3 * ((i + 1) % 3) + (l + 1) % 3) * cart (3 * ((i + 2) % 3) + (l + 2) % 3))
    - rnd (cart (3 * ((i + 1) % 3) + (l + 2) % 3) * cart (3 * ((i + 2) % 3) + (l + 1) % 3)))

/-- The variable `ajXak_len` of `calc_grid` for the axis `i`, every operation rounded. -/
def ajXak_len_fp (rnd : α → α) (cart : ℕ → α) (i : ℕ) : α :=
  rnd (rnd (rnd (0 + rnd (ajXak_fp rnd cart i 0 * ajXak_fp rnd cart i 0))
      + rnd (ajXak_fp rnd cart i 1 * ajXak_fp rnd cart i 1))
    + rnd (ajXak_fp rnd cart i 2 * ajXak_fp rnd cart i 2))

/-- The entry `len[i]` of `calc_grid`, every operation rounded. -/
def calc_len_fp (rnd : α → α) (sqrt : α → α) (cart : ℕ → α) (i : ℕ) : α :=
  rnd (det_cart_fp rnd cart / rnd (sqrt (ajXak_len_fp rnd cart i)))

/-- `calc_grid` in machine arithmetic: `Ngrid[i] = (int) (len[i]/Rcut)`, then
`if (Ngrid[i] == 0) Ngrid[i] = 1`. -/
def calc_grid_fp (rnd : α → α) (sqrt : α → α) (cart : ℕ → α) (Rcut : α) : ℕ → ℤ := fun i =>
  if double_to_int (rnd (calc_len_fp rnd sqrt cart i / Rcut)) = 0 then 1
  else double_to_int (rnd (calc_len_fp rnd sqrt cart i / Rcut))

/-! ### grid_elem and populate_grid -/

/-- `grid_elem` in machine arithmetic. -/
def grid_elem_fp (rnd : α → α) (Ngrid : ℕ → ℤ) (u_vect : ℕ → α) : ℤ :=
  wrap_int (double_to_int (rnd (u_vect 0 * (Ngrid 0 : α)))
    + wrap_int (Ngrid 0 * wrap_int (double_to_int (rnd (u_vect 1 * (Ngrid 1 : α)))
      + wrap_int (Ngrid 1 * double_to_int (rnd (u_vect 2 * (Ngrid 2 : α)))))))

/-- The number of blocks `Ngrid[0]*Ngrid[1]*Ngrid[2]` as an `int`. -/
def Ngridelem_fp (Ngrid : ℕ → ℤ) : ℤ := wrap_int (wrap_int (Ngrid 0 * Ngrid 1) * Ngrid 2)

/-- The initial capacity `Nalloc0` of `populate_grid` in machine arithmetic.  With
`Ngridelem = 0` the quotient `approx_density` is infinite or not a number, its conversion
gives `-2^31` and the guard `Nalloc0 < 4` makes the capacity `4`. -/
def populate_Nalloc0_fp (rnd : α → α) (Ngridelem : ℤ) (Natoms : ℕ) : ℕ :=
  if Ngridelem = 0 then 4
  else if double_to_int (rnd (2 * rnd ((Natoms : α) / (Ngridelem : α)))) < 4 then 4
  else (double_to_int (rnd (2 * rnd ((Natoms : α) / (Ngridelem : α))))).toNat

/-- One pass of the atom loop of `populate_grid` for the atom `n`, the block index taken
from `grid_elem_fp`; `none` when the block index or the insertion index is out of bounds. -/
def populate_step_fp (rnd : α → α) (Ngrid : ℕ → ℤ) (u : ℕ → ℕ → α)
    (st : List grid_elem_type × List ℕ) (n : ℕ) : Option (List grid_elem_type × List ℕ) :=
  let i := grid_elem_fp rnd Ngrid (u n)
  if i < 0 then none
  else
    match st.1[i.toNat]?, st.2[i.toNat]? with
    | some g, some cap =>
      let cap1 := if g.Natoms = cap then 2 * cap else cap
      let list1 :=
        if g.Natoms = cap then
          g.atomlist.take g.Natoms ++ List.replicate (2 * cap - g.Natoms) 0
        else g.atomlist
      if g.Natoms < list1.length then
        some (st.1.set i.toNat
                { g with atomlist := list1.set g.Natoms n, Natoms := g.Natoms + 1 },
              st.2.set i.toNat cap1)
      else none
    | _, _ => none

/-- `populate_grid` in machine arithmetic.  Returns the grid and whether the sanity check
printed its error; `none` stands for an access outside an array or for the allocation
`new int[Ngridelem]` with a negative size. -/
def populate_grid_fp (rnd : α → α) (Ngrid : ℕ → ℤ) (grid_list : List grid_elem_type)
    (Natoms : ℕ) (u : ℕ → ℕ → α) : Option (List grid_elem_type × Bool) :=
  if Ngridelem_fp Ngrid < 0 then none
  else
    match populate_init (Ngridelem_fp Ngrid).toNat
        (populate_Nalloc0_fp rnd (Ngridelem_fp Ngrid) Natoms) grid_list with
    | none => none
    | some st0 =>
      match (List.range Natoms).foldlM (populate_step_fp rnd Ngrid u) st0 with
      | none => none
      | some st =>
        some (st.1,
          decide (((st.1.take (Ngridelem_fp Ngrid).toNat).map (fun g => g.Natoms)).sum
            ≠ Natoms))

/-! ### nn_grid -/

/-- `diff` in machine arithmetic: `x + 2 - (int)(x+2.5)`. -/
def diff_fp (rnd : α → α) (x : α) : α :=
  rnd (rnd (x + 2) - ((double_to_int (rnd (x + 5 / 2)) : ℤ) : α))

/-- Component `k` of `vect` in `nn_grid` for the atoms `i`, `j`, every operation rounded. -/
def grid_vect_fp (rnd : α → α) (cart : ℕ → α) (u : ℕ → ℕ → α) (i j k : ℕ) : α :=
  rnd (rnd (rnd (cart k * diff_fp rnd (rnd (u j 0 - u i 0)))
      + rnd (cart (3 + k) * diff_fp rnd (rnd (u j 1 - u i 1))))
    + rnd (cart (6 + k) * diff_fp rnd (rnd (u j 2 - u i 2))))

/-- The value of `r2` in `nn_grid` for the atoms `i`, `j` once the `k` loop is done, every
operation rounded. -/
def grid_r2_fp (rnd : α → α) (cart : ℕ → α) (u : ℕ → ℕ → α) (i j : ℕ) : α :=
  rnd (rnd (rnd (0 + rnd (grid_vect_fp rnd cart u i j 0 * grid_vect_fp rnd cart u i j 0))
      + rnd (grid_vect_fp rnd cart u i j 1 * grid_vect_fp rnd cart u i j 1))
    + rnd (grid_vect_fp rnd cart u i j 2 * grid_vect_fp rnd cart u i j 2))

/-- The body of the innermost loop of `nn_grid` in machine arithmetic: the record added for
`i`, `j`, if any. -/
def grid_pair_fp (rnd : α → α) (sqrt : α → α) (cart : ℕ → α) (u : ℕ → ℕ → α) (Rcut : α)
    (i j : ℕ) : Option (nn_pair_type α) :=
  if i = j then none
  else if rnd (Rcut * Rcut) < grid_r2_fp rnd cart u i j then none
  else some
    { i := i
      j := j
      r := rnd (sqrt (grid_r2_fp rnd cart u i j))
      v_ij := (rnd (rnd (1 / rnd (sqrt (grid_r2_fp rnd cart u i j)))
                 * grid_vect_fp rnd cart u i j 0),
               rnd (rnd (1 / rnd (sqrt (grid_r2_fp rnd cart u i j)))
                 * grid_vect_fp rnd cart u i j 1),
               rnd (rnd (1 / rnd (sqrt (grid_r2_fp rnd cart u i j)))
                 * grid_vect_fp rnd cart u i j 2)) }

/-- The `int` `npair = natoms*nneigh*Natoms` with which `nn_grid` sizes its pair list. -/
def nn_grid_npair (Ngridelem : ℕ) (grid_list : List grid_elem_type) (Natoms : ℕ) : ℤ :=
  let m := (List.range Ngridelem).foldl
    (fun (m : ℕ × ℕ) ng =>
      (if m.1 < (grid_list.getD ng default).Natoms then (grid_list.getD ng default).Natoms
        else m.1,
       if m.2 < (grid_list.getD ng default).Nneigh then (grid_list.getD ng default).Nneigh
        else m.2))
    (0, 0)
  wrap_int (wrap_int ((m.1 : ℤ) * (m.2 : ℤ)) * (Natoms : ℤ))

/-- The records `nn_grid` stores at `nn_list[0]`, `nn_list[1]`, ... in machine arithmetic,
in the order of the stores. -/
def nn_grid_stores_fp (rnd : α → α) (sqrt : α → α) (cart : ℕ → α) (Ngridelem : ℕ)
    (grid_list : List grid_elem_type) (u : ℕ → ℕ → α) (Rcut : α) : List (nn_pair_type α) :=
  (List.range Ngridelem).flatMap fun ng =>
    (cell_atoms (grid_list.getD ng default)).flatMap fun i =>
      (cell_neighs (grid_list.getD ng default)).flatMap fun ngn =>
        (cell_atoms (grid_list.getD ngn.toNat default)).filterMap fun j =>
          grid_pair_fp rnd sqrt cart u Rcut i j

/-- `nn_grid` in machine arithmetic with its pair list of `npair` records: the records
written, `NNpairs` being the length; `none` when the allocation has a negative size or a
record is stored at an index that is not below `npair`. -/
def nn_grid_fp (rnd : α → α) (sqrt : α → α) (cart : ℕ → α) (Ngridelem : ℕ)
    (grid_list : List grid_elem_type) (Natoms : ℕ) (u : ℕ → ℕ → α) (Rcut : α) :
    Option (List (nn_pair_type α)) :=
  if nn_grid_npair Ngridelem grid_list Natoms < 0 then none
  else if (nn_grid_stores_fp rnd sqrt cart Ngridelem grid_list u Rcut).length
      ≤ (nn_grid_npair Ngridelem grid_list Natoms).toNat then
    some (nn_grid_stores_fp rnd sqrt cart Ngridelem grid_list u Rcut)
  else none

/-- The grid path in machine arithmetic: `calc_grid`, `make_grid`, `populate_grid`, then
`nn_grid` called with `Ngrid[0]*Ngrid[1]*Ngrid[2]` blocks. -/
def grid_path_fp (rnd : α → α) (sqrt : α → α) (cart : ℕ → α) (Natoms : ℕ) (u : ℕ → ℕ → α)
    (Rcut : α) : Option (List (nn_pair_type α)) :=
  match populate_grid_fp rnd (calc_grid_fp rnd sqrt cart Rcut)
      (make_grid (calc_grid_fp rnd sqrt cart Rcut)) Natoms u with
  | none => none
  | some p =>
    nn_grid_fp rnd sqrt cart (Ngridelem_fp (calc_grid_fp rnd sqrt cart Rcut)).toNat p.1
      Natoms u Rcut

/-! ### nn_raw -/

/-- The squared length of the lattice translation `n` in the first loop of `nn_raw`, every
operation rounded. -/
def shift_r2_fp (rnd : α → α) (cart : ℕ → α) (n : ℤ × ℤ × ℤ) : α :=
  rnd (rnd (rnd
        (rnd (rnd (rnd ((n.1 : α) * cart 0) + rnd ((n.2.1 : α) * cart 3))
            + rnd ((n.2.2 : α) * cart 6))
          * rnd (rnd (rnd ((n.1 : α) * cart 0) + rnd ((n.2.1 : α) * cart 3))
            + rnd ((n.2.2 : α) * cart 6)))
      + rnd
        (rnd (rnd (rnd ((n.1 : α) * cart 1) + rnd ((n.2.1 : α) * cart 4))
            + rnd ((n.2.2 : α) * cart 7))
          * rnd (rnd (rnd ((n.1 : α) * cart 1) + rnd ((n.2.1 : α) * cart 4))
            + rnd ((n.2.2 : α) * cart 7))))
    + rnd
      (rnd (rnd (rnd ((n.1 : α) * cart 2) + rnd ((n.2.1 : α) * cart 5))
          + rnd ((n.2.2 : α) * cart 8))
        * rnd (rnd (rnd ((n.1 : α) * cart 2) + rnd ((n.2.1 : α) * cart 5))
          + rnd ((n.2.2 : α) * cart 8))))

/-- The variable `min_dist` of `nn_raw` after the search over `RANGE = 3`, every operation
rounded. -/
def raw_min_dist_fp (rnd : α → α) (cart : ℕ → α) : α :=
  (shifts 3).foldl
    (fun min_dist n =>
      if n.1 = 0 ∧ n.2.1 = 0 ∧ n.2.2 = 0 then min_dist
      else if shift_r2_fp rnd cart n < min_dist then shift_r2_fp rnd cart n else min_dist)
    ((10 : α) ^ 20)

/-- The variable `maxn` of `nn_raw` in machine arithmetic:
`(int) (Rcut / sqrt(min_dist) + 1.)`. -/
def raw_maxn_fp (rnd : α → α) (sqrt : α → α) (cart : ℕ → α) (Rcut : α) : ℤ :=
  double_to_int (rnd (rnd (Rcut / rnd (sqrt (raw_min_dist_fp rnd cart))) + 1))

/-- Component `k` of `vect` in the pairing loop of `nn_raw` for the shift `n`, every
operation rounded. -/
def raw_vect_fp (rnd : α → α) (cart : ℕ → α) (u : ℕ → ℕ → α) (i j : ℕ) (n : ℤ × ℤ × ℤ)
    (k : ℕ) : α :=
  rnd (rnd (rnd (cart k * rnd (rnd (u j 0 - u i 0) + (n.1 : α)))
      + rnd (cart (3 + k) * rnd (rnd (u j 1 - u i 1) + (n.2.1 : α))))
    + rnd (cart (6 + k) * rnd (rnd (u j 2 - u i 2) + (n.2.2 : α))))

/-- The value of `r2` in the pairing loop of `nn_raw`, every operation rounded. -/
def raw_r2_fp (rnd : α → α) (cart : ℕ → α) (u : ℕ → ℕ → α) (i j : ℕ) (n : ℤ × ℤ × ℤ) : α :=
  rnd (rnd (rnd (0 + rnd (raw_vect_fp rnd cart u i j n 0 * raw_vect_fp rnd cart u i j n 0))
      + rnd (raw_vect_fp rnd cart u i j n 1 * raw_vect_fp rnd cart u i j n 1))
    + rnd (raw_vect_fp rnd cart u i j n 2 * raw_vect_fp rnd cart u i j n 2))

/-- The body of the innermost loop of `nn_raw` in machine arithmetic: the record added for
`i`, `n`, `j`, if any. -/
def raw_pair_fp (rnd : α → α) (sqrt : α → α) (cart : ℕ → α) (u : ℕ → ℕ → α) (Rcut : α)
    (i : ℕ) (n : ℤ × ℤ × ℤ) (j : ℕ) : Option (nn_pair_type α) :=
  if i = j ∧ n.1 = 0 ∧ n.2.1 = 0 ∧ n.2.2 = 0 then none
  else if rnd (Rcut * Rcut) < raw_r2_fp rnd cart u i j n then none
  else some
    { i := i
      j := j
      r := rnd (sqrt (raw_r2_fp rnd cart u i j n))
      v_ij := (rnd (rnd (1 / rnd (sqrt (raw_r2_fp rnd cart u i j n)))
                 * raw_vect_fp rnd cart u i j n 0),
               rnd (rnd (1 / rnd (sqrt (raw_r2_fp rnd cart u i j n)))
                 * raw_vect_fp rnd cart u i j n 1),
               rnd (rnd (1 / rnd (sqrt (raw_r2_fp rnd cart u i j n)))
                 * raw_vect_fp rnd cart u i j n 2)) }

/-- The `int` `npair` with which `nn_raw` sizes its pair list: `npair = (2*maxn + 1)`, then
`npair = Natoms*Natoms*npair*npair*npair`. -/
def nn_raw_npair (Natoms : ℕ) (maxn : ℤ) : ℤ :=
  wrap_int (wrap_int (wrap_int (wrap_int ((Natoms : ℤ) * (Natoms : ℤ))
        * wrap_int (wrap_int (2 * maxn) + 1))
      * wrap_int (wrap_int (2 * maxn) + 1))
    * wrap_int (wrap_int (2 * maxn) + 1))

/-- The shifts of the pairing loops of `nn_raw`, each loop running from the `int` `-maxn`
to `maxn`. -/
def shifts_fp (m : ℤ) : List (ℤ × ℤ × ℤ) :=
  (loop_incl (wrap_int (-m)) m).flatMap fun n0 =>
    (loop_incl (wrap_int (-m)) m).flatMap fun n1 =>
      (loop_incl (wrap_int (-m)) m).map fun n2 => (n0, n1, n2)

/-- The records `nn_raw` stores at `nn_list[0]`, `nn_list[1]`, ... in machine arithmetic, in
the order of the stores. -/
def nn_raw_stores_fp (rnd : α → α) (sqrt : α → α) (cart : ℕ → α) (Natoms : ℕ)
    (u : ℕ → ℕ → α) (Rcut : α) : List (nn_pair_type α) :=
  (List.range Natoms).flatMap fun i =>
    (shifts_fp (raw_maxn_fp rnd sqrt cart Rcut)).flatMap fun n =>
      (List.range Natoms).filterMap fun j => raw_pair_fp rnd sqrt cart u Rcut i n j

/-- `nn_raw` in machine arithmetic with its pair list of `npair` records: the records
written, `NNpairs` being the length; `none` when the allocation has a negative size or a
record is stored at an index that is not below `npair`. -/
def nn_raw_fp (rnd : α → α) (sqrt : α → α) (cart : ℕ → α) (Natoms : ℕ) (u : ℕ → ℕ → α)
    (Rcut : α) : Option (List (nn_pair_type α)) :=
  if nn_raw_npair Natoms (raw_maxn_fp rnd sqrt cart Rcut) < 0 then none
  else if (nn_raw_stores_fp rnd sqrt cart Natoms u Rcut).length
      ≤ (nn_raw_npair Natoms (raw_maxn_fp rnd sqrt cart Rcut)).toNat then
    some (nn_raw_stores_fp rnd sqrt cart Natoms u Rcut)
  else none

/-! ## construct_slab

The run of `construct_slab` (the call without atom names).  The arithmetic of the `double`s
is exact; the `int`s are those of the machine: `(int)` is `double_to_int`, the product
`2*Natoms` and the negation `-imax[d]` wrap to 32 bits.  The counter `N` is a natural
number.  Stores are checked against the length of the arrays.  The collision scan reads
`s[0][k]` and `s[1][k]` for every `k < N`, and `N` can be above the length `Napprox` of
the arrays: such a read returns what the memory behind the array holds, given by the
parameter `past` (`past d k` for `s[d][k]`); no store follows a read of this kind, so this
memory does not change. -/

theorem toInt_of_nonneg {x : α} (h : 0 ≤ x) : toInt x = ⌊x⌋ := by
  simp [toInt, h]

theorem mem_loop_incl {a b z : ℤ} : z ∈ loop_incl a b ↔ a ≤ z ∧ z ≤ b := by
  unfold loop_incl
  simp only [List.mem_map, List.mem_range]
  constructor
  · rintro ⟨t, ht, rfl⟩; refine ⟨by omega, by omega⟩
  · rintro ⟨h1, h2⟩; exact ⟨(z - a).toNat, by omega, by omega⟩

theorem nodup_loop_incl (a b : ℤ) : (loop_incl a b).Nodup := by
  unfold loop_incl
  refine List.Nodup.map (f := fun (t : ℕ) => a + (t : ℤ)) ?_ (List.nodup_range _)
  intro x y h
  simpa using h

theorem nodup_flatMap_of_tag {β γ : Type} (l : List β) (f : β → List γ) (tag : γ → β)
    (hl : l.Nodup) (hf : ∀ x ∈ l, (f x).Nodup) (ht : ∀ x ∈ l, ∀ y ∈ f x, tag y = x) :
    (l.flatMap f).Nodup := by
  rw [List.nodup_flatMap]
  refine ⟨hf, ?_⟩
  refine List.Pairwise.imp_of_mem ?_ hl
  intro a b ha hb hab y hya hyb
  exact hab ((ht a ha y hya).symm.trans (ht b hb y hyb))

theorem foldl_set_length {β γ : Type} (idx : β → ℕ) (f : β → γ) (l : List β) (init : List γ) :
    (l.foldl (fun g b => g.set (idx b) (f b)) init).length = init.length := by
  induction l generalizing init with
  | nil => rfl
  | cons a t ih => simp [List.foldl_cons, ih]

theorem foldl_set_getElem?_of_ne {β γ : Type} (idx : β → ℕ) (f : β → γ) (l : List β)
    (init : List γ) (k : ℕ) (hk : ∀ y ∈ l, idx y ≠ k) :
    (l.foldl (fun g b => g.set (idx b) (f b)) init)[k]? = init[k]? := by
  induction l generalizing init with
  | nil => rfl
  | cons a t ih =>
    rw [List.foldl_cons, ih _ (fun y hy => hk y (List.mem_cons_of_mem _ hy))]
    exact List.getElem?_set_ne (hk a (List.mem_cons_self _ _))

theorem foldl_set_getElem?_of_mem {β γ : Type} (idx : β → ℕ) (f : β → γ) (l : List β)
    (init : List γ) (x : β) (hx : x ∈ l) (hinj : ∀ y ∈ l, idx y = idx x → y = x)
    (hb : idx x < init.length) :
    (l.foldl (fun g b => g.set (idx b) (f b)) init)[idx x]? = some (f x) := by
  induction l generalizing init with
  | nil => simp at hx
  | cons a t ih =>
    rw [List.foldl_cons]
    by_cases hxt : x ∈ t
    · exact ih _ hxt (fun y hy => hinj y (List.mem_cons_of_mem _ hy)) (by simpa using hb)
    · have hxa : x = a := by
        rcases List.mem_cons.1 hx with h | h
        · exact h
        · exact absurd h hxt
      subst hxa
      rw [foldl_set_getElem?_of_ne]
      · simp [hb]
      · intro y hy hyx
        exact hxt (hinj y (List.mem_cons_of_mem _ hy) hyx ▸ hy)

/-! ## make_grid -/

theorem mem_grid_triples {Ngrid : ℕ → ℤ} {t : ℤ × ℤ × ℤ} :
    t ∈ grid_triples Ngrid ↔
      (0 ≤ t.1 ∧ t.1 < Ngrid 0) ∧ (0 ≤ t.2.1 ∧ t.2.1 < Ngrid 1) ∧
        (0 ≤ t.2.2 ∧ t.2.2 < Ngrid 2) := by
  obtain ⟨a, b, c⟩ := t
  unfold grid_triples
  simp only [List.mem_flatMap, List.mem_map, mem_loop_incl, Prod.mk.injEq]
  constructor
  · rintro ⟨a', ha, b', hb, c', hc, rfl, rfl, rfl⟩
    exact ⟨⟨ha.1, by omega⟩, ⟨hb.1, by omega⟩, ⟨hc.1, by omega⟩⟩
  · rintro ⟨ha, hb, hc⟩
    exact ⟨a, ⟨ha.1, by omega⟩, b, ⟨hb.1, by omega⟩, c, ⟨hc.1, by omega⟩, rfl, rfl, rfl⟩

theorem trip2int_inj {Ngrid : ℕ → ℤ} {a b c a' b' c' : ℤ}
    (ha : 0 ≤ a ∧ a < Ngrid 0) (hb : 0 ≤ b ∧ b < Ngrid 1)
    (ha' : 0 ≤ a' ∧ a' < Ngrid 0) (hb' : 0 ≤ b' ∧ b' < Ngrid 1)
    (h : trip2int Ngrid a b c = trip2int Ngrid a' b' c') : a = a' ∧ b = b' ∧ c = c' := by
  unfold trip2int at h
  have h0 : a = a' := by
    have := congrArg (fun z => z % Ngrid 0) h
    simp only [Int.add_mul_emod_self_left] at this
    rwa [Int.emod_eq_of_lt ha.1 ha.2, Int.emod_eq_of_lt ha'.1 ha'.2] at this
  subst h0
  have hN0 : Ngrid 0 ≠ 0 := by omega
  have h1 : b + Ngrid 1 * c = b' + Ngrid 1 * c' := by
    have := add_left_cancel h
    exact mul_left_cancel₀ hN0 this
  have h2 : b = b' := by
    have := congrArg (fun z => z % Ngrid 1) h1
    simp only [Int.add_mul_emod_self_left] at this
    rwa [Int.emod_eq_of_lt hb.1 hb.2, Int.emod_eq_of_lt hb'.1 hb'.2] at this
  subst h2
  have hN1 : Ngrid 1 ≠ 0 := by omega
  exact ⟨rfl, rfl, mul_left_cancel₀ hN1 (add_left_cancel h1)⟩

theorem trip2int_bounds {Ngrid : ℕ → ℤ} {a b c : ℤ}
    (ha : 0 ≤ a ∧ a < Ngrid 0) (hb : 0 ≤ b ∧ b < Ngrid 1) (hc : 0 ≤ c ∧ c < Ngrid 2) :
    0 ≤ trip2int Ngrid a b c ∧ trip2int Ngrid a b c < Ngrid 0 * Ngrid 1 * Ngrid 2 := by
  unfold trip2int
  have h0 : 0 < Ngrid 0 := by omega
  have h1 : 0 < Ngrid 1 := by omega
  have e1 : 0 ≤ Ngrid 1 * c := mul_nonneg h1.le hc.1
  have e2 : Ngrid 1 * c ≤ Ngrid 1 * (Ngrid 2 - 1) :=
    mul_le_mul_of_nonneg_left (by omega) h1.le
  have e3 : 0 ≤ Ngrid 0 * (b + Ngrid 1 * c) := mul_nonneg h0.le (by omega)
  have e4 : Ngrid 0 * (b + Ngrid 1 * c) ≤ Ngrid 0 * (Ngrid 1 * Ngrid 2 - 1) :=
    mul_le_mul_of_nonneg_left (by linarith) h0.le
  constructor
  · omega
  · have : Ngrid 0 * (Ngrid 1 * Ngrid 2 - 1) = Ngrid 0 * Ngrid 1 * Ngrid 2 - Ngrid 0 := by ring
    omega

theorem make_grid_length (Ngrid : ℕ → ℤ) :
    (make_grid Ngrid).length = (Ngrid 0 * Ngrid 1 * Ngrid 2).toNat := by
  unfold make_grid
  rw [foldl_set_length (fun i : ℤ × ℤ × ℤ => (trip2int Ngrid i.1 i.2.1 i.2.2).toNat)
    (make_cell Ngrid)]
  simp

theorem make_grid_getElem? {Ngrid : ℕ → ℤ} {t : ℤ × ℤ × ℤ} (ht : t ∈ grid_triples Ngrid) :
    (make_grid Ngrid)[(trip2int Ngrid t.1 t.2.1 t.2.2).toNat]? = some (make_cell Ngrid t) := by
  unfold make_grid
  have ht' := mem_grid_triples.1 ht
  refine foldl_set_getElem?_of_mem (fun i : ℤ × ℤ × ℤ => (trip2int Ngrid i.1 i.2.1 i.2.2).toNat)
    (make_cell Ngrid) _ _ t ht ?_ ?_
  · intro y hy hyt
    have hy' := mem_grid_triples.1 hy
    have b1 := trip2int_bounds hy'.1 hy'.2.1 hy'.2.2
    have b2 := trip2int_bounds ht'.1 ht'.2.1 ht'.2.2
    have : trip2int Ngrid y.1 y.2.1 y.2.2 = trip2int Ngrid t.1 t.2.1 t.2.2 := by
      simp only at hyt
      omega
    obtain ⟨e1, e2, e3⟩ := trip2int_inj hy'.1 hy'.2.1 ht'.1 ht'.2.1 this
    exact Prod.ext e1 (Prod.ext e2 e3)
  · have b2 := trip2int_bounds ht'.1 ht'.2.1 ht'.2.2
    simp only [List.length_replicate]
    omega

/-! ## populate_grid -/

theorem sum_map_set_succ {β : Type} (f : β → ℕ) (l : List β) (i : ℕ) (g g' : β)
    (hg : l[i]? = some g) (hf : f g' = f g + 1) :
    ((l.set i g').map f).sum = (l.map f).sum + 1 := by
  induction l generalizing i with
  | nil => simp at hg
  | cons a t ih =>
    cases i with
    | zero =>
      simp only [List.getElem?_cons_zero, Option.some.injEq] at hg
      subst hg
      simp only [List.set_cons_zero, List.map_cons, List.sum_cons, hf]
      omega
    | succ i =>
      simp only [List.getElem?_cons_succ] at hg
      simp only [List.set_cons_succ, List.map_cons, List.sum_cons, ih i hg]
      omega

theorem filter_range_succ (p : ℕ → Bool) (k : ℕ) :
    (List.range (k + 1)).filter p = (List.range k).filter p ++ (if p k then [k] else []) := by
  rw [List.range_succ, List.filter_append]
  cases h : p k <;> simp [h]

theorem populate_init_inv (Ngrid : ℕ → ℤ) (u : ℕ → ℕ → α) (gl0 : List grid_elem_type)
    (M cap0 : ℕ) (hlen : gl0.length = M) (hcap : 0 < cap0) :
    ∃ st0, populate_init M cap0 gl0 = some st0 ∧ populate_inv Ngrid u gl0 M 0 st0 := by
  unfold populate_init
  rw [if_neg (by omega)]
  refine ⟨_, rfl, ?_, ?_, ?_, ?_⟩
  · simp [hlen]
  · simp
  · rw [List.drop_of_length_le (by omega), List.take_of_length_le (by omega)]
    simp only [List.append_nil, List.map_map]
    induction gl0 generalizing M with
    | nil => rfl
    | cons a t ih => simpa using ih t.length rfl
  · intro c hc
    have hc' : c < gl0.length := by omega
    refine ⟨{ gl0[c] with Natoms := 0, atomlist := List.replicate cap0 0 }, cap0, ?_, ?_, ?_,
      ?_, hcap, ?_, gl0[c], ?_, rfl, rfl⟩
    · rw [List.drop_of_length_le (by omega), List.take_of_length_le (by omega)]
      simp [hc']
    · simp [hc]
    · simp
    · simp
    · simp [cell_atoms]
    · simp [hc']

theorem populate_step_inv (Ngrid : ℕ → ℤ) (u : ℕ → ℕ → α) (gl0 : List grid_elem_type)
    (M k : ℕ) (st : List grid_elem_type × List ℕ) (hinv : populate_inv Ngrid u gl0 M k st)
    (h0 : 0 ≤ grid_elem Ngrid (u k)) (h1 : (grid_elem Ngrid (u k)).toNat < M) :
    ∃ st', populate_step Ngrid u st k = some st' ∧ populate_inv Ngrid u gl0 M (k + 1) st' := by
  obtain ⟨hl1, hl2, hsum, hcells⟩ := hinv
  obtain ⟨g, cap, hg, hcap, hlen, hle, hpos, hat, hnb⟩ := hcells _ h1
  have hlist1 : g.Natoms <
      (if g.Natoms = cap then
        g.atomlist.take g.Natoms ++ List.replicate (2 * cap - g.Natoms) 0
       else g.atomlist).length := by
    split_ifs with h
    · simp only [List.length_append, List.length_take, List.length_replicate]
      omega
    · omega
  have htake : ((if g.Natoms = cap then
        g.atomlist.take g.Natoms ++ List.replicate (2 * cap - g.Natoms) 0
       else g.atomlist).set g.Natoms k).take (g.Natoms + 1) = cell_atoms g ++ [k] := by
    rw [List.take_succ]
    have e1 : ∀ l : List ℕ, (l.set g.Natoms k).take g.Natoms = l.take g.Natoms := by
      intro l
      rw [List.set_take, List.set_eq_of_length_le (by simp)]
    rw [e1, List.getElem?_set_self (by simpa using hlist1)]
    simp only [Option.toList_some, cell_atoms]
    congr 1
    split_ifs with h
    · rw [List.take_append_of_le_length (by simp; omega)]
      simp
    · rfl
  have hstep : populate_step Ngrid u st k = some
      (st.1.set (grid_elem Ngrid (u k)).toNat
        { g with
          atomlist := (if g.Natoms = cap then
              g.atomlist.take g.Natoms ++ List.replicate (2 * cap - g.Natoms) 0
            else g.atomlist).set g.Natoms k
          Natoms := g.Natoms + 1 },
       st.2.set (grid_elem Ngrid (u k)).toNat (if g.Natoms = cap then 2 * cap else cap)) := by
    unfold populate_step
    simp only [not_lt.2 h0, if_false, hg, hcap]
    rw [if_pos hlist1]
  refine ⟨_, hstep, ?_⟩
  · refine ⟨by simpa using hl1, by simpa using hl2, ?_, ?_⟩
    · simp only
      rw [sum_map_set_succ (fun g => g.Natoms) _ _ g _ hg rfl, hsum]
    · intro c hc
      by_cases hci : c = (grid_elem Ngrid (u k)).toNat
      · subst hci
        refine ⟨{ g with
            atomlist := (if g.Natoms = cap then
                g.atomlist.take g.Natoms ++ List.replicate (2 * cap - g.Natoms) 0
              else g.atomlist).set g.Natoms k
            Natoms := g.Natoms + 1 }, (if g.Natoms = cap then 2 * cap else cap),
          ?_, ?_, ?_, ?_, ?_, ?_, ?_⟩
        · simp only
          rw [List.getElem?_set_self (by omega)]
        · simp only
          rw [List.getElem?_set_self (by omega)]
        · simp only [List.length_set]
          split_ifs with h
          · simp only [List.length_append, List.length_take, List.length_replicate]
            omega
          · exact hlen
        · show g.Natoms + 1 ≤ _
          split_ifs <;> omega
        · split_ifs <;> omega
        · show List.take (g.Natoms + 1) _ = _
          rw [htake, filter_range_succ, hat]
          simp
        · exact hnb
      · obtain ⟨g', cap', hg', hcap', hlen', hle', hpos', hat', hnb'⟩ := hcells c hc
        refine ⟨g', cap', ?_, ?_, hlen', hle', hpos', ?_, hnb'⟩
        · simp only
          rw [List.getElem?_set_ne (Ne.symm hci)]
          exact hg'
        · simp only
          rw [List.getElem?_set_ne (Ne.symm hci)]
          exact hcap'
        · rw [filter_range_succ, hat']
          simp [Ne.symm hci]

theorem populate_loop_inv (Ngrid : ℕ → ℤ) (u : ℕ → ℕ → α) (gl0 : List grid_elem_type)
    (M N : ℕ) (st0 : List grid_elem_type × List ℕ) (hinv : populate_inv Ngrid u gl0 M 0 st0)
    (hr : ∀ n, n < N → 0 ≤ grid_elem Ngrid (u n) ∧ (grid_elem Ngrid (u n)).toNat < M) :
    ∃ st, (List.range N).foldlM (populate_step Ngrid u) st0 = some st ∧
      populate_inv Ngrid u gl0 M N st := by
  induction N with
  | zero => exact ⟨st0, rfl, hinv⟩
  | succ k ih =>
    obtain ⟨st, hst, hi⟩ := ih (fun n hn => hr n (by omega))
    obtain ⟨st', hst', hi'⟩ := populate_step_inv Ngrid u gl0 M k st hi (hr k (by omega)).1
      (hr k (by omega)).2
    refine ⟨st', ?_, hi'⟩
    rw [List.range_succ, List.foldlM_append, hst]
    simp [hst']

theorem populate_Nalloc0_pos (Ngrid : ℕ → ℤ) (N : ℕ) : 0 < populate_Nalloc0 α Ngrid N := by
  unfold populate_Nalloc0
  split_ifs with h
  · norm_num
  · omega

theorem toInt_cell_bounds {x : α} {n : ℤ} (hx0 : 0 ≤ x) (hx1 : x < 1) (hn : 1 ≤ n) :
    0 ≤ toInt (x * (n : α)) ∧ toInt (x * (n : α)) < n := by
  have hn' : (0 : α) < (n : α) := by exact_mod_cast (by omega : (0 : ℤ) < n)
  have h0 : 0 ≤ x * (n : α) := mul_nonneg hx0 hn'.le
  rw [toInt_of_nonneg h0]
  refine ⟨Int.floor_nonneg.2 h0, Int.floor_lt.2 ?_⟩
  calc x * (n : α) < 1 * (n : α) := mul_lt_mul_of_pos_right hx1 hn'
    _ = (n : α) := one_mul _

theorem grid_elem_eq_trip2int (Ngrid : ℕ → ℤ) (v : ℕ → α) :
    grid_elem Ngrid v = trip2int Ngrid (toInt (v 0 * (Ngrid 0 : α)))
      (toInt (v 1 * (Ngrid 1 : α))) (toInt (v 2 * (Ngrid 2 : α))) := rfl

theorem grid_elem_bounds {Ngrid : ℕ → ℤ} {v : ℕ → α} (hN : ∀ k, k < 3 → 1 ≤ Ngrid k)
    (hv : ∀ k, k < 3 → 0 ≤ v k ∧ v k < 1) :
    0 ≤ grid_elem Ngrid v ∧ grid_elem Ngrid v < Ngrid 0 * Ngrid 1 * Ngrid 2 := by
  rw [grid_elem_eq_trip2int]
  exact trip2int_bounds
    (toInt_cell_bounds (hv 0 (by norm_num)).1 (hv 0 (by norm_num)).2 (hN 0 (by norm_num)))
    (toInt_cell_bounds (hv 1 (by norm_num)).1 (hv 1 (by norm_num)).2 (hN 1 (by norm_num)))
    (toInt_cell_bounds (hv 2 (by norm_num)).1 (hv 2 (by norm_num)).2 (hN 2 (by norm_num)))

/-- The atoms `n < N` that `grid_elem` sends to the block `c`, in ascending order. -/
theorem populate_grid_spec (Ngrid : ℕ → ℤ) (u : ℕ → ℕ → α) (gl0 : List grid_elem_type) (N : ℕ)
    (hlen : gl0.length = (Ngrid 0 * Ngrid 1 * Ngrid 2).toNat)
    (hr : ∀ n, n < N → 0 ≤ grid_elem Ngrid (u n) ∧
      grid_elem Ngrid (u n) < Ngrid 0 * Ngrid 1 * Ngrid 2) :
    ∃ gl, populate_grid Ngrid gl0 N u = some (gl, false) ∧ gl.length = gl0.length ∧
      (gl.map fun g => g.Natoms).sum = N ∧
      ∀ c, cell_atoms (gl.getD c default) =
          (List.range N).filter (fun n => (grid_elem Ngrid (u n)).toNat = c) ∧
        (gl.getD c default).Nneigh = (gl0.getD c default).Nneigh ∧
        (gl.getD c default).neighlist = (gl0.getD c default).neighlist := by
  obtain ⟨st0, hst0, hinv0⟩ := populate_init_inv Ngrid u gl0 _
    (populate_Nalloc0 α Ngrid N) hlen (populate_Nalloc0_pos Ngrid N)
  obtain ⟨st, hst, hinv⟩ := populate_loop_inv Ngrid u gl0 _ N st0 hinv0
    (fun n hn => ⟨(hr n hn).1, by have := hr n hn; omega⟩)
  obtain ⟨hl1, hl2, hsum, hcells⟩ := hinv
  refine ⟨st.1, ?_, by omega, hsum, ?_⟩
  · unfold populate_grid
    simp only [hst0, hst]
    rw [List.take_of_length_le (by omega), hsum]
    simp
  · intro c
    by_cases hc : c < (Ngrid 0 * Ngrid 1 * Ngrid 2).toNat
    · obtain ⟨g, cap, hg, -, -, -, -, hat, g0, hg0, hn1, hn2⟩ := hcells c hc
      have e1 : st.1.getD c default = g := by
        rw [List.getD_eq_getElem?_getD, hg]; rfl
      have e2 : gl0.getD c default = g0 := by
        rw [List.getD_eq_getElem?_getD, hg0]; rfl
      rw [e1, e2]
      exact ⟨hat, hn1, hn2⟩
    · have e1 : st.1.getD c default = default := by
        rw [List.getD_eq_getElem?_getD, List.getElem?_eq_none (by omega)]; rfl
      have e2 : gl0.getD c default = default := by
        rw [List.getD_eq_getElem?_getD, List.getElem?_eq_none (by omega)]; rfl
      rw [e1, e2]
      refine ⟨?_, rfl, rfl⟩
      symm
      show List.filter _ _ = []
      rw [List.filter_eq_nil_iff]
      intro n hn
      have := hr n (List.mem_range.1 hn)
      simp only [decide_eq_true_eq]
      show ¬ _ = c
      omega

theorem arr3_ge_one {a b c : ℤ} (ha : 1 ≤ a) (hb : 1 ≤ b) (hc : 1 ≤ c) :
    ∀ k, k < 3 → 1 ≤ arr [a, b, c] k := by
  intro k hk
  interval_cases k <;> simpa [arr]

theorem toInt_neg_half : toInt (-(1 / 4 : ℝ) * 2) = 0 := by
  have h : ¬ (0 : ℝ) ≤ -(1 / 4) * 2 := by norm_num
  rw [toInt, if_neg h, Int.ceil_eq_iff]
  norm_num

/-- C9 (as stated, refuted): with two blocks along the first axis and the fractional
coordinate `-1/4`, `grid_elem` returns `0` whereas the floor formula gives `-1`. -/
theorem grid_elem_negative_not_floor :
    grid_elem (arr [2, 1, 1]) (arr [-(1 / 4 : ℝ), 0, 0]) ≠
      ⌊arr [-(1 / 4 : ℝ), 0, 0] 0 * ((arr [(2 : ℤ), 1, 1] 0 : ℤ) : ℝ)⌋
        + arr [(2 : ℤ), 1, 1] 0 * (⌊arr [-(1 / 4 : ℝ), 0, 0] 1 * ((arr [(2 : ℤ), 1, 1] 1 : ℤ) : ℝ)⌋
          + arr [(2 : ℤ), 1, 1] 1 * ⌊arr [-(1 / 4 : ℝ), 0, 0] 2 * ((arr [(2 : ℤ), 1, 1] 2 : ℤ) : ℝ)⌋) := by
  have h1 : ⌊-((4 : ℝ)⁻¹ * 2)⌋ = -1 := by
    rw [Int.floor_eq_iff]; norm_num
  have h2 : toInt (0 : ℝ) = 0 := by simp [toInt]
  have h3 : toInt (-((4 : ℝ)⁻¹ * 2)) = 0 := by
    have := toInt_neg_half
    norm_num at this ⊢
    exact this
  simp [grid_elem, arr, h1, h2, h3]

/-- With exact arithmetic and unbounded integers: for non-negative block counts and a
fractional vector with non-negative
components (components `≥ 1` included), `grid_elem` is the floor formula. -/
theorem grid_elem_eq_floor_of_nonneg (Ngrid : ℕ → ℤ) (u_vect : ℕ → α)
    (hN : ∀ k, k < 3 → 0 ≤ Ngrid k) (hu : ∀ k, k < 3 → 0 ≤ u_vect k) :
    grid_elem Ngrid u_vect =
      ⌊u_vect 0 * (Ngrid 0 : α)⌋
        + Ngrid 0 * (⌊u_vect 1 * (Ngrid 1 : α)⌋ + Ngrid 1 * ⌊u_vect 2 * (Ngrid 2 : α)⌋) := by
  have h : ∀ k, k < 3 → toInt (u_vect k * (Ngrid k : α)) = ⌊u_vect k * (Ngrid k : α)⌋ :=
    fun k hk => toInt_of_nonneg (mul_nonneg (hu k hk) (by exact_mod_cast hN k hk))
  unfold grid_elem
  rw [h 0 (by norm_num), h 1 (by norm_num), h 2 (by norm_num)]

theorem grid_elem_eq_floor_of_nonneg_witness :
    (∀ k, k < 3 → 0 ≤ arr [(2 : ℤ), 2, 1] k) ∧
    (∀ k, k < 3 → 0 ≤ arr [(3 / 2 : ℝ), 0, 0] k) ∧
    grid_elem (arr [2, 2, 1]) (arr [(3 / 2 : ℝ), 0, 0]) =
      ⌊arr [(3 / 2 : ℝ), 0, 0] 0 * ((arr [(2 : ℤ), 2, 1] 0 : ℤ) : ℝ)⌋
        + arr [(2 : ℤ), 2, 1] 0 * (⌊arr [(3 / 2 : ℝ), 0, 0] 1 * ((arr [(2 : ℤ), 2, 1] 1 : ℤ) : ℝ)⌋
          + arr [(2 : ℤ), 2, 1] 1 * ⌊arr [(3 / 2 : ℝ), 0, 0] 2 * ((arr [(2 : ℤ), 2, 1] 2 : ℤ) : ℝ)⌋) :=
  have h1 : ∀ k, k < 3 → 0 ≤ arr [(2 : ℤ), 2, 1] k := by
    intro k hk; interval_cases k <;> simp [arr]
  have h2 : ∀ k, k < 3 → 0 ≤ arr [(3 / 2 : ℝ), 0, 0] k := by
    intro k hk; interval_cases k <;> norm_num [arr]
  ⟨h1, h2, grid_elem_eq_floor_of_nonneg _ _ h1 h2⟩

theorem toInt_three_halves : toInt (3 / 2 : ℝ) = 1 := by
  have h : (0 : ℝ) ≤ 3 / 2 := by norm_num
  rw [toInt_of_nonneg h, Int.floor_eq_iff]
  norm_num

theorem toInt_three : toInt (3 : ℝ) = 3 := by
  have h : (0 : ℝ) ≤ 3 := by norm_num
  rw [toInt_of_nonneg h, Int.floor_eq_iff]
  norm_num

/-- C10 (the code at the failing inputs): an atom with fractional coordinate `3/2` on a
`2 x 2 x 1` grid is put into block `3` and the sanity check reports nothing; on a
`1 x 1 x 1` grid the same atom makes `populate_grid` access a block outside the grid. -/
theorem populate_grid_out_of_range :
    (∃ gl, populate_grid (arr [2, 2, 1]) (make_grid (arr [2, 2, 1])) 1
        (atoms [[(3 / 2 : ℝ), 0, 0]]) = some (gl, false) ∧
      cell_atoms (gl.getD 3 default) = [0]) ∧
    populate_grid (arr [1, 1, 1]) (make_grid (arr [1, 1, 1])) 1
      (atoms [[(3 / 2 : ℝ), 0, 0]]) = none := by
  have z : toInt (0 : ℝ) = 0 := by simp [toInt]
  constructor
  · have hge : grid_elem (arr [2, 2, 1]) (atoms [[(3 / 2 : ℝ), 0, 0]] 0) = 3 := by
      simp [grid_elem, arr, atoms, toInt_three, z]
    obtain ⟨gl, hgl, -, -, hc⟩ := populate_grid_spec (arr [2, 2, 1])
      (atoms [[(3 / 2 : ℝ), 0, 0]]) (make_grid (arr [2, 2, 1])) 1 (make_grid_length _)
      (by
        intro n hn
        interval_cases n
        rw [hge]
        simp [arr])
    refine ⟨gl, hgl, ?_⟩
    rw [(hc 3).1]
    simp [List.range_succ, hge]
  · have hge : grid_elem (arr [1, 1, 1]) (atoms [[(3 / 2 : ℝ), 0, 0]] 0) = 1 := by
      simp [grid_elem, arr, atoms, toInt_three_halves, z]
    obtain ⟨st0, hst0, hinv0⟩ := populate_init_inv (arr [1, 1, 1])
      (atoms [[(3 / 2 : ℝ), 0, 0]]) (make_grid (arr [1, 1, 1])) _
      (populate_Nalloc0 ℝ (arr [1, 1, 1]) 1) (make_grid_length _) (populate_Nalloc0_pos _ _)
    have hl : st0.1.length = 1 := by
      rw [hinv0.1]
      simp [arr]
    have hstep : populate_step (arr [1, 1, 1]) (atoms [[(3 / 2 : ℝ), 0, 0]]) st0 0 = none := by
      unfold populate_step
      simp only [hge]
      rw [if_neg (by decide)]
      have : st0.1[(1 : ℤ).toNat]? = none := List.getElem?_eq_none (by simp [hl])
      rw [this]
    unfold populate_grid
    simp only [hst0]
    simp [List.range_succ, hstep]

/-! ## Neighbour lists of make_grid -/

theorem nodup_flatMap_of_disjoint {β γ : Type} (l : List β) (f : β → List γ)
    (hl : l.Nodup) (hf : ∀ x ∈ l, (f x).Nodup)
    (hd : ∀ x ∈ l, ∀ x' ∈ l, ∀ y, y ∈ f x → y ∈ f x' → x = x') :
    (l.flatMap f).Nodup := by
  rw [List.nodup_flatMap]
  refine ⟨hf, ?_⟩
  refine List.Pairwise.imp_of_mem ?_ hl
  intro a b ha hb hab y hya hyb
  exact hab (hd a ha b hb y hya hyb)

theorem length_flatMap_const {β γ : Type} (l : List β) (f : β → List γ) (c : ℕ)
    (h : ∀ x ∈ l, (f x).length = c) : (l.flatMap f).length = l.length * c := by
  induction l with
  | nil => simp
  | cons a t ih =>
    rw [List.flatMap_cons, List.length_append, h a (List.mem_cons_self _ _),
      ih (fun x hx => h x (List.mem_cons_of_mem _ hx)), List.length_cons]
    ring

theorem length_loop_incl (a b : ℤ) : (loop_incl a b).length = (b + 1 - a).toNat := by
  simp [loop_incl]

theorem length_axis_neighs (n i : ℤ) :
    (axis_neighs n i).length = grid_nfactor n := by
  unfold axis_neighs grid_start grid_end grid_nfactor
  rw [List.length_map, length_loop_incl]
  split_ifs <;> omega

theorem mem_axis_neighs {n i c : ℤ} (hn : 1 ≤ n) (hi : 0 ≤ i ∧ i < n) :
    c ∈ axis_neighs n i ↔
      (0 ≤ c ∧ c < n) ∧ (n ≤ 2 ∨ ∃ o q : ℤ, -1 ≤ o ∧ o ≤ 1 ∧ c = i + o + n * q) := by
  unfold axis_neighs
  simp only [List.mem_map, mem_loop_incl]
  constructor
  · rintro ⟨j, ⟨hj1, hj2⟩, rfl⟩
    have hs : -1 ≤ grid_start n ∧ grid_start n ≤ 0 := by
      unfold grid_start; split_ifs <;> omega
    have he : 0 ≤ grid_end n ∧ grid_end n ≤ 1 := by
      unfold grid_end; split_ifs <;> omega
    rw [Int.tmod_eq_emod (by omega) (by omega)]
    refine ⟨⟨Int.emod_nonneg _ (by omega), Int.emod_lt_of_pos _ (by omega)⟩, ?_⟩
    right
    refine ⟨j - i, 1 - (j + n) / n, by omega, by omega, ?_⟩
    have := Int.emod_add_ediv (j + n) n
    linarith
  · rintro ⟨hc, h⟩
    by_cases h3 : 3 ≤ n
    · rcases h with h | ⟨o, q, ho1, ho2, hq⟩
      · omega
      · refine ⟨i + o, ?_, ?_⟩
        · unfold grid_start grid_end
          rw [if_neg (by omega), if_neg (by omega), if_pos h3,
            if_neg (by omega), if_neg (by omega), if_pos h3]
          omega
        · rw [Int.tmod_eq_emod (by omega) (by omega)]
          have e : i + o + n = c + n * (1 - q) := by rw [hq]; ring
          rw [e, Int.add_mul_emod_self_left, Int.emod_eq_of_lt hc.1 hc.2]
    · have hn2 : n = 1 ∨ n = 2 := by omega
      rcases hn2 with rfl | rfl
      · refine ⟨i, ?_, ?_⟩
        · simp [grid_start, grid_end]
        · rw [Int.tmod_eq_emod (by omega) (by omega)]
          omega
      · by_cases hci : c = i
        · refine ⟨i, ?_, ?_⟩
          · simp [grid_start, grid_end]
          · rw [Int.tmod_eq_emod (by omega) (by omega)]
            omega
        · refine ⟨i + 1, ?_, ?_⟩
          · simp [grid_start, grid_end]
          · rw [Int.tmod_eq_emod (by omega) (by omega)]
            omega

theorem axis_neighs_symm {n i c : ℤ} (hn : 1 ≤ n) (hi : 0 ≤ i ∧ i < n) (hc : 0 ≤ c ∧ c < n) :
    c ∈ axis_neighs n i ↔ i ∈ axis_neighs n c := by
  rw [mem_axis_neighs hn hi, mem_axis_neighs hn hc]
  constructor
  · rintro ⟨-, h⟩
    refine ⟨hi, ?_⟩
    rcases h with h | ⟨o, q, ho1, ho2, hq⟩
    · exact Or.inl h
    · exact Or.inr ⟨-o, -q, by omega, by omega, by rw [hq]; ring⟩
  · rintro ⟨-, h⟩
    refine ⟨hc, ?_⟩
    rcases h with h | ⟨o, q, ho1, ho2, hq⟩
    · exact Or.inl h
    · exact Or.inr ⟨-o, -q, by omega, by omega, by rw [hq]; ring⟩

theorem nodup_axis_neighs {n : ℤ} (i : ℤ) (hn : 1 ≤ n) (hi : 0 ≤ i) :
    (axis_neighs n i).Nodup := by
  unfold axis_neighs
  refine List.Nodup.map_on ?_ (nodup_loop_incl _ _)
  intro x hx y hy hxy
  rw [mem_loop_incl] at hx hy
  have hs : -1 ≤ grid_start n := by
    unfold grid_start; split_ifs <;> omega
  have hw : grid_end n - grid_start n < n := by
    unfold grid_start grid_end; split_ifs <;> omega
  rw [Int.tmod_eq_emod (by omega) (by omega), Int.tmod_eq_emod (by omega) (by omega)] at hxy
  have h1 : (x + n - (y + n)) % n = 0 := Int.emod_eq_emod_iff_emod_sub_eq_zero.1 hxy
  have h2 : n ∣ x - y := by
    have : x + n - (y + n) = x - y := by ring
    rw [this] at h1
    exact Int.dvd_of_emod_eq_zero h1
  have h3 : x - y = 0 := by
    refine Int.eq_zero_of_abs_lt_dvd h2 ?_
    rw [abs_lt]
    constructor <;> omega
  omega

theorem make_neighlist_eq (Ngrid : ℕ → ℤ) (i0 i1 i2 : ℤ) :
    make_neighlist Ngrid i0 i1 i2 =
      (axis_neighs (Ngrid 0) i0).flatMap fun a =>
        (axis_neighs (Ngrid 1) i1).flatMap fun b =>
          (axis_neighs (Ngrid 2) i2).map fun c => trip2int Ngrid a b c := by
  unfold make_neighlist axis_neighs
  simp only [List.flatMap_map, List.map_map]
  rfl

theorem length_make_neighlist (Ngrid : ℕ → ℤ) (i0 i1 i2 : ℤ) :
    (make_neighlist Ngrid i0 i1 i2).length =
      grid_nfactor (Ngrid 0) * grid_nfactor (Ngrid 1) * grid_nfactor (Ngrid 2) := by
  rw [make_neighlist_eq]
  rw [length_flatMap_const _ _ (grid_nfactor (Ngrid 1) * grid_nfactor (Ngrid 2)),
    length_axis_neighs]
  · ring
  · intro a _
    rw [length_flatMap_const _ _ (grid_nfactor (Ngrid 2)),
      length_axis_neighs]
    intro b _
    rw [List.length_map, length_axis_neighs]

theorem mem_make_neighlist {Ngrid : ℕ → ℤ} {i0 i1 i2 v : ℤ} :
    v ∈ make_neighlist Ngrid i0 i1 i2 ↔
      ∃ a ∈ axis_neighs (Ngrid 0) i0, ∃ b ∈ axis_neighs (Ngrid 1) i1,
        ∃ c ∈ axis_neighs (Ngrid 2) i2, trip2int Ngrid a b c = v := by
  rw [make_neighlist_eq]
  simp only [List.mem_flatMap, List.mem_map]

theorem make_neighlist_facts {Ngrid : ℕ → ℤ} (hN : ∀ k, k < 3 → 1 ≤ Ngrid k)
    {t : ℤ × ℤ × ℤ} (ht : t ∈ grid_triples Ngrid) :
    (make_neighlist Ngrid t.1 t.2.1 t.2.2).Nodup ∧
      ∀ v ∈ make_neighlist Ngrid t.1 t.2.1 t.2.2, 0 ≤ v := by
  have ht' := mem_grid_triples.1 ht
  have hbox : ∀ k (i x : ℤ), k < 3 → 0 ≤ i ∧ i < Ngrid k → x ∈ axis_neighs (Ngrid k) i →
      0 ≤ x ∧ x < Ngrid k := fun k i x hk hi hx => ((mem_axis_neighs (hN k hk) hi).1 hx).1
  constructor
  · rw [make_neighlist_eq]
    refine nodup_flatMap_of_disjoint _ _ (nodup_axis_neighs _ (hN 0 (by norm_num)) ht'.1.1) ?_ ?_
    · intro a ha
      refine nodup_flatMap_of_disjoint _ _
        (nodup_axis_neighs _ (hN 1 (by norm_num)) ht'.2.1.1) ?_ ?_
      · intro b hb
        refine List.Nodup.map_on ?_ (nodup_axis_neighs _ (hN 2 (by norm_num)) ht'.2.2.1)
        intro c _ c' _ hcc
        exact (trip2int_inj (hbox 0 _ _ (by norm_num) ht'.1 ha)
          (hbox 1 _ _ (by norm_num) ht'.2.1 hb) (hbox 0 _ _ (by norm_num) ht'.1 ha)
          (hbox 1 _ _ (by norm_num) ht'.2.1 hb) hcc).2.2
      · intro b hb b' hb' y hy hy'
        obtain ⟨c, _, rfl⟩ := List.mem_map.1 hy
        obtain ⟨c', _, hcc⟩ := List.mem_map.1 hy'
        exact (trip2int_inj (hbox 0 _ _ (by norm_num) ht'.1 ha)
          (hbox 1 _ _ (by norm_num) ht'.2.1 hb') (hbox 0 _ _ (by norm_num) ht'.1 ha)
          (hbox 1 _ _ (by norm_num) ht'.2.1 hb) hcc).2.1.symm
    · intro a ha a' ha' y hy hy'
      obtain ⟨b, hb, hy⟩ := List.mem_flatMap.1 hy
      obtain ⟨c, _, rfl⟩ := List.mem_map.1 hy
      obtain ⟨b', hb', hy'⟩ := List.mem_flatMap.1 hy'
      obtain ⟨c', _, hcc⟩ := List.mem_map.1 hy'
      exact (trip2int_inj (hbox 0 _ _ (by norm_num) ht'.1 ha')
        (hbox 1 _ _ (by norm_num) ht'.2.1 hb') (hbox 0 _ _ (by norm_num) ht'.1 ha)
        (hbox 1 _ _ (by norm_num) ht'.2.1 hb) hcc).1.symm
  · intro v hv
    obtain ⟨a, ha, b, hb, c, hc, rfl⟩ := mem_make_neighlist.1 hv
    exact (trip2int_bounds (hbox 0 _ _ (by norm_num) ht'.1 ha)
      (hbox 1 _ _ (by norm_num) ht'.2.1 hb) (hbox 2 _ _ (by norm_num) ht'.2.2 hc)).1

theorem trip2int_mem_make_neighlist {Ngrid : ℕ → ℤ} (hN : ∀ k, k < 3 → 1 ≤ Ngrid k)
    {t : ℤ × ℤ × ℤ} (ht : t ∈ grid_triples Ngrid) {a b c : ℤ}
    (ha : 0 ≤ a ∧ a < Ngrid 0) (hb : 0 ≤ b ∧ b < Ngrid 1) :
    trip2int Ngrid a b c ∈ make_neighlist Ngrid t.1 t.2.1 t.2.2 ↔
      a ∈ axis_neighs (Ngrid 0) t.1 ∧ b ∈ axis_neighs (Ngrid 1) t.2.1 ∧
        c ∈ axis_neighs (Ngrid 2) t.2.2 := by
  have ht' := mem_grid_triples.1 ht
  rw [mem_make_neighlist]
  constructor
  · rintro ⟨a', ha', b', hb', c', hc', h⟩
    have ba := ((mem_axis_neighs (hN 0 (by norm_num)) ht'.1).1 ha').1
    have bb := ((mem_axis_neighs (hN 1 (by norm_num)) ht'.2.1).1 hb').1
    obtain ⟨rfl, rfl, rfl⟩ := trip2int_inj ba bb ha hb h
    exact ⟨ha', hb', hc'⟩
  · rintro ⟨h0, h1, h2⟩
    exact ⟨a, h0, b, h1, c, h2, rfl⟩

/-! ## nn_grid on a grid built by make_grid and populate_grid -/

theorem atom_triple_mem {Ngrid : ℕ → ℤ} {v : ℕ → α} (hN : ∀ k, k < 3 → 1 ≤ Ngrid k)
    (hv : ∀ k, k < 3 → 0 ≤ v k ∧ v k < 1) :
    (toInt (v 0 * (Ngrid 0 : α)), toInt (v 1 * (Ngrid 1 : α)), toInt (v 2 * (Ngrid 2 : α)))
      ∈ grid_triples Ngrid :=
  mem_grid_triples.2
    ⟨toInt_cell_bounds (hv 0 (by norm_num)).1 (hv 0 (by norm_num)).2 (hN 0 (by norm_num)),
     toInt_cell_bounds (hv 1 (by norm_num)).1 (hv 1 (by norm_num)).2 (hN 1 (by norm_num)),
     toInt_cell_bounds (hv 2 (by norm_num)).1 (hv 2 (by norm_num)).2 (hN 2 (by norm_num))⟩

/-- What `make_grid` followed by `populate_grid` builds, for atoms inside the cell. -/
theorem grid_built (Ngrid : ℕ → ℤ) (N : ℕ) (u : ℕ → ℕ → α)
    (hN : ∀ k, k < 3 → 1 ≤ Ngrid k)
    (hu : ∀ n, n < N → ∀ k, k < 3 → 0 ≤ u n k ∧ u n k < 1) :
    ∃ gl, populate_grid Ngrid (make_grid Ngrid) N u = some (gl, false) ∧
      (∀ c, cell_atoms (gl.getD c default) =
        (List.range N).filter (fun n => (grid_elem Ngrid (u n)).toNat = c)) ∧
      (∀ n, n < N → cell_neighs (gl.getD (grid_elem Ngrid (u n)).toNat default) =
        atom_neighs Ngrid u n) := by
  obtain ⟨gl, hgl, -, -, hc⟩ := populate_grid_spec Ngrid u (make_grid Ngrid) N
    (make_grid_length _) (fun n hn => grid_elem_bounds hN (hu n hn))
  refine ⟨gl, hgl, fun c => (hc c).1, ?_⟩
  intro n hn
  have h := make_grid_getElem? (atom_triple_mem hN (hu n hn))
  have e : (make_grid Ngrid).getD (grid_elem Ngrid (u n)).toNat default = make_cell Ngrid
      (toInt (u n 0 * (Ngrid 0 : α)), toInt (u n 1 * (Ngrid 1 : α)),
        toInt (u n 2 * (Ngrid 2 : α))) := by
    rw [List.getD_eq_getElem?_getD, grid_elem_eq_trip2int, h]; rfl
  unfold cell_neighs
  rw [(hc _).2.1, (hc _).2.2, e]
  unfold atom_neighs make_cell
  simp only
  rw [List.take_of_length_le]
  rw [length_make_neighlist]

theorem grid_pair_eq_some {sqrt : α → α} {cart : ℕ → α} {u : ℕ → ℕ → α} {Rcut : α} {i j : ℕ}
    {p : nn_pair_type α} (h : grid_pair sqrt cart u Rcut i j = some p) :
    p.i = i ∧ p.j = j ∧ p.r = sqrt (grid_r2 cart u i j) ∧ i ≠ j ∧
      grid_r2 cart u i j ≤ Rcut * Rcut := by
  unfold grid_pair at h
  split_ifs at h with h1 h2
  simp only [Option.some.injEq] at h
  subst h
  exact ⟨rfl, rfl, rfl, h1, not_lt.1 h2⟩

theorem grid_pair_isSome (sqrt : α → α) (cart : ℕ → α) (u : ℕ → ℕ → α) (Rcut : α) {i j : ℕ}
    (h1 : i ≠ j) (h2 : grid_r2 cart u i j ≤ Rcut * Rcut) :
    ∃ p, grid_pair sqrt cart u Rcut i j = some p := by
  unfold grid_pair
  rw [if_neg h1, if_neg (not_lt.2 h2)]
  exact ⟨_, rfl⟩

theorem mem_nn_grid (sqrt : α → α) (cart : ℕ → α) (Ngrid : ℕ → ℤ) (N : ℕ) (u : ℕ → ℕ → α)
    (Rcut : α) (gl : List grid_elem_type)
    (hN : ∀ k, k < 3 → 1 ≤ Ngrid k)
    (hu : ∀ n, n < N → ∀ k, k < 3 → 0 ≤ u n k ∧ u n k < 1)
    (hA : ∀ c, cell_atoms (gl.getD c default) =
      (List.range N).filter (fun n => (grid_elem Ngrid (u n)).toNat = c))
    (hNL : ∀ n, n < N → cell_neighs (gl.getD (grid_elem Ngrid (u n)).toNat default) =
      atom_neighs Ngrid u n) (p : nn_pair_type α) :
    p ∈ nn_grid sqrt cart (Ngrid 0 * Ngrid 1 * Ngrid 2).toNat gl u Rcut ↔
      ∃ i j, i < N ∧ j < N ∧ grid_elem Ngrid (u j) ∈ atom_neighs Ngrid u i ∧
        grid_pair sqrt cart u Rcut i j = some p := by
  unfold nn_grid
  simp only [List.mem_flatMap, List.mem_filterMap, List.mem_range, hA, List.mem_filter,
    decide_eq_true_eq]
  constructor
  · rintro ⟨ng, -, i, ⟨hi, rfl⟩, ngn, hngn, j, ⟨hj, hcj⟩, hp⟩
    rw [hNL i hi] at hngn
    refine ⟨i, j, hi, hj, ?_, hp⟩
    have h0 := (make_neighlist_facts hN (atom_triple_mem hN (hu i hi))).2 ngn hngn
    have h1 := (grid_elem_bounds hN (hu j hj)).1
    have : grid_elem Ngrid (u j) = ngn := by omega
    rw [this]
    exact hngn
  · rintro ⟨i, j, hi, hj, hmem, hp⟩
    have hb := grid_elem_bounds hN (hu i hi)
    refine ⟨(grid_elem Ngrid (u i)).toNat, by omega, i, ⟨hi, rfl⟩, grid_elem Ngrid (u j), ?_,
      j, ⟨hj, rfl⟩, hp⟩
    rw [hNL i hi]
    exact hmem

theorem nodup_nn_grid (sqrt : α → α) (cart : ℕ → α) (Ngrid : ℕ → ℤ) (N : ℕ) (u : ℕ → ℕ → α)
    (Rcut : α) (gl : List grid_elem_type)
    (hN : ∀ k, k < 3 → 1 ≤ Ngrid k)
    (hu : ∀ n, n < N → ∀ k, k < 3 → 0 ≤ u n k ∧ u n k < 1)
    (hA : ∀ c, cell_atoms (gl.getD c default) =
      (List.range N).filter (fun n => (grid_elem Ngrid (u n)).toNat = c))
    (hNL : ∀ n, n < N → cell_neighs (gl.getD (grid_elem Ngrid (u n)).toNat default) =
      atom_neighs Ngrid u n) :
    (nn_grid sqrt cart (Ngrid 0 * Ngrid 1 * Ngrid 2).toNat gl u Rcut).Nodup := by
  unfold nn_grid
  refine nodup_flatMap_of_disjoint _ _ (List.nodup_range _) ?_ ?_
  · intro ng _
    refine nodup_flatMap_of_disjoint _ _ (by rw [hA]; exact (List.nodup_range _).filter _) ?_ ?_
    · intro i hi
      rw [hA, List.mem_filter, List.mem_range, decide_eq_true_eq] at hi
      obtain ⟨hi, rfl⟩ := hi
      have hf := make_neighlist_facts hN (atom_triple_mem hN (hu i hi))
      refine nodup_flatMap_of_disjoint _ _ (by rw [hNL i hi]; exact hf.1) ?_ ?_
      · intro ngn _
        refine List.Nodup.filterMap ?_ (by rw [hA]; exact (List.nodup_range _).filter _)
        intro a a' b hb hb'
        rw [Option.mem_def] at hb hb'
        rw [← (grid_pair_eq_some hb).2.1, ← (grid_pair_eq_some hb').2.1]
      · intro ngn hngn ngn' hngn' y hy hy'
        rw [hNL i hi] at hngn hngn'
        have h0 := hf.2 ngn hngn
        have h0' := hf.2 ngn' hngn'
        simp only [List.mem_filterMap, hA, List.mem_filter, decide_eq_true_eq] at hy hy'
        obtain ⟨j, ⟨-, hj⟩, hp⟩ := hy
        obtain ⟨j', ⟨-, hj'⟩, hp'⟩ := hy'
        have e : j = j' := by
          rw [← (grid_pair_eq_some hp).2.1, ← (grid_pair_eq_some hp').2.1]
        subst e
        omega
    · intro i _ i' _ y hy hy'
      simp only [List.mem_flatMap, List.mem_filterMap] at hy hy'
      obtain ⟨_, _, j, _, hp⟩ := hy
      obtain ⟨_, _, j', _, hp'⟩ := hy'
      rw [← (grid_pair_eq_some hp).1, ← (grid_pair_eq_some hp').1]
  · intro ng _ ng' _ y hy hy'
    simp only [List.mem_flatMap, List.mem_filterMap, hA, List.mem_filter,
      decide_eq_true_eq] at hy hy'
    obtain ⟨i, ⟨-, hi⟩, _, _, j, _, hp⟩ := hy
    obtain ⟨i', ⟨-, hi'⟩, _, _, j', _, hp'⟩ := hy'
    have e : i = i' := by
      rw [← (grid_pair_eq_some hp).1, ← (grid_pair_eq_some hp').1]
    subst e
    omega

/-! ## Geometry: the cutoff sphere and the neighbour shell -/

theorem diff_spec {x : α} (h1 : -1 < x) (h2 : x < 1) :
    ∃ m : ℤ, -1 ≤ m ∧ m ≤ 1 ∧ diff x = x + (m : α) ∧ -(1 / 2) ≤ diff x ∧ diff x < 1 / 2 := by
  have h0 : (0 : α) ≤ x + 5 / 2 := by linarith
  have hf1 : (1 : ℤ) ≤ ⌊x + 5 / 2⌋ := by
    rw [Int.le_floor]; push_cast; linarith
  have hf2 : ⌊x + 5 / 2⌋ < 4 := by
    rw [Int.floor_lt]; push_cast; linarith
  have hl := Int.floor_le (x + 5 / 2)
  have hu := Int.lt_floor_add_one (x + 5 / 2)
  refine ⟨2 - ⌊x + 5 / 2⌋, by omega, by omega, ?_, ?_, ?_⟩
  · unfold diff
    rw [toInt_of_nonneg h0]
    push_cast
    ring
  · unfold diff
    rw [toInt_of_nonneg h0]
    linarith
  · unfold diff
    rw [toInt_of_nonneg h0]
    linarith

theorem axis_cell_near {n : ℤ} {ui uj : α} (hn : 1 ≤ n)
    (hi : 0 ≤ ui ∧ ui < 1) (hj : 0 ≤ uj ∧ uj < 1)
    (hd1 : -1 ≤ diff (uj - ui) * (n : α)) (hd2 : diff (uj - ui) * (n : α) ≤ 1) :
    toInt (uj * (n : α)) ∈ axis_neighs n (toInt (ui * (n : α))) := by
  have hbi := toInt_cell_bounds hi.1 hi.2 hn
  have hbj := toInt_cell_bounds hj.1 hj.2 hn
  rw [mem_axis_neighs hn hbi]
  refine ⟨hbj, Or.inr ?_⟩
  have hn' : (0 : α) < (n : α) := by exact_mod_cast (by omega : (0 : ℤ) < n)
  obtain ⟨m, -, -, hm, -, -⟩ := diff_spec (x := uj - ui) (by linarith) (by linarith)
  rw [toInt_of_nonneg (mul_nonneg hi.1 hn'.le), toInt_of_nonneg (mul_nonneg hj.1 hn'.le)]
  have e : uj * (n : α) = ui * (n : α) + diff (uj - ui) * (n : α) - ((m * n : ℤ) : α) := by
    rw [hm]; push_cast; ring
  refine ⟨⌊ui * (n : α) + diff (uj - ui) * (n : α)⌋ - ⌊ui * (n : α)⌋, -m, ?_, ?_, ?_⟩
  · have h1 : ⌊ui * (n : α)⌋ - 1 ≤ ⌊ui * (n : α) + diff (uj - ui) * (n : α)⌋ := by
      rw [Int.le_floor]
      have := Int.floor_le (ui * (n : α))
      push_cast
      linarith
    omega
  · have h1 : ⌊ui * (n : α) + diff (uj - ui) * (n : α)⌋ < ⌊ui * (n : α)⌋ + 2 := by
      rw [Int.floor_lt]
      have := Int.lt_floor_add_one (ui * (n : α))
      push_cast
      linarith
    omega
  · rw [e, Int.floor_sub_int]
    ring

theorem cauchy_schwarz3 (a b c x y z : α) :
    (a * x + b * y + c * z) * (a * x + b * y + c * z) ≤
      (a * a + b * b + c * c) * (x * x + y * y + z * z) := by
  nlinarith [sq_nonneg (a * y - b * x), sq_nonneg (a * z - c * x), sq_nonneg (b * z - c * y)]

/-- The component of a lattice vector along the normal of the plane of two basis vectors:
`e k` times the triple product is bounded by the length times the length of the normal. -/
theorem perp_bound (cart : ℕ → α) (e : ℕ → α) (k : ℕ) (hk : k < 3) :
    e k * e k * (triple_product cart * triple_product cart) ≤
      ((cart 0 * e 0 + cart 3 * e 1 + cart 6 * e 2) * (cart 0 * e 0 + cart 3 * e 1 + cart 6 * e 2)
        + (cart 1 * e 0 + cart 4 * e 1 + cart 7 * e 2) * (cart 1 * e 0 + cart 4 * e 1 + cart 7 * e 2)
        + (cart 2 * e 0 + cart 5 * e 1 + cart 8 * e 2) * (cart 2 * e 0 + cart 5 * e 1 + cart 8 * e 2))
      * ajXak_len cart k := by
  have h := fun l => cauchy_schwarz3 (cart 0 * e 0 + cart 3 * e 1 + cart 6 * e 2)
    (cart 1 * e 0 + cart 4 * e 1 + cart 7 * e 2) (cart 2 * e 0 + cart 5 * e 1 + cart 8 * e 2)
    (ajXak cart l 0) (ajXak cart l 1) (ajXak cart l 2)
  interval_cases k
  · have h0 := h 0
    have e0 : (cart 0 * e 0 + cart 3 * e 1 + cart 6 * e 2) * ajXak cart 0 0
        + (cart 1 * e 0 + cart 4 * e 1 + cart 7 * e 2) * ajXak cart 0 1
        + (cart 2 * e 0 + cart 5 * e 1 + cart 8 * e 2) * ajXak cart 0 2
        = e 0 * triple_product cart := by
      simp only [ajXak, triple_product]; norm_num; ring
    rw [e0] at h0
    unfold ajXak_len
    linarith
  · have h0 := h 1
    have e0 : (cart 0 * e 0 + cart 3 * e 1 + cart 6 * e 2) * ajXak cart 1 0
        + (cart 1 * e 0 + cart 4 * e 1 + cart 7 * e 2) * ajXak cart 1 1
        + (cart 2 * e 0 + cart 5 * e 1 + cart 8 * e 2) * ajXak cart 1 2
        = e 1 * triple_product cart := by
      simp only [ajXak, triple_product]; norm_num; ring
    rw [e0] at h0
    unfold ajXak_len
    linarith
  · have h0 := h 2
    have e0 : (cart 0 * e 0 + cart 3 * e 1 + cart 6 * e 2) * ajXak cart 2 0
        + (cart 1 * e 0 + cart 4 * e 1 + cart 7 * e 2) * ajXak cart 2 1
        + (cart 2 * e 0 + cart 5 * e 1 + cart 8 * e 2) * ajXak cart 2 2
        = e 2 * triple_product cart := by
      simp only [ajXak, triple_product]; norm_num; ring
    rw [e0] at h0
    unfold ajXak_len
    linarith

theorem ajXak_len_nonneg (cart : ℕ → α) (k : ℕ) : 0 ≤ ajXak_len cart k := by
  unfold ajXak_len
  nlinarith [mul_self_nonneg (ajXak cart k 0), mul_self_nonneg (ajXak cart k 1),
    mul_self_nonneg (ajXak cart k 2)]

theorem det_cart_nonneg (cart : ℕ → α) : 0 ≤ det_cart cart := by
  unfold det_cart
  split_ifs with h
  · linarith
  · exact not_lt.1 h

theorem det_cart_mul_self (cart : ℕ → α) :
    det_cart cart * det_cart cart = triple_product cart * triple_product cart := by
  unfold det_cart
  split_ifs <;> ring

theorem calc_len_nonneg {sqrt : α → α} (hsq : IsSqrt sqrt) (cart : ℕ → α) (k : ℕ) :
    0 ≤ calc_len sqrt cart k :=
  div_nonneg (det_cart_nonneg cart) (hsq _ (ajXak_len_nonneg cart k)).1

theorem calc_grid_ge_one {sqrt : α → α} (hsq : IsSqrt sqrt) (cart : ℕ → α) {Rcut : α}
    (hR : 0 < Rcut) (k : ℕ) : 1 ≤ calc_grid sqrt cart Rcut k := by
  have h0 : 0 ≤ calc_len sqrt cart k / Rcut := div_nonneg (calc_len_nonneg hsq cart k) hR.le
  have h1 : 0 ≤ toInt (calc_len sqrt cart k / Rcut) := by
    rw [toInt_of_nonneg h0]; exact Int.floor_nonneg.2 h0
  unfold calc_grid
  split_ifs <;> omega

/-- When `calc_grid` gives a direction two blocks or more, `Ngrid[k] * Rcut` is at most the
perpendicular spacing, with a positive normal length. -/
theorem calc_grid_spacing {sqrt : α → α} (hsq : IsSqrt sqrt) (cart : ℕ → α) {Rcut : α}
    (hR : 0 < Rcut) (k : ℕ) (h2 : 2 ≤ calc_grid sqrt cart Rcut k) :
    0 < sqrt (ajXak_len cart k) ∧
      (calc_grid sqrt cart Rcut k : α) * Rcut * sqrt (ajXak_len cart k) ≤ det_cart cart := by
  have h0 : 0 ≤ calc_len sqrt cart k / Rcut := div_nonneg (calc_len_nonneg hsq cart k) hR.le
  have hN : calc_grid sqrt cart Rcut k = ⌊calc_len sqrt cart k / Rcut⌋ := by
    unfold calc_grid at h2 ⊢
    split_ifs at h2 ⊢ with h
    · omega
    · exact toInt_of_nonneg h0
  have hle : (calc_grid sqrt cart Rcut k : α) ≤ calc_len sqrt cart k / Rcut := by
    rw [hN]; exact Int.floor_le _
  have hNpos : (2 : α) ≤ (calc_grid sqrt cart Rcut k : α) := by exact_mod_cast h2
  have hs := (hsq _ (ajXak_len_nonneg cart k)).1
  have hle2 : (calc_grid sqrt cart Rcut k : α) * Rcut ≤ calc_len sqrt cart k :=
    (le_div_iff₀ hR).1 hle
  have hspos : 0 < sqrt (ajXak_len cart k) := by
    rcases hs.lt_or_eq with h | h
    · exact h
    · exfalso
      unfold calc_len at hle2
      rw [← h, div_zero] at hle2
      nlinarith
  refine ⟨hspos, ?_⟩
  unfold calc_len at hle2
  exact (le_div_iff₀ hspos).1 hle2

/-- A lattice vector no longer than `Rcut` spans at most one block width along a direction
that `calc_grid` divides into two blocks or more. -/
theorem cutoff_within_block {sqrt : α → α} (hsq : IsSqrt sqrt) (cart : ℕ → α) {Rcut : α}
    (hR : 0 < Rcut) (e : ℕ → α) (k : ℕ) (hk : k < 3) (h2 : 2 ≤ calc_grid sqrt cart Rcut k)
    (hr2 : (cart 0 * e 0 + cart 3 * e 1 + cart 6 * e 2) * (cart 0 * e 0 + cart 3 * e 1 + cart 6 * e 2)
        + (cart 1 * e 0 + cart 4 * e 1 + cart 7 * e 2) * (cart 1 * e 0 + cart 4 * e 1 + cart 7 * e 2)
        + (cart 2 * e 0 + cart 5 * e 1 + cart 8 * e 2) * (cart 2 * e 0 + cart 5 * e 1 + cart 8 * e 2)
        ≤ Rcut * Rcut) :
    -1 ≤ e k * (calc_grid sqrt cart Rcut k : α) ∧ e k * (calc_grid sqrt cart Rcut k : α) ≤ 1 := by
  obtain ⟨hspos, hle⟩ := calc_grid_spacing hsq cart hR k h2
  have hpb := perp_bound cart e k hk
  have hss := (hsq _ (ajXak_len_nonneg cart k)).2
  have hNpos : (0 : α) < (calc_grid sqrt cart Rcut k : α) := by
    exact_mod_cast (by omega : (0 : ℤ) < calc_grid sqrt cart Rcut k)
  set Nk : α := (calc_grid sqrt cart Rcut k : α) with hNk
  set s : α := sqrt (ajXak_len cart k) with hs
  have hc : 0 < Rcut * s := mul_pos hR hspos
  -- (Nk * Rcut * s)^2 ≤ tp^2
  have h1 : (Nk * Rcut * s) * (Nk * Rcut * s) ≤ triple_product cart * triple_product cart := by
    rw [← det_cart_mul_self]
    exact mul_self_le_mul_self (by positivity) hle
  -- e^2 tp^2 ≤ Rcut^2 s^2
  have h2' : e k * e k * (triple_product cart * triple_product cart) ≤ (Rcut * s) * (Rcut * s) := by
    refine hpb.trans ?_
    rw [← hss]
    have h := mul_le_mul_of_nonneg_right hr2 (mul_self_nonneg s)
    calc _ ≤ Rcut * Rcut * (s * s) := h
      _ = (Rcut * s) * (Rcut * s) := by ring
  have h3 : (e k * Nk) * (e k * Nk) * ((Rcut * s) * (Rcut * s)) ≤ 1 * ((Rcut * s) * (Rcut * s)) :=
    calc (e k * Nk) * (e k * Nk) * ((Rcut * s) * (Rcut * s))
        = e k * e k * ((Nk * Rcut * s) * (Nk * Rcut * s)) := by ring
      _ ≤ e k * e k * (triple_product cart * triple_product cart) :=
          mul_le_mul_of_nonneg_left h1 (mul_self_nonneg _)
      _ ≤ (Rcut * s) * (Rcut * s) := h2'
      _ = 1 * ((Rcut * s) * (Rcut * s)) := (one_mul _).symm
  have h4 : (e k * Nk) * (e k * Nk) ≤ 1 :=
    le_of_mul_le_mul_right h3 (mul_pos hc hc)
  exact abs_le.1 (abs_le_one_iff_mul_self_le_one.2 h4)

/-! ## The grid path -/

theorem grid_r2_nonneg (cart : ℕ → α) (u : ℕ → ℕ → α) (i j : ℕ) : 0 ≤ grid_r2 cart u i j := by
  unfold grid_r2
  nlinarith [mul_self_nonneg (grid_vect cart u i j 0), mul_self_nonneg (grid_vect cart u i j 1),
    mul_self_nonneg (grid_vect cart u i j 2)]

theorem sqrt_le_iff {sqrt : α → α} (hsq : IsSqrt sqrt) {x R : α} (hx : 0 ≤ x) (hR : 0 < R) :
    sqrt x ≤ R ↔ x ≤ R * R := by
  obtain ⟨h0, h1⟩ := hsq x hx
  constructor
  · intro h
    rw [← h1]
    exact mul_self_le_mul_self h0 h
  · intro h
    by_contra hc
    have := mul_self_lt_mul_self hR.le (not_le.1 hc)
    linarith

theorem grid_r2_eq (cart : ℕ → α) (u : ℕ → ℕ → α) (i j : ℕ) :
    grid_r2 cart u i j =
      (cart 0 * diff (u j 0 - u i 0) + cart 3 * diff (u j 1 - u i 1)
          + cart 6 * diff (u j 2 - u i 2))
        * (cart 0 * diff (u j 0 - u i 0) + cart 3 * diff (u j 1 - u i 1)
          + cart 6 * diff (u j 2 - u i 2))
      + (cart 1 * diff (u j 0 - u i 0) + cart 4 * diff (u j 1 - u i 1)
          + cart 7 * diff (u j 2 - u i 2))
        * (cart 1 * diff (u j 0 - u i 0) + cart 4 * diff (u j 1 - u i 1)
          + cart 7 * diff (u j 2 - u i 2))
      + (cart 2 * diff (u j 0 - u i 0) + cart 5 * diff (u j 1 - u i 1)
          + cart 8 * diff (u j 2 - u i 2))
        * (cart 2 * diff (u j 0 - u i 0) + cart 5 * diff (u j 1 - u i 1)
          + cart 8 * diff (u j 2 - u i 2)) := by
  simp only [grid_r2, grid_vect, zero_add, Nat.add_zero]

/-- Within the cutoff, the block of `j` is in the neighbour list of the block of `i`. -/
theorem neigh_of_within_cutoff {sqrt : α → α} (hsq : IsSqrt sqrt) (cart : ℕ → α) (N : ℕ)
    (u : ℕ → ℕ → α) {Rcut : α} (hR : 0 < Rcut)
    (hu : ∀ n, n < N → ∀ k, k < 3 → 0 ≤ u n k ∧ u n k < 1) {i j : ℕ} (hi : i < N) (hj : j < N)
    (hr2 : grid_r2 cart u i j ≤ Rcut * Rcut) :
    grid_elem (calc_grid sqrt cart Rcut) (u j) ∈ atom_neighs (calc_grid sqrt cart Rcut) u i := by
  have hN : ∀ k, k < 3 → 1 ≤ calc_grid sqrt cart Rcut k :=
    fun k _ => calc_grid_ge_one hsq cart hR k
  rw [grid_r2_eq] at hr2
  have hax : ∀ k, k < 3 → toInt (u j k * (calc_grid sqrt cart Rcut k : α)) ∈
      axis_neighs (calc_grid sqrt cart Rcut k)
        (toInt (u i k * (calc_grid sqrt cart Rcut k : α))) := by
    intro k hk
    by_cases h2 : 2 ≤ calc_grid sqrt cart Rcut k
    · have := cutoff_within_block hsq cart hR (fun m => diff (u j m - u i m)) k hk h2 hr2
      exact axis_cell_near (hN k hk) (hu i hi k hk) (hu j hj k hk) this.1 this.2
    · rw [mem_axis_neighs (hN k hk)
        (toInt_cell_bounds (hu i hi k hk).1 (hu i hi k hk).2 (hN k hk))]
      exact ⟨toInt_cell_bounds (hu j hj k hk).1 (hu j hj k hk).2 (hN k hk), Or.inl (by omega)⟩
  rw [grid_elem_eq_trip2int]
  unfold atom_neighs
  exact (trip2int_mem_make_neighlist hN (atom_triple_mem hN (hu i hi))
    (toInt_cell_bounds (hu j hj 0 (by norm_num)).1 (hu j hj 0 (by norm_num)).2 (hN 0 (by norm_num)))
    (toInt_cell_bounds (hu j hj 1 (by norm_num)).1 (hu j hj 1 (by norm_num)).2
      (hN 1 (by norm_num)))).2
    ⟨hax 0 (by norm_num), hax 1 (by norm_num), hax 2 (by norm_num)⟩

/-- The grid path runs to the end and writes, without repetition, exactly the records of
the pairs `i ≠ j` whose folded separation is within the cutoff. -/
theorem grid_path_spec {sqrt : α → α} (hsq : IsSqrt sqrt) (cart : ℕ → α) (N : ℕ)
    (u : ℕ → ℕ → α) (Rcut : α) (hR : 0 < Rcut)
    (hu : ∀ n, n < N → ∀ k, k < 3 → 0 ≤ u n k ∧ u n k < 1) :
    ∃ out, grid_path sqrt cart N u Rcut = some out ∧ out.Nodup ∧
      ∀ p, p ∈ out ↔ ∃ i j, i < N ∧ j < N ∧ grid_pair sqrt cart u Rcut i j = some p := by
  have hN : ∀ k, k < 3 → 1 ≤ calc_grid sqrt cart Rcut k :=
    fun k _ => calc_grid_ge_one hsq cart hR k
  obtain ⟨gl, hgl, hA, hNL⟩ := grid_built (calc_grid sqrt cart Rcut) N u hN hu
  refine ⟨_, by unfold grid_path; rw [hgl],
    nodup_nn_grid sqrt cart _ N u Rcut gl hN hu hA hNL, ?_⟩
  intro p
  rw [mem_nn_grid sqrt cart _ N u Rcut gl hN hu hA hNL]
  constructor
  · rintro ⟨i, j, hi, hj, -, hp⟩
    exact ⟨i, j, hi, hj, hp⟩
  · rintro ⟨i, j, hi, hj, hp⟩
    exact ⟨i, j, hi, hj,
      neigh_of_within_cutoff hsq cart N u hR hu hi hj (grid_pair_eq_some hp).2.2.2.2, hp⟩

theorem countP_le_one_of_nodup {β : Type} (l : List β) (q : β → Bool) (hl : l.Nodup)
    (h : ∀ x ∈ l, ∀ y ∈ l, q x = true → q y = true → x = y) : l.countP q ≤ 1 := by
  induction l with
  | nil => simp
  | cons a t ih =>
    rw [List.nodup_cons] at hl
    have iht := ih hl.2 (fun x hx y hy => h x (List.mem_cons_of_mem _ hx) y
      (List.mem_cons_of_mem _ hy))
    rw [List.countP_cons]
    by_cases ha : q a = true
    · have : t.countP q = 0 := by
        rw [List.countP_eq_zero]
        intro x hx hqx
        have := h a (List.mem_cons_self _ _) x (List.mem_cons_of_mem _ hx) ha hqx
        exact hl.1 (this ▸ hx)
      simp [ha, this]
    · simp [ha, iht]

theorem countP_eq_ite_of_nodup {β : Type} (l : List β) (q : β → Bool) (hl : l.Nodup)
    (h : ∀ x ∈ l, ∀ y ∈ l, q x = true → q y = true → x = y) (c : Prop) [Decidable c]
    (hc : c ↔ ∃ x ∈ l, q x = true) : l.countP q = if c then 1 else 0 := by
  have h1 := countP_le_one_of_nodup l q hl h
  split_ifs with hcc
  · have := List.countP_pos_iff.2 (hc.1 hcc)
    omega
  · rw [List.countP_eq_zero]
    intro x hx hqx
    exact hcc (hc.2 ⟨x, hx, hqx⟩)

/-- With exact arithmetic and unbounded integers: for a non-singular lattice, a positive
cutoff and atoms inside the cell, the grid
path (`calc_grid`, `make_grid`, `populate_grid`, `nn_grid`) runs to the end; it writes a
record with atoms `i`, `j` and length `r` exactly when `i ≠ j` and `r`, the length of the
folded separation, is at most `Rcut`; and every such ordered pair is written exactly once. -/
theorem grid_path_emits_iff (sqrt : α → α) (hsq : IsSqrt sqrt) (cart : ℕ → α) (Natoms : ℕ)
    (u : ℕ → ℕ → α) (Rcut : α) (_hdet : triple_product cart ≠ 0) (hR : 0 < Rcut)
    (hu : ∀ n, n < Natoms → ∀ k, k < 3 → 0 ≤ u n k ∧ u n k < 1) :
    ∃ out, grid_path sqrt cart Natoms u Rcut = some out ∧
      (∀ i j r, (∃ p ∈ out, p.i = i ∧ p.j = j ∧ p.r = r) ↔
        (i < Natoms ∧ j < Natoms ∧ i ≠ j ∧ r = sqrt (grid_r2 cart u i j) ∧ r ≤ Rcut)) ∧
      (∀ i j, out.countP (fun p => decide (p.i = i ∧ p.j = j)) =
        if i < Natoms ∧ j < Natoms ∧ i ≠ j ∧ sqrt (grid_r2 cart u i j) ≤ Rcut then 1 else 0) := by
  obtain ⟨out, hout, hnd, hmem⟩ := grid_path_spec hsq cart Natoms u Rcut hR hu
  have key : ∀ i j, (∃ p ∈ out, p.i = i ∧ p.j = j) ↔
      (i < Natoms ∧ j < Natoms ∧ i ≠ j ∧ sqrt (grid_r2 cart u i j) ≤ Rcut) := by
    intro i j
    constructor
    · rintro ⟨p, hp, rfl, rfl⟩
      obtain ⟨i, j, hi, hj, hij⟩ := (hmem p).1 hp
      obtain ⟨e1, e2, -, hne, hr⟩ := grid_pair_eq_some hij
      rw [e1, e2]
      exact ⟨hi, hj, hne, (sqrt_le_iff hsq (grid_r2_nonneg _ _ _ _) hR).2 hr⟩
    · rintro ⟨hi, hj, hne, hr⟩
      obtain ⟨p, hp⟩ := grid_pair_isSome sqrt cart u Rcut hne
        ((sqrt_le_iff hsq (grid_r2_nonneg cart u i j) hR).1 hr)
      exact ⟨p, (hmem p).2 ⟨i, j, hi, hj, hp⟩, (grid_pair_eq_some hp).1,
        (grid_pair_eq_some hp).2.1⟩
  refine ⟨out, hout, ?_, ?_⟩
  · intro i j r
    constructor
    · rintro ⟨p, hp, rfl, rfl, rfl⟩
      obtain ⟨i, j, hi, hj, hij⟩ := (hmem p).1 hp
      obtain ⟨e1, e2, e3, hne, hr⟩ := grid_pair_eq_some hij
      rw [e1, e2, e3]
      exact ⟨hi, hj, hne, rfl, (sqrt_le_iff hsq (grid_r2_nonneg _ _ _ _) hR).2 hr⟩
    · rintro ⟨hi, hj, hne, hr, hle⟩
      subst hr
      obtain ⟨p, hp⟩ := grid_pair_isSome sqrt cart u Rcut hne
        ((sqrt_le_iff hsq (grid_r2_nonneg cart u i j) hR).1 hle)
      exact ⟨p, (hmem p).2 ⟨i, j, hi, hj, hp⟩, (grid_pair_eq_some hp).1,
        (grid_pair_eq_some hp).2.1, (grid_pair_eq_some hp).2.2.1⟩
  · intro i j
    refine countP_eq_ite_of_nodup out _ hnd ?_ _ ?_
    · intro x hx y hy hqx hqy
      simp only [decide_eq_true_eq] at hqx hqy
      obtain ⟨a, b, -, -, hab⟩ := (hmem x).1 hx
      obtain ⟨a', b', -, -, hab'⟩ := (hmem y).1 hy
      have e1 := (grid_pair_eq_some hab).1
      have e2 := (grid_pair_eq_some hab).2.1
      have e1' := (grid_pair_eq_some hab').1
      have e2' := (grid_pair_eq_some hab').2.1
      have ea : a = a' := by omega
      have eb : b = b' := by omega
      subst ea eb
      rw [hab] at hab'
      exact Option.some.inj hab'
    · rw [← key i j]
      simp only [decide_eq_true_eq]

/-! ## Concrete inputs -/

theorem isSqrt_real : IsSqrt Real.sqrt :=
  fun x hx => ⟨Real.sqrt_nonneg x, Real.mul_self_sqrt hx⟩

theorem sqrt_eq_of_mul_self {sqrt : α → α} (hsq : IsSqrt sqrt) {x y : α} (hy : 0 ≤ y)
    (h : y * y = x) : sqrt x = y := by
  have hx : 0 ≤ x := by rw [← h]; exact mul_self_nonneg y
  obtain ⟨h0, h1⟩ := hsq x hx
  exact (mul_self_inj h0 hy).1 (h1.trans h.symm)

theorem diff_of_floor {x : α} (k : ℤ) (h1 : (k : α) ≤ x + 5 / 2) (h2 : x + 5 / 2 < (k : α) + 1)
    (hk : 0 ≤ k) : diff x = x + 2 - (k : α) := by
  have h0 : (0 : α) ≤ x + 5 / 2 := le_trans (by exact_mod_cast hk) h1
  unfold diff
  rw [toInt_of_nonneg h0, Int.floor_eq_iff.2 ⟨h1, h2⟩]

theorem diff_zero : diff (0 : α) = 0 := by
  rw [diff_of_floor 2 (by norm_num) (by norm_num) (by norm_num)]; norm_num

theorem diff_half : diff (1 / 2 : α) = -(1 / 2) := by
  rw [diff_of_floor 3 (by norm_num) (by norm_num) (by norm_num)]; norm_num

theorem diff_neg_half : diff (-(1 / 2) : α) = -(1 / 2) := by
  rw [diff_of_floor 2 (by norm_num) (by norm_num) (by norm_num)]; norm_num

theorem diff_quarter : diff (1 / 4 : α) = 1 / 4 := by
  rw [diff_of_floor 2 (by norm_num) (by norm_num) (by norm_num)]; norm_num

theorem diff_neg_quarter : diff (-(1 / 4) : α) = -(1 / 4) := by
  rw [diff_of_floor 2 (by norm_num) (by norm_num) (by norm_num)]; norm_num

theorem atoms_two_inside (a b c : α) (ha : 0 ≤ a ∧ a < 1) (hb : 0 ≤ b ∧ b < 1)
    (hc : 0 ≤ c ∧ c < 1) :
    ∀ n, n < 2 → ∀ k, k < 3 → 0 ≤ atoms [[0, 0, 0], [a, b, c]] n k ∧
      atoms [[0, 0, 0], [a, b, c]] n k < 1 := by
  intro n hn k hk
  interval_cases n <;> interval_cases k <;> simp [atoms, ha, hb, hc]

theorem grid_r2_skew_01 :
    grid_r2 (arr [(1 : α), 0, 0, 3, 4, 0, 0, 0, 1]) (atoms [[0, 0, 0], [1 / 2, 1 / 4, 0]]) 0 1
      = 17 / 16 := by
  have e0 : atoms [[(0 : α), 0, 0], [1 / 2, 1 / 4, 0]] 1 0
      - atoms [[(0 : α), 0, 0], [1 / 2, 1 / 4, 0]] 0 0 = 1 / 2 := by simp [atoms]
  have e1 : atoms [[(0 : α), 0, 0], [1 / 2, 1 / 4, 0]] 1 1
      - atoms [[(0 : α), 0, 0], [1 / 2, 1 / 4, 0]] 0 1 = 1 / 4 := by simp [atoms]
  have e2 : atoms [[(0 : α), 0, 0], [1 / 2, 1 / 4, 0]] 1 2
      - atoms [[(0 : α), 0, 0], [1 / 2, 1 / 4, 0]] 0 2 = 0 := by simp [atoms]
  rw [grid_r2_eq, e0, e1, e2, diff_half, diff_quarter, diff_zero]
  norm_num [arr]

theorem grid_r2_skew_10 :
    grid_r2 (arr [(1 : α), 0, 0, 3, 4, 0, 0, 0, 1]) (atoms [[0, 0, 0], [1 / 2, 1 / 4, 0]]) 1 0
      = 41 / 16 := by
  have e0 : atoms [[(0 : α), 0, 0], [1 / 2, 1 / 4, 0]] 0 0
      - atoms [[(0 : α), 0, 0], [1 / 2, 1 / 4, 0]] 1 0 = -(1 / 2) := by simp [atoms]
  have e1 : atoms [[(0 : α), 0, 0], [1 / 2, 1 / 4, 0]] 0 1
      - atoms [[(0 : α), 0, 0], [1 / 2, 1 / 4, 0]] 1 1 = -(1 / 4) := by simp [atoms]
  have e2 : atoms [[(0 : α), 0, 0], [1 / 2, 1 / 4, 0]] 0 2
      - atoms [[(0 : α), 0, 0], [1 / 2, 1 / 4, 0]] 1 2 = 0 := by simp [atoms]
  rw [grid_r2_eq, e0, e1, e2, diff_neg_half, diff_neg_quarter, diff_zero]
  norm_num [arr]

/-- C4 (the code at the failing input): for the skewed lattice `a1 = (1,0,0)`,
`a2 = (3,4,0)`, `a3 = (0,0,1)`, the atoms `(0,0,0)` and `(1/2,1/4,0)` and the cutoff `5/4`,
the grid path writes a record for the bond `0`-`1` and none for the bond `1`-`0`. -/
theorem grid_path_not_symmetric :
    ∃ out, grid_path Real.sqrt (arr [(1 : ℝ), 0, 0, 3, 4, 0, 0, 0, 1]) 2
        (atoms [[0, 0, 0], [1 / 2, 1 / 4, 0]]) (5 / 4) = some out ∧
      (∃ p ∈ out, p.i = 0 ∧ p.j = 1) ∧ ¬ ∃ p ∈ out, p.i = 1 ∧ p.j = 0 := by
  obtain ⟨out, hout, -, hmem⟩ := grid_path_spec isSqrt_real
    (arr [(1 : ℝ), 0, 0, 3, 4, 0, 0, 0, 1]) 2 (atoms [[0, 0, 0], [1 / 2, 1 / 4, 0]])
    (5 / 4) (by norm_num)
    (atoms_two_inside _ _ _ (by norm_num) (by norm_num) (by norm_num))
  refine ⟨out, hout, ?_, ?_⟩
  · obtain ⟨p, hp⟩ := grid_pair_isSome Real.sqrt (arr [(1 : ℝ), 0, 0, 3, 4, 0, 0, 0, 1])
      (atoms [[0, 0, 0], [1 / 2, 1 / 4, 0]]) (5 / 4) (i := 0) (j := 1)
      (by decide) (by rw [grid_r2_skew_01]; norm_num)
    exact ⟨p, (hmem p).2 ⟨0, 1, by norm_num, by norm_num, hp⟩, (grid_pair_eq_some hp).1,
      (grid_pair_eq_some hp).2.1⟩
  · rintro ⟨p, hp, hi, hj⟩
    obtain ⟨i, j, -, -, hij⟩ := (hmem p).1 hp
    obtain ⟨e1, e2, -, -, hr⟩ := grid_pair_eq_some hij
    rw [← e1, ← e2, hi, hj, grid_r2_skew_10] at hr
    norm_num at hr

theorem grid_r2_cubic_01 :
    grid_r2 (arr [(1 : α), 0, 0, 0, 1, 0, 0, 0, 1]) (atoms [[0, 0, 0], [1 / 2, 0, 0]]) 0 1
      = 1 / 4 := by
  have e0 : atoms [[(0 : α), 0, 0], [1 / 2, 0, 0]] 1 0
      - atoms [[(0 : α), 0, 0], [1 / 2, 0, 0]] 0 0 = 1 / 2 := by simp [atoms]
  have e1 : atoms [[(0 : α), 0, 0], [1 / 2, 0, 0]] 1 1
      - atoms [[(0 : α), 0, 0], [1 / 2, 0, 0]] 0 1 = 0 := by simp [atoms]
  have e2 : atoms [[(0 : α), 0, 0], [1 / 2, 0, 0]] 1 2
      - atoms [[(0 : α), 0, 0], [1 / 2, 0, 0]] 0 2 = 0 := by simp [atoms]
  rw [grid_r2_eq, e0, e1, e2, diff_half, diff_zero]
  norm_num [arr]

theorem grid_r2_cubic_10 :
    grid_r2 (arr [(1 : α), 0, 0, 0, 1, 0, 0, 0, 1]) (atoms [[0, 0, 0], [1 / 2, 0, 0]]) 1 0
      = 1 / 4 := by
  have e0 : atoms [[(0 : α), 0, 0], [1 / 2, 0, 0]] 0 0
      - atoms [[(0 : α), 0, 0], [1 / 2, 0, 0]] 1 0 = -(1 / 2) := by simp [atoms]
  have e1 : atoms [[(0 : α), 0, 0], [1 / 2, 0, 0]] 0 1
      - atoms [[(0 : α), 0, 0], [1 / 2, 0, 0]] 1 1 = 0 := by simp [atoms]
  have e2 : atoms [[(0 : α), 0, 0], [1 / 2, 0, 0]] 0 2
      - atoms [[(0 : α), 0, 0], [1 / 2, 0, 0]] 1 2 = 0 := by simp [atoms]
  rw [grid_r2_eq, e0, e1, e2, diff_neg_half, diff_zero]
  norm_num [arr]

theorem grid_pair_self (sqrt : α → α) (cart : ℕ → α) (u : ℕ → ℕ → α) (Rcut : α) (i : ℕ) :
    grid_pair sqrt cart u Rcut i i = none := by
  unfold grid_pair
  rw [if_pos rfl]

/-- C5: for the unit cubic basis, cutoff `0.6` and the two atoms `(0,0,0)`, `(0.5,0,0)`, the
grid path returns exactly two records, one for `(0,1)` and one for `(1,0)`, each of
length `0.5`. -/
theorem grid_path_two_atoms :
    ∃ out, grid_path Real.sqrt (arr [(1 : ℝ), 0, 0, 0, 1, 0, 0, 0, 1]) 2
        (atoms [[0, 0, 0], [1 / 2, 0, 0]]) (3 / 5) = some out ∧
      out.length = 2 ∧
      (∃ p ∈ out, p.i = 0 ∧ p.j = 1 ∧ p.r = 1 / 2) ∧
      (∃ p ∈ out, p.i = 1 ∧ p.j = 0 ∧ p.r = 1 / 2) := by
  obtain ⟨out, hout, hnd, hmem⟩ := grid_path_spec isSqrt_real
    (arr [(1 : ℝ), 0, 0, 0, 1, 0, 0, 0, 1]) 2 (atoms [[0, 0, 0], [1 / 2, 0, 0]])
    (3 / 5) (by norm_num)
    (atoms_two_inside _ _ _ (by norm_num) (by norm_num) (by norm_num))
  have hs : Real.sqrt (1 / 4) = 1 / 2 :=
    sqrt_eq_of_mul_self isSqrt_real (by norm_num) (by norm_num)
  obtain ⟨p, hp⟩ := grid_pair_isSome Real.sqrt (arr [(1 : ℝ), 0, 0, 0, 1, 0, 0, 0, 1])
    (atoms [[0, 0, 0], [1 / 2, 0, 0]]) (3 / 5) (i := 0) (j := 1)
    (by decide) (by rw [grid_r2_cubic_01]; norm_num)
  obtain ⟨q, hq⟩ := grid_pair_isSome Real.sqrt (arr [(1 : ℝ), 0, 0, 0, 1, 0, 0, 0, 1])
    (atoms [[0, 0, 0], [1 / 2, 0, 0]]) (3 / 5) (i := 1) (j := 0)
    (by decide) (by rw [grid_r2_cubic_10]; norm_num)
  obtain ⟨p1, p2, p3, -, -⟩ := grid_pair_eq_some hp
  obtain ⟨q1, q2, q3, -, -⟩ := grid_pair_eq_some hq
  rw [grid_r2_cubic_01, hs] at p3
  rw [grid_r2_cubic_10, hs] at q3
  have hpq : p ≠ q := by
    intro h
    rw [h, q1] at p1
    exact absurd p1 (by decide)
  have hperm : out.Perm [p, q] := by
    refine (List.perm_ext_iff_of_nodup hnd (by simp [hpq])).2 ?_
    intro a
    rw [hmem a]
    simp only [List.mem_cons, List.mem_singleton, List.not_mem_nil, or_false]
    constructor
    · rintro ⟨i, j, hi, hj, hij⟩
      interval_cases i <;> interval_cases j
      · rw [grid_pair_self] at hij; exact absurd hij (by simp)
      · rw [hp] at hij; exact Or.inl (Option.some.inj hij).symm
      · rw [hq] at hij; exact Or.inr (Option.some.inj hij).symm
      · rw [grid_pair_self] at hij; exact absurd hij (by simp)
    · rintro (rfl | rfl)
      · exact ⟨0, 1, by norm_num, by norm_num, hp⟩
      · exact ⟨1, 0, by norm_num, by norm_num, hq⟩
  refine ⟨out, hout, by rw [hperm.length_eq]; rfl, ⟨p, hperm.mem_iff.2 (by simp), p1, p2, p3⟩,
    ⟨q, hperm.mem_iff.2 (by simp), q1, q2, q3⟩⟩

theorem triple_product_cubic : triple_product (arr [(1 : ℝ), 0, 0, 0, 1, 0, 0, 0, 1]) ≠ 0 := by
  norm_num [triple_product, arr]

theorem grid_path_emits_iff_witness :
    IsSqrt Real.sqrt ∧ triple_product (arr [(1 : ℝ), 0, 0, 0, 1, 0, 0, 0, 1]) ≠ 0 ∧
    (0 : ℝ) < 3 / 5 ∧
    (∀ n, n < 2 → ∀ k, k < 3 → 0 ≤ atoms [[(0 : ℝ), 0, 0], [1 / 2, 0, 0]] n k ∧
      atoms [[(0 : ℝ), 0, 0], [1 / 2, 0, 0]] n k < 1) ∧
    ∃ out, grid_path Real.sqrt (arr [(1 : ℝ), 0, 0, 0, 1, 0, 0, 0, 1]) 2
        (atoms [[0, 0, 0], [1 / 2, 0, 0]]) (3 / 5) = some out ∧
      (∀ i j r, (∃ p ∈ out, p.i = i ∧ p.j = j ∧ p.r = r) ↔
        (i < 2 ∧ j < 2 ∧ i ≠ j ∧
          r = Real.sqrt (grid_r2 (arr [(1 : ℝ), 0, 0, 0, 1, 0, 0, 0, 1])
            (atoms [[0, 0, 0], [1 / 2, 0, 0]]) i j) ∧ r ≤ 3 / 5)) ∧
      (∀ i j, out.countP (fun p => decide (p.i = i ∧ p.j = j)) =
        if i < 2 ∧ j < 2 ∧ i ≠ j ∧
          Real.sqrt (grid_r2 (arr [(1 : ℝ), 0, 0, 0, 1, 0, 0, 0, 1])
            (atoms [[0, 0, 0], [1 / 2, 0, 0]]) i j) ≤ 3 / 5 then 1 else 0) :=
  ⟨isSqrt_real, triple_product_cubic, by norm_num,
    atoms_two_inside _ _ _ (by norm_num) (by norm_num) (by norm_num),
    grid_path_emits_iff Real.sqrt isSqrt_real _ 2 _ (3 / 5) triple_product_cubic (by norm_num)
      (atoms_two_inside _ _ _ (by norm_num) (by norm_num) (by norm_num))⟩

/-! ## Symmetry of the pair list -/

theorem diff_neg {x : α} (h1 : -1 < x) (h2 : x < 1) (h3 : x ≠ 1 / 2) (h4 : x ≠ -(1 / 2)) :
    diff (-x) = -diff x := by
  rcases lt_trichotomy x (-(1 / 2)) with h | h | h
  · rw [diff_of_floor (x := x) 1 (by push_cast; linarith) (by push_cast; linarith) (by norm_num),
      diff_of_floor (x := -x) 3 (by push_cast; linarith) (by push_cast; linarith) (by norm_num)]
    push_cast
    ring
  · exact absurd h h4
  · rcases lt_trichotomy x (1 / 2) with h' | h' | h'
    · rw [diff_of_floor (x := x) 2 (by push_cast; linarith) (by push_cast; linarith)
          (by norm_num),
        diff_of_floor (x := -x) 2 (by push_cast; linarith) (by push_cast; linarith)
          (by norm_num)]
      push_cast
      ring
    · exact absurd h' h3
    · rw [diff_of_floor (x := x) 3 (by push_cast; linarith) (by push_cast; linarith)
          (by norm_num),
        diff_of_floor (x := -x) 1 (by push_cast; linarith) (by push_cast; linarith)
          (by norm_num)]
      push_cast
      ring

theorem grid_r2_symm (cart : ℕ → α) (N : ℕ) (u : ℕ → ℕ → α)
    (hu : ∀ n, n < N → ∀ k, k < 3 → 0 ≤ u n k ∧ u n k < 1)
    (hgen : ∀ i j, i < N → j < N → ∀ k, k < 3 → u j k - u i k ≠ 1 / 2)
    {i j : ℕ} (hi : i < N) (hj : j < N) : grid_r2 cart u j i = grid_r2 cart u i j := by
  have h : ∀ k, k < 3 → diff (u i k - u j k) = -diff (u j k - u i k) := by
    intro k hk
    have e : u i k - u j k = -(u j k - u i k) := by ring
    rw [e]
    have hi' := hu i hi k hk
    have hj' := hu j hj k hk
    refine diff_neg (by linarith) (by linarith) (hgen i j hi hj k hk) ?_
    intro hc
    exact hgen j i hj hi k hk (by linarith)
  rw [grid_r2_eq, grid_r2_eq, h 0 (by norm_num), h 1 (by norm_num), h 2 (by norm_num)]
  ring

theorem atom_neighs_symm {Ngrid : ℕ → ℤ} (N : ℕ) (u : ℕ → ℕ → α)
    (hN : ∀ k, k < 3 → 1 ≤ Ngrid k)
    (hu : ∀ n, n < N → ∀ k, k < 3 → 0 ≤ u n k ∧ u n k < 1)
    {i j : ℕ} (hi : i < N) (hj : j < N) :
    grid_elem Ngrid (u j) ∈ atom_neighs Ngrid u i ↔
      grid_elem Ngrid (u i) ∈ atom_neighs Ngrid u j := by
  have hb : ∀ n, n < N → ∀ k, k < 3 → 0 ≤ toInt (u n k * (Ngrid k : α)) ∧
      toInt (u n k * (Ngrid k : α)) < Ngrid k :=
    fun n hn k hk => toInt_cell_bounds (hu n hn k hk).1 (hu n hn k hk).2 (hN k hk)
  rw [grid_elem_eq_trip2int, grid_elem_eq_trip2int]
  unfold atom_neighs
  rw [trip2int_mem_make_neighlist hN (atom_triple_mem hN (hu i hi)) (hb j hj 0 (by norm_num))
      (hb j hj 1 (by norm_num)),
    trip2int_mem_make_neighlist hN (atom_triple_mem hN (hu j hj)) (hb i hi 0 (by norm_num))
      (hb i hi 1 (by norm_num))]
  simp only
  rw [axis_neighs_symm (hN 0 (by norm_num)) (hb i hi 0 (by norm_num)) (hb j hj 0 (by norm_num)),
    axis_neighs_symm (hN 1 (by norm_num)) (hb i hi 1 (by norm_num)) (hb j hj 1 (by norm_num)),
    axis_neighs_symm (hN 2 (by norm_num)) (hb i hi 2 (by norm_num)) (hb j hj 2 (by norm_num))]

theorem even_length_of_swap_symm (l : List (ℕ × ℕ)) (hnd : l.Nodup)
    (hirr : ∀ x ∈ l, x.1 ≠ x.2) (hsym : ∀ x ∈ l, x.swap ∈ l) : Even l.length := by
  rw [← List.toFinset_card_of_nodup hnd, ← ZMod.eq_zero_iff_even, Finset.card_eq_sum_ones,
    Nat.cast_sum]
  refine Finset.sum_involution (fun a _ => a.swap) ?_ ?_ ?_ ?_
  · intro a _
    decide
  · intro a ha _ hc
    have := hirr a (List.mem_toFinset.1 ha)
    apply this
    have := congrArg Prod.fst hc
    simpa using this.symm
  · intro a ha
    exact List.mem_toFinset.2 (hsym a (List.mem_toFinset.1 ha))
  · intro a _
    exact Prod.swap_swap a

theorem countP_eq_of_nodup_of_iff {β : Type} (l : List β) (q1 q2 : β → Bool) (hl : l.Nodup)
    (h1 : ∀ x ∈ l, ∀ y ∈ l, q1 x = true → q1 y = true → x = y)
    (h2 : ∀ x ∈ l, ∀ y ∈ l, q2 x = true → q2 y = true → x = y)
    (h : (∃ x ∈ l, q1 x = true) ↔ (∃ x ∈ l, q2 x = true)) : l.countP q1 = l.countP q2 := by
  have a1 := countP_le_one_of_nodup l q1 hl h1
  have a2 := countP_le_one_of_nodup l q2 hl h2
  by_cases hc : ∃ x ∈ l, q1 x = true
  · have b1 := List.countP_pos_iff.2 hc
    have b2 := List.countP_pos_iff.2 (h.1 hc)
    omega
  · have b1 : l.countP q1 = 0 := by
      rw [List.countP_eq_zero]
      intro x hx hqx
      exact hc ⟨x, hx, hqx⟩
    have b2 : l.countP q2 = 0 := by
      rw [List.countP_eq_zero]
      intro x hx hqx
      exact hc (h.2 ⟨x, hx, hqx⟩)
    omega

/-- With exact arithmetic and unbounded integers: on a grid built by `make_grid` and
`populate_grid` (all block counts at least 1), for
atoms inside the cell none of whose per-axis fractional differences is `±1/2`, `nn_grid`
writes the record `(j, i, r)` as many times as `(i, j, r)`, and the pair count is even. -/
theorem nn_grid_generic_symmetric (sqrt : α → α) (cart : ℕ → α) (Ngrid : ℕ → ℤ) (Natoms : ℕ)
    (u : ℕ → ℕ → α) (Rcut : α)
    (hN : ∀ k, k < 3 → 1 ≤ Ngrid k)
    (hu : ∀ n, n < Natoms → ∀ k, k < 3 → 0 ≤ u n k ∧ u n k < 1)
    (hgen : ∀ i j, i < Natoms → j < Natoms → ∀ k, k < 3 → u j k - u i k ≠ 1 / 2) :
    ∃ gl, populate_grid Ngrid (make_grid Ngrid) Natoms u = some (gl, false) ∧
      (∀ i j r,
        (nn_grid sqrt cart (Ngrid 0 * Ngrid 1 * Ngrid 2).toNat gl u Rcut).countP
            (fun p => decide (p.i = j ∧ p.j = i ∧ p.r = r)) =
          (nn_grid sqrt cart (Ngrid 0 * Ngrid 1 * Ngrid 2).toNat gl u Rcut).countP
            (fun p => decide (p.i = i ∧ p.j = j ∧ p.r = r))) ∧
      Even (nn_grid sqrt cart (Ngrid 0 * Ngrid 1 * Ngrid 2).toNat gl u Rcut).length := by
  obtain ⟨gl, hgl, hA, hNL⟩ := grid_built Ngrid Natoms u hN hu
  have hnd := nodup_nn_grid sqrt cart Ngrid Natoms u Rcut gl hN hu hA hNL
  have hmem := mem_nn_grid sqrt cart Ngrid Natoms u Rcut gl hN hu hA hNL
  refine ⟨gl, hgl, ?_, ?_⟩ <;>
    generalize nn_grid sqrt cart (Ngrid 0 * Ngrid 1 * Ngrid 2).toNat gl u Rcut = out
      at hnd hmem ⊢
  · have uniq : ∀ x ∈ out, ∀ y ∈ out, x.i = y.i → x.j = y.j → x = y := by
      intro x hx y hy h1 h2
      obtain ⟨a, b, -, -, -, hab⟩ := (hmem x).1 hx
      obtain ⟨a', b', -, -, -, hab'⟩ := (hmem y).1 hy
      have ea : a = a' := by
        rw [← (grid_pair_eq_some hab).1, ← (grid_pair_eq_some hab').1]; exact h1
      have eb : b = b' := by
        rw [← (grid_pair_eq_some hab).2.1, ← (grid_pair_eq_some hab').2.1]; exact h2
      subst ea eb
      rw [hab] at hab'
      exact Option.some.inj hab'
    have hE : ∀ i j r, (∃ p ∈ out, p.i = i ∧ p.j = j ∧ p.r = r) ↔
        (i < Natoms ∧ j < Natoms ∧ grid_elem Ngrid (u j) ∈ atom_neighs Ngrid u i ∧ i ≠ j ∧
          grid_r2 cart u i j ≤ Rcut * Rcut ∧ r = sqrt (grid_r2 cart u i j)) := by
      intro i j r
      constructor
      · rintro ⟨p, hp, rfl, rfl, rfl⟩
        obtain ⟨a, b, ha, hb, hnb, hab⟩ := (hmem p).1 hp
        obtain ⟨e1, e2, e3, hne, hr⟩ := grid_pair_eq_some hab
        rw [e1, e2, e3]
        exact ⟨ha, hb, hnb, hne, hr, rfl⟩
      · rintro ⟨hi, hj, hnb, hne, hr, rfl⟩
        obtain ⟨p, hp⟩ := grid_pair_isSome sqrt cart u Rcut hne hr
        exact ⟨p, (hmem p).2 ⟨i, j, hi, hj, hnb, hp⟩, (grid_pair_eq_some hp).1,
          (grid_pair_eq_some hp).2.1, (grid_pair_eq_some hp).2.2.1⟩
    intro i j r
    refine countP_eq_of_nodup_of_iff out _ _ hnd ?_ ?_ ?_
    · intro x hx y hy hqx hqy
      simp only [decide_eq_true_eq] at hqx hqy
      exact uniq x hx y hy (hqx.1.trans hqy.1.symm) (hqx.2.1.trans hqy.2.1.symm)
    · intro x hx y hy hqx hqy
      simp only [decide_eq_true_eq] at hqx hqy
      exact uniq x hx y hy (hqx.1.trans hqy.1.symm) (hqx.2.1.trans hqy.2.1.symm)
    · simp only [decide_eq_true_eq]
      rw [hE j i r, hE i j r]
      constructor
      · rintro ⟨hj, hi, hnb, hne, hr, hrr⟩
        rw [grid_r2_symm cart Natoms u hu hgen hi hj] at hr hrr
        exact ⟨hi, hj, (atom_neighs_symm Natoms u hN hu hi hj).2 hnb, hne.symm, hr, hrr⟩
      · rintro ⟨hi, hj, hnb, hne, hr, hrr⟩
        rw [← grid_r2_symm cart Natoms u hu hgen hi hj] at hr hrr
        exact ⟨hj, hi, (atom_neighs_symm Natoms u hN hu hi hj).1 hnb, hne.symm, hr, hrr⟩
  · have hl : out.length = (out.map fun p => (p.i, p.j)).length := by simp
    rw [hl]
    refine even_length_of_swap_symm _ ?_ ?_ ?_
    · refine List.Nodup.map_on ?_ hnd
      intro x hx y hy hxy
      simp only [Prod.mk.injEq] at hxy
      obtain ⟨a, b, -, -, -, hab⟩ := (hmem x).1 hx
      obtain ⟨a', b', -, -, -, hab'⟩ := (hmem y).1 hy
      have ea : a = a' := by
        rw [← (grid_pair_eq_some hab).1, ← (grid_pair_eq_some hab').1]; exact hxy.1
      have eb : b = b' := by
        rw [← (grid_pair_eq_some hab).2.1, ← (grid_pair_eq_some hab').2.1]; exact hxy.2
      subst ea eb
      rw [hab] at hab'
      exact Option.some.inj hab'
    · intro x hx
      obtain ⟨p, hp, rfl⟩ := List.mem_map.1 hx
      obtain ⟨a, b, -, -, -, hab⟩ := (hmem p).1 hp
      obtain ⟨e1, e2, -, hne, -⟩ := grid_pair_eq_some hab
      simp only
      rw [e1, e2]
      exact hne
    · intro x hx
      obtain ⟨p, hp, rfl⟩ := List.mem_map.1 hx
      obtain ⟨a, b, ha, hb, hnb, hab⟩ := (hmem p).1 hp
      obtain ⟨e1, e2, -, hne, hr⟩ := grid_pair_eq_some hab
      rw [← grid_r2_symm cart Natoms u hu hgen ha hb] at hr
      obtain ⟨q, hq⟩ := grid_pair_isSome sqrt cart u Rcut hne.symm hr
      refine List.mem_map.2 ⟨q, (hmem q).2 ⟨b, a, hb, ha,
        (atom_neighs_symm Natoms u hN hu ha hb).1 hnb, hq⟩, ?_⟩
      simp only [Prod.swap_prod_mk]
      rw [(grid_pair_eq_some hq).1, (grid_pair_eq_some hq).2.1, e1, e2]

theorem nn_grid_generic_symmetric_witness :
    (∀ k, k < 3 → 1 ≤ arr [(2 : ℤ), 1, 1] k) ∧
    (∀ n, n < 2 → ∀ k, k < 3 → 0 ≤ atoms [[(0 : ℝ), 0, 0], [1 / 4, 0, 0]] n k ∧
      atoms [[(0 : ℝ), 0, 0], [1 / 4, 0, 0]] n k < 1) ∧
    (∀ i j, i < 2 → j < 2 → ∀ k, k < 3 →
      atoms [[(0 : ℝ), 0, 0], [1 / 4, 0, 0]] j k - atoms [[(0 : ℝ), 0, 0], [1 / 4, 0, 0]] i k
        ≠ 1 / 2) ∧
    ∃ gl, populate_grid (arr [2, 1, 1]) (make_grid (arr [2, 1, 1])) 2
        (atoms [[(0 : ℝ), 0, 0], [1 / 4, 0, 0]]) = some (gl, false) ∧
      (∀ i j r,
        (nn_grid Real.sqrt (arr [(1 : ℝ), 0, 0, 0, 1, 0, 0, 0, 1])
            (arr [(2 : ℤ), 1, 1] 0 * arr [2, 1, 1] 1 * arr [2, 1, 1] 2).toNat gl
            (atoms [[(0 : ℝ), 0, 0], [1 / 4, 0, 0]]) (1 / 2)).countP
            (fun p => decide (p.i = j ∧ p.j = i ∧ p.r = r)) =
          (nn_grid Real.sqrt (arr [(1 : ℝ), 0, 0, 0, 1, 0, 0, 0, 1])
            (arr [(2 : ℤ), 1, 1] 0 * arr [2, 1, 1] 1 * arr [2, 1, 1] 2).toNat gl
            (atoms [[(0 : ℝ), 0, 0], [1 / 4, 0, 0]]) (1 / 2)).countP
            (fun p => decide (p.i = i ∧ p.j = j ∧ p.r = r))) ∧
      Even (nn_grid Real.sqrt (arr [(1 : ℝ), 0, 0, 0, 1, 0, 0, 0, 1])
        (arr [(2 : ℤ), 1, 1] 0 * arr [2, 1, 1] 1 * arr [2, 1, 1] 2).toNat gl
        (atoms [[(0 : ℝ), 0, 0], [1 / 4, 0, 0]]) (1 / 2)).length :=
  have h1 : ∀ k, k < 3 → 1 ≤ arr [(2 : ℤ), 1, 1] k :=
    arr3_ge_one (by decide) (by decide) (by decide)
  have h2 := atoms_two_inside (1 / 4 : ℝ) 0 0 (by norm_num) (by norm_num) (by norm_num)
  have h3 : ∀ i j, i < 2 → j < 2 → ∀ k, k < 3 →
      atoms [[(0 : ℝ), 0, 0], [1 / 4, 0, 0]] j k - atoms [[(0 : ℝ), 0, 0], [1 / 4, 0, 0]] i k
        ≠ 1 / 2 := by
    intro i j hi hj k hk
    interval_cases i <;> interval_cases j <;> interval_cases k <;> norm_num [atoms]
  ⟨h1, h2, h3, nn_grid_generic_symmetric Real.sqrt _ _ 2 _ (1 / 2) h1 h2 h3⟩

/-! ## nn_raw -/

theorem mem_shifts {m : ℤ} {n : ℤ × ℤ × ℤ} :
    n ∈ shifts m ↔ (-m ≤ n.1 ∧ n.1 ≤ m) ∧ (-m ≤ n.2.1 ∧ n.2.1 ≤ m) ∧
      (-m ≤ n.2.2 ∧ n.2.2 ≤ m) := by
  obtain ⟨a, b, c⟩ := n
  unfold shifts
  simp only [List.mem_flatMap, List.mem_map, mem_loop_incl, Prod.mk.injEq]
  constructor
  · rintro ⟨a', ha, b', hb, c', hc, rfl, rfl, rfl⟩
    exact ⟨ha, hb, hc⟩
  · rintro ⟨ha, hb, hc⟩
    exact ⟨a, ha, b, hb, c, hc, rfl, rfl, rfl⟩

theorem shift_r2_nonneg (cart : ℕ → α) (n : ℤ × ℤ × ℤ) : 0 ≤ shift_r2 cart n := by
  unfold shift_r2
  nlinarith [mul_self_nonneg ((n.1 : α) * cart 0 + (n.2.1 : α) * cart 3 + (n.2.2 : α) * cart 6),
    mul_self_nonneg ((n.1 : α) * cart 1 + (n.2.1 : α) * cart 4 + (n.2.2 : α) * cart 7),
    mul_self_nonneg ((n.1 : α) * cart 2 + (n.2.1 : α) * cart 5 + (n.2.2 : α) * cart 8)]

theorem min_dist_fold_ge (cart : ℕ → α) (b : α) (l : List (ℤ × ℤ × ℤ)) (init : α)
    (hl : ∀ n ∈ l, ¬ (n.1 = 0 ∧ n.2.1 = 0 ∧ n.2.2 = 0) → b ≤ shift_r2 cart n) (hi : b ≤ init) :
    b ≤ l.foldl
      (fun min_dist n =>
        if n.1 = 0 ∧ n.2.1 = 0 ∧ n.2.2 = 0 then min_dist
        else if shift_r2 cart n < min_dist then shift_r2 cart n else min_dist) init := by
  induction l generalizing init with
  | nil => exact hi
  | cons a t ih =>
    rw [List.foldl_cons]
    refine ih _ (fun n hn => hl n (List.mem_cons_of_mem _ hn)) ?_
    split_ifs with h1 h2
    · exact hi
    · exact hl a (List.mem_cons_self _ _) h1
    · exact hi

theorem min_dist_fold_le (cart : ℕ → α) (l : List (ℤ × ℤ × ℤ)) (init : α) :
    l.foldl
        (fun min_dist n =>
          if n.1 = 0 ∧ n.2.1 = 0 ∧ n.2.2 = 0 then min_dist
          else if shift_r2 cart n < min_dist then shift_r2 cart n else min_dist) init ≤ init ∧
      ∀ n ∈ l, ¬ (n.1 = 0 ∧ n.2.1 = 0 ∧ n.2.2 = 0) →
        l.foldl
          (fun min_dist n =>
            if n.1 = 0 ∧ n.2.1 = 0 ∧ n.2.2 = 0 then min_dist
            else if shift_r2 cart n < min_dist then shift_r2 cart n else min_dist) init
          ≤ shift_r2 cart n := by
  induction l generalizing init with
  | nil => exact ⟨le_refl _, fun n hn => absurd hn (List.not_mem_nil n)⟩
  | cons a t ih =>
    rw [List.foldl_cons]
    have hstep : (if a.1 = 0 ∧ a.2.1 = 0 ∧ a.2.2 = 0 then init
        else if shift_r2 cart a < init then shift_r2 cart a else init) ≤ init := by
      split_ifs with h1 h2
      · exact le_refl _
      · exact h2.le
      · exact le_refl _
    obtain ⟨ih1, ih2⟩ := ih (if a.1 = 0 ∧ a.2.1 = 0 ∧ a.2.2 = 0 then init
        else if shift_r2 cart a < init then shift_r2 cart a else init)
    refine ⟨ih1.trans hstep, ?_⟩
    intro n hn hn0
    rcases List.mem_cons.1 hn with rfl | hn
    · refine ih1.trans ?_
      rw [if_neg hn0]
      split_ifs with h2
      · exact le_refl _
      · exact not_lt.1 h2
    · exact ih2 n hn hn0

theorem raw_min_dist_nonneg (cart : ℕ → α) : 0 ≤ raw_min_dist cart :=
  min_dist_fold_ge cart 0 _ _ (fun n _ _ => shift_r2_nonneg cart n) (by positivity)

theorem raw_maxn_ge_one {sqrt : α → α} (hsq : IsSqrt sqrt) (cart : ℕ → α) {Rcut : α}
    (hR : 0 < Rcut) : 1 ≤ raw_maxn sqrt cart Rcut := by
  have h0 : 0 ≤ Rcut / sqrt (raw_min_dist cart) :=
    div_nonneg hR.le (hsq _ (raw_min_dist_nonneg cart)).1
  unfold raw_maxn
  rw [toInt_of_nonneg (by linarith), Int.le_floor]
  push_cast
  linarith

theorem raw_pair_eq_some {sqrt : α → α} {cart : ℕ → α} {u : ℕ → ℕ → α} {Rcut : α} {i j : ℕ}
    {n : ℤ × ℤ × ℤ} {p : nn_pair_type α} (h : raw_pair sqrt cart u Rcut i n j = some p) :
    p.i = i ∧ p.j = j ∧ p.r = sqrt (raw_r2 cart u i j n) ∧
      ¬ (i = j ∧ n.1 = 0 ∧ n.2.1 = 0 ∧ n.2.2 = 0) ∧ raw_r2 cart u i j n ≤ Rcut * Rcut := by
  unfold raw_pair at h
  split_ifs at h with h1 h2
  simp only [Option.some.injEq] at h
  subst h
  exact ⟨rfl, rfl, rfl, h1, not_lt.1 h2⟩

theorem raw_pair_isSome (sqrt : α → α) (cart : ℕ → α) (u : ℕ → ℕ → α) (Rcut : α) {i j : ℕ}
    {n : ℤ × ℤ × ℤ} (h1 : ¬ (i = j ∧ n.1 = 0 ∧ n.2.1 = 0 ∧ n.2.2 = 0))
    (h2 : raw_r2 cart u i j n ≤ Rcut * Rcut) :
    ∃ p, raw_pair sqrt cart u Rcut i n j = some p := by
  unfold raw_pair
  rw [if_neg h1, if_neg (not_lt.2 h2)]
  exact ⟨_, rfl⟩

theorem mem_nn_raw (sqrt : α → α) (cart : ℕ → α) (N : ℕ) (u : ℕ → ℕ → α) (Rcut : α)
    (p : nn_pair_type α) :
    p ∈ nn_raw sqrt cart N u Rcut ↔
      ∃ i, i < N ∧ ∃ n, n ∈ shifts (raw_maxn sqrt cart Rcut) ∧ ∃ j, j < N ∧
        raw_pair sqrt cart u Rcut i n j = some p := by
  unfold nn_raw
  simp only [List.mem_flatMap, List.mem_filterMap, List.mem_range]

theorem raw_r2_eq (cart : ℕ → α) (u : ℕ → ℕ → α) (i j : ℕ) (n : ℤ × ℤ × ℤ) :
    raw_r2 cart u i j n =
      (cart 0 * (u j 0 - u i 0 + (n.1 : α)) + cart 3 * (u j 1 - u i 1 + (n.2.1 : α))
          + cart 6 * (u j 2 - u i 2 + (n.2.2 : α)))
        * (cart 0 * (u j 0 - u i 0 + (n.1 : α)) + cart 3 * (u j 1 - u i 1 + (n.2.1 : α))
          + cart 6 * (u j 2 - u i 2 + (n.2.2 : α)))
      + (cart 1 * (u j 0 - u i 0 + (n.1 : α)) + cart 4 * (u j 1 - u i 1 + (n.2.1 : α))
          + cart 7 * (u j 2 - u i 2 + (n.2.2 : α)))
        * (cart 1 * (u j 0 - u i 0 + (n.1 : α)) + cart 4 * (u j 1 - u i 1 + (n.2.1 : α))
          + cart 7 * (u j 2 - u i 2 + (n.2.2 : α)))
      + (cart 2 * (u j 0 - u i 0 + (n.1 : α)) + cart 5 * (u j 1 - u i 1 + (n.2.1 : α))
          + cart 8 * (u j 2 - u i 2 + (n.2.2 : α)))
        * (cart 2 * (u j 0 - u i 0 + (n.1 : α)) + cart 5 * (u j 1 - u i 1 + (n.2.1 : α))
          + cart 8 * (u j 2 - u i 2 + (n.2.2 : α))) := by
  simp only [raw_r2, raw_vect, zero_add, Nat.add_zero]

/-- A lattice vector no longer than a cutoff below half the perpendicular spacing has its
component along that direction strictly between `-1/2` and `1/2`. -/
theorem cutoff_within_half {sqrt : α → α} (hsq : IsSqrt sqrt) (cart : ℕ → α) {Rcut : α}
    (hR : 0 < Rcut) (e : ℕ → α) (k : ℕ) (hk : k < 3) (hh : Rcut < calc_len sqrt cart k / 2)
    (hr2 : (cart 0 * e 0 + cart 3 * e 1 + cart 6 * e 2) * (cart 0 * e 0 + cart 3 * e 1 + cart 6 * e 2)
        + (cart 1 * e 0 + cart 4 * e 1 + cart 7 * e 2) * (cart 1 * e 0 + cart 4 * e 1 + cart 7 * e 2)
        + (cart 2 * e 0 + cart 5 * e 1 + cart 8 * e 2) * (cart 2 * e 0 + cart 5 * e 1 + cart 8 * e 2)
        ≤ Rcut * Rcut) :
    -(1 / 2) < e k ∧ e k < 1 / 2 := by
  have hpb := perp_bound cart e k hk
  obtain ⟨hs0, hss⟩ := hsq _ (ajXak_len_nonneg cart k)
  set s : α := sqrt (ajXak_len cart k) with hs
  have hspos : 0 < s := by
    rcases hs0.lt_or_eq with h | h
    · exact h
    · exfalso
      unfold calc_len at hh
      rw [← hs, ← h, div_zero] at hh
      linarith
  have hlt : 2 * Rcut * s < det_cart cart := by
    unfold calc_len at hh
    rw [← hs] at hh
    have := (lt_div_iff₀ hspos).1 ((lt_div_iff₀ (by norm_num : (0 : α) < 2)).1 hh)
    linarith
  have h1 : (2 * Rcut * s) * (2 * Rcut * s) < triple_product cart * triple_product cart := by
    rw [← det_cart_mul_self]
    exact mul_self_lt_mul_self (by positivity) hlt
  have h2 : e k * e k * (triple_product cart * triple_product cart) ≤ (Rcut * s) * (Rcut * s) := by
    refine hpb.trans ?_
    rw [← hss]
    have h := mul_le_mul_of_nonneg_right hr2 (mul_self_nonneg s)
    calc _ ≤ Rcut * Rcut * (s * s) := h
      _ = (Rcut * s) * (Rcut * s) := by ring
  have hc : 0 < (Rcut * s) * (Rcut * s) := mul_pos (mul_pos hR hspos) (mul_pos hR hspos)
  have h3 : (2 * e k) * (2 * e k) < 1 * 1 := by
    by_contra hcon
    have hge : 1 ≤ 4 * (e k * e k) := by
      have := not_lt.1 hcon
      linarith
    have hApos : 0 < e k * e k := by linarith
    have h5 := mul_lt_mul_of_pos_left h1 hApos
    have h6 : e k * e k * ((2 * Rcut * s) * (2 * Rcut * s))
        = 4 * (e k * e k) * ((Rcut * s) * (Rcut * s)) := by ring
    have h7 : (Rcut * s) * (Rcut * s) ≤ 4 * (e k * e k) * ((Rcut * s) * (Rcut * s)) :=
      le_mul_of_one_le_left hc.le hge
    linarith
  have p1 : 2 * e k < 1 := lt_of_mul_self_lt_mul_self₀ zero_le_one h3
  have p2 : -(2 * e k) < 1 := by
    refine lt_of_mul_self_lt_mul_self₀ zero_le_one ?_
    have : -(2 * e k) * -(2 * e k) = 2 * e k * (2 * e k) := by ring
    rw [this]
    exact h3
  constructor <;> linarith

theorem diff_eq_of_shift {x : α} (n : ℤ) (hx : -1 < x) (h1 : -(1 / 2) < x + (n : α))
    (h2 : x + (n : α) < 1 / 2) : diff x = x + (n : α) := by
  have hn : n < 3 := by
    have : (n : α) < ((3 : ℤ) : α) := by push_cast; linarith
    exact_mod_cast this
  rw [diff_of_floor (2 - n) (by push_cast; linarith) (by push_cast; linarith) (by omega)]
  push_cast
  ring

theorem int_eq_zero_of_abs_lt_half {n : ℤ} (h1 : -(1 / 2) < (n : α)) (h2 : (n : α) < 1 / 2) :
    n = 0 := by
  have a1 : ((-1 : ℤ) : α) < (n : α) := by push_cast; linarith
  have a2 : (n : α) < ((1 : ℤ) : α) := by push_cast; linarith
  have b1 : -1 < n := by exact_mod_cast a1
  have b2 : n < 1 := by exact_mod_cast a2
  omega

/-- With exact arithmetic and unbounded integers: for a non-singular lattice, atoms inside
the cell and a positive cutoff below half
of every perpendicular spacing, the grid path and `nn_raw` write the same set of
`(i, j, length)` triples. -/
theorem grid_path_records_eq_nn_raw (sqrt : α → α) (hsq : IsSqrt sqrt) (cart : ℕ → α)
    (Natoms : ℕ) (u : ℕ → ℕ → α) (Rcut : α) (_hdet : triple_product cart ≠ 0) (hR : 0 < Rcut)
    (hu : ∀ n, n < Natoms → ∀ k, k < 3 → 0 ≤ u n k ∧ u n k < 1)
    (hhalf : ∀ k, k < 3 → Rcut < calc_len sqrt cart k / 2) :
    ∃ out, grid_path sqrt cart Natoms u Rcut = some out ∧
      ∀ i j r, (∃ p ∈ out, p.i = i ∧ p.j = j ∧ p.r = r) ↔
        (∃ p ∈ nn_raw sqrt cart Natoms u Rcut, p.i = i ∧ p.j = j ∧ p.r = r) := by
  obtain ⟨out, hout, -, hmem⟩ := grid_path_spec hsq cart Natoms u Rcut hR hu
  refine ⟨out, hout, ?_⟩
  intro i j r
  constructor
  · rintro ⟨p, hp, rfl, rfl, rfl⟩
    obtain ⟨i, j, hi, hj, hij⟩ := (hmem p).1 hp
    obtain ⟨e1, e2, e3, hne, hr⟩ := grid_pair_eq_some hij
    have hx : ∀ k, k < 3 → -1 < u j k - u i k ∧ u j k - u i k < 1 := by
      intro k hk
      have := hu i hi k hk
      have := hu j hj k hk
      constructor <;> linarith
    obtain ⟨m0, a0, b0, c0, -, -⟩ := diff_spec (hx 0 (by norm_num)).1 (hx 0 (by norm_num)).2
    obtain ⟨m1, a1, b1, c1, -, -⟩ := diff_spec (hx 1 (by norm_num)).1 (hx 1 (by norm_num)).2
    obtain ⟨m2, a2, b2, c2, -, -⟩ := diff_spec (hx 2 (by norm_num)).1 (hx 2 (by norm_num)).2
    have hmax := raw_maxn_ge_one hsq cart hR
    have hr2 : raw_r2 cart u i j (m0, m1, m2) = grid_r2 cart u i j := by
      rw [raw_r2_eq, grid_r2_eq, c0, c1, c2]
    obtain ⟨q, hq⟩ := raw_pair_isSome sqrt cart u Rcut (i := i) (j := j) (n := (m0, m1, m2))
      (fun h => hne h.1) (by rw [hr2]; exact hr)
    obtain ⟨q1, q2, q3, -, -⟩ := raw_pair_eq_some hq
    refine ⟨q, (mem_nn_raw sqrt cart Natoms u Rcut q).2 ⟨i, hi, (m0, m1, m2), ?_, j, hj, hq⟩,
      ?_, ?_, ?_⟩
    · rw [mem_shifts]
      simp only
      refine ⟨⟨?_, ?_⟩, ⟨?_, ?_⟩, ⟨?_, ?_⟩⟩ <;> omega
    · rw [q1, e1]
    · rw [q2, e2]
    · rw [q3, e3, hr2]
  · rintro ⟨p, hp, rfl, rfl, rfl⟩
    obtain ⟨i, hi, n, -, j, hj, hq⟩ := (mem_nn_raw sqrt cart Natoms u Rcut p).1 hp
    obtain ⟨q1, q2, q3, hguard, hr⟩ := raw_pair_eq_some hq
    rw [raw_r2_eq] at hr
    have hin : ∀ k, k < 3 →
        -(1 / 2) < u j k - u i k + ((arr [n.1, n.2.1, n.2.2] k : ℤ) : α) ∧
          u j k - u i k + ((arr [n.1, n.2.1, n.2.2] k : ℤ) : α) < 1 / 2 := fun k hk =>
      cutoff_within_half hsq cart hR
        (fun m => u j m - u i m + ((arr [n.1, n.2.1, n.2.2] m : ℤ) : α)) k hk (hhalf k hk) hr
    have hd : ∀ k, k < 3 →
        diff (u j k - u i k) = u j k - u i k + ((arr [n.1, n.2.1, n.2.2] k : ℤ) : α) := by
      intro k hk
      have := hu i hi k hk
      have := hu j hj k hk
      exact diff_eq_of_shift _ (by linarith) (hin k hk).1 (hin k hk).2
    have hne : i ≠ j := by
      rintro rfl
      apply hguard
      refine ⟨rfl, ?_, ?_, ?_⟩
      · have := hin 0 (by norm_num)
        rw [sub_self, zero_add] at this
        exact int_eq_zero_of_abs_lt_half this.1 this.2
      · have := hin 1 (by norm_num)
        rw [sub_self, zero_add] at this
        exact int_eq_zero_of_abs_lt_half this.1 this.2
      · have := hin 2 (by norm_num)
        rw [sub_self, zero_add] at this
        exact int_eq_zero_of_abs_lt_half this.1 this.2
    have hr2 : grid_r2 cart u i j = raw_r2 cart u i j n := by
      rw [raw_r2_eq, grid_r2_eq, hd 0 (by norm_num), hd 1 (by norm_num), hd 2 (by norm_num)]
      rfl
    obtain ⟨q, hq'⟩ := grid_pair_isSome sqrt cart u Rcut hne
      (by rw [hr2, raw_r2_eq]; exact hr)
    obtain ⟨e1, e2, e3, -, -⟩ := grid_pair_eq_some hq'
    refine ⟨q, (hmem q).2 ⟨i, j, hi, hj, hq'⟩, ?_, ?_, ?_⟩
    · rw [q1, e1]
    · rw [q2, e2]
    · rw [q3, e3, hr2]

/-! ## nn_raw on the unit cubic cell -/

theorem nn_raw_eq_filterMap (sqrt : α → α) (cart : ℕ → α) (N : ℕ) (u : ℕ → ℕ → α) (Rcut : α) :
    nn_raw sqrt cart N u Rcut =
      (raw_triples N (raw_maxn sqrt cart Rcut)).filterMap
        (fun t => raw_pair sqrt cart u Rcut t.1 t.2.1 t.2.2) := by
  unfold nn_raw raw_triples
  simp only [List.filterMap_flatMap, List.filterMap_map]
  rfl

theorem mem_raw_triples {N : ℕ} {m : ℤ} {t : ℕ × (ℤ × ℤ × ℤ) × ℕ} :
    t ∈ raw_triples N m ↔ t.1 < N ∧ t.2.1 ∈ shifts m ∧ t.2.2 < N := by
  obtain ⟨i, n, j⟩ := t
  unfold raw_triples
  simp only [List.mem_flatMap, List.mem_map, List.mem_range, Prod.mk.injEq]
  constructor
  · rintro ⟨i', hi, n', hn, j', hj, rfl, rfl, rfl⟩
    exact ⟨hi, hn, hj⟩
  · rintro ⟨hi, hn, hj⟩
    exact ⟨i, hi, n, hn, j, hj, rfl, rfl, rfl⟩

theorem raw_pair_isSome_iff (sqrt : α → α) (cart : ℕ → α) (u : ℕ → ℕ → α) (Rcut : α) (i j : ℕ)
    (n : ℤ × ℤ × ℤ) :
    (raw_pair sqrt cart u Rcut i n j).isSome = true ↔
      ¬ (i = j ∧ n.1 = 0 ∧ n.2.1 = 0 ∧ n.2.2 = 0) ∧ raw_r2 cart u i j n ≤ Rcut * Rcut := by
  unfold raw_pair
  split_ifs with h1 h2
  · simp [h1]
  · simp [h1, h2]
  · simp [h1, not_lt.1 h2]

theorem shift_r2_cubic (n : ℤ × ℤ × ℤ) :
    shift_r2 (arr [(1 : α), 0, 0, 0, 1, 0, 0, 0, 1]) n =
      ((n.1 * n.1 + n.2.1 * n.2.1 + n.2.2 * n.2.2 : ℤ) : α) := by
  simp only [shift_r2, arr, List.getD_cons_zero, List.getD_cons_succ]
  push_cast
  ring

theorem int_norm_ge_one {a b c : ℤ} (h : ¬ (a = 0 ∧ b = 0 ∧ c = 0)) :
    1 ≤ a * a + b * b + c * c := by
  by_contra hc
  have ha := mul_self_nonneg a
  have hb := mul_self_nonneg b
  have hcc := mul_self_nonneg c
  have ha0 : a * a = 0 := by omega
  have hb0 : b * b = 0 := by omega
  have hc0 : c * c = 0 := by omega
  exact h ⟨mul_self_eq_zero.1 ha0, mul_self_eq_zero.1 hb0, mul_self_eq_zero.1 hc0⟩

theorem raw_min_dist_cubic : raw_min_dist (arr [(1 : α), 0, 0, 0, 1, 0, 0, 0, 1]) = 1 := by
  apply le_antisymm
  · have h := (min_dist_fold_le (arr [(1 : α), 0, 0, 0, 1, 0, 0, 0, 1]) (shifts 3)
      ((10 : α) ^ 20)).2 (1, 0, 0) (by rw [mem_shifts]; decide) (by decide)
    rw [shift_r2_cubic] at h
    simpa using h
  · refine min_dist_fold_ge _ 1 _ _ ?_ ?_
    · intro n _ hn
      rw [shift_r2_cubic]
      exact_mod_cast int_norm_ge_one hn
    · norm_num

theorem raw_maxn_cubic {sqrt : α → α} (hsq : IsSqrt sqrt) (Rcut : α) :
    raw_maxn sqrt (arr [(1 : α), 0, 0, 0, 1, 0, 0, 0, 1]) Rcut = toInt (Rcut + 1) := by
  unfold raw_maxn
  rw [raw_min_dist_cubic, sqrt_eq_of_mul_self hsq zero_le_one (one_mul 1), div_one]

theorem toInt_of_floor {x : α} (k : ℤ) (hk : 0 ≤ k) (h1 : (k : α) ≤ x) (h2 : x < (k : α) + 1) :
    toInt x = k := by
  have h0 : (0 : α) ≤ x := le_trans (by exact_mod_cast hk) h1
  rw [toInt_of_nonneg h0, Int.floor_eq_iff]
  exact ⟨h1, h2⟩

theorem raw_r2_cubic_origin (n : ℤ × ℤ × ℤ) :
    raw_r2 (arr [(1 : α), 0, 0, 0, 1, 0, 0, 0, 1]) (atoms [[0, 0, 0]]) 0 0 n =
      ((n.1 * n.1 + n.2.1 * n.2.1 + n.2.2 * n.2.2 : ℤ) : α) := by
  rw [raw_r2_eq]
  simp only [arr, atoms, List.getD_cons_zero, List.getD_cons_succ]
  push_cast
  ring

theorem int_le_one_iff_cast_le (z : ℤ) (c : α) (h1 : 1 ≤ c) (h2 : c < 2) :
    (z : α) ≤ c ↔ z ≤ 1 := by
  constructor
  · intro h
    have : (z : α) < ((2 : ℤ) : α) := by push_cast; linarith
    have : z < 2 := by exact_mod_cast this
    omega
  · intro h
    have : (z : α) ≤ ((1 : ℤ) : α) := by exact_mod_cast h
    push_cast at this
    linarith

theorem count_single_atom_shifts :
    (raw_triples 1 2).countP (fun t =>
      decide (¬ (t.1 = t.2.2 ∧ t.2.1.1 = 0 ∧ t.2.1.2.1 = 0 ∧ t.2.1.2.2 = 0) ∧
        t.2.1.1 * t.2.1.1 + t.2.1.2.1 * t.2.1.2.1 + t.2.1.2.2 * t.2.1.2.2 ≤ 1)) = 6 := by
  decide

/-- C7: for the unit cubic basis, cutoff `1.01` and a single atom at the origin, `nn_raw`
returns exactly six records, each with `i = j = 0` and length `1`. -/
theorem nn_raw_single_atom :
    (nn_raw Real.sqrt (arr [(1 : ℝ), 0, 0, 0, 1, 0, 0, 0, 1]) 1 (atoms [[0, 0, 0]])
        (101 / 100)).length = 6 ∧
      ∀ p ∈ nn_raw Real.sqrt (arr [(1 : ℝ), 0, 0, 0, 1, 0, 0, 0, 1]) 1 (atoms [[0, 0, 0]])
        (101 / 100), p.i = 0 ∧ p.j = 0 ∧ p.r = 1 := by
  have hm : raw_maxn Real.sqrt (arr [(1 : ℝ), 0, 0, 0, 1, 0, 0, 0, 1]) (101 / 100) = 2 := by
    rw [raw_maxn_cubic isSqrt_real]
    exact toInt_of_floor 2 (by norm_num) (by norm_num) (by norm_num)
  constructor
  · rw [nn_raw_eq_filterMap, hm, List.length_filterMap_eq_countP, ← count_single_atom_shifts]
    refine List.countP_congr ?_
    intro t ht
    obtain ⟨h1, -, h2⟩ := mem_raw_triples.1 ht
    have e1 : t.1 = 0 := by omega
    have e2 : t.2.2 = 0 := by omega
    rw [raw_pair_isSome_iff, e1, e2, raw_r2_cubic_origin, decide_eq_true_eq,
      int_le_one_iff_cast_le _ _ (by norm_num) (by norm_num)]
  · intro p hp
    obtain ⟨i, hi, n, -, j, hj, hq⟩ := (mem_nn_raw _ _ _ _ _ p).1 hp
    have e1 : i = 0 := by omega
    have e2 : j = 0 := by omega
    subst e1 e2
    obtain ⟨q1, q2, q3, hguard, hr⟩ := raw_pair_eq_some hq
    rw [raw_r2_cubic_origin] at hr q3
    have hz := (int_le_one_iff_cast_le _ _ (by norm_num) (by norm_num)).1 hr
    have hz' := int_norm_ge_one (fun h => hguard ⟨rfl, h⟩)
    have : n.1 * n.1 + n.2.1 * n.2.1 + n.2.2 * n.2.2 = 1 := by omega
    rw [this] at q3
    refine ⟨q1, q2, ?_⟩
    rw [q3]
    exact sqrt_eq_of_mul_self isSqrt_real zero_le_one (by norm_num)

theorem raw_r2_cubic_pair {i j : ℕ} (hi : i < 2) (hj : j < 2) (n : ℤ × ℤ × ℤ) :
    raw_r2 (arr [(1 : α), 0, 0, 0, 1, 0, 0, 0, 1]) (atoms [[0, 0, 0], [1 / 2, 0, 0]]) i j n =
      (((((j : ℤ) - (i : ℤ) + 2 * n.1) * ((j : ℤ) - (i : ℤ) + 2 * n.1)
        + 4 * (n.2.1 * n.2.1) + 4 * (n.2.2 * n.2.2) : ℤ)) : α) / 4 := by
  rw [raw_r2_eq]
  interval_cases i <;> interval_cases j <;>
    simp only [arr, atoms, List.getD_cons_zero, List.getD_cons_succ] <;>
    push_cast <;> ring

theorem int_pair_norm_ge_one {i j : ℕ} (hi : i < 2) (hj : j < 2) {a b c : ℤ}
    (h : ¬ (i = j ∧ a = 0 ∧ b = 0 ∧ c = 0)) :
    1 ≤ ((j : ℤ) - (i : ℤ) + 2 * a) * ((j : ℤ) - (i : ℤ) + 2 * a) + 4 * (b * b) + 4 * (c * c) := by
  by_contra hc
  have h1 := mul_self_nonneg ((j : ℤ) - (i : ℤ) + 2 * a)
  have h2 := mul_self_nonneg b
  have h3 := mul_self_nonneg c
  have e1 : ((j : ℤ) - (i : ℤ) + 2 * a) * ((j : ℤ) - (i : ℤ) + 2 * a) = 0 := by omega
  have e2 : b * b = 0 := by omega
  have e3 : c * c = 0 := by omega
  have f1 := mul_self_eq_zero.1 e1
  exact h ⟨by omega, by omega, mul_self_eq_zero.1 e2, mul_self_eq_zero.1 e3⟩

theorem raw_pair_map_getD (sqrt : α → α) (cart : ℕ → α) (u : ℕ → ℕ → α) (Rcut : α) (i j : ℕ)
    (n : ℤ × ℤ × ℤ) (a b : ℕ) :
    ((raw_pair sqrt cart u Rcut i n j).map (fun p => decide (p.i = a ∧ p.j = b))).getD false
        = true ↔
      (raw_pair sqrt cart u Rcut i n j).isSome = true ∧ i = a ∧ j = b := by
  unfold raw_pair
  split_ifs <;> simp

theorem count_two_atoms_shifts :
    (raw_triples 2 1).countP (fun t =>
      decide (¬ (t.1 = t.2.2 ∧ t.2.1.1 = 0 ∧ t.2.1.2.1 = 0 ∧ t.2.1.2.2 = 0) ∧
        ((t.2.2 : ℤ) - (t.1 : ℤ) + 2 * t.2.1.1) * ((t.2.2 : ℤ) - (t.1 : ℤ) + 2 * t.2.1.1)
          + 4 * (t.2.1.2.1 * t.2.1.2.1) + 4 * (t.2.1.2.2 * t.2.1.2.2) ≤ 1)) = 4 := by
  decide

theorem count_two_atoms_shifts_01 :
    (raw_triples 2 1).countP (fun t =>
      decide ((¬ (t.1 = t.2.2 ∧ t.2.1.1 = 0 ∧ t.2.1.2.1 = 0 ∧ t.2.1.2.2 = 0) ∧
        ((t.2.2 : ℤ) - (t.1 : ℤ) + 2 * t.2.1.1) * ((t.2.2 : ℤ) - (t.1 : ℤ) + 2 * t.2.1.1)
          + 4 * (t.2.1.2.1 * t.2.1.2.1) + 4 * (t.2.1.2.2 * t.2.1.2.2) ≤ 1) ∧
        t.1 = 0 ∧ t.2.2 = 1)) = 2 := by
  decide

theorem count_two_atoms_shifts_10 :
    (raw_triples 2 1).countP (fun t =>
      decide ((¬ (t.1 = t.2.2 ∧ t.2.1.1 = 0 ∧ t.2.1.2.1 = 0 ∧ t.2.1.2.2 = 0) ∧
        ((t.2.2 : ℤ) - (t.1 : ℤ) + 2 * t.2.1.1) * ((t.2.2 : ℤ) - (t.1 : ℤ) + 2 * t.2.1.1)
          + 4 * (t.2.1.2.1 * t.2.1.2.1) + 4 * (t.2.1.2.2 * t.2.1.2.2) ≤ 1) ∧
        t.1 = 1 ∧ t.2.2 = 0)) = 2 := by
  decide

theorem raw_pair_two_atoms_isSome_iff (sqrt : α → α) {t : ℕ × (ℤ × ℤ × ℤ) × ℕ}
    (h1 : t.1 < 2) (h2 : t.2.2 < 2) :
    (raw_pair sqrt (arr [(1 : α), 0, 0, 0, 1, 0, 0, 0, 1]) (atoms [[0, 0, 0], [1 / 2, 0, 0]])
        (3 / 5) t.1 t.2.1 t.2.2).isSome = true ↔
      (¬ (t.1 = t.2.2 ∧ t.2.1.1 = 0 ∧ t.2.1.2.1 = 0 ∧ t.2.1.2.2 = 0) ∧
        ((t.2.2 : ℤ) - (t.1 : ℤ) + 2 * t.2.1.1) * ((t.2.2 : ℤ) - (t.1 : ℤ) + 2 * t.2.1.1)
          + 4 * (t.2.1.2.1 * t.2.1.2.1) + 4 * (t.2.1.2.2 * t.2.1.2.2) ≤ 1) := by
  rw [raw_pair_isSome_iff, raw_r2_cubic_pair h1 h2, div_le_iff₀ (by norm_num : (0 : α) < 4),
    int_le_one_iff_cast_le _ _ (by norm_num) (by norm_num)]

theorem two_atoms_raw_records {sqrt : α → α} (hsq : IsSqrt sqrt) :
    (nn_raw sqrt (arr [(1 : α), 0, 0, 0, 1, 0, 0, 0, 1]) 2 (atoms [[0, 0, 0], [1 / 2, 0, 0]])
        (3 / 5)).length = 4 ∧
      (nn_raw sqrt (arr [(1 : α), 0, 0, 0, 1, 0, 0, 0, 1]) 2 (atoms [[0, 0, 0], [1 / 2, 0, 0]])
        (3 / 5)).countP (fun p => decide (p.i = 0 ∧ p.j = 1)) = 2 ∧
      (nn_raw sqrt (arr [(1 : α), 0, 0, 0, 1, 0, 0, 0, 1]) 2 (atoms [[0, 0, 0], [1 / 2, 0, 0]])
        (3 / 5)).countP (fun p => decide (p.i = 1 ∧ p.j = 0)) = 2 ∧
      ∀ p ∈ nn_raw sqrt (arr [(1 : α), 0, 0, 0, 1, 0, 0, 0, 1]) 2
        (atoms [[0, 0, 0], [1 / 2, 0, 0]]) (3 / 5), p.r = 1 / 2 := by
  have hm : raw_maxn sqrt (arr [(1 : α), 0, 0, 0, 1, 0, 0, 0, 1]) (3 / 5) = 1 := by
    rw [raw_maxn_cubic hsq]
    exact toInt_of_floor 1 (by norm_num) (by norm_num) (by norm_num)
  refine ⟨?_, ?_, ?_, ?_⟩
  · rw [nn_raw_eq_filterMap, hm, List.length_filterMap_eq_countP, ← count_two_atoms_shifts]
    refine List.countP_congr ?_
    intro t ht
    obtain ⟨h1, -, h2⟩ := mem_raw_triples.1 ht
    rw [raw_pair_two_atoms_isSome_iff sqrt h1 h2, decide_eq_true_eq]
  · rw [nn_raw_eq_filterMap, hm, List.countP_filterMap, ← count_two_atoms_shifts_01]
    refine List.countP_congr ?_
    intro t ht
    obtain ⟨h1, -, h2⟩ := mem_raw_triples.1 ht
    rw [raw_pair_map_getD, raw_pair_two_atoms_isSome_iff sqrt h1 h2, decide_eq_true_eq]
  · rw [nn_raw_eq_filterMap, hm, List.countP_filterMap, ← count_two_atoms_shifts_10]
    refine List.countP_congr ?_
    intro t ht
    obtain ⟨h1, -, h2⟩ := mem_raw_triples.1 ht
    rw [raw_pair_map_getD, raw_pair_two_atoms_isSome_iff sqrt h1 h2, decide_eq_true_eq]
  · intro p hp
    obtain ⟨i, hi, n, -, j, hj, hq⟩ := (mem_nn_raw _ _ _ _ _ p).1 hp
    have hs := (raw_pair_two_atoms_isSome_iff sqrt (t := (i, n, j)) hi hj).1
      (by rw [hq]; rfl)
    obtain ⟨-, -, q3, hguard, -⟩ := raw_pair_eq_some hq
    have hz := int_pair_norm_ge_one hi hj hguard
    rw [q3, raw_r2_cubic_pair hi hj]
    have e : ((j : ℤ) - (i : ℤ) + 2 * n.1) * ((j : ℤ) - (i : ℤ) + 2 * n.1)
        + 4 * (n.2.1 * n.2.1) + 4 * (n.2.2 * n.2.2) = 1 := by
      have := hs.2
      simp only at this
      omega
    rw [e]
    exact sqrt_eq_of_mul_self hsq (by norm_num) (by norm_num)

/-- C6 (as stated, refuted): for the unit cubic basis, cutoff `0.6` and the atoms `(0,0,0)`,
`(0.5,0,0)`, `nn_raw` does not return exactly two records. -/
theorem nn_raw_two_atoms_not_two :
    (nn_raw Real.sqrt (arr [(1 : ℝ), 0, 0, 0, 1, 0, 0, 0, 1]) 2
      (atoms [[0, 0, 0], [1 / 2, 0, 0]]) (3 / 5)).length ≠ 2 := by
  rw [(two_atoms_raw_records isSqrt_real).1]
  decide

/-- C6 (amended): for the unit cubic basis, cutoff `0.6` and the atoms `(0,0,0)`,
`(0.5,0,0)`, `nn_raw` returns exactly four records, two for `(0,1)` and two for `(1,0)`
(the neighbour at `+0.5` and its periodic image at `-0.5`), each of length `0.5`. -/
theorem nn_raw_two_atoms_four_records :
    (nn_raw Real.sqrt (arr [(1 : ℝ), 0, 0, 0, 1, 0, 0, 0, 1]) 2
        (atoms [[0, 0, 0], [1 / 2, 0, 0]]) (3 / 5)).length = 4 ∧
      (nn_raw Real.sqrt (arr [(1 : ℝ), 0, 0, 0, 1, 0, 0, 0, 1]) 2
        (atoms [[0, 0, 0], [1 / 2, 0, 0]]) (3 / 5)).countP
          (fun p => decide (p.i = 0 ∧ p.j = 1)) = 2 ∧
      (nn_raw Real.sqrt (arr [(1 : ℝ), 0, 0, 0, 1, 0, 0, 0, 1]) 2
        (atoms [[0, 0, 0], [1 / 2, 0, 0]]) (3 / 5)).countP
          (fun p => decide (p.i = 1 ∧ p.j = 0)) = 2 ∧
      ∀ p ∈ nn_raw Real.sqrt (arr [(1 : ℝ), 0, 0, 0, 1, 0, 0, 0, 1]) 2
        (atoms [[0, 0, 0], [1 / 2, 0, 0]]) (3 / 5), p.r = 1 / 2 :=
  two_atoms_raw_records isSqrt_real

theorem calc_len_cubic (k : ℕ) (hk : k < 3) :
    calc_len Real.sqrt (arr [(1 : ℝ), 0, 0, 0, 1, 0, 0, 0, 1]) k = 1 := by
  have h1 : ajXak_len (arr [(1 : ℝ), 0, 0, 0, 1, 0, 0, 0, 1]) k = 1 := by
    interval_cases k <;> norm_num [ajXak_len, ajXak, arr]
  have h2 : det_cart (arr [(1 : ℝ), 0, 0, 0, 1, 0, 0, 0, 1]) = 1 := by
    norm_num [det_cart, triple_product, arr]
  unfold calc_len
  rw [h1, h2, Real.sqrt_one, div_one]

theorem grid_path_records_eq_nn_raw_witness :
    IsSqrt Real.sqrt ∧ triple_product (arr [(1 : ℝ), 0, 0, 0, 1, 0, 0, 0, 1]) ≠ 0 ∧
    (0 : ℝ) < 2 / 5 ∧
    (∀ n, n < 2 → ∀ k, k < 3 → 0 ≤ atoms [[(0 : ℝ), 0, 0], [1 / 4, 0, 0]] n k ∧
      atoms [[(0 : ℝ), 0, 0], [1 / 4, 0, 0]] n k < 1) ∧
    (∀ k, k < 3 → 2 / 5 < calc_len Real.sqrt (arr [(1 : ℝ), 0, 0, 0, 1, 0, 0, 0, 1]) k / 2) ∧
    ∃ out, grid_path Real.sqrt (arr [(1 : ℝ), 0, 0, 0, 1, 0, 0, 0, 1]) 2
        (atoms [[0, 0, 0], [1 / 4, 0, 0]]) (2 / 5) = some out ∧
      ∀ i j r, (∃ p ∈ out, p.i = i ∧ p.j = j ∧ p.r = r) ↔
        (∃ p ∈ nn_raw Real.sqrt (arr [(1 : ℝ), 0, 0, 0, 1, 0, 0, 0, 1]) 2
          (atoms [[0, 0, 0], [1 / 4, 0, 0]]) (2 / 5), p.i = i ∧ p.j = j ∧ p.r = r) :=
  have h2 := atoms_two_inside (1 / 4 : ℝ) 0 0 (by norm_num) (by norm_num) (by norm_num)
  have h3 : ∀ k, k < 3 →
      2 / 5 < calc_len Real.sqrt (arr [(1 : ℝ), 0, 0, 0, 1, 0, 0, 0, 1]) k / 2 := by
    intro k hk
    rw [calc_len_cubic k hk]
    norm_num
  ⟨isSqrt_real, triple_product_cubic, by norm_num, h2, h3,
    grid_path_records_eq_nn_raw Real.sqrt isSqrt_real _ 2 _ (2 / 5) triple_product_cubic
      (by norm_num) h2 h3⟩

/-! ## The grid built by calc_grid and make_grid -/

theorem calc_len_eq_spec (sqrt : α → α) (cart : ℕ → α) (k : ℕ) (hk : k < 3) :
    calc_len sqrt cart k = spec_perp_spacing sqrt cart k := by
  have h1 : det_cart cart
      = |dot3 (basis_vec cart 0) (cross3 (basis_vec cart 1) (basis_vec cart 2))| := by
    have e : dot3 (basis_vec cart 0) (cross3 (basis_vec cart 1) (basis_vec cart 2))
        = triple_product cart := by
      simp [dot3, cross3, basis_vec, triple_product]
      ring
    rw [e]
    unfold det_cart
    split_ifs with h
    · rw [abs_of_neg h]
    · rw [abs_of_nonneg (not_lt.1 h)]
  have h2 : ajXak_len cart k
      = dot3 (cross3 (basis_vec cart ((k + 1) % 3)) (basis_vec cart ((k + 2) % 3)))
          (cross3 (basis_vec cart ((k + 1) % 3)) (basis_vec cart ((k + 2) % 3))) := by
    interval_cases k <;> simp [ajXak_len, ajXak, dot3, cross3, basis_vec]
  unfold calc_len spec_perp_spacing
  rw [h1, h2]

theorem calc_grid_eq_floor {sqrt : α → α} (hsq : IsSqrt sqrt) (cart : ℕ → α) {Rcut : α}
    (hR : 0 < Rcut) (k : ℕ) :
    calc_grid sqrt cart Rcut k = max 1 ⌊calc_len sqrt cart k / Rcut⌋ := by
  have h0 : 0 ≤ calc_len sqrt cart k / Rcut := div_nonneg (calc_len_nonneg hsq cart k) hR.le
  have h1 : 0 ≤ ⌊calc_len sqrt cart k / Rcut⌋ := Int.floor_nonneg.2 h0
  unfold calc_grid
  rw [toInt_of_nonneg h0]
  split_ifs with h
  · rw [h]; rfl
  · rw [max_eq_right (by omega)]

/-- With exact arithmetic and unbounded integers: for a non-singular lattice and a positive
cutoff, `calc_grid` returns for each axis
the count `max(1, floor(L_k / Rcut))`, `L_k` being the perpendicular spacing of the axis, and
every count is at least 1. -/
theorem calc_grid_eq_max_floor (sqrt : α → α) (hsq : IsSqrt sqrt) (cart : ℕ → α) (Rcut : α)
    (_hdet : triple_product cart ≠ 0) (hR : 0 < Rcut) (k : ℕ) (hk : k < 3) :
    calc_grid sqrt cart Rcut k = max 1 ⌊spec_perp_spacing sqrt cart k / Rcut⌋ ∧
      1 ≤ calc_grid sqrt cart Rcut k := by
  rw [← calc_len_eq_spec sqrt cart k hk]
  exact ⟨calc_grid_eq_floor hsq cart hR k, calc_grid_ge_one hsq cart hR k⟩

theorem calc_grid_eq_max_floor_witness :
    IsSqrt Real.sqrt ∧ triple_product (arr [(1 : ℝ), 0, 0, 0, 1, 0, 0, 0, 1]) ≠ 0 ∧
    (0 : ℝ) < 2 / 5 ∧ 1 < 3 ∧
    calc_grid Real.sqrt (arr [(1 : ℝ), 0, 0, 0, 1, 0, 0, 0, 1]) (2 / 5) 1 =
        max 1 ⌊spec_perp_spacing Real.sqrt (arr [(1 : ℝ), 0, 0, 0, 1, 0, 0, 0, 1]) 1 / (2 / 5)⌋ ∧
      1 ≤ calc_grid Real.sqrt (arr [(1 : ℝ), 0, 0, 0, 1, 0, 0, 0, 1]) (2 / 5) 1 :=
  ⟨isSqrt_real, triple_product_cubic, by norm_num, by norm_num,
    calc_grid_eq_max_floor Real.sqrt isSqrt_real _ (2 / 5) triple_product_cubic (by norm_num) 1
      (by norm_num)⟩

theorem calc_grid_cubic_two (k : ℕ) (hk : k < 3) :
    calc_grid Real.sqrt (arr [(1 : ℝ), 0, 0, 0, 1, 0, 0, 0, 1]) 2 k = 1 := by
  have h : toInt ((1 : ℝ) / 2) = 0 :=
    toInt_of_floor 0 (le_refl _) (by norm_num) (by norm_num)
  unfold calc_grid
  rw [calc_len_cubic k hk, h]
  rfl

/-- C13 (as stated, refuted): for the unit cubic lattice and the cutoff `2` the width of a
block along the first axis, `L_0 / Ngrid[0] = 1`, is below the cutoff. -/
theorem cell_width_below_cutoff :
    triple_product (arr [(1 : ℝ), 0, 0, 0, 1, 0, 0, 0, 1]) ≠ 0 ∧ (0 : ℝ) < 2 ∧
      ¬ (2 ≤ spec_perp_spacing Real.sqrt (arr [(1 : ℝ), 0, 0, 0, 1, 0, 0, 0, 1]) 0
        / ((calc_grid Real.sqrt (arr [(1 : ℝ), 0, 0, 0, 1, 0, 0, 0, 1]) 2 0 : ℤ) : ℝ)) := by
  refine ⟨triple_product_cubic, by norm_num, ?_⟩
  rw [← calc_len_eq_spec _ _ 0 (by norm_num), calc_len_cubic 0 (by norm_num),
    calc_grid_cubic_two 0 (by norm_num)]
  norm_num

/-- With exact arithmetic and unbounded integers: for a non-singular lattice and a positive
cutoff, on every axis whose
perpendicular spacing `L_k` is at least `Rcut` the width `L_k / Ngrid[k]` of a block is at
least `Rcut`; on an axis with `L_k < Rcut` the count is `1`. -/
theorem cell_width_ge_cutoff (sqrt : α → α) (hsq : IsSqrt sqrt) (cart : ℕ → α) (Rcut : α)
    (_hdet : triple_product cart ≠ 0) (hR : 0 < Rcut) (k : ℕ) (hk : k < 3) :
    (Rcut ≤ spec_perp_spacing sqrt cart k →
      Rcut ≤ spec_perp_spacing sqrt cart k / ((calc_grid sqrt cart Rcut k : ℤ) : α)) ∧
    (spec_perp_spacing sqrt cart k < Rcut → calc_grid sqrt cart Rcut k = 1) := by
  rw [← calc_len_eq_spec sqrt cart k hk, calc_grid_eq_floor hsq cart hR k]
  constructor
  · intro hL
    have h1 : (1 : ℤ) ≤ ⌊calc_len sqrt cart k / Rcut⌋ := by
      rw [Int.le_floor, Int.cast_one, le_div_iff₀ hR, one_mul]
      exact hL
    rw [max_eq_right h1]
    have hpos : (0 : α) < (⌊calc_len sqrt cart k / Rcut⌋ : α) := by
      exact_mod_cast (by omega : (0 : ℤ) < ⌊calc_len sqrt cart k / Rcut⌋)
    rw [le_div_iff₀ hpos]
    have := Int.floor_le (calc_len sqrt cart k / Rcut)
    have h2 := (le_div_iff₀ hR).1 this
    linarith
  · intro hL
    have h1 : ⌊calc_len sqrt cart k / Rcut⌋ < 1 := by
      rw [Int.floor_lt, Int.cast_one, div_lt_one hR]
      exact hL
    rw [max_eq_left (by omega)]

theorem cell_width_ge_cutoff_witness :
    IsSqrt Real.sqrt ∧ triple_product (arr [(1 : ℝ), 0, 0, 0, 1, 0, 0, 0, 1]) ≠ 0 ∧
    (0 : ℝ) < 2 / 5 ∧ 1 < 3 ∧
    (2 / 5 ≤ spec_perp_spacing Real.sqrt (arr [(1 : ℝ), 0, 0, 0, 1, 0, 0, 0, 1]) 1 →
      2 / 5 ≤ spec_perp_spacing Real.sqrt (arr [(1 : ℝ), 0, 0, 0, 1, 0, 0, 0, 1]) 1
        / ((calc_grid Real.sqrt (arr [(1 : ℝ), 0, 0, 0, 1, 0, 0, 0, 1]) (2 / 5) 1 : ℤ) : ℝ)) ∧
    (spec_perp_spacing Real.sqrt (arr [(1 : ℝ), 0, 0, 0, 1, 0, 0, 0, 1]) 1 < 2 / 5 →
      calc_grid Real.sqrt (arr [(1 : ℝ), 0, 0, 0, 1, 0, 0, 0, 1]) (2 / 5) 1 = 1) :=
  ⟨isSqrt_real, triple_product_cubic, by norm_num, by norm_num,
    cell_width_ge_cutoff Real.sqrt isSqrt_real _ (2 / 5) triple_product_cubic (by norm_num) 1
      (by norm_num)⟩

theorem grouped_append_block (blk ks : List ℕ) (t : ℕ) (hb : ∀ k ∈ blk, k = t)
    (ht : t ∉ ks) (hg : grouped ks) : grouped (blk ++ ks) := by
  intro a b c hab hbc hc heq
  have hblk : ∀ x, x < blk.length → (blk ++ ks)[x]? = some t := by
    intro x hx
    rw [List.getElem?_append_left hx, List.getElem?_eq_getElem hx,
      hb _ (List.getElem_mem hx)]
  by_cases hcb : c < blk.length
  · rw [hblk a (by omega), hblk b (by omega)]
  · by_cases ha : a < blk.length
    · exfalso
      rw [hblk a ha, List.getElem?_append_right (by omega)] at heq
      exact ht (List.getElem?_mem heq.symm)
    · rw [List.length_append] at hc
      rw [List.getElem?_append_right (by omega), List.getElem?_append_right (by omega)] at heq ⊢
      exact hg _ _ _ (by omega) (by omega) (by omega) heq

theorem grouped_flatMap_map {β γ : Type} (P : List β) (F : β → List γ) (key : γ → ℕ)
    (tag : β → ℕ) (hkey : ∀ e ∈ P, ∀ x ∈ F e, key x = tag e) (hnd : (P.map tag).Nodup) :
    grouped ((P.flatMap F).map key) := by
  induction P with
  | nil =>
    intro a b c _ _ hc
    simp at hc
  | cons e t ih =>
    rw [List.flatMap_cons, List.map_append]
    rw [List.map_cons, List.nodup_cons] at hnd
    refine grouped_append_block _ _ (tag e) ?_ ?_
      (ih (fun e' he' => hkey e' (List.mem_cons_of_mem _ he')) hnd.2)
    · intro k hk
      obtain ⟨x, hx, rfl⟩ := List.mem_map.1 hk
      exact hkey e (List.mem_cons_self _ _) x hx
    · intro hmem
      obtain ⟨x, hx, hxk⟩ := List.mem_map.1 hmem
      obtain ⟨e', he', hx'⟩ := List.mem_flatMap.1 hx
      apply hnd.1
      rw [← hxk, hkey e' (List.mem_cons_of_mem _ he') x hx']
      exact List.mem_map_of_mem _ he'

theorem pairwise_le_flatMap_map {β γ : Type} (P : List β) (F : β → List γ) (key : γ → ℕ)
    (tag : β → ℕ) (hkey : ∀ e ∈ P, ∀ x ∈ F e, key x = tag e)
    (hs : (P.map tag).Pairwise (fun a b => a ≤ b)) :
    ((P.flatMap F).map key).Pairwise (fun a b => a ≤ b) := by
  induction P with
  | nil => simp
  | cons e t ih =>
    rw [List.flatMap_cons, List.map_append, List.pairwise_append]
    rw [List.map_cons, List.pairwise_cons] at hs
    refine ⟨?_, ih (fun e' he' => hkey e' (List.mem_cons_of_mem _ he')) hs.2, ?_⟩
    · have hall : ∀ k ∈ (F e).map key, k = tag e := by
        intro k hk
        obtain ⟨x, hx, rfl⟩ := List.mem_map.1 hk
        exact hkey e (List.mem_cons_self _ _) x hx
      rw [List.pairwise_iff_forall_sublist]
      intro a b hab
      have ha := hall a (hab.subset (by simp))
      have hb := hall b (hab.subset (by simp))
      omega
    · intro a ha b hb
      obtain ⟨x, hx, rfl⟩ := List.mem_map.1 ha
      obtain ⟨y, hy, rfl⟩ := List.mem_map.1 hb
      obtain ⟨e', he', hy'⟩ := List.mem_flatMap.1 hy
      rw [hkey e (List.mem_cons_self _ _) x hx, hkey e' (List.mem_cons_of_mem _ he') y hy']
      exact hs.1 _ (List.mem_map_of_mem _ he')

theorem nn_grid_eq_flatMap_pairs (sqrt : α → α) (cart : ℕ → α) (Ngridelem : ℕ)
    (grid_list : List grid_elem_type) (u : ℕ → ℕ → α) (Rcut : α) :
    nn_grid sqrt cart Ngridelem grid_list u Rcut =
      ((List.range Ngridelem).flatMap fun ng =>
          (cell_atoms (grid_list.getD ng default)).map fun i => (ng, i)).flatMap
        (fun e =>
          (cell_neighs (grid_list.getD e.1 default)).flatMap fun ngn =>
            (cell_atoms (grid_list.getD ngn.toNat default)).filterMap fun j =>
              grid_pair sqrt cart u Rcut e.2 j) := by
  unfold nn_grid
  rw [List.flatMap_assoc]
  simp only [List.flatMap_map]

/-- C19: the pair list of `nn_grid`, on a grid whose blocks hold no atom twice, and the pair
list of `nn_raw`, on any input, are grouped contiguously by first atom index; the first
indices of `nn_raw` are moreover non-decreasing. -/
theorem pair_lists_grouped (sqrt : α → α) (cart : ℕ → α) (Ngridelem : ℕ)
    (grid_list : List grid_elem_type) (Natoms : ℕ) (u : ℕ → ℕ → α) (Rcut : α) :
    (((List.range Ngridelem).flatMap fun ng => cell_atoms (grid_list.getD ng default)).Nodup →
      grouped ((nn_grid sqrt cart Ngridelem grid_list u Rcut).map fun p => p.i)) ∧
    grouped ((nn_raw sqrt cart Natoms u Rcut).map fun p => p.i) ∧
    ((nn_raw sqrt cart Natoms u Rcut).map fun p => p.i).Pairwise (fun a b => a ≤ b) := by
  have hraw : ∀ i ∈ List.range Natoms, ∀ x ∈ (shifts (raw_maxn sqrt cart Rcut)).flatMap
      (fun n => (List.range Natoms).filterMap fun j => raw_pair sqrt cart u Rcut i n j),
      x.i = id i := by
    intro i _ x hx
    simp only [List.mem_flatMap, List.mem_filterMap] at hx
    obtain ⟨n, -, j, -, hq⟩ := hx
    exact (raw_pair_eq_some hq).1
  refine ⟨?_, ?_, ?_⟩
  · intro hnd
    rw [nn_grid_eq_flatMap_pairs]
    refine grouped_flatMap_map _ _ _ (fun e => e.2) ?_ ?_
    · intro e _ x hx
      simp only [List.mem_flatMap, List.mem_filterMap] at hx
      obtain ⟨ngn, -, j, -, hq⟩ := hx
      exact (grid_pair_eq_some hq).1
    · rw [List.map_flatMap]
      simpa only [List.map_map, Function.comp_def, List.map_id'] using hnd
  · unfold nn_raw
    exact grouped_flatMap_map _ _ _ id hraw (by simpa using List.nodup_range Natoms)
  · unfold nn_raw
    refine pairwise_le_flatMap_map _ _ _ id hraw ?_
    rw [List.map_id]
    exact (List.pairwise_lt_range Natoms).imp (fun h => Nat.le_of_lt h)

theorem pair_lists_grouped_witness :
    ((List.range 1).flatMap fun ng =>
      cell_atoms (([⟨1, [0], 2, [0, 1, 0, 0]⟩] : List grid_elem_type).getD ng default)).Nodup ∧
    grouped ((nn_grid Real.sqrt (arr [(1 : ℝ), 0, 0, 0, 1, 0, 0, 0, 1]) 1
      [⟨1, [0], 2, [0, 1, 0, 0]⟩] (atoms [[0, 0, 0], [1 / 2, 0, 0]]) (3 / 5)).map
        fun p => p.i) ∧
    grouped ((nn_raw Real.sqrt (arr [(1 : ℝ), 0, 0, 0, 1, 0, 0, 0, 1]) 2
      (atoms [[0, 0, 0], [1 / 2, 0, 0]]) (3 / 5)).map fun p => p.i) ∧
    ((nn_raw Real.sqrt (arr [(1 : ℝ), 0, 0, 0, 1, 0, 0, 0, 1]) 2
      (atoms [[0, 0, 0], [1 / 2, 0, 0]]) (3 / 5)).map fun p => p.i).Pairwise
        (fun a b => a ≤ b) :=
  have hnd : ((List.range 1).flatMap fun ng =>
      cell_atoms (([⟨1, [0], 2, [0, 1, 0, 0]⟩] : List grid_elem_type).getD ng default)).Nodup := by
    decide
  have h := pair_lists_grouped Real.sqrt (arr [(1 : ℝ), 0, 0, 0, 1, 0, 0, 0, 1]) 1
    [⟨1, [0], 2, [0, 1, 0, 0]⟩] 2 (atoms [[0, 0, 0], [1 / 2, 0, 0]]) (3 / 5)
  ⟨hnd, h.1 hnd, h.2.1, h.2.2⟩

/-! ## The length and the unit vector of a pair record -/

theorem grid_pair_v_ij {sqrt : α → α} {cart : ℕ → α} {u : ℕ → ℕ → α} {Rcut : α} {i j : ℕ}
    {p : nn_pair_type α} (h : grid_pair sqrt cart u Rcut i j = some p) :
    p.v_ij = (1 / sqrt (grid_r2 cart u i j) * grid_vect cart u i j 0,
      1 / sqrt (grid_r2 cart u i j) * grid_vect cart u i j 1,
      1 / sqrt (grid_r2 cart u i j) * grid_vect cart u i j 2) := by
  unfold grid_pair at h
  split_ifs at h with h1 h2
  simp only [Option.some.injEq] at h
  subst h
  rfl

theorem raw_pair_v_ij {sqrt : α → α} {cart : ℕ → α} {u : ℕ → ℕ → α} {Rcut : α} {i j : ℕ}
    {n : ℤ × ℤ × ℤ} {p : nn_pair_type α} (h : raw_pair sqrt cart u Rcut i n j = some p) :
    p.v_ij = (1 / sqrt (raw_r2 cart u i j n) * raw_vect cart u i j n 0,
      1 / sqrt (raw_r2 cart u i j n) * raw_vect cart u i j n 1,
      1 / sqrt (raw_r2 cart u i j n) * raw_vect cart u i j n 2) := by
  unfold raw_pair at h
  split_ifs at h with h1 h2
  simp only [Option.some.injEq] at h
  subst h
  rfl

theorem unit_vector_of_pos {sqrt : α → α} (hsq : IsSqrt sqrt) {Rcut : α} (hR : 0 < Rcut)
    (x y z : α) (hpos : 0 < x * x + y * y + z * z) (hle : x * x + y * y + z * z ≤ Rcut * Rcut) :
    0 < sqrt (x * x + y * y + z * z) ∧ sqrt (x * x + y * y + z * z) ≤ Rcut ∧
      (1 / sqrt (x * x + y * y + z * z) * x) * (1 / sqrt (x * x + y * y + z * z) * x)
        + (1 / sqrt (x * x + y * y + z * z) * y) * (1 / sqrt (x * x + y * y + z * z) * y)
        + (1 / sqrt (x * x + y * y + z * z) * z) * (1 / sqrt (x * x + y * y + z * z) * z) = 1 ∧
      sqrt (x * x + y * y + z * z) * (1 / sqrt (x * x + y * y + z * z) * x) = x ∧
      sqrt (x * x + y * y + z * z) * (1 / sqrt (x * x + y * y + z * z) * y) = y ∧
      sqrt (x * x + y * y + z * z) * (1 / sqrt (x * x + y * y + z * z) * z) = z := by
  obtain ⟨h0, h1⟩ := hsq _ hpos.le
  have hle' := (sqrt_le_iff hsq hpos.le hR).2 hle
  set s := sqrt (x * x + y * y + z * z) with hs
  have hspos : 0 < s := by
    rcases h0.lt_or_eq with h | h
    · exact h
    · exfalso
      rw [← h] at h1
      linarith
  have hne : s ≠ 0 := hspos.ne'
  refine ⟨hspos, hle', ?_, ?_, ?_, ?_⟩
  · have : (1 / s * x) * (1 / s * x) + (1 / s * y) * (1 / s * y) + (1 / s * z) * (1 / s * z)
        = (x * x + y * y + z * z) / (s * s) := by
      field_simp
    rw [this, h1]
    exact div_self hpos.ne'
  · field_simp
  · field_simp
  · field_simp

/-- A record of `nn_grid` or of `nn_raw` whose atoms are not at coincident positions
(`r2 > 0`) has a length in `(0, Rcut]`, a vector `v_ij` of norm 1, and `r * v_ij` is the
separation vector. -/
theorem pair_record_unit_vector {sqrt : α → α} (hsq : IsSqrt sqrt) (cart : ℕ → α)
    (u : ℕ → ℕ → α) {Rcut : α} (hR : 0 < Rcut) (i j : ℕ) (n : ℤ × ℤ × ℤ) (p : nn_pair_type α) :
    (grid_pair sqrt cart u Rcut i j = some p → 0 < grid_r2 cart u i j →
      0 < p.r ∧ p.r ≤ Rcut ∧
      p.v_ij.1 * p.v_ij.1 + p.v_ij.2.1 * p.v_ij.2.1 + p.v_ij.2.2 * p.v_ij.2.2 = 1 ∧
      p.r * p.v_ij.1 = grid_vect cart u i j 0 ∧ p.r * p.v_ij.2.1 = grid_vect cart u i j 1 ∧
      p.r * p.v_ij.2.2 = grid_vect cart u i j 2) ∧
    (raw_pair sqrt cart u Rcut i n j = some p → 0 < raw_r2 cart u i j n →
      0 < p.r ∧ p.r ≤ Rcut ∧
      p.v_ij.1 * p.v_ij.1 + p.v_ij.2.1 * p.v_ij.2.1 + p.v_ij.2.2 * p.v_ij.2.2 = 1 ∧
      p.r * p.v_ij.1 = raw_vect cart u i j n 0 ∧ p.r * p.v_ij.2.1 = raw_vect cart u i j n 1 ∧
      p.r * p.v_ij.2.2 = raw_vect cart u i j n 2) := by
  constructor
  · intro h hpos
    obtain ⟨-, -, e3, -, hle⟩ := grid_pair_eq_some h
    have e4 := grid_pair_v_ij h
    have e : grid_r2 cart u i j = grid_vect cart u i j 0 * grid_vect cart u i j 0
        + grid_vect cart u i j 1 * grid_vect cart u i j 1
        + grid_vect cart u i j 2 * grid_vect cart u i j 2 := by
      unfold grid_r2; ring
    rw [e] at e3 e4 hpos hle
    rw [e3, e4]
    exact unit_vector_of_pos hsq hR _ _ _ hpos hle
  · intro h hpos
    obtain ⟨-, -, e3, -, hle⟩ := raw_pair_eq_some h
    have e4 := raw_pair_v_ij h
    have e : raw_r2 cart u i j n = raw_vect cart u i j n 0 * raw_vect cart u i j n 0
        + raw_vect cart u i j n 1 * raw_vect cart u i j n 1
        + raw_vect cart u i j n 2 * raw_vect cart u i j n 2 := by
      unfold raw_r2; ring
    rw [e] at e3 e4 hpos hle
    rw [e3, e4]
    exact unit_vector_of_pos hsq hR _ _ _ hpos hle

theorem grid_vect_coincident (k : ℕ) :
    grid_vect (arr [(1 : α), 0, 0, 0, 1, 0, 0, 0, 1]) (atoms [[0, 0, 0], [0, 0, 0]]) 0 1 k
      = 0 := by
  have e : ∀ m, atoms [[(0 : α), 0, 0], [0, 0, 0]] 1 m
      - atoms [[(0 : α), 0, 0], [0, 0, 0]] 0 m = 0 := by
    intro m
    have h0 : atoms [[(0 : α), 0, 0], [0, 0, 0]] 0 m = 0 := by
      unfold atoms
      rcases m with _ | _ | _ | m <;> simp
    have h1 : atoms [[(0 : α), 0, 0], [0, 0, 0]] 1 m = 0 := by
      unfold atoms
      rcases m with _ | _ | _ | m <;> simp
    rw [h0, h1, sub_zero]
  unfold grid_vect
  rw [e 0, e 1, e 2, diff_zero]
  ring

/-- C20 (the code at the failing input): for the unit cubic basis, cutoff `1` and two atoms
at the same position `(0,0,0)`, the grid path writes a record for `(0,1)` of length `0` whose
vector `v_ij` is not of norm 1 (the division `1/sqrt(r2)` is a division by zero). -/
theorem coincident_atoms_no_unit_vector :
    ∃ out, grid_path Real.sqrt (arr [(1 : ℝ), 0, 0, 0, 1, 0, 0, 0, 1]) 2
        (atoms [[0, 0, 0], [0, 0, 0]]) 1 = some out ∧
      ∃ p ∈ out, p.i = 0 ∧ p.j = 1 ∧ p.r = 0 ∧
        p.v_ij.1 * p.v_ij.1 + p.v_ij.2.1 * p.v_ij.2.1 + p.v_ij.2.2 * p.v_ij.2.2 ≠ 1 := by
  obtain ⟨out, hout, -, hmem⟩ := grid_path_spec isSqrt_real
    (arr [(1 : ℝ), 0, 0, 0, 1, 0, 0, 0, 1]) 2 (atoms [[0, 0, 0], [0, 0, 0]])
    1 (by norm_num)
    (atoms_two_inside _ _ _ (by norm_num) (by norm_num) (by norm_num))
  have hr2 : grid_r2 (arr [(1 : ℝ), 0, 0, 0, 1, 0, 0, 0, 1]) (atoms [[0, 0, 0], [0, 0, 0]]) 0 1
      = 0 := by
    unfold grid_r2
    rw [grid_vect_coincident 0, grid_vect_coincident 1, grid_vect_coincident 2]
    ring
  obtain ⟨p, hp⟩ := grid_pair_isSome Real.sqrt (arr [(1 : ℝ), 0, 0, 0, 1, 0, 0, 0, 1])
    (atoms [[0, 0, 0], [0, 0, 0]]) 1 (i := 0) (j := 1)
    (by decide) (by rw [hr2]; norm_num)
  obtain ⟨p1, p2, p3, -, -⟩ := grid_pair_eq_some hp
  have p4 := grid_pair_v_ij hp
  refine ⟨out, hout, p, (hmem p).2 ⟨0, 1, by norm_num, by norm_num, hp⟩, p1, p2, ?_, ?_⟩
  · rw [p3, hr2, Real.sqrt_zero]
  · rw [p4, grid_vect_coincident 0, grid_vect_coincident 1, grid_vect_coincident 2]
    norm_num

/-! ## sort_pair_list -/

theorem bubble_length (key : ℕ → α) (l : List ℕ) : (bubble key l).length = l.length := by
  induction l with
  | nil => rfl
  | cons a rest ih =>
    unfold bubble
    cases h : bubble key rest with
    | nil =>
      rw [h] at ih
      simp only [List.length_cons, List.length_nil] at ih ⊢
      omega
    | cons b rest' =>
      rw [h] at ih
      simp only
      split_ifs <;> simp only [List.length_cons] at ih ⊢ <;> omega

theorem bubble_perm (key : ℕ → α) (l : List ℕ) : (bubble key l).Perm l := by
  induction l with
  | nil => exact List.Perm.refl _
  | cons a rest ih =>
    unfold bubble
    cases h : bubble key rest with
    | nil =>
      rw [h] at ih
      simp only
      rw [ih.symm.eq_nil]
    | cons b rest' =>
      rw [h] at ih
      simp only
      split_ifs
      · exact (List.Perm.swap a b rest').trans (List.Perm.cons a ih)
      · exact List.Perm.cons a ih

theorem bubble_head_le (key : ℕ → α) (l : List ℕ) (m : ℕ) (rest : List ℕ)
    (h : bubble key l = m :: rest) : ∀ x ∈ l, key m ≤ key x := by
  induction l generalizing m rest with
  | nil => intro x hx; exact absurd hx (List.not_mem_nil x)
  | cons a tl ih =>
    unfold bubble at h
    cases hb : bubble key tl with
    | nil =>
      rw [hb] at h
      simp only [List.cons.injEq] at h
      have htl : tl = [] := by
        have := bubble_length key tl
        rw [hb] at this
        exact List.length_eq_zero.1 this.symm
      intro x hx
      rw [htl] at hx
      rw [← h.1, List.mem_singleton.1 hx]
    | cons b rest' =>
      rw [hb] at h
      simp only at h
      have ihb := ih b rest' hb
      intro x hx
      split_ifs at h with hlt
      · simp only [List.cons.injEq] at h
        rw [← h.1]
        rcases List.mem_cons.1 hx with rfl | hx
        · exact hlt.le
        · exact ihb x hx
      · simp only [List.cons.injEq] at h
        rw [← h.1]
        rcases List.mem_cons.1 hx with rfl | hx
        · exact le_refl _
        · exact (not_lt.1 hlt).trans (ihb x hx)

theorem bubble_filter (key : ℕ → α) (l : List ℕ) (x : α) :
    (bubble key l).filter (fun k => decide (key k = x)) = l.filter (fun k => decide (key k = x)) := by
  induction l with
  | nil => rfl
  | cons a rest ih =>
    unfold bubble
    cases h : bubble key rest with
    | nil =>
      rw [h] at ih
      simp only
      rw [List.filter_cons, List.filter_cons, ← ih]
    | cons b rest' =>
      rw [h] at ih
      simp only
      have e : (a :: rest).filter (fun k => decide (key k = x))
          = (a :: b :: rest').filter (fun k => decide (key k = x)) := by
        rw [List.filter_cons, List.filter_cons, ih]
      rw [e]
      split_ifs with hlt
      · have hne : key b ≠ key a := hlt.ne
        by_cases ha : key a = x
        · have hb : ¬ key b = x := fun hb => hne (hb.trans ha.symm)
          simp [List.filter_cons, ha, hb]
        · simp [List.filter_cons, ha]
      · rfl

theorem bubble_sort_perm (key : ℕ → α) (n : ℕ) (l : List ℕ) : (bubble_sort key n l).Perm l := by
  induction n generalizing l with
  | zero => exact List.Perm.refl _
  | succ n ih =>
    unfold bubble_sort
    cases h : bubble key l with
    | nil =>
      simp only
      have := bubble_perm key l
      rw [h] at this
      exact this
    | cons m rest =>
      simp only
      have := bubble_perm key l
      rw [h] at this
      exact (List.Perm.cons m (ih rest)).trans this

theorem bubble_sort_filter (key : ℕ → α) (n : ℕ) (l : List ℕ) (x : α) :
    (bubble_sort key n l).filter (fun k => decide (key k = x))
      = l.filter (fun k => decide (key k = x)) := by
  induction n generalizing l with
  | zero => rfl
  | succ n ih =>
    unfold bubble_sort
    cases h : bubble key l with
    | nil =>
      simp only
      rw [← bubble_filter key l x, h]
    | cons m rest =>
      simp only
      rw [← bubble_filter key l x, h, List.filter_cons, List.filter_cons, ih rest]

theorem bubble_sort_sorted (key : ℕ → α) (n : ℕ) (l : List ℕ) (hn : l.length ≤ n) :
    (bubble_sort key n l).Pairwise (fun a b => key a ≤ key b) := by
  induction n generalizing l with
  | zero =>
    have : l = [] := List.length_eq_zero.1 (by omega)
    rw [this]
    exact List.Pairwise.nil
  | succ n ih =>
    unfold bubble_sort
    cases h : bubble key l with
    | nil => exact List.Pairwise.nil
    | cons m rest =>
      simp only
      have hlen := bubble_length key l
      rw [h, List.length_cons] at hlen
      have hperm := bubble_perm key l
      rw [h] at hperm
      rw [List.pairwise_cons]
      refine ⟨?_, ih rest (by omega)⟩
      intro x hx
      have hx1 : x ∈ rest := (bubble_sort_perm key n rest).subset hx
      exact bubble_head_le key l m rest h x (hperm.subset (List.mem_cons_of_mem _ hx1))

theorem sort_swap_at (L : List (nn_pair_type α)) (pre : List ℕ) (a b : ℕ) (tl : List ℕ) :
    sort_swap L (pre ++ a :: b :: tl) (pre.length + 1) =
      pre ++ (if pair_r L b < pair_r L a then b :: a :: tl else a :: b :: tl) := by
  have h1 : (pre ++ a :: b :: tl).getD (pre.length + 1) 0 = b := by
    rw [List.getD_eq_getElem?_getD, List.getElem?_append_right (by omega)]
    simp
  have h2 : (pre ++ a :: b :: tl).getD (pre.length + 1 - 1) 0 = a := by
    rw [List.getD_eq_getElem?_getD, List.getElem?_append_right (by omega)]
    simp
  have h3 : ((pre ++ a :: b :: tl).set (pre.length + 1) a).set (pre.length + 1 - 1) b
      = pre ++ b :: a :: tl := by
    clear h1 h2
    induction pre with
    | nil => rfl
    | cons x t ih =>
      simp only [List.length_cons, List.cons_append, List.set_cons_succ,
        Nat.add_sub_cancel] at ih ⊢
      rw [ih]
  unfold sort_swap
  rw [h1, h2, h3]
  split_ifs <;> rfl

/-- The inner loop of `sort_pair_list` for the outer index `pre.length`, on an array whose
first `pre.length + suf.length` entries are being sorted. -/
theorem inner_pass_eq (L : List (nn_pair_type α)) (suf : List ℕ) :
    ∀ pre post : List ℕ,
      ((List.range (pre.length + suf.length - 1 - pre.length)).map
          fun (t : ℕ) => pre.length + suf.length - 1 - t).foldl (sort_swap L)
        (pre ++ suf ++ post) = pre ++ bubble (pair_r L) suf ++ post := by
  induction suf with
  | nil =>
    intro pre post
    have : pre.length + ([] : List ℕ).length - 1 - pre.length = 0 := by simp
    rw [this]
    rfl
  | cons a rest ih =>
    intro pre post
    cases rest with
    | nil =>
      have : pre.length + [a].length - 1 - pre.length = 0 := by simp
      rw [this]
      rfl
    | cons b0 rest0 =>
      have hk : pre.length + (a :: b0 :: rest0).length - 1 - pre.length
          = (rest0.length) + 1 := by
        simp only [List.length_cons]; omega
      rw [hk, List.range_succ, List.map_append, List.foldl_append]
      have ih' := ih (pre ++ [a]) post
      have hk' : (pre ++ [a]).length + (b0 :: rest0).length - 1 - (pre ++ [a]).length
          = rest0.length := by
        simp only [List.length_append, List.length_cons, List.length_nil]; omega
      have hlen : (pre ++ [a]).length + (b0 :: rest0).length
          = pre.length + (a :: b0 :: rest0).length := by
        simp only [List.length_append, List.length_cons, List.length_nil]; omega
      rw [hk', hlen] at ih'
      have e : pre ++ [a] ++ (b0 :: rest0) ++ post = pre ++ (a :: b0 :: rest0) ++ post := by
        simp
      rw [e] at ih'
      rw [ih']
      have hne : bubble (pair_r L) (b0 :: rest0) ≠ [] := by
        intro h
        have := bubble_length (pair_r L) (b0 :: rest0)
        rw [h] at this
        simp at this
      obtain ⟨b, rest', hb⟩ := List.exists_cons_of_ne_nil hne
      have hj : pre.length + (a :: b0 :: rest0).length - 1 - rest0.length = pre.length + 1 := by
        simp only [List.length_cons]; omega
      simp only [List.map_cons, List.map_nil, List.foldl_cons, List.foldl_nil]
      rw [hj, hb]
      have e2 : pre ++ [a] ++ b :: rest' ++ post = pre ++ a :: b :: (rest' ++ post) := by simp
      rw [e2, sort_swap_at]
      conv_rhs => unfold bubble
      rw [hb]
      simp only
      split_ifs <;> simp

theorem outer_pass_eq (L : List (nn_pair_type α)) (N : ℕ) (n : ℕ) :
    ∀ suf pre post : List ℕ, suf.length = n → pre.length + suf.length = N →
      (List.range' pre.length suf.length).foldl
          (fun l i =>
            ((List.range (N - 1 - i)).map fun (t : ℕ) => N - 1 - t).foldl (sort_swap L) l)
          (pre ++ suf ++ post)
        = pre ++ bubble_sort (pair_r L) suf.length suf ++ post := by
  induction n with
  | zero =>
    intro suf pre post hs _
    have : suf = [] := List.length_eq_zero.mp hs
    subst this
    rfl
  | succ n ih =>
    intro suf pre post hs hN
    obtain ⟨a, rest, rfl⟩ : ∃ a rest, suf = a :: rest := by
      cases suf with
      | nil => simp at hs
      | cons a rest => exact ⟨a, rest, rfl⟩
    rw [List.length_cons, List.range'_succ, List.foldl_cons]
    have hin := inner_pass_eq L (a :: rest) pre post
    rw [hN] at hin
    rw [hin]
    have hne : bubble (pair_r L) (a :: rest) ≠ [] := by
      intro h
      have := bubble_length (pair_r L) (a :: rest)
      rw [h] at this
      simp at this
    obtain ⟨m, rest', hb⟩ := List.exists_cons_of_ne_nil hne
    have hl : rest'.length = rest.length := by
      have := bubble_length (pair_r L) (a :: rest)
      rw [hb] at this
      simpa using this
    have e : pre ++ bubble (pair_r L) (a :: rest) ++ post = (pre ++ [m]) ++ rest' ++ post := by
      rw [hb]; simp
    have ih' := ih rest' (pre ++ [m]) post (by
      simp only [List.length_cons] at hs; omega) (by
      simp only [List.length_append, List.length_cons, List.length_nil] at hN ⊢; omega)
    have hl2 : (pre ++ [m]).length = pre.length + 1 := by simp
    rw [hl2, hl] at ih'
    rw [e, ih']
    have e3 : bubble_sort (pair_r L) (rest.length + 1) (a :: rest)
        = m :: bubble_sort (pair_r L) rest.length rest' := by
      conv_lhs => unfold bubble_sort
      rw [hb]
    rw [e3]
    simp

/-- The source-shaped double loop of `sort_pair_list` on the first `N` entries of the index
array is the functional bubble sort of those entries; the rest of the array is untouched. -/
theorem sort_pair_list_eq (L : List (nn_pair_type α)) (suf post : List ℕ) :
    sort_pair_list L suf.length (suf ++ post)
      = bubble_sort (pair_r L) suf.length suf ++ post := by
  have h := outer_pass_eq L suf.length suf.length suf [] post rfl (by simp)
  simp only [List.length_nil, List.nil_append] at h
  unfold sort_pair_list
  rw [List.range_eq_range']
  exact h

theorem sort_pair_list_take (L : List (nn_pair_type α)) (c : ℕ) (buf : List ℕ)
    (hc : c ≤ buf.length) :
    (sort_pair_list L c buf).take c = bubble_sort (pair_r L) c (buf.take c)
      ∧ sort_pair_list L c buf = bubble_sort (pair_r L) c (buf.take c) ++ buf.drop c := by
  have hl : (buf.take c).length = c := by simp [hc]
  have h := sort_pair_list_eq L (buf.take c) (buf.drop c)
  rw [List.take_append_drop, hl] at h
  have hl2 : (bubble_sort (pair_r L) c (buf.take c)).length = c := by
    rw [(bubble_sort_perm (pair_r L) c (buf.take c)).length_eq, hl]
  refine ⟨?_, h⟩
  rw [h, List.take_left' hl2]

/-! ## The adjacency builder -/

theorem pair_i_eq_map (L : List (nn_pair_type α)) (q : ℕ) (hq : q < L.length) :
    (L.map fun x => x.i)[q]? = some (pair_i L q) := by
  rw [List.getElem?_map, List.getElem?_eq_getElem hq]
  simp [pair_i, List.getD_eq_getElem?_getD, List.getElem?_eq_getElem hq]

theorem grouped_pair_i (L : List (nn_pair_type α)) (hg : grouped (L.map fun x => x.i))
    (a b c : ℕ) (hab : a < b) (hbc : b < c) (hc : c < L.length)
    (h : pair_i L a = pair_i L c) : pair_i L b = pair_i L a := by
  have h1 := hg a b c hab hbc (by simpa using hc)
  rw [pair_i_eq_map L a (by omega), pair_i_eq_map L b (by omega),
    pair_i_eq_map L c hc] at h1
  have := h1 (by rw [h])
  exact Option.some.inj this

theorem mem_atom_records (L : List (nn_pair_type α)) (a q : ℕ) :
    q ∈ atom_records L a ↔ q < L.length ∧ pair_i L q = a := by
  simp [atom_records]

theorem atom_records_eq_range' (L : List (nn_pair_type α)) (a s c : ℕ)
    (hn : s + c ≤ L.length)
    (hin : ∀ q, s ≤ q → q < s + c → pair_i L q = a)
    (hlo : ∀ q, q < s → pair_i L q ≠ a)
    (hhi : ∀ q, s + c ≤ q → q < L.length → pair_i L q ≠ a) :
    atom_records L a = List.range' s c := by
  have e : List.range L.length
      = List.range' 0 s ++ (List.range' s c ++ List.range' (s + c) (L.length - (s + c))) := by
    rw [List.range_eq_range']
    have h1 : List.range' s c ++ List.range' (s + c) (L.length - (s + c))
        = List.range' s (L.length - s) := by
      have := List.range'_append s c (L.length - (s + c)) 1
      simp only [one_mul] at this
      rw [this]
      congr 1
      omega
    rw [h1]
    have := List.range'_append 0 s (L.length - s) 1
    simp only [one_mul, zero_add] at this
    rw [this]
    congr 1
    omega
  unfold atom_records
  rw [e, List.filter_append, List.filter_append]
  have h0 : (List.range' 0 s).filter (fun q => decide (pair_i L q = a)) = [] := by
    rw [List.filter_eq_nil_iff]
    intro q hq
    rw [List.mem_range'_1] at hq
    simpa using hlo q (by omega)
  have h2 : (List.range' (s + c) (L.length - (s + c))).filter
      (fun q => decide (pair_i L q = a)) = [] := by
    rw [List.filter_eq_nil_iff]
    intro q hq
    rw [List.mem_range'_1] at hq
    simpa using hhi q (by omega) (by omega)
  have h1 : (List.range' s c).filter (fun q => decide (pair_i L q = a)) = List.range' s c := by
    rw [List.filter_eq_self]
    intro q hq
    rw [List.mem_range'_1] at hq
    simpa using hin q (by omega) (by omega)
  rw [h0, h1, h2]
  simp

theorem run_le_atom_records (L : List (nn_pair_type α)) (a s c : ℕ)
    (hn : s + c ≤ L.length)
    (hin : ∀ q, s ≤ q → q < s + c → pair_i L q = a) :
    c ≤ (atom_records L a).length := by
  have hsub : List.range' s c ⊆ atom_records L a := by
    intro q hq
    rw [List.mem_range'_1] at hq
    rw [mem_atom_records]
    exact ⟨by omega, hin q (by omega) (by omega)⟩
  have := ((List.nodup_range' s c).subperm hsub).length_le
  simpa using this

theorem sort_pair_list_length (L : List (nn_pair_type α)) (c : ℕ) (buf : List ℕ)
    (hc : c ≤ buf.length) : (sort_pair_list L c buf).length = buf.length := by
  rw [(sort_pair_list_take L c buf hc).2, List.length_append,
    (bubble_sort_perm (pair_r L) c (buf.take c)).length_eq]
  simp
  omega

theorem pair_i_getElem (L : List (nn_pair_type α)) (q : ℕ) (hq : q < L.length) :
    (L[q]).i = pair_i L q := by
  simp [pair_i, List.getD_eq_getElem?_getD, List.getElem?_eq_getElem hq]

theorem take_set_succ (l : List ℕ) (c x : ℕ) (hc : c < l.length) :
    (l.set c x).take (c + 1) = l.take c ++ [x] := by
  induction l generalizing c with
  | nil => simp at hc
  | cons a t ih =>
    cases c with
    | zero => simp
    | succ c =>
      simp only [List.length_cons, Nat.add_lt_add_iff_right] at hc
      simp only [List.set_cons_succ, List.take_succ_cons, List.cons_append, ih c hc]

/-- One iteration of the `while(-1)` loop of `sort_nn_list` under the loop invariant: either
the loop continues in a state that satisfies the invariant again and is closer to the end, or
it leaves with the finished table. -/
theorem sort_nn_step_spec (L : List (nn_pair_type α)) (Natoms cap : ℕ)
    (NL0 : List (Option (List ℕ)))
    (hg : grouped (L.map fun x => x.i))
    (hA : ∀ q, q < L.length → pair_i L q < Natoms)
    (hB : ∀ a, (atom_records L a).length ≤ cap)
    (s : ℕ) (st : sort_state) (hinv : sort_inv L Natoms cap NL0 s st) :
    (∃ s1 st1, sort_nn_step L.length L st = run_result.done (Sum.inl st1)
        ∧ sort_inv L Natoms cap NL0 s1 st1
        ∧ 2 * (L.length - st1.p) + (if 0 < st1.count then 1 else 0)
            < 2 * (L.length - st.p) + (if 0 < st.count then 1 else 0))
    ∨ (∃ NL, sort_nn_step L.length L st = run_result.done (Sum.inr NL)
        ∧ NL.length = Natoms
        ∧ ∀ a, (atom_records L a ≠ [] → NL[a]? = some (some ((atom_records L a).length ::
              bubble_sort (pair_r L) (atom_records L a).length (atom_records L a))))
            ∧ (atom_records L a = [] → NL[a]? = NL0[a]?)) := by
  obtain ⟨hp, hpn, hs, hi, hrun, hlen, htake, hinew, hleft, hnl, hdone, hkeep⟩ := hinv
  by_cases h1 : st.inew = st.i
  · -- the record at `p` continues the current run
    have hpn1 : st.p < L.length := by
      by_contra hcon
      have : st.p = L.length := by omega
      rw [if_pos this] at hinew
      rw [hinew, hi] at h1
      omega
    have hfp : pair_i L st.p = pair_i L s := by
      rw [if_neg (by omega)] at hinew
      rw [hinew, hi] at h1
      exact_mod_cast h1
    have hrun1 : ∀ q, s ≤ q → q < s + (st.count + 1) → pair_i L q = pair_i L s := by
      intro q h1 h2
      by_cases hq : q < st.p
      · exact hrun q h1 hq
      · have : q = st.p := by omega
        rw [this, hfp]
    have hc : st.count < cap :=
      lt_of_lt_of_le (Nat.lt_succ_self _)
        (le_trans (run_le_atom_records L (pair_i L s) s (st.count + 1) (by omega) hrun1)
          (hB _))
    left
    unfold sort_nn_step
    rw [if_pos h1, if_pos (by rw [hlen]; exact hc)]
    have htk : (st.tlist.set st.count st.p).take (st.count + 1)
        = List.range' s (st.count + 1) := by
      rw [take_set_succ _ _ _ (by rw [hlen]; exact hc), htake, List.range'_concat, hp]
      simp
    by_cases h2 : st.p + 1 = L.length
    · rw [if_neg (not_not.mpr h2)]
      refine ⟨s, _, rfl, ?_, ?_⟩
      · refine ⟨?_, ?_, hs, hi, ?_, ?_, htk, ?_, hleft, hnl, hdone, hkeep⟩
        · simp only; omega
        · simp only; omega
        · intro q h3 h4
          exact hrun1 q h3 (by simp only at h4; omega)
        · simp only [List.length_set]; exact hlen
        · simp only; rw [if_pos h2]
      · simp only
        split_ifs <;> omega
    · rw [if_pos h2]
      have h3 : st.p + 1 < L.length := by omega
      rw [List.getElem?_eq_getElem h3]
      refine ⟨s, _, rfl, ?_, ?_⟩
      · refine ⟨?_, ?_, hs, hi, ?_, ?_, htk, ?_, hleft, hnl, hdone, hkeep⟩
        · simp only; omega
        · simp only; omega
        · intro q h3 h4
          exact hrun1 q h3 (by simp only at h4; omega)
        · simp only [List.length_set]; exact hlen
        · simp only; rw [if_neg h2, pair_i_getElem L _ h3]
      · simp only
        split_ifs <;> omega
  · -- the run `[s, p)` is complete
    have hcnt : 0 < st.count := by
      by_contra hcon
      have h0 : st.count = 0 := by omega
      have hps : st.p = s := by omega
      rw [if_neg (by omega), hps] at hinew
      exact h1 (by rw [hinew, hi])
    have hfs : pair_i L s < Natoms := hA s hs
    have hi0 : 0 ≤ st.i ∧ st.i.toNat < st.nn_list.length := by
      rw [hi, hnl]
      exact ⟨by omega, by simpa using hfs⟩
    have hit : st.i.toNat = pair_i L s := by rw [hi]; simp
    have hcl : st.count ≤ st.tlist.length := by
      rw [hlen]
      exact le_trans (run_le_atom_records L (pair_i L s) s st.count (by omega)
        (fun q h3 h4 => hrun q h3 (by omega))) (hB _)
    have hsorted : (sort_pair_list L st.count st.tlist).take st.count
        = bubble_sort (pair_r L) st.count (List.range' s st.count) := by
      rw [(sort_pair_list_take L st.count st.tlist hcl).1, htake]
    -- the closed run is the whole set of records of atom `i`
    have hrec : (st.p = L.length ∨ pair_i L st.p ≠ pair_i L s) →
        atom_records L (pair_i L s) = List.range' s st.count := by
      intro hend
      refine atom_records_eq_range' L (pair_i L s) s st.count (by omega)
        (fun q h3 h4 => hrun q h3 (by omega)) hleft ?_
      intro q h3 h4 h5
      rcases hend with hend | hend
      · omega
      · by_cases hq : q = st.p
        · rw [hq] at h5; exact hend h5
        · exact hend (by
            have := grouped_pair_i L hg s st.p q (by omega) (by omega) h4 h5.symm
            exact this)
    unfold sort_nn_step
    rw [if_neg h1, if_pos hi0]
    by_cases h2 : st.inew = -1
    · right
      rw [if_pos h2]
      have hpe : st.p = L.length := by
        by_contra hcon
        rw [if_neg hcon] at hinew
        omega
      have hr := hrec (Or.inl hpe)
      refine ⟨_, rfl, by simp [hnl], ?_⟩
      intro a
      rw [hit, hsorted]
      by_cases ha : a = pair_i L s
      · subst ha
        constructor
        · intro _
          rw [List.getElem?_set_self (by rw [hnl]; exact hfs), hr]
          simp
        · intro hnil
          rw [hr] at hnil
          have := congrArg List.length hnil
          simp at this
          omega
      · rw [List.getElem?_set_ne (fun h => ha h.symm)]
        constructor
        · intro hne
          obtain ⟨q, hq⟩ := List.exists_mem_of_ne_nil _ hne
          rw [mem_atom_records] at hq
          refine hdone a ⟨q, ?_, hq.2⟩
          by_contra hcon
          exact ha (by rw [← hq.2]; exact hrun q (by omega) (by omega))
        · intro hnil
          refine hkeep a ?_
          intro q hq hqa
          have : q ∈ atom_records L a := (mem_atom_records L a q).2 ⟨by omega, hqa⟩
          rw [hnil] at this
          simp at this
    · left
      rw [if_neg h2]
      have hpe : st.p < L.length := by
        by_contra hcon
        have : st.p = L.length := by omega
        rw [if_pos this] at hinew
        exact h2 hinew
      have hne : pair_i L st.p ≠ pair_i L s := by
        intro h
        rw [if_neg (by omega)] at hinew
        exact h1 (by rw [hinew, hi, h])
      have hr := hrec (Or.inr hne)
      refine ⟨st.p, _, rfl, ?_, ?_⟩
      · refine ⟨?_, hpn, hpe, ?_, ?_, ?_, ?_, ?_, ?_, ?_, ?_, ?_⟩
        · simp only; omega
        · simp only; rw [hinew, if_neg (by omega)]
        · intro q h3 h4
          simp only at h4
          have : q = st.p := by omega
          rw [this]
        · simp only; rw [sort_pair_list_length L _ _ hcl, hlen]
        · simp
        · simp only; exact hinew
        · intro q hq h
          by_cases hqs : q < s
          · have := grouped_pair_i L hg q s st.p hqs (by omega) hpe h
            exact hleft q hqs this.symm
          · exact hne (by rw [← h]; exact hrun q (by omega) hq)
        · simp [hnl]
        · intro a ⟨q, hq, hqa⟩
          simp only
          rw [hit, hsorted]
          by_cases ha : a = pair_i L s
          · subst ha
            rw [List.getElem?_set_self (by rw [hnl]; exact hfs), hr]
            simp
          · rw [List.getElem?_set_ne (fun h => ha h.symm)]
            refine hdone a ⟨q, ?_, hqa⟩
            by_contra hcon
            exact ha (by rw [← hqa]; exact hrun q (by omega) hq)
        · intro a hno
          simp only
          rw [hit]
          have ha : a ≠ pair_i L s := fun h => hno s (by omega) h.symm
          rw [List.getElem?_set_ne (fun h => ha h.symm)]
          exact hkeep a (fun q hq => hno q (by omega))
      · simp only
        rw [if_pos hcnt]
        simp

theorem sort_nn_loop_spec (L : List (nn_pair_type α)) (Natoms cap : ℕ)
    (NL0 : List (Option (List ℕ)))
    (hg : grouped (L.map fun x => x.i))
    (hA : ∀ q, q < L.length → pair_i L q < Natoms)
    (hB : ∀ a, (atom_records L a).length ≤ cap) (fuel : ℕ) :
    ∀ (s : ℕ) (st : sort_state), sort_inv L Natoms cap NL0 s st →
      2 * (L.length - st.p) + (if 0 < st.count then 1 else 0) < fuel →
      ∃ NL, sort_nn_loop L.length L fuel st = run_result.done NL
        ∧ NL.length = Natoms
        ∧ ∀ a, (atom_records L a ≠ [] → NL[a]? = some (some ((atom_records L a).length ::
              bubble_sort (pair_r L) (atom_records L a).length (atom_records L a))))
            ∧ (atom_records L a = [] → NL[a]? = NL0[a]?) := by
  induction fuel with
  | zero => intro s st _ h; omega
  | succ fuel ih =>
    intro s st hinv hm
    rcases sort_nn_step_spec L Natoms cap NL0 hg hA hB s st hinv with
      ⟨s1, st1, hstep, hinv1, hdec⟩ | ⟨NL, hstep, hfin⟩
    · obtain ⟨NL, h1, h2⟩ := ih s1 st1 hinv1 (by omega)
      refine ⟨NL, ?_, h2⟩
      unfold sort_nn_loop
      rw [hstep]
      exact h1
    · refine ⟨NL, ?_, hfin⟩
      unfold sort_nn_loop
      rw [hstep]

/-- Specification of `sort_nn_list` on a non-empty pair list that is grouped by first atom
index, names only atoms below `Natoms`, and has no run longer than the temporary buffer: the
call returns a table with `Natoms` entries; the entry of an atom that occurs as a first index
is its record count followed by the bubble-sorted indices of its records, and the entry of any
other atom is left as it was. -/
theorem sort_nn_list_spec (L : List (nn_pair_type α)) (Natoms : ℕ)
    (hL : L ≠ [])
    (hg : grouped (L.map fun x => x.i))
    (hA : ∀ q, q < L.length → pair_i L q < Natoms)
    (hB : ∀ a, (atom_records L a).length ≤ sort_buffer_size L.length Natoms) :
    ∃ NL, sort_nn_list L.length L Natoms none = run_result.done NL
      ∧ NL.length = Natoms
      ∧ ∀ a, (atom_records L a ≠ [] → NL[a]? = some (some ((atom_records L a).length ::
            bubble_sort (pair_r L) (atom_records L a).length (atom_records L a))))
          ∧ (atom_records L a = [] → NL[a]? = (List.replicate Natoms none)[a]?) := by
  have hn : 0 < L.length := List.length_pos.mpr hL
  have hN : Natoms ≠ 0 := by
    have := hA 0 hn
    omega
  unfold sort_nn_list
  rw [if_neg hN, List.getElem?_eq_getElem hn]
  simp only
  refine sort_nn_loop_spec L Natoms (sort_buffer_size L.length Natoms)
    (List.replicate Natoms none) hg hA hB _ 0 _ ?_ ?_
  · refine ⟨by simp, by simp, hn, ?_, ?_, by simp, by simp, ?_, ?_, by simp, ?_, ?_⟩
    · simp only; rw [pair_i_getElem L 0 hn]
    · intro q h1 h2
      simp only at h2
      have : q = 0 := by omega
      rw [this]
    · simp only; rw [if_neg (by omega), pair_i_getElem L 0 hn]
    · intro q hq; omega
    · intro a ⟨q, hq, _⟩; omega
    · intro a _; simp
  · simp only [lt_irrefl, if_false, Nat.sub_zero]
    omega

theorem grouped_of_pairwise_le (ks : List ℕ) (h : ks.Pairwise (fun a b => a ≤ b)) :
    grouped ks := by
  intro a b c hab hbc hc heq
  rw [List.pairwise_iff_getElem] at h
  have h1 := h a b (by omega) (by omega) hab
  have h2 := h b c (by omega) hc hbc
  rw [List.getElem?_eq_getElem (by omega), List.getElem?_eq_getElem hc] at heq
  have h3 := Option.some.inj heq
  rw [List.getElem?_eq_getElem (by omega), List.getElem?_eq_getElem (by omega)]
  congr 1
  omega

theorem atom_records_ne_nil_iff (L : List (nn_pair_type α)) (a : ℕ) :
    atom_records L a ≠ [] ↔ ∃ x ∈ L, x.i = a := by
  constructor
  · intro h
    obtain ⟨q, hq⟩ := List.exists_mem_of_ne_nil _ h
    rw [mem_atom_records] at hq
    exact ⟨L[q], List.getElem_mem hq.1, by rw [pair_i_getElem L q hq.1]; exact hq.2⟩
  · rintro ⟨x, hx, hxa⟩
    obtain ⟨q, hq, rfl⟩ := List.mem_iff_getElem.mp hx
    exact List.ne_nil_of_mem
      ((mem_atom_records L a q).2 ⟨hq, by rw [← pair_i_getElem L q hq]; exact hxa⟩)

theorem atom_records_length (L : List (nn_pair_type α)) (a : ℕ) :
    (atom_records L a).length = L.countP fun x => decide (x.i = a) := by
  have e : (List.range L.length).map (fun q => L.getD q default) = L := by
    apply List.ext_getElem
    · simp
    · intro n h1 h2
      simp [List.getD_eq_getElem?_getD, List.getElem?_eq_getElem h2]
  have h : L.countP (fun x => decide (x.i = a))
      = ((List.range L.length).map (fun q => L.getD q default)).countP
          (fun x => decide (x.i = a)) := by rw [e]
  rw [h, List.countP_map, List.countP_eq_length_filter]
  rfl

theorem atom_records_pairwise (L : List (nn_pair_type α)) (a : ℕ) :
    (atom_records L a).Pairwise (fun x y => x < y) :=
  List.Pairwise.filter _ (List.pairwise_lt_range _)

theorem sum_countP_first_index (L : List (nn_pair_type α)) (Natoms : ℕ)
    (hA : ∀ x ∈ L, x.i < Natoms) :
    Finset.sum (Finset.range Natoms) (fun a => L.countP fun x => decide (x.i = a))
      = L.length := by
  induction L with
  | nil => simp
  | cons x t ih =>
    have h1 : ∀ a, (x :: t).countP (fun y => decide (y.i = a))
        = t.countP (fun y => decide (y.i = a)) + (if x.i = a then 1 else 0) := by
      intro a
      rw [List.countP_cons]
      simp
    simp only [h1, Finset.sum_add_distrib]
    rw [ih (fun y hy => hA y (List.mem_cons_of_mem _ hy)), Finset.sum_ite_eq]
    have := hA x (List.mem_cons_self _ _)
    simp [this]

/-- Result of `sort_nn_list` on a non-empty pair list grouped by first atom index whose
first indices are below `Natoms` and in which no atom has more records than the temporary
buffer holds. -/
theorem sort_nn_list_result (L : List (nn_pair_type α)) (Natoms : ℕ)
    (hL : L ≠ [])
    (hg : grouped (L.map fun x => x.i))
    (hA : ∀ x ∈ L, x.i < Natoms)
    (hB : ∀ a, (L.countP fun x => decide (x.i = a)) ≤ sort_buffer_size L.length Natoms) :
    ∃ NL, sort_nn_list L.length L Natoms none = run_result.done NL
      ∧ NL.length = Natoms
      ∧ ∀ a, ((∃ x ∈ L, x.i = a) → NL[a]? = some (some ((atom_records L a).length ::
            bubble_sort (pair_r L) (atom_records L a).length (atom_records L a))))
          ∧ ((∀ x ∈ L, x.i ≠ a) → a < Natoms → NL[a]? = some none) := by
  obtain ⟨NL, h1, h2, h3⟩ := sort_nn_list_spec L Natoms hL hg
    (fun q hq => by rw [← pair_i_getElem L q hq]; exact hA _ (List.getElem_mem hq))
    (fun a => by rw [atom_records_length]; exact hB a)
  refine ⟨NL, h1, h2, fun a => ⟨fun ha => (h3 a).1 ((atom_records_ne_nil_iff L a).2 ha), ?_⟩⟩
  intro hno ha
  have hnil : atom_records L a = [] := by
    by_contra hne
    obtain ⟨x, hx, hxa⟩ := (atom_records_ne_nil_iff L a).1 hne
    exact hno x hx hxa
  rw [(h3 a).2 hnil]
  simp [List.getElem?_replicate, ha]

theorem pairwise_ties_of_filter (key : ℕ → α) (l : List ℕ)
    (h : ∀ x, (l.filter fun k => decide (key k = x)).Pairwise (fun a b => a < b)) :
    l.Pairwise (fun a b => key a = key b → a < b) := by
  induction l with
  | nil => exact List.Pairwise.nil
  | cons a t ih =>
    rw [List.pairwise_cons]
    constructor
    · intro b hb hab
      have := h (key a)
      rw [List.filter_cons_of_pos (by simp), List.pairwise_cons] at this
      exact this.1 b (List.mem_filter.mpr ⟨hb, by simp [hab]⟩)
    · refine ih (fun x => ?_)
      have := h x
      by_cases hx : key a = x
      · rw [List.filter_cons_of_pos (by simp [hx]), List.pairwise_cons] at this
        exact this.2
      · rw [List.filter_cons_of_neg (by simp [hx])] at this
        exact this

/-- A bubble-sorted list of ascending indices lists ties in ascending index order. -/
theorem bubble_sort_ties (key : ℕ → α) (n : ℕ) (l : List ℕ)
    (hl : l.Pairwise (fun a b => a < b)) :
    (bubble_sort key n l).Pairwise (fun a b => key a = key b → a < b) := by
  apply pairwise_ties_of_filter
  intro x
  rw [bubble_sort_filter]
  exact List.Pairwise.filter _ hl

theorem entry_pairwise_getD (R : ℕ → ℕ → Prop) (c : ℕ) (out : List ℕ)
    (hlen : out.length = c) (hp : out.Pairwise R) :
    ∀ j k, 1 ≤ j → j < k → k ≤ c → R ((c :: out).getD j 0) ((c :: out).getD k 0) := by
  intro j k hj hjk hk
  obtain ⟨j1, rfl⟩ : ∃ j1, j = j1 + 1 := ⟨j - 1, by omega⟩
  obtain ⟨k1, rfl⟩ : ∃ k1, k = k1 + 1 := ⟨k - 1, by omega⟩
  rw [List.getD_cons_succ, List.getD_cons_succ,
    List.getD_eq_getElem _ _ (by omega : j1 < out.length),
    List.getD_eq_getElem _ _ (by omega : k1 < out.length)]
  exact (List.pairwise_iff_getElem.mp hp) j1 k1 (by omega) (by omega) (by omega)

/-- C15 fails in the code, by a defect of `sort_nn_list`: the run of one atom is collected in
the temporary buffer `tlist` of `max(10, 10*NNpairs/Natoms)` entries and `count` is never
tested against that size.  A symmetric pair list grouped by first atom index in which atom 0
has eleven bonds among 100 atoms meets every condition of the claim; the buffer has ten
entries, and the eleventh index of the run is written one past its end (the run of the
model ends there with `out_of_bounds`). -/
theorem sort_nn_list_long_run :
    grouped ((((List.range 11).map fun (k : ℕ) => (⟨0, k + 1, 1, (1, 0, 0)⟩ : nn_pair_type ℝ)) ++
        (List.range 11).map fun (k : ℕ) => (⟨k + 1, 0, 1, (-1, 0, 0)⟩ : nn_pair_type ℝ)).map
          fun x => x.i) ∧
    (∃ x ∈ ((List.range 11).map fun (k : ℕ) => (⟨0, k + 1, 1, (1, 0, 0)⟩ : nn_pair_type ℝ)) ++
        (List.range 11).map fun (k : ℕ) => (⟨k + 1, 0, 1, (-1, 0, 0)⟩ : nn_pair_type ℝ),
      x.i = 0) ∧
    sort_buffer_size 22 100 = 10 ∧
    sort_nn_list 22
      (((List.range 11).map fun (k : ℕ) => (⟨0, k + 1, 1, (1, 0, 0)⟩ : nn_pair_type ℝ)) ++
        (List.range 11).map fun (k : ℕ) => (⟨k + 1, 0, 1, (-1, 0, 0)⟩ : nn_pair_type ℝ))
      100 none = run_result.out_of_bounds := by
  refine ⟨?_, ⟨⟨0, 0 + 1, 1, (1, 0, 0)⟩, ?_, rfl⟩, by decide, rfl⟩
  · apply grouped_of_pairwise_le
    have e : ((((List.range 11).map fun (k : ℕ) =>
          (⟨0, k + 1, 1, (1, 0, 0)⟩ : nn_pair_type ℝ)) ++
        (List.range 11).map fun (k : ℕ) => (⟨k + 1, 0, 1, (-1, 0, 0)⟩ : nn_pair_type ℝ)).map
          fun x => x.i)
        = [0, 0, 0, 0, 0, 0, 0, 0, 0, 0, 0, 1, 2, 3, 4, 5, 6, 7, 8, 9, 10, 11] := rfl
    rw [e]
    decide
  · exact List.mem_append_left _ (List.mem_map.mpr ⟨0, by decide, rfl⟩)

/-- Within the buffer bound `sort_nn_list` sorts: for a pair list grouped by first atom index
whose
first indices are below `Natoms` and in which no atom has more records than the temporary
buffer holds, `sort_nn_list` returns a table, and the entry `e` of every atom that has a pair
record holds `e[0] + 1` numbers with the bond length of record `e[k]` at most that of record
`e[k+1]` for all `1 ≤ k < e[0]`. -/
theorem adjacency_list_sorted (L : List (nn_pair_type α)) (Natoms : ℕ)
    (hg : grouped (L.map fun x => x.i))
    (hA : ∀ x ∈ L, x.i < Natoms)
    (hB : ∀ a, (L.countP fun x => decide (x.i = a)) ≤ sort_buffer_size L.length Natoms)
    (a : ℕ) (ha : ∃ x ∈ L, x.i = a) :
    ∃ NL e, sort_nn_list L.length L Natoms none = run_result.done NL
      ∧ NL[a]? = some (some e)
      ∧ e.length = e.getD 0 0 + 1
      ∧ ∀ k, 1 ≤ k → k < e.getD 0 0 →
          pair_r L (e.getD k 0) ≤ pair_r L (e.getD (k + 1) 0) := by
  have hL : L ≠ [] := by
    obtain ⟨x, hx, _⟩ := ha
    exact List.ne_nil_of_mem hx
  obtain ⟨NL, h1, _, h3⟩ := sort_nn_list_result L Natoms hL hg hA hB
  have hlen : (bubble_sort (pair_r L) (atom_records L a).length (atom_records L a)).length
      = (atom_records L a).length := (bubble_sort_perm _ _ _).length_eq
  refine ⟨NL, _, h1, (h3 a).1 ha, ?_, ?_⟩
  · simp [hlen]
  · intro k hk1 hk2
    simp only [List.getD_cons_zero] at hk2
    exact entry_pairwise_getD (fun x y => pair_r L x ≤ pair_r L y) _ _ hlen
      (bubble_sort_sorted (pair_r L) _ _ (le_refl _)) k (k + 1) hk1 (by omega) (by omega)

theorem adjacency_list_sorted_witness :
    grouped (([⟨0, 1, 2, (1, 0, 0)⟩, ⟨0, 2, 1, (0, 1, 0)⟩, ⟨1, 0, 2, (-1, 0, 0)⟩,
        ⟨2, 0, 1, (0, -1, 0)⟩] : List (nn_pair_type ℝ)).map fun x => x.i) ∧
    (∃ NL e, sort_nn_list 4 ([⟨0, 1, 2, (1, 0, 0)⟩, ⟨0, 2, 1, (0, 1, 0)⟩, ⟨1, 0, 2, (-1, 0, 0)⟩,
        ⟨2, 0, 1, (0, -1, 0)⟩] : List (nn_pair_type ℝ)) 3 none = run_result.done NL
      ∧ NL[0]? = some (some e)
      ∧ e.length = e.getD 0 0 + 1
      ∧ ∀ k, 1 ≤ k → k < e.getD 0 0 →
          pair_r ([⟨0, 1, 2, (1, 0, 0)⟩, ⟨0, 2, 1, (0, 1, 0)⟩, ⟨1, 0, 2, (-1, 0, 0)⟩,
            ⟨2, 0, 1, (0, -1, 0)⟩] : List (nn_pair_type ℝ)) (e.getD k 0)
          ≤ pair_r ([⟨0, 1, 2, (1, 0, 0)⟩, ⟨0, 2, 1, (0, 1, 0)⟩, ⟨1, 0, 2, (-1, 0, 0)⟩,
            ⟨2, 0, 1, (0, -1, 0)⟩] : List (nn_pair_type ℝ)) (e.getD (k + 1) 0)) :=
  have hg : grouped (([⟨0, 1, 2, (1, 0, 0)⟩, ⟨0, 2, 1, (0, 1, 0)⟩, ⟨1, 0, 2, (-1, 0, 0)⟩,
      ⟨2, 0, 1, (0, -1, 0)⟩] : List (nn_pair_type ℝ)).map fun x => x.i) :=
    grouped_of_pairwise_le [0, 0, 1, 2] (by decide)
  ⟨hg, adjacency_list_sorted ([⟨0, 1, 2, (1, 0, 0)⟩, ⟨0, 2, 1, (0, 1, 0)⟩, ⟨1, 0, 2, (-1, 0, 0)⟩,
      ⟨2, 0, 1, (0, -1, 0)⟩] : List (nn_pair_type ℝ)) 3 hg
    (by intro x hx; simp at hx; rcases hx with rfl | rfl | rfl | rfl <;> simp)
    (fun a => (List.countP_le_length _).trans (by decide)) 0
    ⟨⟨0, 1, 2, (1, 0, 0)⟩, by simp, rfl⟩⟩

/-- C16: for a non-empty pair list grouped by first atom index, with first indices below
`Natoms` and no atom holding more records than the temporary buffer, `sort_nn_list` returns a
table with `Natoms` entries; for every atom `a` that occurs as a first index the entry is the
number of records whose first index is `a`, followed by a permutation of exactly the
pair-list indices of those records; and the stored counts of the atoms that occur add up to
`NNpairs`. -/
theorem adjacency_list_counts (L : List (nn_pair_type α)) (Natoms : ℕ)
    (hL : L ≠ [])
    (hg : grouped (L.map fun x => x.i))
    (hA : ∀ x ∈ L, x.i < Natoms)
    (hB : ∀ a, (L.countP fun x => decide (x.i = a)) ≤ sort_buffer_size L.length Natoms) :
    ∃ NL, sort_nn_list L.length L Natoms none = run_result.done NL
      ∧ NL.length = Natoms
      ∧ (∀ a, (∃ x ∈ L, x.i = a) →
          ∃ idx, NL[a]? = some (some ((L.countP fun x => decide (x.i = a)) :: idx))
            ∧ idx.length = (L.countP fun x => decide (x.i = a))
            ∧ idx.Perm (atom_records L a)
            ∧ ∀ q, q ∈ idx ↔ q < L.length ∧ pair_i L q = a)
      ∧ Finset.sum (L.map fun x => x.i).toFinset (nn_count NL) = L.length := by
  obtain ⟨NL, h1, h2, h3⟩ := sort_nn_list_result L Natoms hL hg hA hB
  have hent : ∀ a, (∃ x ∈ L, x.i = a) →
      NL[a]? = some (some ((L.countP fun x => decide (x.i = a)) ::
        bubble_sort (pair_r L) (atom_records L a).length (atom_records L a))) := by
    intro a ha
    rw [(h3 a).1 ha, atom_records_length]
  refine ⟨NL, h1, h2, ?_, ?_⟩
  · intro a ha
    have hperm := bubble_sort_perm (pair_r L) (atom_records L a).length (atom_records L a)
    refine ⟨_, hent a ha, ?_, hperm, ?_⟩
    · rw [hperm.length_eq, atom_records_length]
    · intro q
      rw [hperm.mem_iff, mem_atom_records]
  · have hc : ∀ a ∈ (L.map fun x => x.i).toFinset,
        nn_count NL a = L.countP fun x => decide (x.i = a) := by
      intro a ha
      rw [List.mem_toFinset, List.mem_map] at ha
      have := hent a ha
      simp [nn_count, List.getD_eq_getElem?_getD, this]
    rw [Finset.sum_congr rfl hc, ← sum_countP_first_index L Natoms hA]
    apply Finset.sum_subset
    · intro a ha
      rw [List.mem_toFinset, List.mem_map] at ha
      obtain ⟨x, hx, rfl⟩ := ha
      exact Finset.mem_range.mpr (hA x hx)
    · intro a _ ha
      rw [List.mem_toFinset, List.mem_map] at ha
      rw [List.countP_eq_zero]
      intro x hx
      simp only [decide_eq_true_eq]
      intro hxa
      exact ha ⟨x, hx, hxa⟩

theorem adjacency_list_counts_witness :
    ([⟨0, 1, 1, (1, 0, 0)⟩, ⟨1, 0, 1, (-1, 0, 0)⟩] : List (nn_pair_type ℝ)) ≠ [] ∧
    grouped (([⟨0, 1, 1, (1, 0, 0)⟩, ⟨1, 0, 1, (-1, 0, 0)⟩] : List (nn_pair_type ℝ)).map
      fun x => x.i) ∧
    ∃ NL, sort_nn_list 2 ([⟨0, 1, 1, (1, 0, 0)⟩, ⟨1, 0, 1, (-1, 0, 0)⟩] : List (nn_pair_type ℝ))
        2 none = run_result.done NL
      ∧ NL.length = 2
      ∧ (∀ a, (∃ x ∈ ([⟨0, 1, 1, (1, 0, 0)⟩, ⟨1, 0, 1, (-1, 0, 0)⟩] : List (nn_pair_type ℝ)),
            x.i = a) →
          ∃ idx, NL[a]? = some (some
              ((([⟨0, 1, 1, (1, 0, 0)⟩, ⟨1, 0, 1, (-1, 0, 0)⟩] : List (nn_pair_type ℝ)).countP
                fun x => decide (x.i = a)) :: idx))
            ∧ idx.length = (([⟨0, 1, 1, (1, 0, 0)⟩, ⟨1, 0, 1, (-1, 0, 0)⟩] :
                List (nn_pair_type ℝ)).countP fun x => decide (x.i = a))
            ∧ idx.Perm (atom_records
                ([⟨0, 1, 1, (1, 0, 0)⟩, ⟨1, 0, 1, (-1, 0, 0)⟩] : List (nn_pair_type ℝ)) a)
            ∧ ∀ q, q ∈ idx ↔ q < 2 ∧ pair_i
                ([⟨0, 1, 1, (1, 0, 0)⟩, ⟨1, 0, 1, (-1, 0, 0)⟩] : List (nn_pair_type ℝ)) q = a)
      ∧ Finset.sum (([⟨0, 1, 1, (1, 0, 0)⟩, ⟨1, 0, 1, (-1, 0, 0)⟩] :
            List (nn_pair_type ℝ)).map fun x => x.i).toFinset (nn_count NL) = 2 :=
  have hg : grouped (([⟨0, 1, 1, (1, 0, 0)⟩, ⟨1, 0, 1, (-1, 0, 0)⟩] :
      List (nn_pair_type ℝ)).map fun x => x.i) :=
    grouped_of_pairwise_le [0, 1] (by decide)
  ⟨by simp, hg,
    adjacency_list_counts ([⟨0, 1, 1, (1, 0, 0)⟩, ⟨1, 0, 1, (-1, 0, 0)⟩] : List (nn_pair_type ℝ))
      2 (by simp) hg
      (by intro x hx; simp at hx; rcases hx with rfl | rfl <;> simp)
      (fun a => (List.countP_le_length _).trans (by decide))⟩

/-- C17 fails in the code: for a pair list that `sort_nn_list` accepts (grouped, first
indices below `Natoms`, no run longer than the temporary buffer), the returned table holds no
entry for an atom `a < Natoms` without a pair record; `nn_list[a]` is left as the allocation
gave it (`none`), it is not a list whose count is `0`. -/
theorem isolated_atom_entry_unset (L : List (nn_pair_type α)) (Natoms : ℕ)
    (hL : L ≠ [])
    (hg : grouped (L.map fun x => x.i))
    (hA : ∀ x ∈ L, x.i < Natoms)
    (hB : ∀ a, (L.countP fun x => decide (x.i = a)) ≤ sort_buffer_size L.length Natoms)
    (a : ℕ) (ha : a < Natoms) (hno : ∀ x ∈ L, x.i ≠ a) :
    ∃ NL, sort_nn_list L.length L Natoms none = run_result.done NL
      ∧ NL.length = Natoms ∧ NL[a]? = some none := by
  obtain ⟨NL, h1, h2, h3⟩ := sort_nn_list_result L Natoms hL hg hA hB
  exact ⟨NL, h1, h2, (h3 a).2 hno ha⟩

theorem isolated_atom_entry_unset_witness :
    (2 < 3) ∧
    (∀ x ∈ ([⟨0, 1, 1, (1, 0, 0)⟩, ⟨1, 0, 1, (-1, 0, 0)⟩] : List (nn_pair_type ℝ)), x.i ≠ 2) ∧
    sort_nn_list 2 ([⟨0, 1, 1, (1, 0, 0)⟩, ⟨1, 0, 1, (-1, 0, 0)⟩] : List (nn_pair_type ℝ)) 3 none
      = run_result.done [some [1, 0], some [1, 1], none] ∧
    ∃ NL, sort_nn_list 2 ([⟨0, 1, 1, (1, 0, 0)⟩, ⟨1, 0, 1, (-1, 0, 0)⟩] : List (nn_pair_type ℝ))
        3 none = run_result.done NL
      ∧ NL.length = 3 ∧ NL[2]? = some none :=
  have hno : ∀ x ∈ ([⟨0, 1, 1, (1, 0, 0)⟩, ⟨1, 0, 1, (-1, 0, 0)⟩] : List (nn_pair_type ℝ)),
      x.i ≠ 2 := by
    intro x hx; simp at hx; rcases hx with rfl | rfl <;> simp
  ⟨by decide, hno, rfl,
    isolated_atom_entry_unset
      ([⟨0, 1, 1, (1, 0, 0)⟩, ⟨1, 0, 1, (-1, 0, 0)⟩] : List (nn_pair_type ℝ)) 3 (by simp)
      (grouped_of_pairwise_le [0, 1] (by decide))
      (by intro x hx; simp at hx; rcases hx with rfl | rfl <;> simp)
      (fun a => (List.countP_le_length _).trans (by decide)) 2 (by decide) hno⟩

/-- C18: `sort_pair_list` is stable. For every index array `list` with at least `Npairs`
entries that point into the pair list, and every bond length `x`, the entries with length `x`
stand in the sorted array in the order they had before; so if the entries were in ascending
index order, entries of equal length are in ascending index order afterwards. In the table of
`sort_nn_list` every atom's index list therefore has its ties in ascending pair-list
index. -/
theorem sort_pair_list_stable (L : List (nn_pair_type α)) (Npairs : ℕ) (list : List ℕ)
    (Natoms : ℕ) (hN : Npairs ≤ list.length) (_hidx : ∀ k ∈ list.take Npairs, k < L.length) :
    (∀ x : α, ((sort_pair_list L Npairs list).take Npairs).filter
          (fun k => decide (pair_r L k = x))
        = (list.take Npairs).filter (fun k => decide (pair_r L k = x)))
    ∧ ((list.take Npairs).Pairwise (fun a b => a < b) →
        ((sort_pair_list L Npairs list).take Npairs).Pairwise
          (fun a b => pair_r L a = pair_r L b → a < b))
    ∧ (grouped (L.map fun x => x.i) → (∀ x ∈ L, x.i < Natoms) →
        (∀ a, (L.countP fun x => decide (x.i = a)) ≤ sort_buffer_size L.length Natoms) →
        ∀ a, (∃ x ∈ L, x.i = a) →
          ∃ NL c idx, sort_nn_list L.length L Natoms none = run_result.done NL
            ∧ NL[a]? = some (some (c :: idx))
            ∧ idx.Pairwise (fun j k => pair_r L j = pair_r L k → j < k)) := by
  have ht := (sort_pair_list_take L Npairs list hN).1
  refine ⟨?_, ?_, ?_⟩
  · intro x
    rw [ht, bubble_sort_filter]
  · intro hasc
    rw [ht]
    exact bubble_sort_ties (pair_r L) Npairs _ hasc
  · intro hg hA hB a ha
    have hL : L ≠ [] := by
      obtain ⟨x, hx, _⟩ := ha
      exact List.ne_nil_of_mem hx
    obtain ⟨NL, h1, _, h3⟩ := sort_nn_list_result L Natoms hL hg hA hB
    exact ⟨NL, _, _, h1, (h3 a).1 ha,
      bubble_sort_ties (pair_r L) _ _ (atom_records_pairwise L a)⟩

theorem sort_pair_list_stable_witness :
    (3 ≤ [0, 1, 2].length) ∧
    (∀ k ∈ [0, 1, 2].take 3, k < ([⟨0, 1, 2, (1, 0, 0)⟩, ⟨0, 2, 1, (0, 1, 0)⟩,
        ⟨0, 3, 1, (0, 0, 1)⟩] : List (nn_pair_type ℝ)).length) ∧
    ([0, 1, 2].take 3).Pairwise (fun a b => a < b) ∧
    (∀ x : ℝ, ((sort_pair_list ([⟨0, 1, 2, (1, 0, 0)⟩, ⟨0, 2, 1, (0, 1, 0)⟩,
          ⟨0, 3, 1, (0, 0, 1)⟩] : List (nn_pair_type ℝ)) 3 [0, 1, 2]).take 3).filter
          (fun k => decide (pair_r ([⟨0, 1, 2, (1, 0, 0)⟩, ⟨0, 2, 1, (0, 1, 0)⟩,
            ⟨0, 3, 1, (0, 0, 1)⟩] : List (nn_pair_type ℝ)) k = x))
        = ([0, 1, 2].take 3).filter
          (fun k => decide (pair_r ([⟨0, 1, 2, (1, 0, 0)⟩, ⟨0, 2, 1, (0, 1, 0)⟩,
            ⟨0, 3, 1, (0, 0, 1)⟩] : List (nn_pair_type ℝ)) k = x))) ∧
    ((sort_pair_list ([⟨0, 1, 2, (1, 0, 0)⟩, ⟨0, 2, 1, (0, 1, 0)⟩,
        ⟨0, 3, 1, (0, 0, 1)⟩] : List (nn_pair_type ℝ)) 3 [0, 1, 2]).take 3).Pairwise
      (fun a b => pair_r ([⟨0, 1, 2, (1, 0, 0)⟩, ⟨0, 2, 1, (0, 1, 0)⟩,
          ⟨0, 3, 1, (0, 0, 1)⟩] : List (nn_pair_type ℝ)) a
        = pair_r ([⟨0, 1, 2, (1, 0, 0)⟩, ⟨0, 2, 1, (0, 1, 0)⟩,
          ⟨0, 3, 1, (0, 0, 1)⟩] : List (nn_pair_type ℝ)) b → a < b) ∧
    ∃ NL c idx, sort_nn_list 3 ([⟨0, 1, 2, (1, 0, 0)⟩, ⟨0, 2, 1, (0, 1, 0)⟩,
        ⟨0, 3, 1, (0, 0, 1)⟩] : List (nn_pair_type ℝ)) 4 none = run_result.done NL
      ∧ NL[0]? = some (some (c :: idx))
      ∧ idx.Pairwise (fun j k => pair_r ([⟨0, 1, 2, (1, 0, 0)⟩, ⟨0, 2, 1, (0, 1, 0)⟩,
          ⟨0, 3, 1, (0, 0, 1)⟩] : List (nn_pair_type ℝ)) j
        = pair_r ([⟨0, 1, 2, (1, 0, 0)⟩, ⟨0, 2, 1, (0, 1, 0)⟩,
          ⟨0, 3, 1, (0, 0, 1)⟩] : List (nn_pair_type ℝ)) k → j < k) :=
  have hN : 3 ≤ [0, 1, 2].length := by decide
  have hidx : ∀ k ∈ [0, 1, 2].take 3, k < ([⟨0, 1, 2, (1, 0, 0)⟩, ⟨0, 2, 1, (0, 1, 0)⟩,
      ⟨0, 3, 1, (0, 0, 1)⟩] : List (nn_pair_type ℝ)).length := by decide
  have hasc : ([0, 1, 2].take 3).Pairwise (fun a b => a < b) := by decide
  have h := sort_pair_list_stable ([⟨0, 1, 2, (1, 0, 0)⟩, ⟨0, 2, 1, (0, 1, 0)⟩,
      ⟨0, 3, 1, (0, 0, 1)⟩] : List (nn_pair_type ℝ)) 3 [0, 1, 2] 4 hN hidx
  ⟨hN, hidx, hasc, h.1, h.2.1 hasc,
    h.2.2 (grouped_of_pairwise_le [0, 0, 0] (by decide))
      (by intro x hx; simp at hx; rcases hx with rfl | rfl | rfl <;> simp)
      (fun a => (List.countP_le_length _).trans (by decide)) 0
      ⟨⟨0, 1, 2, (1, 0, 0)⟩, by simp, rfl⟩⟩

/-! ## The folding helper and the shift range of the brute-force path -/

theorem toInt_of_ceil {x : α} (k : ℤ) (hx : x < 0) (h1 : (k : α) - 1 < x) (h2 : x ≤ (k : α)) :
    toInt x = k := by
  rw [toInt, if_neg (not_le.mpr hx), Int.ceil_eq_iff]
  exact ⟨h1, h2⟩

/-- C30, as stated, fails at both ends: `diff(0.5) = -0.5` lies outside `(-0.5, 0.5]`, and
`diff(-3) = -1` (below `-2.5` the conversion `(int)` rounds up). -/
theorem diff_outside_claimed_interval :
    diff (1 / 2 : ℝ) = -(1 / 2) ∧
      ¬ (-(1 / 2) < diff (1 / 2 : ℝ) ∧ diff (1 / 2 : ℝ) ≤ 1 / 2) ∧
      diff (-3 : ℝ) = -1 := by
  refine ⟨diff_half, ?_, ?_⟩
  · rw [diff_half]
    intro h
    exact lt_irrefl _ h.1
  · unfold diff
    rw [toInt_of_ceil 0 (by norm_num) (by norm_num) (by norm_num)]
    norm_num

/-- With exact arithmetic and unbounded integers: for every `x`, `diff x` differs from `x`
by an integer, and for
`x ≥ -2.5` it lies in the half-open interval `[-0.5, 0.5)`. -/
theorem diff_folds_half_open (x : α) :
    (∃ m : ℤ, diff x = x + (m : α)) ∧
      (-(5 / 2) ≤ x → -(1 / 2) ≤ diff x ∧ diff x < 1 / 2) := by
  constructor
  · refine ⟨2 - toInt (x + 5 / 2), ?_⟩
    unfold diff
    push_cast
    ring
  · intro hx
    have h0 : (0 : α) ≤ x + 5 / 2 := by linarith
    have hl := Int.floor_le (x + 5 / 2)
    have hu := Int.lt_floor_add_one (x + 5 / 2)
    unfold diff
    rw [toInt_of_nonneg h0]
    constructor <;> linarith

theorem diff_folds_half_open_witness :
    (∃ m : ℤ, diff (7 / 4 : ℝ) = 7 / 4 + (m : ℝ)) ∧ -(5 / 2) ≤ (7 / 4 : ℝ) ∧
      -(1 / 2) ≤ diff (7 / 4 : ℝ) ∧ diff (7 / 4 : ℝ) < 1 / 2 :=
  have h : -(5 / 2) ≤ (7 / 4 : ℝ) := by norm_num
  ⟨(diff_folds_half_open (7 / 4 : ℝ)).1, h, (diff_folds_half_open (7 / 4 : ℝ)).2 h⟩

theorem raw_min_dist_eq {cart : ℕ → α} {m : α}
    (hex : ∃ n ∈ shifts 3, ¬ (n.1 = 0 ∧ n.2.1 = 0 ∧ n.2.2 = 0) ∧ shift_r2 cart n = m)
    (hmin : ∀ n ∈ shifts 3, ¬ (n.1 = 0 ∧ n.2.1 = 0 ∧ n.2.2 = 0) → m ≤ shift_r2 cart n)
    (hcap : m ≤ 10 ^ 20) : raw_min_dist cart = m := by
  apply le_antisymm
  · obtain ⟨n, hn, hn0, hnm⟩ := hex
    have h := (min_dist_fold_le cart (shifts 3) ((10 : α) ^ 20)).2 n hn hn0
    rw [hnm] at h
    exact h
  · exact min_dist_fold_ge cart m _ _ hmin hcap

/-- C29, as stated, fails: for the unit cubic lattice the shortest translation has length 1,
and for `Rcut = 0.6` the code takes `maxn = 1`, whereas `ceil(Rcut / d) + 1 = 2`. -/
theorem raw_maxn_not_ceil_plus_one :
    raw_min_dist (arr [(1 : ℝ), 0, 0, 0, 1, 0, 0, 0, 1]) = 1 ∧
      raw_maxn Real.sqrt (arr [(1 : ℝ), 0, 0, 0, 1, 0, 0, 0, 1]) (3 / 5) = 1 ∧
      ⌈(3 / 5 : ℝ) / Real.sqrt (raw_min_dist (arr [(1 : ℝ), 0, 0, 0, 1, 0, 0, 0, 1]))⌉ + 1
        = 2 := by
  refine ⟨raw_min_dist_cubic, ?_, ?_⟩
  · rw [raw_maxn_cubic isSqrt_real]
    exact toInt_of_floor 1 (by norm_num) (by norm_num) (by norm_num)
  · rw [raw_min_dist_cubic, Real.sqrt_one, div_one]
    have : ⌈(3 / 5 : ℝ)⌉ = 1 := by
      rw [Int.ceil_eq_iff]
      norm_num
    rw [this]
    rfl

/-- With exact arithmetic and unbounded integers: when `m` is the least squared length `|n0*a1 + n1*a2 + n2*a3|^2` over the
non-zero shifts with every `|n_k| ≤ 3`, with `0 < m ≤ 1e20`, and `Rcut > 0`, the code takes
`maxn = floor(Rcut / sqrt m) + 1`. -/
theorem raw_maxn_eq_floor_add_one (sqrt : α → α) (hsq : IsSqrt sqrt) (cart : ℕ → α)
    (Rcut : α) (hR : 0 < Rcut) (m : α)
    (hex : ∃ n ∈ shifts 3, ¬ (n.1 = 0 ∧ n.2.1 = 0 ∧ n.2.2 = 0) ∧ shift_r2 cart n = m)
    (hmin : ∀ n ∈ shifts 3, ¬ (n.1 = 0 ∧ n.2.1 = 0 ∧ n.2.2 = 0) → m ≤ shift_r2 cart n)
    (hpos : 0 < m) (hcap : m ≤ 10 ^ 20) :
    raw_maxn sqrt cart Rcut = ⌊Rcut / sqrt m⌋ + 1 := by
  have h0 : 0 ≤ Rcut / sqrt m := div_nonneg hR.le (hsq m hpos.le).1
  unfold raw_maxn
  rw [raw_min_dist_eq hex hmin hcap, toInt_of_nonneg (by linarith), Int.floor_add_one]

theorem raw_maxn_eq_floor_add_one_witness :
    (0 : ℝ) < 3 / 5 ∧ (0 : ℝ) < 1 ∧ (1 : ℝ) ≤ 10 ^ 20 ∧
      raw_maxn Real.sqrt (arr [(1 : ℝ), 0, 0, 0, 1, 0, 0, 0, 1]) (3 / 5)
        = ⌊(3 / 5 : ℝ) / Real.sqrt 1⌋ + 1 :=
  ⟨by norm_num, by norm_num, by norm_num,
    raw_maxn_eq_floor_add_one Real.sqrt isSqrt_real (arr [(1 : ℝ), 0, 0, 0, 1, 0, 0, 0, 1])
      (3 / 5) (by norm_num) 1
      ⟨(1, 0, 0), by rw [mem_shifts]; decide, by decide, by rw [shift_r2_cubic]; norm_num⟩
      (fun n _ hn => by rw [shift_r2_cubic]; exact_mod_cast int_norm_ge_one hn)
      (by norm_num) (by norm_num)⟩

/-! ## insidecell and textstyle -/

theorem toInt_frac_bounds (x : α) : -1 < x - ((toInt x : ℤ) : α) ∧ x - ((toInt x : ℤ) : α) < 1 := by
  unfold toInt
  split_ifs with h
  · have h1 := Int.floor_le x
    have h2 := Int.lt_floor_add_one x
    constructor <;> linarith
  · have h1 := Int.le_ceil x
    have h2 := Int.ceil_lt_add_one x
    constructor <;> linarith

/-- With more passes than the integer part of `y`, the loop of `insidecell` leaves with the
fractional part of `y`. -/
theorem insidecell_loop_spec (fuel : ℕ) : ∀ y : α, 0 ≤ y → ⌊y⌋.toNat < fuel →
    insidecell_loop fuel y = some (y - ((⌊y⌋ : ℤ) : α)) := by
  induction fuel with
  | zero => intro y _ h; omega
  | succ fuel ih =>
    intro y hy hf
    unfold insidecell_loop
    by_cases h1 : 1 ≤ y
    · rw [if_pos h1]
      have hfl : ⌊y - 1⌋ = ⌊y⌋ - 1 := Int.floor_sub_one y
      have h1f : 1 ≤ ⌊y⌋ := by rw [Int.le_floor]; exact_mod_cast h1
      rw [ih (y - 1) (by linarith) (by rw [hfl]; omega), hfl]
      push_cast
      congr 1
      ring
    · rw [if_neg h1]
      have : ⌊y⌋ = 0 := by
        rw [Int.floor_eq_iff]
        exact ⟨by exact_mod_cast hy, by push_cast; linarith [not_le.mp h1]⟩
      rw [this]
      simp

/-- C26: for every `x` the loop of `insidecell` ends and the function returns a value `y`
with `0 ≤ y < 1`. -/
theorem insidecell_range (x : α) : ∃ y, insidecell x = some y ∧ 0 ≤ y ∧ y < 1 := by
  have hb := toInt_frac_bounds x
  have he : (0 : α) < 1 / 10 ^ 13 := by positivity
  have hy0 : 0 ≤ x + 1 + 1 / 10 ^ 13 - ((toInt x : ℤ) : α) := by linarith [hb.1]
  have hfl := Int.floor_le (x + 1 + 1 / 10 ^ 13 - ((toInt x : ℤ) : α))
  have hfu := Int.lt_floor_add_one (x + 1 + 1 / 10 ^ 13 - ((toInt x : ℤ) : α))
  unfold insidecell
  rw [insidecell_loop_spec _ _ hy0 (Nat.lt_succ_self _)]
  simp only
  split_ifs with h
  · exact ⟨0, rfl, le_refl 0, zero_lt_one⟩
  · exact ⟨_, rfl, not_lt.mp h, by linarith⟩

/-- C27 fails in the code: in the state every constructor sets up (font `FONT_COURIER`), the
call `textstyle(FONT_DEFAULT, 12.)` changes the font to `FONT_DEFAULT`; the guard of the
assignment tests the current font `font_p`, not the argument `font`. -/
theorem textstyle_default_changes_font :
    (default_values : drawfig ℝ).font_p = 12 ∧
      (textstyle (default_values : drawfig ℝ) FONT_DEFAULT 12).font_p = -1 ∧
      (textstyle (default_values : drawfig ℝ) FONT_DEFAULT 12).font_p
        ≠ (default_values : drawfig ℝ).font_p := by
  have h : (textstyle (default_values : drawfig ℝ) FONT_DEFAULT 12).font_p = -1 := by
    simp [textstyle, default_values, FONT_DEFAULT, FONT_COURIER, FONT_MAX]
  refine ⟨rfl, h, ?_⟩
  rw [h]
  decide

/-! ## The elastic-constant tables and make_Cijkl -/

set_option maxRecDepth 100000 in
theorem CIJ_at_range : ∀ c, c < 11 → ∀ m, m < 6 → ∀ n, n < 6 →
    CIJ_at c m n = 0 ∨ CIJ_at c m n = 99 ∨
      (1 ≤ CIJ_at c m n ∧ CIJ_at c m n ≤ (class_len.getD c 0 : ℤ)) ∨
      (1 ≤ -CIJ_at c m n ∧ -CIJ_at c m n ≤ (class_len.getD c 0 : ℤ)) := by
  decide

set_option maxRecDepth 100000 in
theorem CIJ_at_symm : ∀ c, c < 11 → ∀ m, m < 6 → ∀ n, n < 6 →
    CIJ_at c m n = CIJ_at c n m := by
  decide

theorem CIJ_at_first : ∀ c, c < 11 →
    CIJ_at c 0 0 = 1 ∧ CIJ_at c 0 1 = 2 ∧ 2 ≤ class_len.getD c 0 := by
  decide

theorem ij2m_at_facts : ∀ i, i < 3 → ∀ j, j < 3 →
    ij2m_at i j < 6 ∧ ij2m_at i j = ij2m_at j i := by
  decide

theorem mem_Cijkl_loop (q : ℕ × ℕ × ℕ × ℕ) :
    q ∈ Cijkl_loop ↔ q.1 < 3 ∧ q.2.1 < 3 ∧ q.2.2.1 < 3 ∧ q.2.2.2 < 3 := by
  obtain ⟨i, j, k, l⟩ := q
  simp only [Cijkl_loop, List.mem_flatMap, List.mem_map, List.mem_range, Prod.mk.injEq]
  constructor
  · rintro ⟨i1, hi, j1, hj, k1, hk, l1, hl, rfl, rfl, rfl, rfl⟩
    exact ⟨hi, hj, hk, hl⟩
  · rintro ⟨hi, hj, hk, hl⟩
    exact ⟨i, hi, j, hj, k, hk, l, hl, rfl, rfl, rfl, rfl⟩

theorem Cmn_at_isSome (Cmn_list : List α) (k : ℤ) (h0 : 0 ≤ k) (h1 : k < Cmn_list.length) :
    ∃ v, Cmn_at Cmn_list k = some v := by
  unfold Cmn_at
  rw [if_pos h0]
  have : k.toNat < Cmn_list.length := by omega
  exact ⟨Cmn_list[k.toNat], List.getElem?_eq_getElem this⟩

/-- Every value the loop body of `make_Cijkl` computes is read inside a constant list that
has at least `class_len[c]` entries. -/
theorem make_Cijkl_value_isSome (c : ℕ) (hc : c < 11) (Cmn_list : List α)
    (hlen : class_len.getD c 0 ≤ Cmn_list.length) (C99 : α) (i j k l : ℕ)
    (hi : i < 3) (hj : j < 3) (hk : k < 3) (hl : l < 3) :
    ∃ v, make_Cijkl_value c Cmn_list C99 i j k l = some v := by
  have hm := (ij2m_at_facts i hi j hj).1
  have hn := (ij2m_at_facts k hk l hl).1
  unfold make_Cijkl_value
  rcases CIJ_at_range c hc _ hm _ hn with h | h | h | h
  · rw [if_pos h]; exact ⟨0, rfl⟩
  · rw [if_neg (by omega), if_pos h]; exact ⟨C99, rfl⟩
  · by_cases h99 : CIJ_at c (ij2m_at i j) (ij2m_at k l) = 99
    · rw [if_neg (by omega), if_pos h99]; exact ⟨C99, rfl⟩
    · rw [if_neg (by omega), if_neg h99, if_pos (by omega)]
      exact Cmn_at_isSome Cmn_list _ (by omega) (by omega)
  · rw [if_neg (by omega), if_neg (by omega), if_neg (by omega)]
    obtain ⟨v, hv⟩ := Cmn_at_isSome Cmn_list
      (-CIJ_at c (ij2m_at i j) (ij2m_at k l) - 1) (by omega) (by omega)
    exact ⟨-v, by rw [hv]; rfl⟩

/-- A run of assignments `Cijkl[key q] = val q`: an entry all of whose writers write `w`
holds `w` at the end, if it is written at all or held `w` before. -/
theorem foldlM_Cijkl_set {Q : Type} (key : Q → ℕ × ℕ) (val : Q → Option α) (qs : List Q) :
    ∀ A0 : ℕ → ℕ → α, (∀ q ∈ qs, ∃ v, val q = some v) →
      ∃ A, qs.foldlM (fun A q => (val q).map fun v => Cijkl_set A (key q).1 (key q).2 v) A0
          = some A ∧
        ∀ (P : ℕ × ℕ) (w : α), (∀ q ∈ qs, key q = P → val q = some w) →
          ((∃ q ∈ qs, key q = P) ∨ A0 P.1 P.2 = w) → A P.1 P.2 = w := by
  induction qs with
  | nil =>
    intro A0 _
    refine ⟨A0, rfl, ?_⟩
    intro P w _ h
    rcases h with ⟨q, hq, _⟩ | h
    · simp at hq
    · exact h
  | cons q t ih =>
    intro A0 hv
    obtain ⟨v, hqv⟩ := hv q (List.mem_cons_self _ _)
    obtain ⟨A, hA, hspec⟩ := ih (Cijkl_set A0 (key q).1 (key q).2 v)
      (fun q1 h1 => hv q1 (List.mem_cons_of_mem _ h1))
    refine ⟨A, ?_, ?_⟩
    · rw [List.foldlM_cons, hqv]
      exact hA
    · intro P w hw h
      refine hspec P w (fun q1 h1 => hw q1 (List.mem_cons_of_mem _ h1)) ?_
      by_cases hk : key q = P
      · right
        have := hw q (List.mem_cons_self _ _) hk
        rw [hqv] at this
        have hvw : v = w := Option.some.inj this
        unfold Cijkl_set
        rw [if_pos ⟨by rw [hk], by rw [hk]⟩, hvw]
      · rcases h with ⟨q1, hq1, hq1k⟩ | h
        · rcases List.mem_cons.mp hq1 with rfl | hq1t
          · exact absurd hq1k hk
          · exact Or.inl ⟨q1, hq1t, hq1k⟩
        · right
          unfold Cijkl_set
          rw [if_neg]
          · exact h
          · rintro ⟨h1, h2⟩
            exact hk (Prod.ext h1.symm h2.symm)

/-- What `make_Cijkl` leaves in the array: with an `index` that numbers the nine index pairs
differently and a constant list of at least `class_len[c]` entries, the call reads inside
the list and the entry for `(i, j, k, l)` is the value the loop body computes for it. -/
theorem make_Cijkl_spec (index : ℕ → ℕ → ℕ)
    (hinj : ∀ i j i1 j1, i < 3 → j < 3 → i1 < 3 → j1 < 3 →
      index i j = index i1 j1 → i = i1 ∧ j = j1)
    (c : ℕ) (hc : c < 11) (Cmn_list : List α)
    (hlen : class_len.getD c 0 ≤ Cmn_list.length) (A0 : ℕ → ℕ → α) :
    ∃ c11 c12 A, Cmn_list[0]? = some c11 ∧ Cmn_list[1]? = some c12 ∧
      make_Cijkl index c Cmn_list A0 = some A ∧
      ∀ i j k l, i < 3 → j < 3 → k < 3 → l < 3 →
        make_Cijkl_value c Cmn_list (1 / 2 * (c11 - c12)) i j k l
          = some (A (index i j) (index k l)) := by
  obtain ⟨h00, h01, h2⟩ := CIJ_at_first c hc
  obtain ⟨c11, hc11⟩ : ∃ v, Cmn_list[0]? = some v :=
    ⟨_, List.getElem?_eq_getElem (by omega)⟩
  obtain ⟨c12, hc12⟩ : ∃ v, Cmn_list[1]? = some v :=
    ⟨_, List.getElem?_eq_getElem (by omega)⟩
  have e0 : Cmn_at Cmn_list (CIJ_at c 0 0 - 1) = some c11 := by
    rw [h00]; simp [Cmn_at, hc11]
  have e1 : Cmn_at Cmn_list (CIJ_at c 0 1 - 1) = some c12 := by
    rw [h01]; simp [Cmn_at, hc12]
  obtain ⟨A, hA, hspec⟩ := foldlM_Cijkl_set
    (fun q : ℕ × ℕ × ℕ × ℕ => (index q.1 q.2.1, index q.2.2.1 q.2.2.2))
    (fun q => make_Cijkl_value c Cmn_list (1 / 2 * (c11 - c12))
      q.1 q.2.1 q.2.2.1 q.2.2.2) Cijkl_loop A0
    (fun q hq => by
      rw [mem_Cijkl_loop] at hq
      exact make_Cijkl_value_isSome c hc Cmn_list hlen _ _ _ _ _ hq.1 hq.2.1 hq.2.2.1 hq.2.2.2)
  refine ⟨c11, c12, A, hc11, hc12, ?_, ?_⟩
  · unfold make_Cijkl
    rw [e0, e1]
    exact hA
  · intro i j k l hi hj hk hl
    obtain ⟨w, hw⟩ := make_Cijkl_value_isSome c hc Cmn_list hlen
      (1 / 2 * (c11 - c12)) i j k l hi hj hk hl
    rw [hw]
    congr 1
    refine (hspec (index i j, index k l) w ?_ (Or.inl ⟨(i, j, k, l), ?_, rfl⟩)).symm
    · intro q hq hkey
      rw [mem_Cijkl_loop] at hq
      simp only [Prod.mk.injEq] at hkey
      obtain ⟨e1, e2⟩ := hinj _ _ _ _ hq.1 hq.2.1 hi hj hkey.1
      obtain ⟨e3, e4⟩ := hinj _ _ _ _ hq.2.2.1 hq.2.2.2 hk hl hkey.2
      rw [e1, e2, e3, e4]
      exact hw
    · rw [mem_Cijkl_loop]
      exact ⟨hi, hj, hk, hl⟩

theorem index_row_major_inj : ∀ i j i1 j1 : ℕ, i < 3 → j < 3 → i1 < 3 → j1 < 3 →
    3 * i + j = 3 * i1 + j1 → i = i1 ∧ j = j1 := by
  intro i j i1 j1 hi hj hi1 hj1 h
  omega

theorem make_Cijkl_isSome (index : ℕ → ℕ → ℕ) (c : ℕ) (hc : c < 11) (Cmn_list : List α)
    (hlen : class_len.getD c 0 ≤ Cmn_list.length) (A0 : ℕ → ℕ → α) :
    ∃ A, make_Cijkl index c Cmn_list A0 = some A := by
  obtain ⟨h00, h01, h2⟩ := CIJ_at_first c hc
  obtain ⟨c11, hc11⟩ : ∃ v, Cmn_list[0]? = some v :=
    ⟨_, List.getElem?_eq_getElem (by omega)⟩
  obtain ⟨c12, hc12⟩ : ∃ v, Cmn_list[1]? = some v :=
    ⟨_, List.getElem?_eq_getElem (by omega)⟩
  have e0 : Cmn_at Cmn_list (CIJ_at c 0 0 - 1) = some c11 := by
    rw [h00]; simp [Cmn_at, hc11]
  have e1 : Cmn_at Cmn_list (CIJ_at c 0 1 - 1) = some c12 := by
    rw [h01]; simp [Cmn_at, hc12]
  obtain ⟨A, hA, -⟩ := foldlM_Cijkl_set
    (fun q : ℕ × ℕ × ℕ × ℕ => (index q.1 q.2.1, index q.2.2.1 q.2.2.2))
    (fun q => make_Cijkl_value c Cmn_list (1 / 2 * (c11 - c12))
      q.1 q.2.1 q.2.2.1 q.2.2.2) Cijkl_loop A0
    (fun q hq => by
      rw [mem_Cijkl_loop] at hq
      exact make_Cijkl_value_isSome c hc Cmn_list hlen _ _ _ _ _ hq.1 hq.2.1 hq.2.2.1 hq.2.2.2)
  refine ⟨A, ?_⟩
  unfold make_Cijkl
  rw [e0, e1]
  exact hA

set_option maxRecDepth 100000 in
theorem class_Cij_names : ∀ c, c < 11 → ∀ k, k < class_len.getD c 0 →
    ∃ m : ℕ, m < 6 ∧ ∃ n : ℕ, n < 6 ∧
      (class_Cij.getD c []).getD k 0 = 10 * ((m : ℤ) + 1) + ((n : ℤ) + 1) ∧
      CIJ_at c m n = (k : ℤ) + 1 := by
  decide

set_option maxRecDepth 100000 in
theorem class_Cij_padding : ∀ c, c < 11 → ∀ k, k < 21 → class_len.getD c 0 ≤ k →
    (class_Cij.getD c []).getD k 0 = 0 := by
  decide

set_option maxRecDepth 100000 in
theorem CIJ_at_abs_cases : ∀ c, c < 11 → ∀ m, m < 6 → ∀ n, n < 6 →
    CIJ_at c m n = 0 ∨ CIJ_at c m n = 99 ∨
      (1 ≤ (CIJ_at c m n).natAbs ∧ (CIJ_at c m n).natAbs ≤ class_len.getD c 0) := by
  decide

theorem CIJ_at_abs_range : ∀ c, c < 11 → ∀ m, m < 6 → ∀ n, n < 6 →
    CIJ_at c m n ≠ 0 → CIJ_at c m n ≠ 99 →
      1 ≤ (CIJ_at c m n).natAbs ∧ (CIJ_at c m n).natAbs ≤ class_len.getD c 0 := by
  intro c hc m hm n hn h0 h99
  rcases CIJ_at_abs_cases c hc m hm n hn with h | h | h
  · exact absurd h h0
  · exact absurd h h99
  · exact h

/-- C22: the names in `class_Cij` agree with the codes in `CIJ_matrix`. For every class
`c < 11`: the `k`-th name, `k < class_len[c]`, is `10*(m+1)+(n+1)` for a position `(m, n)`
that carries the code `k+1`; the entries from `class_len[c]` on are `0`; every code other
than `0` and `99` has absolute value in `1..class_len[c]`; and `make_Cijkl`, given a list of
exactly `class_len[c]` constants, never reads outside it. -/
theorem class_Cij_agrees_with_CIJ_matrix (index : ℕ → ℕ → ℕ) (A0 : ℕ → ℕ → α) :
    (∀ c, c < 11 → ∀ k, k < class_len.getD c 0 →
      ∃ m : ℕ, m < 6 ∧ ∃ n : ℕ, n < 6 ∧
        (class_Cij.getD c []).getD k 0 = 10 * ((m : ℤ) + 1) + ((n : ℤ) + 1) ∧
        CIJ_at c m n = (k : ℤ) + 1) ∧
    (∀ c, c < 11 → ∀ k, k < 21 → class_len.getD c 0 ≤ k →
      (class_Cij.getD c []).getD k 0 = 0) ∧
    (∀ c, c < 11 → ∀ m, m < 6 → ∀ n, n < 6 → CIJ_at c m n ≠ 0 → CIJ_at c m n ≠ 99 →
      1 ≤ (CIJ_at c m n).natAbs ∧ (CIJ_at c m n).natAbs ≤ class_len.getD c 0) ∧
    (∀ c, c < 11 → ∀ Cmn_list : List α, Cmn_list.length = class_len.getD c 0 →
      ∃ A, make_Cijkl index c Cmn_list A0 = some A) :=
  ⟨class_Cij_names, class_Cij_padding, CIJ_at_abs_range,
    fun c hc Cmn_list hlen => make_Cijkl_isSome index c hc Cmn_list (le_of_eq hlen.symm) A0⟩

theorem class_Cij_agrees_with_CIJ_matrix_witness :
    (∃ m : ℕ, m < 6 ∧ ∃ n : ℕ, n < 6 ∧
      (class_Cij.getD 7 []).getD 4 0 = 10 * ((m : ℤ) + 1) + ((n : ℤ) + 1) ∧
      CIJ_at 7 m n = ((4 : ℕ) : ℤ) + 1) ∧
    (class_Cij.getD 7 []).getD 7 0 = 0 ∧
    (1 ≤ (CIJ_at 7 0 4).natAbs ∧ (CIJ_at 7 0 4).natAbs ≤ class_len.getD 7 0) ∧
    ∃ A, make_Cijkl (fun i j => 3 * i + j) 7 [(1 : ℝ), 2, 3, 4, 5, 6, 7] (fun _ _ => 0)
      = some A :=
  have h := class_Cij_agrees_with_CIJ_matrix (fun i j => 3 * i + j) (fun _ _ => (0 : ℝ))
  ⟨h.1 7 (by decide) 4 (by decide), h.2.1 7 (by decide) 7 (by decide) (by decide),
    h.2.2.1 7 (by decide) 0 (by decide) 4 (by decide) (by decide) (by decide),
    h.2.2.2 7 (by decide) [(1 : ℝ), 2, 3, 4, 5, 6, 7] rfl⟩

/-- C23: for every class `c < 11`, an `index` that numbers the nine index pairs differently
and a constant list of at least `class_len[c]` entries, the array built by `make_Cijkl` has
the same value for `(i,j,k,l)`, `(j,i,k,l)`, `(i,j,l,k)` and `(k,l,i,j)`. -/
theorem make_Cijkl_symmetric (index : ℕ → ℕ → ℕ)
    (hinj : ∀ i j i1 j1, i < 3 → j < 3 → i1 < 3 → j1 < 3 →
      index i j = index i1 j1 → i = i1 ∧ j = j1)
    (c : ℕ) (hc : c < 11) (Cmn_list : List α)
    (hlen : class_len.getD c 0 ≤ Cmn_list.length) (A0 : ℕ → ℕ → α) :
    ∃ A, make_Cijkl index c Cmn_list A0 = some A ∧
      ∀ i j k l, i < 3 → j < 3 → k < 3 → l < 3 →
        A (index i j) (index k l) = A (index j i) (index k l) ∧
        A (index i j) (index k l) = A (index i j) (index l k) ∧
        A (index i j) (index k l) = A (index k l) (index i j) := by
  obtain ⟨c11, c12, A, -, -, hA, hval⟩ := make_Cijkl_spec index hinj c hc Cmn_list hlen A0
  refine ⟨A, hA, ?_⟩
  intro i j k l hi hj hk hl
  have h1 := hval i j k l hi hj hk hl
  have h2 := hval j i k l hj hi hk hl
  have h3 := hval i j l k hi hj hl hk
  have h4 := hval k l i j hk hl hi hj
  have e1 := (ij2m_at_facts i hi j hj).2
  have e2 := (ij2m_at_facts k hk l hl).2
  have e3 := CIJ_at_symm c hc _ (ij2m_at_facts i hi j hj).1 _ (ij2m_at_facts k hk l hl).1
  unfold make_Cijkl_value at h1 h2 h3 h4
  rw [← e1, h1] at h2
  rw [← e2, h1] at h3
  rw [← e3, h1] at h4
  exact ⟨Option.some.inj h2, Option.some.inj h3, Option.some.inj h4⟩

theorem make_Cijkl_symmetric_witness :
    (8 < 11) ∧ class_len.getD 8 0 ≤ [(1 : ℝ), 2, 3, 4, 5, 6].length ∧
    ∃ A, make_Cijkl (fun i j => 3 * i + j) 8 [(1 : ℝ), 2, 3, 4, 5, 6] (fun _ _ => 0) = some A ∧
      ∀ i j k l, i < 3 → j < 3 → k < 3 → l < 3 →
        A (3 * i + j) (3 * k + l) = A (3 * j + i) (3 * k + l) ∧
        A (3 * i + j) (3 * k + l) = A (3 * i + j) (3 * l + k) ∧
        A (3 * i + j) (3 * k + l) = A (3 * k + l) (3 * i + j) :=
  ⟨by decide, by decide,
    make_Cijkl_symmetric (fun i j => 3 * i + j) index_row_major_inj 8 (by decide)
      [(1 : ℝ), 2, 3, 4, 5, 6] (by decide) (fun _ _ => 0)⟩

theorem rotate4_congr (R : ℕ → ℕ → α) (C D : ℕ → ℕ → ℕ → ℕ → α)
    (h : ∀ a b c d, a < 3 → b < 3 → c < 3 → d < 3 → C a b c d = D a b c d) (i j k l : ℕ) :
    rotate4 R C i j k l = rotate4 R D i j k l := by
  unfold rotate4
  refine Finset.sum_congr rfl (fun a ha => ?_)
  refine Finset.sum_congr rfl (fun b hb => ?_)
  refine Finset.sum_congr rfl (fun c hc => ?_)
  refine Finset.sum_congr rfl (fun d hd => ?_)
  rw [h a b c d (Finset.mem_range.mp ha) (Finset.mem_range.mp hb) (Finset.mem_range.mp hc)
    (Finset.mem_range.mp hd)]

set_option maxRecDepth 100000 in
theorem CIJ_at_trigonal_codes : ∀ a, a < 3 → ∀ b, b < 3 → ∀ c, c < 3 → ∀ d, d < 3 →
    CIJ_at 8 (ij2m_at a b) (ij2m_at c d) ∈ [4, -4, 0, 99, 1, 2, 3, 5, 6] := by
  decide

/-- The values `make_Cijkl` computes for class 8 from the constants with `C14 = 1` and all
others `0`: `1` where the code is `4`, `-1` where it is `-4`, and `0` elsewhere. -/
theorem make_Cijkl_value_trigonal (a b c d : ℕ) (ha : a < 3) (hb : b < 3) (hc : c < 3)
    (hd : d < 3) :
    make_Cijkl_value 8 [(0 : α), 0, 0, 1, 0, 0] (1 / 2 * (0 - 0)) a b c d =
      some (if CIJ_at 8 (ij2m_at a b) (ij2m_at c d) = 4 then 1
        else if CIJ_at 8 (ij2m_at a b) (ij2m_at c d) = -4 then -1 else 0) := by
  unfold make_Cijkl_value
  have hmem := CIJ_at_trigonal_codes a ha b hb c hc d hd
  simp only [List.mem_cons, List.mem_singleton, List.not_mem_nil, or_false] at hmem
  rcases hmem with h | h | h | h | h | h | h | h | h <;>
    rw [h] <;> simp [Cmn_at]

theorem rotate4_trigonal_component (s : α) (hs : s * s = 3) :
    rotate4 (rot3 s)
      (fun a b c d => if CIJ_at 8 (ij2m_at a b) (ij2m_at c d) = 4 then (1 : α)
        else if CIJ_at 8 (ij2m_at a b) (ij2m_at c d) = -4 then -1 else 0) 0 0 1 2
      = -(1 / 2) := by
  simp [rotate4, Finset.sum_range_succ, rot3, CIJ_at, ij2m_at, CIJ_matrix, ij2m]
  linear_combination (-(1 / 8 : α)) * hs

/-- C24 fails in the code: for the trigonal class 8 and the constants `C14 = 1`, all others
`0`, `make_Cijkl` stores `C_1123 = 1`, while the tensor turned by the threefold rotation
about `x3` has the component `-1/2` there. The table has `C56 = -C14`, where invariance
under the rotation needs `C56 = +C14`. -/
theorem trigonal_tensor_not_invariant :
    ∃ A, make_Cijkl (fun i j => 3 * i + j) 8 [(0 : ℝ), 0, 0, 1, 0, 0] (fun _ _ => 0) = some A ∧
      A (3 * 0 + 0) (3 * 1 + 2) = 1 ∧
      rotate4 (rot3 (Real.sqrt 3)) (fun a b c d => A (3 * a + b) (3 * c + d)) 0 0 1 2
        = -(1 / 2) ∧
      CIJ_at 8 4 5 = -4 := by
  obtain ⟨c11, c12, A, h11, h12, hA, hval⟩ :=
    make_Cijkl_spec (fun i j => 3 * i + j) index_row_major_inj 8 (by decide)
      [(0 : ℝ), 0, 0, 1, 0, 0] (show (6 : ℕ) ≤ 6 from le_refl 6) (fun _ _ => 0)
  have e11 : c11 = 0 := by
    have : some (0 : ℝ) = some c11 := h11
    exact (Option.some.inj this).symm
  have e12 : c12 = 0 := by
    have : some (0 : ℝ) = some c12 := h12
    exact (Option.some.inj this).symm
  subst e11 e12
  have hV : ∀ a b c d, a < 3 → b < 3 → c < 3 → d < 3 →
      A (3 * a + b) (3 * c + d) =
        if CIJ_at 8 (ij2m_at a b) (ij2m_at c d) = 4 then (1 : ℝ)
        else if CIJ_at 8 (ij2m_at a b) (ij2m_at c d) = -4 then -1 else 0 := by
    intro a b c d ha hb hc hd
    have h1 := hval a b c d ha hb hc hd
    rw [make_Cijkl_value_trigonal a b c d ha hb hc hd] at h1
    exact (Option.some.inj h1).symm
  refine ⟨A, hA, ?_, ?_, by decide⟩
  · rw [hV 0 0 1 2 (by decide) (by decide) (by decide) (by decide)]
    rw [if_pos (by decide)]
  · rw [rotate4_congr _ _ _ hV]
    exact rotate4_trigonal_component (Real.sqrt 3)
      (Real.mul_self_sqrt (by norm_num))

/-! ## Rebuilding the bins -/

/-- The first loop of `populate_grid` forgets the atom lists: two grids of `M` blocks with
the same neighbour data leave it in the same state. -/
theorem populate_init_congr (M Nalloc0 : ℕ) (gl gl1 : List grid_elem_type)
    (h1 : gl.length = M) (h2 : gl1.length = M)
    (hn : ∀ c, (gl1.getD c default).Nneigh = (gl.getD c default).Nneigh ∧
      (gl1.getD c default).neighlist = (gl.getD c default).neighlist) :
    populate_init M Nalloc0 gl1 = populate_init M Nalloc0 gl := by
  have hmap : gl1.map (fun g : grid_elem_type =>
        { g with Natoms := 0, atomlist := List.replicate Nalloc0 0 })
      = gl.map (fun g : grid_elem_type =>
        { g with Natoms := 0, atomlist := List.replicate Nalloc0 0 }) := by
    apply List.ext_getElem
    · simp [h1, h2]
    · intro c hc1 hc2
      simp only [List.length_map] at hc1 hc2
      simp only [List.getElem_map]
      have e1 : gl1.getD c default = gl1[c] := by
        rw [List.getD_eq_getElem?_getD, List.getElem?_eq_getElem hc1]; rfl
      have e2 : gl.getD c default = gl[c] := by
        rw [List.getD_eq_getElem?_getD, List.getElem?_eq_getElem hc2]; rfl
      have := hn c
      rw [e1, e2] at this
      rw [this.1, this.2]
  unfold populate_init
  rw [if_neg (by omega), if_neg (by omega), List.take_of_length_le (by omega),
    List.take_of_length_le (by omega), List.drop_of_length_le (by omega),
    List.drop_of_length_le (by omega), hmap]

theorem populate_grid_congr (Ngrid : ℕ → ℤ) (gl gl1 : List grid_elem_type) (N : ℕ)
    (u : ℕ → ℕ → α)
    (h1 : gl.length = (Ngrid 0 * Ngrid 1 * Ngrid 2).toNat)
    (h2 : gl1.length = (Ngrid 0 * Ngrid 1 * Ngrid 2).toNat)
    (hn : ∀ c, (gl1.getD c default).Nneigh = (gl.getD c default).Nneigh ∧
      (gl1.getD c default).neighlist = (gl.getD c default).neighlist) :
    populate_grid Ngrid gl1 N u = populate_grid Ngrid gl N u := by
  unfold populate_grid
  simp only
  rw [populate_init_congr _ _ gl gl1 h1 h2 hn]

/-- C21: for a grid with all counts at least 1, any grid list of that size and atoms with
coordinates in `[0,1)`, `populate_grid` on the grid it has already populated returns exactly
the grid of the first call (so the same atom list in every block), as it does on every grid
list with the same neighbour data, whatever its bins held; the pair list of `nn_grid` and
the table of `sort_nn_list` built from the second grid are those built from the first. -/
theorem populate_grid_idempotent (Ngrid : ℕ → ℤ) (grid_list : List grid_elem_type)
    (Natoms : ℕ) (u : ℕ → ℕ → α)
    (hN : ∀ k, k < 3 → 1 ≤ Ngrid k)
    (hlen : grid_list.length = (Ngrid 0 * Ngrid 1 * Ngrid 2).toNat)
    (hu : ∀ n, n < Natoms → ∀ k, k < 3 → 0 ≤ u n k ∧ u n k < 1) :
    ∃ gl1 gl2, populate_grid Ngrid grid_list Natoms u = some (gl1, false) ∧
      populate_grid Ngrid gl1 Natoms u = some (gl2, false) ∧
      gl2 = gl1 ∧
      (∀ c, cell_atoms (gl2.getD c default) = cell_atoms (gl1.getD c default)) ∧
      (∀ gl0 : List grid_elem_type, gl0.length = grid_list.length →
        (∀ c, (gl0.getD c default).Nneigh = (grid_list.getD c default).Nneigh ∧
          (gl0.getD c default).neighlist = (grid_list.getD c default).neighlist) →
        populate_grid Ngrid gl0 Natoms u = some (gl1, false)) ∧
      ∀ (sqrt : α → α) (cart : ℕ → α) (Rcut : α) (nn_list : Option (List (Option (List ℕ)))),
        nn_grid sqrt cart (Ngrid 0 * Ngrid 1 * Ngrid 2).toNat gl2 u Rcut
            = nn_grid sqrt cart (Ngrid 0 * Ngrid 1 * Ngrid 2).toNat gl1 u Rcut ∧
          sort_nn_list (nn_grid sqrt cart (Ngrid 0 * Ngrid 1 * Ngrid 2).toNat gl2 u Rcut).length
              (nn_grid sqrt cart (Ngrid 0 * Ngrid 1 * Ngrid 2).toNat gl2 u Rcut) Natoms nn_list
            = sort_nn_list
              (nn_grid sqrt cart (Ngrid 0 * Ngrid 1 * Ngrid 2).toNat gl1 u Rcut).length
              (nn_grid sqrt cart (Ngrid 0 * Ngrid 1 * Ngrid 2).toNat gl1 u Rcut) Natoms nn_list := by
  obtain ⟨gl1, h1, hl1, -, hc⟩ := populate_grid_spec Ngrid u grid_list Natoms hlen
    (fun n hn => grid_elem_bounds hN (hu n hn))
  have h2 : populate_grid Ngrid gl1 Natoms u = some (gl1, false) := by
    rw [populate_grid_congr Ngrid grid_list gl1 Natoms u hlen (by omega)
      (fun c => ⟨(hc c).2.1, (hc c).2.2⟩)]
    exact h1
  refine ⟨gl1, gl1, h1, h2, rfl, fun _ => rfl, ?_, fun _ _ _ _ => ⟨rfl, rfl⟩⟩
  intro gl0 hl0 hn0
  rw [populate_grid_congr Ngrid grid_list gl0 Natoms u hlen (by omega) hn0]
  exact h1

theorem populate_grid_idempotent_witness :
    (∀ k, k < 3 → 1 ≤ arr [(2 : ℤ), 1, 1] k) ∧
    (make_grid (arr [2, 1, 1])).length
      = (arr [(2 : ℤ), 1, 1] 0 * arr [2, 1, 1] 1 * arr [2, 1, 1] 2).toNat ∧
    (∀ n, n < 2 → ∀ k, k < 3 →
      0 ≤ atoms [[(0 : ℝ), 0, 0], [1 / 2, 0, 0]] n k ∧
        atoms [[(0 : ℝ), 0, 0], [1 / 2, 0, 0]] n k < 1) ∧
    ∃ gl1 gl2, populate_grid (arr [2, 1, 1]) (make_grid (arr [2, 1, 1])) 2
        (atoms [[(0 : ℝ), 0, 0], [1 / 2, 0, 0]]) = some (gl1, false) ∧
      populate_grid (arr [2, 1, 1]) gl1 2 (atoms [[(0 : ℝ), 0, 0], [1 / 2, 0, 0]])
        = some (gl2, false) ∧
      gl2 = gl1 ∧
      (∀ c, cell_atoms (gl2.getD c default) = cell_atoms (gl1.getD c default)) :=
  have hN : ∀ k, k < 3 → 1 ≤ arr [(2 : ℤ), 1, 1] k := arr3_ge_one (by decide) (by decide) (by decide)
  have hlen := make_grid_length (arr [(2 : ℤ), 1, 1])
  have hu := atoms_two_inside (1 / 2 : ℝ) 0 0 (by norm_num) (by norm_num) (by norm_num)
  have h := populate_grid_idempotent (arr [2, 1, 1]) (make_grid (arr [2, 1, 1])) 2
    (atoms [[(0 : ℝ), 0, 0], [1 / 2, 0, 0]]) hN hlen hu
  ⟨hN, hlen, hu, by
    obtain ⟨gl1, gl2, a1, a2, a3, a4, -⟩ := h
    exact ⟨gl1, gl2, a1, a2, a3, a4⟩⟩

theorem toInt_lt_of_lt {x : α} (k : ℤ) (hk : 0 < k) (h : x < (k : α)) : toInt x < k := by
  unfold toInt
  split_ifs with h0
  · rw [Int.floor_lt]; exact h
  · have : ⌈x⌉ ≤ 0 := by
      rw [Int.ceil_le]
      push_cast
      linarith [not_le.mp h0]
    omega

/-! ## sort_nn_list on an empty pair list -/

/-- With `NNpairs = 0` the sentinel `inew = -1` is never set: a loop that starts with
`inew ≥ 0` does not come to its `break`. -/
theorem sort_nn_loop_zero_not_done (L : List (nn_pair_type α)) (fuel : ℕ) :
    ∀ (st : sort_state) (r : List (Option (List ℕ))), 0 ≤ st.inew →
      sort_nn_loop 0 L fuel st ≠ run_result.done r := by
  induction fuel with
  | zero =>
    intro st r _ h
    simp [sort_nn_loop] at h
  | succ fuel ih =>
    intro st r hinew
    unfold sort_nn_loop
    unfold sort_nn_step
    by_cases h1 : st.inew = st.i
    · rw [if_pos h1]
      by_cases h2 : st.count < st.tlist.length
      · rw [if_pos h2, if_pos (Nat.succ_ne_zero _)]
        cases h3 : L[st.p + 1]? with
        | none => simp
        | some q =>
          simp only
          exact ih _ r (by simp)
      · rw [if_neg h2]
        simp
    · rw [if_neg h1]
      by_cases h2 : 0 ≤ st.i ∧ st.i.toNat < st.nn_list.length
      · rw [if_pos h2, if_neg (by omega)]
        simp only
        exact ih _ r hinew
      · rw [if_neg h2]
        simp

/-- C33 fails in the code: `sort_nn_list` reads `nn_pair_list[0].i` before any test of
`NNpairs`. With `NNpairs = 0` and `Natoms ≥ 1` the call on an empty pair list reads the
record at index 0, outside the list; and whatever records the buffer holds beyond
`NNpairs`, the call never comes to its `break`, since `p` has passed `NNpairs` when it is
first compared with it. -/
theorem sort_nn_list_empty_pair_list (Natoms : ℕ) (hN : 1 ≤ Natoms)
    (nn_list : Option (List (Option (List ℕ)))) :
    sort_nn_list 0 ([] : List (nn_pair_type α)) Natoms nn_list = run_result.out_of_bounds ∧
      ∀ (L : List (nn_pair_type α)) (r : List (Option (List ℕ))),
        sort_nn_list 0 L Natoms nn_list ≠ run_result.done r := by
  constructor
  · unfold sort_nn_list
    rw [if_neg (by omega)]
    rfl
  · intro L r
    unfold sort_nn_list
    rw [if_neg (by omega)]
    cases h : L[0]? with
    | none => simp
    | some q =>
      simp only
      exact sort_nn_loop_zero_not_done L _ _ r (by simp)

theorem sort_nn_list_empty_pair_list_witness :
    (1 ≤ 1) ∧
    sort_nn_list 0 ([] : List (nn_pair_type ℝ)) 1 none = run_result.out_of_bounds ∧
      ∀ (L : List (nn_pair_type ℝ)) (r : List (Option (List ℕ))),
        sort_nn_list 0 L 1 none ≠ run_result.done r :=
  ⟨le_refl 1, sort_nn_list_empty_pair_list 1 (le_refl 1) none⟩

/-! ## The pair buffer of nn_grid -/

theorem length_flatMap_le {β γ : Type} (l : List β) (f : β → List γ) (c : ℕ)
    (h : ∀ x ∈ l, (f x).length ≤ c) : (l.flatMap f).length ≤ l.length * c := by
  induction l with
  | nil => simp
  | cons a t ih =>
    rw [List.flatMap_cons, List.length_append, List.length_cons, Nat.succ_mul]
    have h1 := h a (List.mem_cons_self _ _)
    have h2 := ih (fun x hx => h x (List.mem_cons_of_mem _ hx))
    omega

/-- The two maxima that `nn_grid` takes over the blocks bound the fields of every block. -/
theorem capacity_fold_ge (grid_list : List grid_elem_type) (l : List ℕ) :
    ∀ init : ℕ × ℕ,
      init.1 ≤ (l.foldl
        (fun (m : ℕ × ℕ) ng =>
          (if m.1 < (grid_list.getD ng default).Natoms then (grid_list.getD ng default).Natoms
            else m.1,
           if m.2 < (grid_list.getD ng default).Nneigh then (grid_list.getD ng default).Nneigh
            else m.2)) init).1 ∧
      init.2 ≤ (l.foldl
        (fun (m : ℕ × ℕ) ng =>
          (if m.1 < (grid_list.getD ng default).Natoms then (grid_list.getD ng default).Natoms
            else m.1,
           if m.2 < (grid_list.getD ng default).Nneigh then (grid_list.getD ng default).Nneigh
            else m.2)) init).2 ∧
      ∀ ng ∈ l,
        (grid_list.getD ng default).Natoms ≤ (l.foldl
          (fun (m : ℕ × ℕ) ng =>
            (if m.1 < (grid_list.getD ng default).Natoms then (grid_list.getD ng default).Natoms
              else m.1,
             if m.2 < (grid_list.getD ng default).Nneigh then (grid_list.getD ng default).Nneigh
              else m.2)) init).1 ∧
        (grid_list.getD ng default).Nneigh ≤ (l.foldl
          (fun (m : ℕ × ℕ) ng =>
            (if m.1 < (grid_list.getD ng default).Natoms then (grid_list.getD ng default).Natoms
              else m.1,
             if m.2 < (grid_list.getD ng default).Nneigh then (grid_list.getD ng default).Nneigh
              else m.2)) init).2 := by
  induction l with
  | nil =>
    intro init
    exact ⟨le_refl _, le_refl _, fun ng h => by simp at h⟩
  | cons a t ih =>
    intro init
    rw [List.foldl_cons]
    have hx : init.1 ≤ (if init.1 < (grid_list.getD a default).Natoms then
          (grid_list.getD a default).Natoms else init.1) ∧
        (grid_list.getD a default).Natoms ≤ (if init.1 < (grid_list.getD a default).Natoms then
          (grid_list.getD a default).Natoms else init.1) := by
      split_ifs <;> omega
    have hy : init.2 ≤ (if init.2 < (grid_list.getD a default).Nneigh then
          (grid_list.getD a default).Nneigh else init.2) ∧
        (grid_list.getD a default).Nneigh ≤ (if init.2 < (grid_list.getD a default).Nneigh then
          (grid_list.getD a default).Nneigh else init.2) := by
      split_ifs <;> omega
    obtain ⟨h1, h2, h3⟩ := ih
      (if init.1 < (grid_list.getD a default).Natoms then (grid_list.getD a default).Natoms
        else init.1,
       if init.2 < (grid_list.getD a default).Nneigh then (grid_list.getD a default).Nneigh
        else init.2)
    refine ⟨le_trans hx.1 h1, le_trans hy.1 h2, ?_⟩
    intro ng hng
    rcases List.mem_cons.mp hng with rfl | hng
    · exact ⟨le_trans hx.2 h1, le_trans hy.2 h2⟩
    · exact h3 ng hng

/-- C31: for a grid in which the bins of the blocks `0 .. Ngridelem-1` hold each of the atoms
`0 .. Natoms-1` exactly once and every neighbour index points to one of these blocks, the
number of records `nn_grid` writes is at most the capacity it allocates,
`(maximum block population) * (maximum neighbour count) * Natoms`. -/
theorem nn_grid_within_capacity (sqrt : α → α) (cart : ℕ → α) (Ngridelem : ℕ)
    (grid_list : List grid_elem_type) (Natoms : ℕ) (u : ℕ → ℕ → α) (Rcut : α)
    (hbin : ((List.range Ngridelem).flatMap fun ng =>
      cell_atoms (grid_list.getD ng default)).Perm (List.range Natoms))
    (hnb : ∀ ng, ng < Ngridelem → ∀ v ∈ cell_neighs (grid_list.getD ng default),
      0 ≤ v ∧ v.toNat < Ngridelem) :
    (nn_grid sqrt cart Ngridelem grid_list u Rcut).length
      ≤ nn_grid_capacity Ngridelem grid_list Natoms := by
  obtain ⟨-, -, hmax⟩ := capacity_fold_ge grid_list (List.range Ngridelem) (0, 0)
  unfold nn_grid_capacity
  simp only
  generalize (List.range Ngridelem).foldl
    (fun (m : ℕ × ℕ) ng =>
      (if m.1 < (grid_list.getD ng default).Natoms then (grid_list.getD ng default).Natoms
        else m.1,
       if m.2 < (grid_list.getD ng default).Nneigh then (grid_list.getD ng default).Nneigh
        else m.2)) (0, 0) = m at hmax ⊢
  have hA : ∀ ng, ng < Ngridelem → (cell_atoms (grid_list.getD ng default)).length ≤ m.1 := by
    intro ng hng
    unfold cell_atoms
    exact le_trans (List.length_take_le _ _) (hmax ng (List.mem_range.mpr hng)).1
  have hB : ∀ ng, ng < Ngridelem → (cell_neighs (grid_list.getD ng default)).length ≤ m.2 := by
    intro ng hng
    unfold cell_neighs
    exact le_trans (List.length_take_le _ _) (hmax ng (List.mem_range.mpr hng)).2
  rw [nn_grid_eq_flatMap_pairs]
  have hlen : ((List.range Ngridelem).flatMap fun ng =>
      (cell_atoms (grid_list.getD ng default)).map fun i => (ng, i)).length = Natoms := by
    have h1 := hbin.length_eq
    rw [List.length_range] at h1
    rw [← h1, List.length_flatMap, List.length_flatMap]
    congr 1
    apply List.map_congr_left
    intro ng _
    simp
  refine le_trans (length_flatMap_le _ _ (m.2 * m.1) ?_) ?_
  · intro e he
    rw [List.mem_flatMap] at he
    obtain ⟨ng, hng, he⟩ := he
    rw [List.mem_map] at he
    obtain ⟨i, -, rfl⟩ := he
    rw [List.mem_range] at hng
    simp only
    refine le_trans (length_flatMap_le _ _ m.1 ?_) (Nat.mul_le_mul_right _ (hB ng hng))
    intro v hv
    exact le_trans (List.length_filterMap_le _ _) (hA _ (hnb ng hng v hv).2)
  · rw [hlen]
    exact le_of_eq (by ring)

theorem nn_grid_within_capacity_witness :
    ((List.range 1).flatMap fun ng =>
      cell_atoms (([⟨1, [0], 2, [0, 1, 0, 0]⟩] : List grid_elem_type).getD ng default)).Perm
        (List.range 2) ∧
    (∀ ng, ng < 1 → ∀ v ∈ cell_neighs
        (([⟨1, [0], 2, [0, 1, 0, 0]⟩] : List grid_elem_type).getD ng default),
      0 ≤ v ∧ v.toNat < 1) ∧
    (nn_grid Real.sqrt (arr [(1 : ℝ), 0, 0, 0, 1, 0, 0, 0, 1]) 1
        [⟨1, [0], 2, [0, 1, 0, 0]⟩] (atoms [[0, 0, 0], [1 / 2, 0, 0]]) (3 / 5)).length
      ≤ nn_grid_capacity 1 [⟨1, [0], 2, [0, 1, 0, 0]⟩] 2 ∧
    nn_grid_capacity 1 [⟨1, [0], 2, [0, 1, 0, 0]⟩] 2 = 4 :=
  have hbin : ((List.range 1).flatMap fun ng =>
      cell_atoms (([⟨1, [0], 2, [0, 1, 0, 0]⟩] : List grid_elem_type).getD ng default)).Perm
        (List.range 2) := by decide
  have hnb : ∀ ng, ng < 1 → ∀ v ∈ cell_neighs
      (([⟨1, [0], 2, [0, 1, 0, 0]⟩] : List grid_elem_type).getD ng default),
      0 ≤ v ∧ v.toNat < 1 := by decide
  ⟨hbin, hnb,
    nn_grid_within_capacity Real.sqrt (arr [(1 : ℝ), 0, 0, 0, 1, 0, 0, 0, 1]) 1
      [⟨1, [0], 2, [0, 1, 0, 0]⟩] 2 (atoms [[0, 0, 0], [1 / 2, 0, 0]]) (3 / 5) hbin hnb,
    by decide⟩

/-! ## populate_grid and plain list append -/

theorem wrap_int_eq_self {z : ℤ} (h1 : -2147483648 ≤ z) (h2 : z ≤ 2147483647) :
    wrap_int z = z := by
  unfold wrap_int
  omega

theorem wrap_int_add_mul (z k : ℤ) : wrap_int (z + 4294967296 * k) = wrap_int z := by
  unfold wrap_int
  rw [show z + 4294967296 * k + 2147483648 = z + 2147483648 + 4294967296 * k by ring,
    Int.add_mul_emod_self_left]

theorem wrap_int_spec (z : ℤ) : ∃ k : ℤ, wrap_int z = z + 4294967296 * k := by
  refine ⟨-((z + 2147483648) / 4294967296), ?_⟩
  unfold wrap_int
  have := Int.emod_add_ediv (z + 2147483648) 4294967296
  linarith

theorem wrap_int_mul_left (a b : ℤ) : wrap_int (wrap_int a * b) = wrap_int (a * b) := by
  obtain ⟨k, hk⟩ := wrap_int_spec a
  rw [hk, show (a + 4294967296 * k) * b = a * b + 4294967296 * (k * b) by ring,
    wrap_int_add_mul]

theorem wrap_int_mul_right (a b : ℤ) : wrap_int (a * wrap_int b) = wrap_int (a * b) := by
  rw [mul_comm, wrap_int_mul_left, mul_comm]

theorem wrap_int_add_right (a b : ℤ) : wrap_int (a + wrap_int b) = wrap_int (a + b) := by
  obtain ⟨k, hk⟩ := wrap_int_spec b
  rw [hk, ← add_assoc, wrap_int_add_mul]

theorem wrap_int_add_left (a b : ℤ) : wrap_int (wrap_int a + b) = wrap_int (a + b) := by
  rw [add_comm, wrap_int_add_right, add_comm]

theorem double_to_int_eq {x : α} (h1 : -2147483648 ≤ toInt x) (h2 : toInt x ≤ 2147483647) :
    double_to_int x = toInt x := by
  unfold double_to_int
  rw [if_pos ⟨h1, h2⟩]

theorem double_to_int_of_nonneg {x : α} (h0 : 0 ≤ x) (h1 : x < 2147483648) :
    double_to_int x = ⌊x⌋ := by
  have hf : ⌊x⌋ < 2147483648 := by
    rw [Int.floor_lt]
    exact_mod_cast h1
  have hn : 0 ≤ ⌊x⌋ := Int.floor_nonneg.2 h0
  rw [double_to_int_eq (by rw [toInt_of_nonneg h0]; omega) (by rw [toInt_of_nonneg h0]; omega),
    toInt_of_nonneg h0]

theorem double_to_int_out_of_range {x : α} (h : 2147483648 ≤ x) :
    double_to_int x = -2147483648 := by
  have h0 : (0 : α) ≤ x := le_trans (by norm_num) h
  have hf : (2147483648 : ℤ) ≤ ⌊x⌋ := by
    rw [Int.le_floor]
    exact_mod_cast h
  unfold double_to_int
  rw [toInt_of_nonneg h0, if_neg (by omega)]

theorem round_even_of_lt {y : α} (m : ℤ) (h1 : (m : α) - 1 / 2 < y) (h2 : y < (m : α) + 1 / 2) :
    round_even y = m := by
  unfold round_even
  by_cases hy : (m : α) ≤ y
  · have hf : ⌊y⌋ = m := by
      rw [Int.floor_eq_iff]
      exact ⟨hy, by linarith⟩
    rw [hf, if_pos (by linarith)]
  · have hf : ⌊y⌋ = m - 1 := by
      rw [Int.floor_eq_iff]
      push_cast
      exact ⟨by linarith, by linarith [not_le.mp hy]⟩
    rw [hf, if_neg (by push_cast; linarith), if_pos (by push_cast; linarith)]
    ring

theorem round_even_intCast (m : ℤ) : round_even (m : α) = m :=
  round_even_of_lt m (by linarith) (by linarith)

theorem round_even_half_odd {y : α} (m : ℤ) (hm : m % 2 = 1) (h : y = (m : α) + 1 / 2) :
    round_even y = m + 1 := by
  have hf : ⌊y⌋ = m := by
    rw [Int.floor_eq_iff]
    exact ⟨by linarith, by linarith⟩
  unfold round_even
  rw [hf, if_neg (by rw [h]; norm_num), if_neg (by rw [h]; norm_num), if_neg (by omega)]

theorem round_even_half_even {y : α} (m : ℤ) (hm : m % 2 = 0) (h : y = (m : α) + 1 / 2) :
    round_even y = m := by
  have hf : ⌊y⌋ = m := by
    rw [Int.floor_eq_iff]
    exact ⟨by linarith, by linarith⟩
  unfold round_even
  rw [hf, if_neg (by rw [h]; norm_num), if_neg (by rw [h]; norm_num), if_pos hm]

theorem int_log_two_eq {x : α} (k : ℤ) (h1 : (2 : α) ^ k ≤ x) (h2 : x < (2 : α) ^ (k + 1)) :
    Int.log 2 x = k := by
  have hx : 0 < x := lt_of_lt_of_le (by positivity) h1
  have a : k ≤ Int.log 2 x := by
    rw [← Int.zpow_le_iff_le_log (by norm_num) hx]
    exact_mod_cast h1
  have b : Int.log 2 x < k + 1 := by
    rw [← Int.lt_zpow_iff_log_lt (by norm_num) hx]
    exact_mod_cast h2
  omega

theorem fl_zero : fl (0 : α) = 0 := by
  unfold fl
  rw [zero_div, show ((0 : α)) = ((0 : ℤ) : α) by simp, round_even_intCast]
  simp

/-- The rounding of a number that is not half-way between two doubles: `x` has the binary
exponent `k` and `m` is the multiple of `2^(k-52)` nearest to it. -/
theorem fl_eq_of_near {x : α} (k m : ℤ) (h1 : (2 : α) ^ k ≤ |x|) (h2 : |x| < (2 : α) ^ (k + 1))
    (h3 : (m : α) - 1 / 2 < x / (2 : α) ^ (k - 52))
    (h4 : x / (2 : α) ^ (k - 52) < (m : α) + 1 / 2) :
    fl x = (m : α) * (2 : α) ^ (k - 52) := by
  unfold fl
  rw [int_log_two_eq k h1 h2, round_even_of_lt m h3 h4]

/-- The rounding of a number half-way between two doubles is the one with the even
significand. -/
theorem fl_eq_of_tie_odd {x : α} (k m : ℤ) (h1 : (2 : α) ^ k ≤ |x|)
    (h2 : |x| < (2 : α) ^ (k + 1)) (hm : m % 2 = 1)
    (h3 : x / (2 : α) ^ (k - 52) = (m : α) + 1 / 2) :
    fl x = ((m + 1 : ℤ) : α) * (2 : α) ^ (k - 52) := by
  unfold fl
  rw [int_log_two_eq k h1 h2, round_even_half_odd m hm h3]

/-- A double is left as it is: `x = m * 2^(k-52)` with the binary exponent `k`. -/
theorem fl_of_double {x : α} (k m : ℤ) (h1 : (2 : α) ^ k ≤ |x|) (h2 : |x| < (2 : α) ^ (k + 1))
    (h3 : x = (m : α) * (2 : α) ^ (k - 52)) : fl x = x := by
  have hp : (0 : α) < (2 : α) ^ (k - 52) := by positivity
  have e : x / (2 : α) ^ (k - 52) = (m : α) := by
    rw [h3, mul_div_assoc, div_self hp.ne', mul_one]
  rw [fl_eq_of_near k m h1 h2 (by rw [e]; linarith) (by rw [e]; linarith), ← h3]

theorem fl_one : fl (1 : α) = 1 :=
  fl_of_double 0 4503599627370496 (by norm_num) (by norm_num) (by norm_num)

theorem fl_two : fl (2 : α) = 2 :=
  fl_of_double 1 4503599627370496 (by norm_num) (by norm_num) (by norm_num)

theorem fl_test : fl (1 / 5 : ℝ) = 3602879701896397 / 18014398509481984 := by
  rw [fl_eq_of_near (-3) 7205759403792794 (by norm_num [abs_of_pos])
    (by norm_num [abs_of_pos]) (by norm_num) (by norm_num)]
  norm_num

/-! ## The conversions of `diff`, `grid_elem`, `calc_grid` and `nn_raw` in machine arithmetic -/

theorem double_to_int_of_floor {x : α} (k : ℤ) (h0 : 0 ≤ k) (hk : k ≤ 2147483647)
    (h1 : (k : α) ≤ x) (h2 : x < (k : α) + 1) : double_to_int x = k := by
  have e := toInt_of_floor k h0 h1 h2
  rw [double_to_int_eq (by rw [e]; omega) (by rw [e]; omega), e]

theorem double_to_int_of_range {x : α} (h1 : -2147483648 ≤ x) (h2 : x < 2147483648) :
    double_to_int x = toInt x := by
  apply double_to_int_eq
  · unfold toInt
    split_ifs with h
    · exact le_trans (by norm_num) (Int.floor_nonneg.2 h)
    · rw [Int.le_ceil_iff]
      push_cast
      linarith
  · unfold toInt
    split_ifs with h
    · have : ⌊x⌋ < 2147483648 := by
        rw [Int.floor_lt]
        exact_mod_cast h2
      omega
    · have : ⌈x⌉ ≤ 0 := by
        rw [Int.ceil_le]
        push_cast
        linarith [not_le.mp h]
      omega

theorem diff_fp_id {x : α} (h1 : -2147483648 ≤ x + 5 / 2) (h2 : x + 5 / 2 < 2147483648) :
    diff_fp id x = diff x := by
  unfold diff_fp diff
  simp only [id]
  rw [double_to_int_of_range h1 h2]

/-- Evidence for the scope of C30: on doubles the largest double below `0.5` is folded to
`-0.5`, which does not differ from it by an integer. -/
theorem diff_double_below_half :
    diff_fp fl (9007199254740991 / 18014398509481984 : ℝ) = -(1 / 2) := by
  have e1 : fl ((9007199254740991 / 18014398509481984 : ℝ) + 5 / 2) = 3 := by
    rw [fl_eq_of_near 1 6755399441055744 (by norm_num [abs_of_pos])
      (by norm_num [abs_of_pos]) (by norm_num) (by norm_num)]
    norm_num
  have e2 : fl ((9007199254740991 / 18014398509481984 : ℝ) + 2) = 5 / 2 := by
    rw [fl_eq_of_near 1 5629499534213120 (by norm_num [abs_of_pos])
      (by norm_num [abs_of_pos]) (by norm_num) (by norm_num)]
    norm_num
  have e3 : double_to_int (3 : ℝ) = 3 :=
    double_to_int_of_floor 3 (by norm_num) (by norm_num) (by norm_num) (by norm_num)
  have e4 : fl (-(1 / 2) : ℝ) = -(1 / 2) :=
    fl_of_double (-1) (-4503599627370496) (by norm_num [abs_of_neg])
      (by norm_num [abs_of_neg]) (by norm_num)
  unfold diff_fp
  rw [e1, e2, e3]
  norm_num
  exact e4

/-- C30, amended: in exact arithmetic, for `-2.5 ≤ x` with `x + 2.5` below `2^31`, `diff`
returns `x - floor(x + 1/2)`: it differs from `x` by an integer and lies in the half-open
interval `[-0.5, 0.5)`. -/
theorem diff_fp_folds_half_open (x : α) (h1 : -(5 / 2) ≤ x) (h2 : x + 5 / 2 < 2147483648) :
    diff_fp id x = x - ((⌊x + 1 / 2⌋ : ℤ) : α) ∧
      (∃ m : ℤ, diff_fp id x = x + (m : α)) ∧
      -(1 / 2) ≤ diff_fp id x ∧ diff_fp id x < 1 / 2 := by
  have h0 : (0 : α) ≤ x + 5 / 2 := by linarith
  have hd : diff_fp id x = x - ((⌊x + 1 / 2⌋ : ℤ) : α) := by
    rw [diff_fp_id (by linarith) h2]
    unfold diff
    rw [toInt_of_nonneg h0, show x + 5 / 2 = x + 1 / 2 + ((2 : ℤ) : α) by push_cast; ring,
      Int.floor_add_int]
    push_cast
    ring
  have hl := Int.floor_le (x + 1 / 2)
  have hu := Int.lt_floor_add_one (x + 1 / 2)
  refine ⟨hd, ⟨-⌊x + 1 / 2⌋, ?_⟩, ?_, ?_⟩
  · rw [hd]
    push_cast
    ring
  · rw [hd]
    linarith
  · rw [hd]
    linarith

theorem diff_fp_folds_half_open_witness :
    -(5 / 2) ≤ (7 / 4 : ℝ) ∧ (7 / 4 : ℝ) + 5 / 2 < 2147483648 ∧
      diff_fp id (7 / 4 : ℝ) = 7 / 4 - ((⌊(7 / 4 : ℝ) + 1 / 2⌋ : ℤ) : ℝ) ∧
      (∃ m : ℤ, diff_fp id (7 / 4 : ℝ) = 7 / 4 + (m : ℝ)) ∧
      -(1 / 2) ≤ diff_fp id (7 / 4 : ℝ) ∧ diff_fp id (7 / 4 : ℝ) < 1 / 2 :=
  ⟨by norm_num, by norm_num, diff_fp_folds_half_open (7 / 4 : ℝ) (by norm_num) (by norm_num)⟩

/-! ### grid_elem -/

theorem grid_elem_fp_wrap (rnd : α → α) (Ngrid : ℕ → ℤ) (u_vect : ℕ → α) :
    grid_elem_fp rnd Ngrid u_vect =
      wrap_int (double_to_int (rnd (u_vect 0 * (Ngrid 0 : α)))
        + Ngrid 0 * (double_to_int (rnd (u_vect 1 * (Ngrid 1 : α)))
          + Ngrid 1 * double_to_int (rnd (u_vect 2 * (Ngrid 2 : α))))) := by
  unfold grid_elem_fp
  rw [wrap_int_add_right, wrap_int_add_right,
    ← wrap_int_add_right (double_to_int (rnd (u_vect 0 * (Ngrid 0 : α)))),
    wrap_int_mul_right, wrap_int_add_right]

/-- Evidence for the scope of C9: on doubles, with three blocks along the first axis and
the coordinate `0.3333333333333333` (the double nearest to `1/3`, below it), the product is
rounded up to `1.0` and `grid_elem` returns `1`, where the floor of the exact product is
`0`. -/
theorem grid_elem_double_third :
    grid_elem_fp fl (arr [3, 1, 1])
        (arr [(6004799503160661 / 18014398509481984 : ℝ), 0, 0]) = 1 ∧
      ⌊(6004799503160661 / 18014398509481984 : ℝ) * 3⌋ = 0 := by
  have e1 : fl ((6004799503160661 / 18014398509481984 : ℝ) * 3) = 1 := by
    rw [fl_eq_of_tie_odd (-1) 9007199254740991 (by norm_num [abs_of_pos])
      (by norm_num [abs_of_pos]) (by norm_num) (by norm_num)]
    norm_num
  have e2 : double_to_int (1 : ℝ) = 1 :=
    double_to_int_of_floor 1 (by norm_num) (by norm_num) (by norm_num) (by norm_num)
  have e3 : double_to_int (0 : ℝ) = 0 :=
    double_to_int_of_floor 0 (by norm_num) (by norm_num) (by norm_num) (by norm_num)
  constructor
  · rw [grid_elem_fp_wrap]
    simp only [arr, List.getD_cons_zero, List.getD_cons_succ, Int.cast_ofNat, Int.cast_one,
      zero_mul, fl_zero, e1, e2, e3]
    rfl
  · rw [Int.floor_eq_iff]
    norm_num

/-- C9, amended: in exact arithmetic, for non-negative block counts and a fractional vector
with non-negative components (components `≥ 1` included) such that every product
`u[k]*Ngrid[k]` and the index itself stay below `2^31`, `grid_elem` is the floor formula. -/
theorem grid_elem_fp_eq_floor (Ngrid : ℕ → ℤ) (u_vect : ℕ → α)
    (hN : ∀ k, k < 3 → 0 ≤ Ngrid k) (hu : ∀ k, k < 3 → 0 ≤ u_vect k)
    (hr : ∀ k, k < 3 → u_vect k * (Ngrid k : α) < 2147483648)
    (hidx : ⌊u_vect 0 * (Ngrid 0 : α)⌋
        + Ngrid 0 * (⌊u_vect 1 * (Ngrid 1 : α)⌋ + Ngrid 1 * ⌊u_vect 2 * (Ngrid 2 : α)⌋)
      ≤ 2147483647) :
    grid_elem_fp id Ngrid u_vect =
      ⌊u_vect 0 * (Ngrid 0 : α)⌋
        + Ngrid 0 * (⌊u_vect 1 * (Ngrid 1 : α)⌋ + Ngrid 1 * ⌊u_vect 2 * (Ngrid 2 : α)⌋) := by
  have h0 : ∀ k, k < 3 → 0 ≤ u_vect k * (Ngrid k : α) :=
    fun k hk => mul_nonneg (hu k hk) (by exact_mod_cast hN k hk)
  have h : ∀ k, k < 3 →
      double_to_int (u_vect k * (Ngrid k : α)) = ⌊u_vect k * (Ngrid k : α)⌋ :=
    fun k hk => double_to_int_of_nonneg (h0 k hk) (hr k hk)
  have f : ∀ k, k < 3 → 0 ≤ ⌊u_vect k * (Ngrid k : α)⌋ :=
    fun k hk => Int.floor_nonneg.2 (h0 k hk)
  rw [grid_elem_fp_wrap]
  simp only [id]
  rw [h 0 (by norm_num), h 1 (by norm_num), h 2 (by norm_num)]
  apply wrap_int_eq_self _ hidx
  have a0 := f 0 (by norm_num)
  have a1 := f 1 (by norm_num)
  have a2 := f 2 (by norm_num)
  have n0 := hN 0 (by norm_num)
  have n1 := hN 1 (by norm_num)
  have : 0 ≤ Ngrid 0 * (⌊u_vect 1 * (Ngrid 1 : α)⌋ + Ngrid 1 * ⌊u_vect 2 * (Ngrid 2 : α)⌋) :=
    mul_nonneg n0 (add_nonneg a1 (mul_nonneg n1 a2))
  omega

theorem grid_elem_fp_eq_floor_witness :
    (∀ k, k < 3 → 0 ≤ arr [(2 : ℤ), 2, 1] k) ∧
    (∀ k, k < 3 → 0 ≤ arr [(3 / 2 : ℝ), 0, 0] k) ∧
    (∀ k, k < 3 → arr [(3 / 2 : ℝ), 0, 0] k * ((arr [(2 : ℤ), 2, 1] k : ℤ) : ℝ) < 2147483648) ∧
    ⌊arr [(3 / 2 : ℝ), 0, 0] 0 * ((arr [(2 : ℤ), 2, 1] 0 : ℤ) : ℝ)⌋
        + arr [(2 : ℤ), 2, 1] 0 * (⌊arr [(3 / 2 : ℝ), 0, 0] 1 * ((arr [(2 : ℤ), 2, 1] 1 : ℤ) : ℝ)⌋
          + arr [(2 : ℤ), 2, 1] 1 * ⌊arr [(3 / 2 : ℝ), 0, 0] 2 * ((arr [(2 : ℤ), 2, 1] 2 : ℤ) : ℝ)⌋)
      ≤ 2147483647 ∧
    grid_elem_fp id (arr [2, 2, 1]) (arr [(3 / 2 : ℝ), 0, 0]) =
      ⌊arr [(3 / 2 : ℝ), 0, 0] 0 * ((arr [(2 : ℤ), 2, 1] 0 : ℤ) : ℝ)⌋
        + arr [(2 : ℤ), 2, 1] 0 * (⌊arr [(3 / 2 : ℝ), 0, 0] 1 * ((arr [(2 : ℤ), 2, 1] 1 : ℤ) : ℝ)⌋
          + arr [(2 : ℤ), 2, 1] 1 * ⌊arr [(3 / 2 : ℝ), 0, 0] 2 * ((arr [(2 : ℤ), 2, 1] 2 : ℤ) : ℝ)⌋) :=
  have h1 : ∀ k, k < 3 → 0 ≤ arr [(2 : ℤ), 2, 1] k := by
    intro k hk; interval_cases k <;> simp [arr]
  have h2 : ∀ k, k < 3 → 0 ≤ arr [(3 / 2 : ℝ), 0, 0] k := by
    intro k hk; interval_cases k <;> norm_num [arr]
  have h3 : ∀ k, k < 3 →
      arr [(3 / 2 : ℝ), 0, 0] k * ((arr [(2 : ℤ), 2, 1] k : ℤ) : ℝ) < 2147483648 := by
    intro k hk; interval_cases k <;> norm_num [arr]
  have h4 : ⌊arr [(3 / 2 : ℝ), 0, 0] 0 * ((arr [(2 : ℤ), 2, 1] 0 : ℤ) : ℝ)⌋
        + arr [(2 : ℤ), 2, 1] 0 * (⌊arr [(3 / 2 : ℝ), 0, 0] 1 * ((arr [(2 : ℤ), 2, 1] 1 : ℤ) : ℝ)⌋
          + arr [(2 : ℤ), 2, 1] 1 * ⌊arr [(3 / 2 : ℝ), 0, 0] 2 * ((arr [(2 : ℤ), 2, 1] 2 : ℤ) : ℝ)⌋)
      ≤ 2147483647 := by
    have e : ⌊(3 / 2 : ℝ) * 2⌋ = 3 := by
      rw [Int.floor_eq_iff]; norm_num
    simp [arr, e]
  ⟨h1, h2, h3, h4, grid_elem_fp_eq_floor _ _ h1 h2 h3 h4⟩

/-! ### calc_grid -/

theorem calc_len_fp_id (sqrt : α → α) (cart : ℕ → α) (k : ℕ) :
    calc_len_fp id sqrt cart k = calc_len sqrt cart k := rfl

theorem calc_grid_fp_id {sqrt : α → α} (hsq : IsSqrt sqrt) (cart : ℕ → α) {Rcut : α}
    (hR : 0 < Rcut) (k : ℕ) (hr : calc_len sqrt cart k / Rcut < 2147483648) :
    calc_grid_fp id sqrt cart Rcut k = calc_grid sqrt cart Rcut k := by
  have h0 : 0 ≤ calc_len sqrt cart k / Rcut := div_nonneg (calc_len_nonneg hsq cart k) hR.le
  unfold calc_grid_fp calc_grid
  simp only [id, calc_len_fp_id]
  rw [double_to_int_of_nonneg h0 hr, toInt_of_nonneg h0]

theorem calc_len_fp_cubic (k : ℕ) (hk : k < 3) :
    calc_len_fp fl Real.sqrt (arr [(1 : ℝ), 0, 0, 0, 1, 0, 0, 0, 1]) k = 1 := by
  have h1 : ajXak_len_fp fl (arr [(1 : ℝ), 0, 0, 0, 1, 0, 0, 0, 1]) k = 1 := by
    interval_cases k <;> norm_num [ajXak_len_fp, ajXak_fp, arr, fl_zero, fl_one]
  have h2 : det_cart_fp fl (arr [(1 : ℝ), 0, 0, 0, 1, 0, 0, 0, 1]) = 1 := by
    norm_num [det_cart_fp, triple_product_fp, arr, fl_zero, fl_one]
  unfold calc_len_fp
  rw [h1, h2, Real.sqrt_one, fl_one, div_one, fl_one]

theorem calc_grid_fp_cubic_tiny (k : ℕ) (hk : k < 3) :
    calc_grid_fp id Real.sqrt (arr [(1 : ℝ), 0, 0, 0, 1, 0, 0, 0, 1])
      (1 / 4294967296) k = -2147483648 := by
  have e : double_to_int ((1 : ℝ) / (1 / 4294967296)) = -2147483648 :=
    double_to_int_out_of_range (by norm_num)
  unfold calc_grid_fp
  simp only [id, calc_len_fp_id]
  rw [calc_len_cubic k hk, e]
  rfl

/-- C12, as stated, fails in the code.  On doubles: for the unit cubic lattice and the
cutoff `0.1` (the double `3602879701896397 / 2^55`, just above `1/10`) the quotient
`len/Rcut` is rounded up to `10.0` and the count is `10`, where `floor(L/Rcut) = 9`.  In the
range of `int`: for the cutoff `2^-32` the quotient `2^32` does not fit an `int`, the
conversion gives `-2^31`, and the count is not `≥ 1`. -/
theorem calc_grid_not_max_floor :
    (∀ k, k < 3 →
      calc_grid_fp fl Real.sqrt (arr [(1 : ℝ), 0, 0, 0, 1, 0, 0, 0, 1])
          (3602879701896397 / 36028797018963968) k = 10 ∧
        max 1 ⌊spec_perp_spacing Real.sqrt (arr [(1 : ℝ), 0, 0, 0, 1, 0, 0, 0, 1]) k
          / (3602879701896397 / 36028797018963968)⌋ = 9) ∧
      ∀ k, k < 3 →
        calc_grid_fp id Real.sqrt (arr [(1 : ℝ), 0, 0, 0, 1, 0, 0, 0, 1])
            (1 / 4294967296) k = -2147483648 ∧
          max 1 ⌊spec_perp_spacing Real.sqrt (arr [(1 : ℝ), 0, 0, 0, 1, 0, 0, 0, 1]) k
            / (1 / 4294967296)⌋ = 4294967296 := by
  constructor
  · intro k hk
    constructor
    · have e1 : fl ((1 : ℝ) / (3602879701896397 / 36028797018963968)) = 10 := by
        rw [fl_eq_of_near 3 5629499534213120 (by norm_num [abs_of_pos])
          (by norm_num [abs_of_pos]) (by norm_num) (by norm_num)]
        norm_num
      have e2 : double_to_int (10 : ℝ) = 10 :=
        double_to_int_of_floor 10 (by norm_num) (by norm_num) (by norm_num) (by norm_num)
      unfold calc_grid_fp
      rw [calc_len_fp_cubic k hk, e1, e2]
      rfl
    · rw [← calc_len_eq_spec _ _ k hk, calc_len_cubic k hk]
      have : ⌊(1 : ℝ) / (3602879701896397 / 36028797018963968)⌋ = 9 := by
        rw [Int.floor_eq_iff]
        norm_num
      rw [this]
      rfl
  · intro k hk
    constructor
    · exact calc_grid_fp_cubic_tiny k hk
    · rw [← calc_len_eq_spec _ _ k hk, calc_len_cubic k hk]
      have : ⌊(1 : ℝ) / (1 / 4294967296)⌋ = 4294967296 := by
        rw [Int.floor_eq_iff]
        norm_num
      rw [this]
      rfl

/-- C12, amended: in exact arithmetic, for a non-singular lattice, a positive cutoff and an
axis whose quotient `L_k / Rcut` is below `2^31`, `calc_grid` returns the count
`max(1, floor(L_k / Rcut))`, `L_k` being the perpendicular spacing of the axis, and the
count is at least 1. -/
theorem calc_grid_fp_eq_max_floor (sqrt : α → α) (hsq : IsSqrt sqrt) (cart : ℕ → α)
    (Rcut : α) (_hdet : triple_product cart ≠ 0) (hR : 0 < Rcut) (k : ℕ) (hk : k < 3)
    (hr : spec_perp_spacing sqrt cart k / Rcut < 2147483648) :
    calc_grid_fp id sqrt cart Rcut k = max 1 ⌊spec_perp_spacing sqrt cart k / Rcut⌋ ∧
      1 ≤ calc_grid_fp id sqrt cart Rcut k := by
  rw [← calc_len_eq_spec sqrt cart k hk] at hr ⊢
  rw [calc_grid_fp_id hsq cart hR k hr]
  exact ⟨calc_grid_eq_floor hsq cart hR k, calc_grid_ge_one hsq cart hR k⟩

theorem calc_grid_fp_eq_max_floor_witness :
    IsSqrt Real.sqrt ∧ triple_product (arr [(1 : ℝ), 0, 0, 0, 1, 0, 0, 0, 1]) ≠ 0 ∧
    (0 : ℝ) < 2 / 5 ∧ 1 < 3 ∧
    spec_perp_spacing Real.sqrt (arr [(1 : ℝ), 0, 0, 0, 1, 0, 0, 0, 1]) 1 / (2 / 5)
      < 2147483648 ∧
    calc_grid_fp id Real.sqrt (arr [(1 : ℝ), 0, 0, 0, 1, 0, 0, 0, 1]) (2 / 5) 1 =
        max 1 ⌊spec_perp_spacing Real.sqrt (arr [(1 : ℝ), 0, 0, 0, 1, 0, 0, 0, 1]) 1 / (2 / 5)⌋ ∧
      1 ≤ calc_grid_fp id Real.sqrt (arr [(1 : ℝ), 0, 0, 0, 1, 0, 0, 0, 1]) (2 / 5) 1 :=
  have h : spec_perp_spacing Real.sqrt (arr [(1 : ℝ), 0, 0, 0, 1, 0, 0, 0, 1]) 1 / (2 / 5)
      < 2147483648 := by
    rw [← calc_len_eq_spec _ _ 1 (by norm_num), calc_len_cubic 1 (by norm_num)]
    norm_num
  ⟨isSqrt_real, triple_product_cubic, by norm_num, by norm_num, h,
    calc_grid_fp_eq_max_floor Real.sqrt isSqrt_real _ (2 / 5) triple_product_cubic
      (by norm_num) 1 (by norm_num) h⟩

/-- C13, amended: in exact arithmetic, for a non-singular lattice, a positive cutoff and an
axis whose quotient `L_k / Rcut` is below `2^31`: if the perpendicular spacing `L_k` is at
least `Rcut`, the width `L_k / Ngrid[k]` of a block is at least `Rcut`; if `L_k < Rcut`,
the count is `1`. -/
theorem cell_width_fp_ge_cutoff (sqrt : α → α) (hsq : IsSqrt sqrt) (cart : ℕ → α) (Rcut : α)
    (_hdet : triple_product cart ≠ 0) (hR : 0 < Rcut) (k : ℕ) (hk : k < 3)
    (hr : spec_perp_spacing sqrt cart k / Rcut < 2147483648) :
    (Rcut ≤ spec_perp_spacing sqrt cart k →
      Rcut ≤ spec_perp_spacing sqrt cart k / ((calc_grid_fp id sqrt cart Rcut k : ℤ) : α)) ∧
    (spec_perp_spacing sqrt cart k < Rcut → calc_grid_fp id sqrt cart Rcut k = 1) := by
  rw [← calc_len_eq_spec sqrt cart k hk] at hr ⊢
  rw [calc_grid_fp_id hsq cart hR k hr, calc_grid_eq_floor hsq cart hR k]
  constructor
  · intro hL
    have h1 : (1 : ℤ) ≤ ⌊calc_len sqrt cart k / Rcut⌋ := by
      rw [Int.le_floor, Int.cast_one, le_div_iff₀ hR, one_mul]
      exact hL
    rw [max_eq_right h1]
    have hpos : (0 : α) < (⌊calc_len sqrt cart k / Rcut⌋ : α) := by
      exact_mod_cast (by omega : (0 : ℤ) < ⌊calc_len sqrt cart k / Rcut⌋)
    rw [le_div_iff₀ hpos]
    have := Int.floor_le (calc_len sqrt cart k / Rcut)
    have h2 := (le_div_iff₀ hR).1 this
    linarith
  · intro hL
    have h1 : ⌊calc_len sqrt cart k / Rcut⌋ < 1 := by
      rw [Int.floor_lt, Int.cast_one, div_lt_one hR]
      exact hL
    rw [max_eq_left (by omega)]

theorem cell_width_fp_ge_cutoff_witness :
    IsSqrt Real.sqrt ∧ triple_product (arr [(1 : ℝ), 0, 0, 0, 1, 0, 0, 0, 1]) ≠ 0 ∧
    (0 : ℝ) < 2 / 5 ∧ 1 < 3 ∧
    spec_perp_spacing Real.sqrt (arr [(1 : ℝ), 0, 0, 0, 1, 0, 0, 0, 1]) 1 / (2 / 5)
      < 2147483648 ∧
    (2 / 5 ≤ spec_perp_spacing Real.sqrt (arr [(1 : ℝ), 0, 0, 0, 1, 0, 0, 0, 1]) 1 →
      2 / 5 ≤ spec_perp_spacing Real.sqrt (arr [(1 : ℝ), 0, 0, 0, 1, 0, 0, 0, 1]) 1
        / ((calc_grid_fp id Real.sqrt (arr [(1 : ℝ), 0, 0, 0, 1, 0, 0, 0, 1]) (2 / 5) 1 : ℤ)
          : ℝ)) ∧
    (spec_perp_spacing Real.sqrt (arr [(1 : ℝ), 0, 0, 0, 1, 0, 0, 0, 1]) 1 < 2 / 5 →
      calc_grid_fp id Real.sqrt (arr [(1 : ℝ), 0, 0, 0, 1, 0, 0, 0, 1]) (2 / 5) 1 = 1) :=
  have h : spec_perp_spacing Real.sqrt (arr [(1 : ℝ), 0, 0, 0, 1, 0, 0, 0, 1]) 1 / (2 / 5)
      < 2147483648 := by
    rw [← calc_len_eq_spec _ _ 1 (by norm_num), calc_len_cubic 1 (by norm_num)]
    norm_num
  ⟨isSqrt_real, triple_product_cubic, by norm_num, by norm_num, h,
    cell_width_fp_ge_cutoff Real.sqrt isSqrt_real _ (2 / 5) triple_product_cubic
      (by norm_num) 1 (by norm_num) h⟩

/-! ### The shift range of nn_raw -/

theorem raw_min_dist_fp_id (cart : ℕ → α) : raw_min_dist_fp id cart = raw_min_dist cart := rfl

/-- C29, amended: in exact arithmetic, when `m` is the least squared length
`|n0*a1 + n1*a2 + n2*a3|^2` over the non-zero shifts with every `|n_k| ≤ 3`, with
`0 < m ≤ 1e20`, `Rcut > 0` and `Rcut / sqrt m + 1` below `2^31`, the code takes
`maxn = floor(Rcut / sqrt m) + 1`. -/
theorem raw_maxn_fp_eq_floor_add_one (sqrt : α → α) (hsq : IsSqrt sqrt) (cart : ℕ → α)
    (Rcut : α) (hR : 0 < Rcut) (m : α)
    (hex : ∃ n ∈ shifts 3, ¬ (n.1 = 0 ∧ n.2.1 = 0 ∧ n.2.2 = 0) ∧ shift_r2 cart n = m)
    (hmin : ∀ n ∈ shifts 3, ¬ (n.1 = 0 ∧ n.2.1 = 0 ∧ n.2.2 = 0) → m ≤ shift_r2 cart n)
    (hpos : 0 < m) (hcap : m ≤ 10 ^ 20) (hr : Rcut / sqrt m + 1 < 2147483648) :
    raw_maxn_fp id sqrt cart Rcut = ⌊Rcut / sqrt m⌋ + 1 := by
  have h0 : 0 ≤ Rcut / sqrt m := div_nonneg hR.le (hsq m hpos.le).1
  unfold raw_maxn_fp
  simp only [id, raw_min_dist_fp_id]
  rw [raw_min_dist_eq hex hmin hcap, double_to_int_of_nonneg (by linarith) hr,
    Int.floor_add_one]

theorem raw_maxn_fp_eq_floor_add_one_witness :
    (0 : ℝ) < 3 / 5 ∧ (0 : ℝ) < 1 ∧ (1 : ℝ) ≤ 10 ^ 20 ∧
      (3 / 5 : ℝ) / Real.sqrt 1 + 1 < 2147483648 ∧
      raw_maxn_fp id Real.sqrt (arr [(1 : ℝ), 0, 0, 0, 1, 0, 0, 0, 1]) (3 / 5)
        = ⌊(3 / 5 : ℝ) / Real.sqrt 1⌋ + 1 :=
  have h : (3 / 5 : ℝ) / Real.sqrt 1 + 1 < 2147483648 := by
    rw [Real.sqrt_one]
    norm_num
  ⟨by norm_num, by norm_num, by norm_num, h,
    raw_maxn_fp_eq_floor_add_one Real.sqrt isSqrt_real (arr [(1 : ℝ), 0, 0, 0, 1, 0, 0, 0, 1])
      (3 / 5) (by norm_num) 1
      ⟨(1, 0, 0), by rw [mem_shifts]; decide, by decide, by rw [shift_r2_cubic]; norm_num⟩
      (fun n _ hn => by rw [shift_r2_cubic]; exact_mod_cast int_norm_ge_one hn)
      (by norm_num) (by norm_num) h⟩

/-- An integer below `2^53` in absolute value is a double. -/
theorem fl_intCast (z : ℤ) (h : |z| < 9007199254740992) : fl (z : α) = (z : α) := by
  by_cases hz : z = 0
  · subst hz
    simpa using (fl_zero : fl (0 : α) = 0)
  · have hpos : (0 : α) < |(z : α)| := abs_pos.2 (by exact_mod_cast hz)
    have h1 : (2 : α) ^ Int.log 2 |(z : α)| ≤ |(z : α)| := by
      have := Int.zpow_log_le_self (b := 2) (by norm_num) hpos
      exact_mod_cast this
    have h2 : |(z : α)| < (2 : α) ^ (Int.log 2 |(z : α)| + 1) := by
      have := Int.lt_zpow_succ_log_self (b := 2) (by norm_num) |(z : α)|
      exact_mod_cast this
    have hk0 : 0 ≤ Int.log 2 |(z : α)| := by
      rw [← Int.zpow_le_iff_le_log (by norm_num) hpos]
      simp only [zpow_zero]
      have : (1 : ℤ) ≤ |z| := Int.one_le_abs hz
      exact_mod_cast this
    have hk52 : Int.log 2 |(z : α)| < 53 := by
      rw [← Int.lt_zpow_iff_log_lt (by norm_num) hpos]
      have : (|z| : ℤ) < 9007199254740992 := h
      have h' : ((|z| : ℤ) : α) < ((9007199254740992 : ℤ) : α) := by exact_mod_cast this
      push_cast at h'
      norm_num
      exact h'
    refine fl_of_double (Int.log 2 |(z : α)|) (z * 2 ^ (52 - Int.log 2 |(z : α)|).toNat) h1 h2 ?_
    push_cast
    rw [← zpow_natCast, Int.toNat_of_nonneg (by omega), mul_assoc,
      ← zpow_add₀ (by norm_num : (2 : α) ≠ 0)]
    simp

theorem shift_r2_fp_cubic (n : ℤ × ℤ × ℤ) (h1 : |n.1| ≤ 3) (h2 : |n.2.1| ≤ 3)
    (h3 : |n.2.2| ≤ 3) :
    shift_r2_fp fl (arr [(1 : α), 0, 0, 0, 1, 0, 0, 0, 1]) n =
      shift_r2 (arr [(1 : α), 0, 0, 0, 1, 0, 0, 0, 1]) n := by
  have a1 : fl (n.1 : α) = (n.1 : α) := fl_intCast _ (by omega)
  have a2 : fl (n.2.1 : α) = (n.2.1 : α) := fl_intCast _ (by omega)
  have a3 : fl (n.2.2 : α) = (n.2.2 : α) := fl_intCast _ (by omega)
  have q : ∀ z : ℤ, |z| ≤ 3 → |z * z| ≤ 9 := by
    intro z hz
    rw [abs_mul]
    nlinarith [abs_nonneg z]
  have b1 : fl ((n.1 : α) * (n.1 : α)) = (n.1 : α) * (n.1 : α) := by
    have := @fl_intCast α _ _ (n.1 * n.1) (by have := q _ h1; omega)
    push_cast at this
    exact this
  have b2 : fl ((n.2.1 : α) * (n.2.1 : α)) = (n.2.1 : α) * (n.2.1 : α) := by
    have := @fl_intCast α _ _ (n.2.1 * n.2.1) (by have := q _ h2; omega)
    push_cast at this
    exact this
  have b3 : fl ((n.2.2 : α) * (n.2.2 : α)) = (n.2.2 : α) * (n.2.2 : α) := by
    have := @fl_intCast α _ _ (n.2.2 * n.2.2) (by have := q _ h3; omega)
    push_cast at this
    exact this
  have c1 : fl ((n.1 : α) * (n.1 : α) + (n.2.1 : α) * (n.2.1 : α))
      = (n.1 : α) * (n.1 : α) + (n.2.1 : α) * (n.2.1 : α) := by
    have := @fl_intCast α _ _ (n.1 * n.1 + n.2.1 * n.2.1) (by
      have := q _ h1
      have := q _ h2
      have := abs_add (n.1 * n.1) (n.2.1 * n.2.1)
      omega)
    push_cast at this
    exact this
  have c2 : fl ((n.1 : α) * (n.1 : α) + (n.2.1 : α) * (n.2.1 : α) + (n.2.2 : α) * (n.2.2 : α))
      = (n.1 : α) * (n.1 : α) + (n.2.1 : α) * (n.2.1 : α) + (n.2.2 : α) * (n.2.2 : α) := by
    have := @fl_intCast α _ _ (n.1 * n.1 + n.2.1 * n.2.1 + n.2.2 * n.2.2) (by
      have := q _ h1
      have := q _ h2
      have := q _ h3
      have := abs_add (n.1 * n.1) (n.2.1 * n.2.1)
      have := abs_add (n.1 * n.1 + n.2.1 * n.2.1) (n.2.2 * n.2.2)
      omega)
    push_cast at this
    exact this
  simp only [shift_r2_fp, shift_r2, arr, List.getD_cons_zero, List.getD_cons_succ, mul_one,
    mul_zero, fl_zero, add_zero, zero_add, a1, a2, a3, b1, b2, b3, c1, c2]

theorem abs_le_of_mem_shifts {m : ℤ} {n : ℤ × ℤ × ℤ} (h : n ∈ shifts m) :
    |n.1| ≤ m ∧ |n.2.1| ≤ m ∧ |n.2.2| ≤ m := by
  rw [mem_shifts] at h
  refine ⟨abs_le.2 ⟨?_, ?_⟩, abs_le.2 ⟨?_, ?_⟩, abs_le.2 ⟨?_, ?_⟩⟩ <;> omega

theorem foldl_congr_mem {β γ : Type} (f g : β → γ → β) (l : List γ)
    (h : ∀ b, ∀ x ∈ l, f b x = g b x) : ∀ b, l.foldl f b = l.foldl g b := by
  induction l with
  | nil => intro b; rfl
  | cons a t ih =>
    intro b
    rw [List.foldl_cons, List.foldl_cons, h b a (List.mem_cons_self _ _)]
    exact ih (fun b x hx => h b x (List.mem_cons_of_mem _ hx)) _

theorem raw_min_dist_fp_cubic :
    raw_min_dist_fp fl (arr [(1 : α), 0, 0, 0, 1, 0, 0, 0, 1]) = 1 := by
  refine Eq.trans ?_ (@raw_min_dist_cubic α _ _)
  unfold raw_min_dist_fp raw_min_dist
  apply foldl_congr_mem
  intro b n hn
  obtain ⟨h1, h2, h3⟩ := abs_le_of_mem_shifts hn
  rw [shift_r2_fp_cubic n h1 h2 h3]

/-- Evidence for the scope of C29: on doubles, for the unit cubic lattice and the cutoff
`0.9999999999999999` (the largest double below `1`), the sum `Rcut/sqrt(min_dist) + 1.` is
rounded up to `2.0` and `maxn = 2`, where `floor(Rcut/d) + 1 = 1`. -/
theorem raw_maxn_double_below_one :
    raw_maxn_fp fl Real.sqrt (arr [(1 : ℝ), 0, 0, 0, 1, 0, 0, 0, 1])
        (9007199254740991 / 9007199254740992) = 2 ∧
      ⌊(9007199254740991 / 9007199254740992 : ℝ) / Real.sqrt 1⌋ + 1 = 1 := by
  have e1 : fl ((9007199254740991 / 9007199254740992 : ℝ) / 1)
      = 9007199254740991 / 9007199254740992 := by
    rw [div_one]
    exact fl_of_double (-1) 9007199254740991 (by norm_num [abs_of_pos])
      (by norm_num [abs_of_pos]) (by norm_num)
  have e2 : fl ((9007199254740991 / 9007199254740992 : ℝ) + 1) = 2 := by
    rw [fl_eq_of_tie_odd 0 9007199254740991 (by norm_num [abs_of_pos])
      (by norm_num [abs_of_pos]) (by norm_num) (by norm_num)]
    norm_num
  have e3 : double_to_int (2 : ℝ) = 2 :=
    double_to_int_of_floor 2 (by norm_num) (by norm_num) (by norm_num) (by norm_num)
  constructor
  · unfold raw_maxn_fp
    rw [raw_min_dist_fp_cubic, Real.sqrt_one, fl_one, e1, e2, e3]
  · rw [Real.sqrt_one, div_one]
    have : ⌊(9007199254740991 / 9007199254740992 : ℝ)⌋ = 0 := by
      rw [Int.floor_eq_iff]
      norm_num
    rw [this]
    rfl

/-! ## The grid path in machine arithmetic -/

theorem Ngridelem_fp_eq {Ngrid : ℕ → ℤ} (hN : ∀ k, k < 3 → 1 ≤ Ngrid k)
    (hcells : Ngrid 0 * Ngrid 1 * Ngrid 2 ≤ 2147483647) :
    Ngridelem_fp Ngrid = Ngrid 0 * Ngrid 1 * Ngrid 2 := by
  have h0 := hN 0 (by norm_num)
  have h1 := hN 1 (by norm_num)
  have h2 := hN 2 (by norm_num)
  have hp : 0 ≤ Ngrid 0 * Ngrid 1 * Ngrid 2 := by positivity
  unfold Ngridelem_fp
  rw [wrap_int_mul_left, wrap_int_eq_self (by omega) hcells]

theorem populate_Nalloc0_fp_pos (rnd : α → α) (M : ℤ) (N : ℕ) :
    0 < populate_Nalloc0_fp rnd M N := by
  unfold populate_Nalloc0_fp
  split_ifs <;> omega

theorem populate_step_fp_eq (rnd : α → α) (Ngrid : ℕ → ℤ) (u : ℕ → ℕ → α)
    (st : List grid_elem_type × List ℕ) (n : ℕ)
    (h : grid_elem_fp rnd Ngrid (u n) = grid_elem Ngrid (u n)) :
    populate_step_fp rnd Ngrid u st n = populate_step Ngrid u st n := by
  unfold populate_step_fp populate_step
  rw [h] <;> rfl

theorem foldlM_option_congr_mem {β γ : Type} (f g : β → γ → Option β) (l : List γ)
    (h : ∀ b, ∀ x ∈ l, f b x = g b x) : ∀ b, l.foldlM f b = l.foldlM g b := by
  induction l with
  | nil => intro b; rfl
  | cons a t ih =>
    intro b
    rw [List.foldlM_cons, List.foldlM_cons, h b a (List.mem_cons_self _ _)]
    cases g b a with
    | none => rfl
    | some b1 => exact ih (fun b x hx => h b x (List.mem_cons_of_mem _ hx)) b1

/-- The atoms `n < N` that `grid_elem` sends to the block `c`, in ascending order, when the
machine's block index of every atom is the exact one. -/
theorem populate_grid_fp_spec (rnd : α → α) (Ngrid : ℕ → ℤ) (u : ℕ → ℕ → α)
    (gl0 : List grid_elem_type) (N : ℕ)
    (hN : ∀ k, k < 3 → 1 ≤ Ngrid k) (hcells : Ngrid 0 * Ngrid 1 * Ngrid 2 ≤ 2147483647)
    (hlen : gl0.length = (Ngrid 0 * Ngrid 1 * Ngrid 2).toNat)
    (hr : ∀ n, n < N → 0 ≤ grid_elem Ngrid (u n) ∧
      grid_elem Ngrid (u n) < Ngrid 0 * Ngrid 1 * Ngrid 2)
    (hge : ∀ n, n < N → grid_elem_fp rnd Ngrid (u n) = grid_elem Ngrid (u n)) :
    ∃ gl, populate_grid_fp rnd Ngrid gl0 N u = some (gl, false) ∧ gl.length = gl0.length ∧
      (gl.map fun g => g.Natoms).sum = N ∧
      ∀ c, cell_atoms (gl.getD c default) =
          (List.range N).filter (fun n => (grid_elem Ngrid (u n)).toNat = c) ∧
        (gl.getD c default).Nneigh = (gl0.getD c default).Nneigh ∧
        (gl.getD c default).neighlist = (gl0.getD c default).neighlist := by
  have hM := Ngridelem_fp_eq hN hcells
  have h0 := hN 0 (by norm_num)
  have h1 := hN 1 (by norm_num)
  have h2 := hN 2 (by norm_num)
  have hp : 0 ≤ Ngrid 0 * Ngrid 1 * Ngrid 2 := by positivity
  obtain ⟨st0, hst0, hinv0⟩ := populate_init_inv Ngrid u gl0 _
    (populate_Nalloc0_fp rnd (Ngrid 0 * Ngrid 1 * Ngrid 2) N) hlen
    (populate_Nalloc0_fp_pos rnd _ N)
  obtain ⟨st, hst, hinv⟩ := populate_loop_inv Ngrid u gl0 _ N st0 hinv0
    (fun n hn => ⟨(hr n hn).1, by have := hr n hn; omega⟩)
  have hfold : (List.range N).foldlM (populate_step_fp rnd Ngrid u) st0 = some st := by
    rw [foldlM_option_congr_mem (populate_step_fp rnd Ngrid u) (populate_step Ngrid u)
      (List.range N) (fun b x hx =>
        populate_step_fp_eq rnd Ngrid u b x (hge x (List.mem_range.1 hx)))]
    exact hst
  obtain ⟨hl1, hl2, hsum, hcells'⟩ := hinv
  refine ⟨st.1, ?_, by omega, hsum, ?_⟩
  · unfold populate_grid_fp
    rw [hM, if_neg (by omega)]
    simp only [hst0, hfold]
    rw [List.take_of_length_le (by omega), hsum]
    simp
  · intro c
    by_cases hc : c < (Ngrid 0 * Ngrid 1 * Ngrid 2).toNat
    · obtain ⟨g, cap, hg, -, -, -, -, hat, g0, hg0, hn1, hn2⟩ := hcells' c hc
      have e1 : st.1.getD c default = g := by
        rw [List.getD_eq_getElem?_getD, hg]; rfl
      have e2 : gl0.getD c default = g0 := by
        rw [List.getD_eq_getElem?_getD, hg0]; rfl
      rw [e1, e2]
      exact ⟨hat, hn1, hn2⟩
    · have e1 : st.1.getD c default = default := by
        rw [List.getD_eq_getElem?_getD, List.getElem?_eq_none (by omega)]; rfl
      have e2 : gl0.getD c default = default := by
        rw [List.getD_eq_getElem?_getD, List.getElem?_eq_none (by omega)]; rfl
      rw [e1, e2]
      refine ⟨?_, rfl, rfl⟩
      symm
      show List.filter _ _ = []
      rw [List.filter_eq_nil_iff]
      intro n hn
      have := hr n (List.mem_range.1 hn)
      simp only [decide_eq_true_eq]
      show ¬ _ = c
      omega

/-- What `make_grid` followed by `populate_grid` builds in machine arithmetic, for atoms
inside the cell whose machine block index is the exact one. -/
theorem grid_built_fp (rnd : α → α) (Ngrid : ℕ → ℤ) (N : ℕ) (u : ℕ → ℕ → α)
    (hN : ∀ k, k < 3 → 1 ≤ Ngrid k) (hcells : Ngrid 0 * Ngrid 1 * Ngrid 2 ≤ 2147483647)
    (hu : ∀ n, n < N → ∀ k, k < 3 → 0 ≤ u n k ∧ u n k < 1)
    (hge : ∀ n, n < N → grid_elem_fp rnd Ngrid (u n) = grid_elem Ngrid (u n)) :
    ∃ gl, populate_grid_fp rnd Ngrid (make_grid Ngrid) N u = some (gl, false) ∧
      (∀ c, cell_atoms (gl.getD c default) =
        (List.range N).filter (fun n => (grid_elem Ngrid (u n)).toNat = c)) ∧
      (∀ n, n < N → cell_neighs (gl.getD (grid_elem Ngrid (u n)).toNat default) =
        atom_neighs Ngrid u n) := by
  obtain ⟨gl, hgl, -, -, hc⟩ := populate_grid_fp_spec rnd Ngrid u (make_grid Ngrid) N hN hcells
    (make_grid_length _) (fun n hn => grid_elem_bounds hN (hu n hn)) hge
  refine ⟨gl, hgl, fun c => (hc c).1, ?_⟩
  intro n hn
  have h := make_grid_getElem? (atom_triple_mem hN (hu n hn))
  have e : (make_grid Ngrid).getD (grid_elem Ngrid (u n)).toNat default = make_cell Ngrid
      (toInt (u n 0 * (Ngrid 0 : α)), toInt (u n 1 * (Ngrid 1 : α)),
        toInt (u n 2 * (Ngrid 2 : α))) := by
    rw [List.getD_eq_getElem?_getD, grid_elem_eq_trip2int, h]; rfl
  unfold cell_neighs
  rw [(hc _).2.1, (hc _).2.2, e]
  unfold atom_neighs make_cell
  simp only
  rw [List.take_of_length_le]
  rw [length_make_neighlist]

/-- In exact arithmetic the machine's block index of an atom inside the cell is the exact
one, as long as the number of blocks fits an `int`. -/
theorem grid_elem_fp_id {Ngrid : ℕ → ℤ} {v : ℕ → α} (hN : ∀ k, k < 3 → 1 ≤ Ngrid k)
    (hcells : Ngrid 0 * Ngrid 1 * Ngrid 2 ≤ 2147483647)
    (hv : ∀ k, k < 3 → 0 ≤ v k ∧ v k < 1) :
    grid_elem_fp id Ngrid v = grid_elem Ngrid v := by
  have h0 := hN 0 (by norm_num)
  have h1 := hN 1 (by norm_num)
  have h2 := hN 2 (by norm_num)
  have hle : ∀ k, k < 3 → Ngrid k ≤ 2147483647 := by
    intro k hk
    have a : Ngrid 0 ≤ Ngrid 0 * Ngrid 1 := le_mul_of_one_le_right (by omega) h1
    have b : Ngrid 0 * Ngrid 1 ≤ Ngrid 0 * Ngrid 1 * Ngrid 2 :=
      le_mul_of_one_le_right (by positivity) h2
    have c : Ngrid 1 ≤ Ngrid 0 * Ngrid 1 := le_mul_of_one_le_left (by omega) h0
    have d : Ngrid 2 ≤ Ngrid 0 * Ngrid 1 * Ngrid 2 :=
      le_mul_of_one_le_left (by omega) (by nlinarith)
    interval_cases k <;> omega
  have hc : ∀ k, k < 3 → double_to_int (v k * (Ngrid k : α)) = toInt (v k * (Ngrid k : α)) := by
    intro k hk
    have hb := toInt_cell_bounds (hv k hk).1 (hv k hk).2 (hN k hk)
    have := hle k hk
    exact double_to_int_eq (by omega) (by omega)
  have hb := grid_elem_bounds hN hv
  rw [grid_elem_fp_wrap]
  simp only [id]
  rw [hc 0 (by norm_num), hc 1 (by norm_num), hc 2 (by norm_num)]
  exact wrap_int_eq_self (by unfold grid_elem at hb; omega) (by unfold grid_elem at hb; omega)

/-! ### The pair list of nn_grid and its size -/

theorem flatMap_congr_mem {β γ : Type} (l : List β) (f g : β → List γ)
    (h : ∀ x ∈ l, f x = g x) : l.flatMap f = l.flatMap g := by
  induction l with
  | nil => rfl
  | cons a t ih =>
    rw [List.flatMap_cons, List.flatMap_cons, h a (List.mem_cons_self _ _),
      ih (fun x hx => h x (List.mem_cons_of_mem _ hx))]

theorem filterMap_congr_mem {β γ : Type} (l : List β) (f g : β → Option γ)
    (h : ∀ x ∈ l, f x = g x) : l.filterMap f = l.filterMap g := by
  induction l with
  | nil => rfl
  | cons a t ih =>
    rw [List.filterMap_cons, List.filterMap_cons, h a (List.mem_cons_self _ _),
      ih (fun x hx => h x (List.mem_cons_of_mem _ hx))]

theorem length_filter_lt_succ (l : List ℕ) (key : ℕ → ℕ) (M : ℕ) :
    (l.filter fun n => decide (key n < M + 1)).length =
      (l.filter fun n => decide (key n < M)).length
        + (l.filter fun n => decide (key n = M)).length := by
  induction l with
  | nil => rfl
  | cons a t ih =>
    rw [List.filter_cons, List.filter_cons, List.filter_cons]
    by_cases h1 : key a < M
    · rw [if_pos (decide_eq_true (by omega : key a < M + 1)), if_pos (decide_eq_true h1),
        if_neg (by simp only [decide_eq_true_eq]; omega)]
      simp only [List.length_cons]
      omega
    · by_cases h3 : key a = M
      · rw [if_pos (decide_eq_true (by omega : key a < M + 1)),
          if_neg (by simp only [decide_eq_true_eq]; omega), if_pos (decide_eq_true h3)]
        simp only [List.length_cons]
        omega
      · rw [if_neg (by simp only [decide_eq_true_eq]; omega),
          if_neg (by simp only [decide_eq_true_eq]; omega),
          if_neg (by simp only [decide_eq_true_eq]; omega)]
        exact ih

/-- The blocks `0 .. M-1` together hold at most as many atoms as there are. -/
theorem length_flatMap_filter_le (l : List ℕ) (key : ℕ → ℕ) (M : ℕ) :
    ((List.range M).flatMap fun c => l.filter fun n => decide (key n = c)).length
      ≤ l.length := by
  have h : ((List.range M).flatMap fun c => l.filter fun n => decide (key n = c)).length
      = (l.filter fun n => decide (key n < M)).length := by
    induction M with
    | zero => simp
    | succ M ih =>
      rw [List.range_succ, List.flatMap_append, List.length_append, ih,
        length_filter_lt_succ]
      simp
  rw [h]
  exact List.length_filter_le _ _

theorem nn_grid_stores_fp_eq_flatMap_pairs (rnd : α → α) (sqrt : α → α) (cart : ℕ → α)
    (Ngridelem : ℕ) (grid_list : List grid_elem_type) (u : ℕ → ℕ → α) (Rcut : α) :
    nn_grid_stores_fp rnd sqrt cart Ngridelem grid_list u Rcut =
      ((List.range Ngridelem).flatMap fun ng =>
          (cell_atoms (grid_list.getD ng default)).map fun i => (ng, i)).flatMap
        (fun e =>
          (cell_neighs (grid_list.getD e.1 default)).flatMap fun ngn =>
            (cell_atoms (grid_list.getD ngn.toNat default)).filterMap fun j =>
              grid_pair_fp rnd sqrt cart u Rcut e.2 j) := by
  unfold nn_grid_stores_fp
  rw [List.flatMap_assoc]
  simp only [List.flatMap_map]

/-- On a grid whose blocks hold the atoms by their block index, the number of records
`nn_grid` stores is at most `natoms*nneigh*Natoms`, whatever the rounding. -/
theorem nn_grid_stores_fp_length_le (rnd : α → α) (sqrt : α → α) (cart : ℕ → α) (M N : ℕ)
    (gl : List grid_elem_type) (u : ℕ → ℕ → α) (Rcut : α) (key : ℕ → ℕ)
    (hA : ∀ c, cell_atoms (gl.getD c default) =
      (List.range N).filter (fun n => decide (key n = c)))
    (hkey : ∀ n, n < N → key n < M) :
    (nn_grid_stores_fp rnd sqrt cart M gl u Rcut).length ≤ nn_grid_capacity M gl N := by
  obtain ⟨-, -, hmax⟩ := capacity_fold_ge gl (List.range M) (0, 0)
  unfold nn_grid_capacity
  simp only
  generalize (List.range M).foldl
    (fun (m : ℕ × ℕ) ng =>
      (if m.1 < (gl.getD ng default).Natoms then (gl.getD ng default).Natoms
        else m.1,
       if m.2 < (gl.getD ng default).Nneigh then (gl.getD ng default).Nneigh
        else m.2)) (0, 0) = m at hmax ⊢
  have hA1 : ∀ c, (cell_atoms (gl.getD c default)).length ≤ m.1 := by
    intro c
    by_cases hc : c < M
    · unfold cell_atoms
      exact le_trans (List.length_take_le _ _) (hmax c (List.mem_range.mpr hc)).1
    · have : cell_atoms (gl.getD c default) = [] := by
        rw [hA c, List.filter_eq_nil_iff]
        intro n hn
        have := hkey n (List.mem_range.1 hn)
        simp only [decide_eq_true_eq]
        omega
      rw [this]
      exact Nat.zero_le _
  have hB : ∀ ng, ng < M → (cell_neighs (gl.getD ng default)).length ≤ m.2 := by
    intro ng hng
    unfold cell_neighs
    exact le_trans (List.length_take_le _ _) (hmax ng (List.mem_range.mpr hng)).2
  rw [nn_grid_stores_fp_eq_flatMap_pairs]
  have hlen : ((List.range M).flatMap fun ng =>
      (cell_atoms (gl.getD ng default)).map fun i => (ng, i)).length ≤ N := by
    have h1 := length_flatMap_filter_le (List.range N) key M
    rw [List.length_range] at h1
    refine le_trans (le_of_eq ?_) h1
    rw [List.length_flatMap, List.length_flatMap]
    congr 1
    apply List.map_congr_left
    intro ng _
    simp only [Function.comp, List.length_map, hA ng]
  refine le_trans (length_flatMap_le _ _ (m.2 * m.1) ?_) ?_
  · intro e he
    rw [List.mem_flatMap] at he
    obtain ⟨ng, hng, he⟩ := he
    rw [List.mem_map] at he
    obtain ⟨i, -, rfl⟩ := he
    rw [List.mem_range] at hng
    simp only
    refine le_trans (length_flatMap_le _ _ m.1 ?_) (Nat.mul_le_mul_right _ (hB ng hng))
    intro v _
    exact le_trans (List.length_filterMap_le _ _) (hA1 _)
  · calc _ ≤ N * (m.2 * m.1) := Nat.mul_le_mul_right _ hlen
      _ = m.1 * m.2 * N := by ring

theorem nn_grid_npair_eq (M : ℕ) (gl : List grid_elem_type) (N : ℕ) :
    nn_grid_npair M gl N = wrap_int (nn_grid_capacity M gl N : ℤ) := by
  unfold nn_grid_npair nn_grid_capacity
  simp only
  rw [wrap_int_mul_left]
  push_cast
  rfl

/-- When `natoms*nneigh*Natoms` fits an `int`, `nn_grid` returns the records it stores. -/
theorem nn_grid_fp_eq_some (rnd : α → α) (sqrt : α → α) (cart : ℕ → α) (M N : ℕ)
    (gl : List grid_elem_type) (u : ℕ → ℕ → α) (Rcut : α) (key : ℕ → ℕ)
    (hA : ∀ c, cell_atoms (gl.getD c default) =
      (List.range N).filter (fun n => decide (key n = c)))
    (hkey : ∀ n, n < N → key n < M)
    (hbuf : nn_grid_capacity M gl N ≤ 2147483647) :
    nn_grid_fp rnd sqrt cart M gl N u Rcut =
      some (nn_grid_stores_fp rnd sqrt cart M gl u Rcut) := by
  have h := nn_grid_stores_fp_length_le rnd sqrt cart M N gl u Rcut key hA hkey
  have e : nn_grid_npair M gl N = (nn_grid_capacity M gl N : ℤ) := by
    rw [nn_grid_npair_eq, wrap_int_eq_self (by omega) (by omega)]
  unfold nn_grid_fp
  rw [e, if_neg (by omega), if_pos (by omega)]

/-! ### The grid path in exact arithmetic with machine integers -/

theorem calc_len_mod (sqrt : α → α) (cart : ℕ → α) (k : ℕ) :
    calc_len sqrt cart (k % 3) = calc_len sqrt cart k := by
  have e1 : (k % 3 + 1) % 3 = (k + 1) % 3 := by omega
  have e2 : (k % 3 + 2) % 3 = (k + 2) % 3 := by omega
  unfold calc_len ajXak_len ajXak
  rw [e1, e2]

theorem calc_grid_fp_id_fun {sqrt : α → α} (hsq : IsSqrt sqrt) (cart : ℕ → α) {Rcut : α}
    (hR : 0 < Rcut) (hgrid : ∀ k, k < 3 → calc_len sqrt cart k / Rcut < 2147483648) :
    calc_grid_fp id sqrt cart Rcut = calc_grid sqrt cart Rcut := by
  funext k
  apply calc_grid_fp_id hsq cart hR k
  rw [← calc_len_mod]
  exact hgrid (k % 3) (Nat.mod_lt _ (by norm_num))

theorem diff_fp_id_of_inside {x : α} (h1 : -1 < x) (h2 : x < 1) : diff_fp id x = diff x :=
  diff_fp_id (by linarith) (by linarith)

theorem grid_pair_fp_id (sqrt : α → α) (cart : ℕ → α) (u : ℕ → ℕ → α) (Rcut : α) (N : ℕ)
    (hu : ∀ n, n < N → ∀ k, k < 3 → 0 ≤ u n k ∧ u n k < 1) {i j : ℕ} (hi : i < N)
    (hj : j < N) : grid_pair_fp id sqrt cart u Rcut i j = grid_pair sqrt cart u Rcut i j := by
  have hd : ∀ k, k < 3 → diff_fp id (u j k - u i k) = diff (u j k - u i k) := by
    intro k hk
    have a := hu i hi k hk
    have b := hu j hj k hk
    exact diff_fp_id_of_inside (by linarith) (by linarith)
  have hv : ∀ k, grid_vect_fp id cart u i j k = grid_vect cart u i j k := by
    intro k
    unfold grid_vect_fp grid_vect
    simp only [id]
    rw [hd 0 (by norm_num), hd 1 (by norm_num), hd 2 (by norm_num)]
  have hr : grid_r2_fp id cart u i j = grid_r2 cart u i j := by
    unfold grid_r2_fp grid_r2
    simp only [id, hv]
  unfold grid_pair_fp grid_pair
  simp only [id, hv, hr]

/-- Two grids that hold the atoms by their block index and carry the neighbour lists of
`make_grid` give the same records; in exact arithmetic the machine's records are the exact
ones. -/
theorem nn_grid_stores_fp_id (sqrt : α → α) (cart : ℕ → α) (Ngrid : ℕ → ℤ) (M N : ℕ)
    (u : ℕ → ℕ → α) (Rcut : α) (gl1 gl2 : List grid_elem_type)
    (hu : ∀ n, n < N → ∀ k, k < 3 → 0 ≤ u n k ∧ u n k < 1)
    (hA1 : ∀ c, cell_atoms (gl1.getD c default) =
      (List.range N).filter (fun n => (grid_elem Ngrid (u n)).toNat = c))
    (hNL1 : ∀ n, n < N → cell_neighs (gl1.getD (grid_elem Ngrid (u n)).toNat default) =
      atom_neighs Ngrid u n)
    (hA2 : ∀ c, cell_atoms (gl2.getD c default) =
      (List.range N).filter (fun n => (grid_elem Ngrid (u n)).toNat = c))
    (hNL2 : ∀ n, n < N → cell_neighs (gl2.getD (grid_elem Ngrid (u n)).toNat default) =
      atom_neighs Ngrid u n) :
    nn_grid_stores_fp id sqrt cart M gl1 u Rcut = nn_grid sqrt cart M gl2 u Rcut := by
  unfold nn_grid_stores_fp nn_grid
  apply flatMap_congr_mem
  intro ng _
  rw [hA1 ng, ← hA2 ng]
  apply flatMap_congr_mem
  intro i hi
  rw [hA2 ng, List.mem_filter, List.mem_range] at hi
  obtain ⟨hiN, hik⟩ := hi
  simp only [decide_eq_true_eq] at hik
  have e1 := hNL1 i hiN
  have e2 := hNL2 i hiN
  rw [hik] at e1 e2
  rw [e1, e2]
  apply flatMap_congr_mem
  intro ngn _
  rw [hA1 ngn.toNat, ← hA2 ngn.toNat]
  apply filterMap_congr_mem
  intro j hj
  rw [hA2 ngn.toNat, List.mem_filter, List.mem_range] at hj
  exact grid_pair_fp_id sqrt cart u Rcut N hu hiN hj.1

/-- In exact arithmetic, with the counts, the number of blocks and the size of the pair list
in the range of `int`, the grid path in machine arithmetic is the exact grid path. -/
theorem grid_path_fp_id {sqrt : α → α} (hsq : IsSqrt sqrt) (cart : ℕ → α) (N : ℕ)
    (u : ℕ → ℕ → α) (Rcut : α) (hR : 0 < Rcut)
    (hu : ∀ n, n < N → ∀ k, k < 3 → 0 ≤ u n k ∧ u n k < 1)
    (hgrid : ∀ k, k < 3 → calc_len sqrt cart k / Rcut < 2147483648)
    (hcells : calc_grid_fp id sqrt cart Rcut 0 * calc_grid_fp id sqrt cart Rcut 1
      * calc_grid_fp id sqrt cart Rcut 2 ≤ 2147483647)
    (hbuf : ∀ gl b, populate_grid_fp id (calc_grid_fp id sqrt cart Rcut)
        (make_grid (calc_grid_fp id sqrt cart Rcut)) N u = some (gl, b) →
      nn_grid_capacity (Ngridelem_fp (calc_grid_fp id sqrt cart Rcut)).toNat gl N
        ≤ 2147483647) :
    grid_path_fp id sqrt cart N u Rcut = grid_path sqrt cart N u Rcut := by
  rw [calc_grid_fp_id_fun hsq cart hR hgrid] at hcells hbuf
  have hN : ∀ k, k < 3 → 1 ≤ calc_grid sqrt cart Rcut k :=
    fun k _ => calc_grid_ge_one hsq cart hR k
  have hM := Ngridelem_fp_eq hN hcells
  obtain ⟨gl1, hgl1, hA1, hNL1⟩ := grid_built_fp id (calc_grid sqrt cart Rcut) N u hN hcells hu
    (fun n hn => grid_elem_fp_id hN hcells (hu n hn))
  obtain ⟨gl2, hgl2, hA2, hNL2⟩ := grid_built (calc_grid sqrt cart Rcut) N u hN hu
  have hb := hbuf gl1 false hgl1
  rw [hM] at hb
  have hkey : ∀ n, n < N → (grid_elem (calc_grid sqrt cart Rcut) (u n)).toNat
      < (calc_grid sqrt cart Rcut 0 * calc_grid sqrt cart Rcut 1
        * calc_grid sqrt cart Rcut 2).toNat := by
    intro n hn
    have := grid_elem_bounds hN (hu n hn)
    omega
  unfold grid_path_fp grid_path
  rw [calc_grid_fp_id_fun hsq cart hR hgrid, hgl1, hgl2, hM]
  simp only
  rw [nn_grid_fp_eq_some id sqrt cart _ N gl1 u Rcut
      (fun n => (grid_elem (calc_grid sqrt cart Rcut) (u n)).toNat) hA1 hkey hb,
    nn_grid_stores_fp_id sqrt cart (calc_grid sqrt cart Rcut) _ N u Rcut gl1 gl2 hu
      hA1 hNL1 hA2 hNL2]

/-! ### The size of the pair list of nn_grid -/

theorem capacity_fold_le (grid_list : List grid_elem_type) (l : List ℕ) (a b : ℕ)
    (h : ∀ ng ∈ l, (grid_list.getD ng default).Natoms ≤ a ∧
      (grid_list.getD ng default).Nneigh ≤ b) :
    ∀ init : ℕ × ℕ, init.1 ≤ a → init.2 ≤ b →
      (l.foldl
        (fun (m : ℕ × ℕ) ng =>
          (if m.1 < (grid_list.getD ng default).Natoms then (grid_list.getD ng default).Natoms
            else m.1,
           if m.2 < (grid_list.getD ng default).Nneigh then (grid_list.getD ng default).Nneigh
            else m.2)) init).1 ≤ a ∧
      (l.foldl
        (fun (m : ℕ × ℕ) ng =>
          (if m.1 < (grid_list.getD ng default).Natoms then (grid_list.getD ng default).Natoms
            else m.1,
           if m.2 < (grid_list.getD ng default).Nneigh then (grid_list.getD ng default).Nneigh
            else m.2)) init).2 ≤ b := by
  induction l with
  | nil =>
    intro init h1 h2
    exact ⟨h1, h2⟩
  | cons x t ih =>
    intro init h1 h2
    rw [List.foldl_cons]
    have hx := h x (List.mem_cons_self _ _)
    apply ih (fun ng hng => h ng (List.mem_cons_of_mem _ hng))
    · simp only
      split_ifs
      · exact hx.1
      · exact h1
    · simp only
      split_ifs
      · exact hx.2
      · exact h2

theorem foldl_set_forall {β γ : Type} (idx : β → ℕ) (f : β → γ) (P : γ → Prop) (l : List β)
    (hf : ∀ b ∈ l, P (f b)) :
    ∀ init : List γ, (∀ x ∈ init, P x) →
      ∀ x ∈ l.foldl (fun g b => g.set (idx b) (f b)) init, P x := by
  induction l with
  | nil => intro init hi x hx; exact hi x hx
  | cons a t ih =>
    intro init hi
    rw [List.foldl_cons]
    apply ih (fun b hb => hf b (List.mem_cons_of_mem _ hb))
    intro x hx
    rcases List.mem_or_eq_of_mem_set hx with h | h
    · exact hi x h
    · rw [h]
      exact hf a (List.mem_cons_self _ _)

theorem grid_nfactor_le (n : ℤ) : grid_nfactor n ≤ 3 := by
  unfold grid_nfactor
  split_ifs <;> omega

theorem make_grid_Nneigh_le (Ngrid : ℕ → ℤ) (c : ℕ) :
    ((make_grid Ngrid).getD c default).Nneigh ≤ 27 := by
  have hall : ∀ x ∈ make_grid Ngrid, x.Nneigh ≤ 27 := by
    unfold make_grid
    apply foldl_set_forall (fun i : ℤ × ℤ × ℤ => (trip2int Ngrid i.1 i.2.1 i.2.2).toNat)
      (make_cell Ngrid) (fun x => x.Nneigh ≤ 27)
    · intro b _
      unfold make_cell
      simp only
      have a0 := grid_nfactor_le (Ngrid 0)
      have a1 := grid_nfactor_le (Ngrid 1)
      have a2 := grid_nfactor_le (Ngrid 2)
      calc grid_nfactor (Ngrid 0) * grid_nfactor (Ngrid 1) * grid_nfactor (Ngrid 2)
          ≤ 3 * 3 * 3 := Nat.mul_le_mul (Nat.mul_le_mul a0 a1) a2
        _ = 27 := by norm_num
    · intro x hx
      rw [List.eq_of_mem_replicate hx]
      exact Nat.zero_le _
  by_cases hc : c < (make_grid Ngrid).length
  · rw [List.getD_eq_getElem _ _ hc]
    exact hall _ (List.getElem_mem hc)
  · rw [List.getD_eq_getElem?_getD, List.getElem?_eq_none (by omega)]
    exact Nat.zero_le _

/-- On the grid that `make_grid` and `populate_grid` build, the size `natoms*nneigh*Natoms`
of the pair list is at most `27 * Natoms^2`. -/
theorem nn_grid_capacity_le (rnd : α → α) (Ngrid : ℕ → ℤ) (N : ℕ) (u : ℕ → ℕ → α)
    (hN : ∀ k, k < 3 → 1 ≤ Ngrid k) (hcells : Ngrid 0 * Ngrid 1 * Ngrid 2 ≤ 2147483647)
    (hu : ∀ n, n < N → ∀ k, k < 3 → 0 ≤ u n k ∧ u n k < 1)
    (hge : ∀ n, n < N → grid_elem_fp rnd Ngrid (u n) = grid_elem Ngrid (u n))
    (gl : List grid_elem_type) (b : Bool)
    (h : populate_grid_fp rnd Ngrid (make_grid Ngrid) N u = some (gl, b)) :
    nn_grid_capacity (Ngrid 0 * Ngrid 1 * Ngrid 2).toNat gl N ≤ N * 27 * N := by
  obtain ⟨gl0, hgl0, -, hsum, hc⟩ := populate_grid_fp_spec rnd Ngrid u (make_grid Ngrid) N hN
    hcells (make_grid_length _) (fun n hn => grid_elem_bounds hN (hu n hn)) hge
  rw [hgl0] at h
  have e : gl0 = gl := (Prod.mk.inj (Option.some.inj h)).1
  subst e
  have hA : ∀ c, (gl0.getD c default).Natoms ≤ N := by
    intro c
    by_cases hcl : c < gl0.length
    · rw [List.getD_eq_getElem _ _ hcl, ← hsum]
      apply List.single_le_sum (fun x _ => Nat.zero_le x)
      exact List.mem_map.2 ⟨gl0[c], List.getElem_mem hcl, rfl⟩
    · rw [List.getD_eq_getElem?_getD, List.getElem?_eq_none (by omega)]
      exact Nat.zero_le _
  have hB : ∀ c, (gl0.getD c default).Nneigh ≤ 27 := by
    intro c
    rw [(hc c).2.1]
    exact make_grid_Nneigh_le Ngrid c
  obtain ⟨h1, h2⟩ := capacity_fold_le gl0 (List.range (Ngrid 0 * Ngrid 1 * Ngrid 2).toNat) N 27
    (fun ng _ => ⟨hA ng, hB ng⟩) (0, 0) (Nat.zero_le _) (Nat.zero_le _)
  unfold nn_grid_capacity
  simp only
  exact Nat.mul_le_mul (Nat.mul_le_mul h1 h2) (le_refl N)

/-- C1, amended: in exact arithmetic, for a non-singular lattice, a positive cutoff and atoms
inside the cell, when the quotients `len[k]/Rcut`, the number of blocks
`Ngrid[0]*Ngrid[1]*Ngrid[2]` and the size `natoms*nneigh*Natoms` of the pair list are in the
range of `int`, the grid path (`calc_grid`, `make_grid`, `populate_grid`, `nn_grid`) runs to
the end; it writes a record with atoms `i`, `j` and length `r` exactly when `i ≠ j` and `r`,
the length of the folded separation, is at most `Rcut`; and every such ordered pair is
written exactly once. -/
theorem grid_path_fp_emits_iff (sqrt : α → α) (hsq : IsSqrt sqrt) (cart : ℕ → α) (Natoms : ℕ)
    (u : ℕ → ℕ → α) (Rcut : α) (hdet : triple_product cart ≠ 0) (hR : 0 < Rcut)
    (hu : ∀ n, n < Natoms → ∀ k, k < 3 → 0 ≤ u n k ∧ u n k < 1)
    (hgrid : ∀ k, k < 3 → calc_len sqrt cart k / Rcut < 2147483648)
    (hcells : calc_grid_fp id sqrt cart Rcut 0 * calc_grid_fp id sqrt cart Rcut 1
      * calc_grid_fp id sqrt cart Rcut 2 ≤ 2147483647)
    (hbuf : ∀ gl b, populate_grid_fp id (calc_grid_fp id sqrt cart Rcut)
        (make_grid (calc_grid_fp id sqrt cart Rcut)) Natoms u = some (gl, b) →
      nn_grid_capacity (Ngridelem_fp (calc_grid_fp id sqrt cart Rcut)).toNat gl Natoms
        ≤ 2147483647) :
    ∃ out, grid_path_fp id sqrt cart Natoms u Rcut = some out ∧
      (∀ i j r, (∃ p ∈ out, p.i = i ∧ p.j = j ∧ p.r = r) ↔
        (i < Natoms ∧ j < Natoms ∧ i ≠ j ∧ r = sqrt (grid_r2 cart u i j) ∧ r ≤ Rcut)) ∧
      (∀ i j, out.countP (fun p => decide (p.i = i ∧ p.j = j)) =
        if i < Natoms ∧ j < Natoms ∧ i ≠ j ∧ sqrt (grid_r2 cart u i j) ≤ Rcut then 1 else 0) := by
  rw [grid_path_fp_id hsq cart Natoms u Rcut hR hu hgrid hcells hbuf]
  exact grid_path_emits_iff sqrt hsq cart Natoms u Rcut hdet hR hu

/-- For the unit cubic lattice and the cutoff `2` the sizes of the grid path are in the
range of `int` as soon as `27 * Natoms^2` is. -/
theorem grid_path_cubic_sizes (N : ℕ) (u : ℕ → ℕ → ℝ)
    (hu : ∀ n, n < N → ∀ k, k < 3 → 0 ≤ u n k ∧ u n k < 1) (hNN : N * 27 * N ≤ 2147483647) :
    (∀ k, k < 3 → calc_len Real.sqrt (arr [(1 : ℝ), 0, 0, 0, 1, 0, 0, 0, 1]) k / 2
      < 2147483648) ∧
    calc_grid_fp id Real.sqrt (arr [(1 : ℝ), 0, 0, 0, 1, 0, 0, 0, 1]) 2 0
        * calc_grid_fp id Real.sqrt (arr [(1 : ℝ), 0, 0, 0, 1, 0, 0, 0, 1]) 2 1
        * calc_grid_fp id Real.sqrt (arr [(1 : ℝ), 0, 0, 0, 1, 0, 0, 0, 1]) 2 2
      ≤ 2147483647 ∧
    ∀ gl b, populate_grid_fp id
        (calc_grid_fp id Real.sqrt (arr [(1 : ℝ), 0, 0, 0, 1, 0, 0, 0, 1]) 2)
        (make_grid (calc_grid_fp id Real.sqrt (arr [(1 : ℝ), 0, 0, 0, 1, 0, 0, 0, 1]) 2)) N u
          = some (gl, b) →
      nn_grid_capacity
        (Ngridelem_fp (calc_grid_fp id Real.sqrt (arr [(1 : ℝ), 0, 0, 0, 1, 0, 0, 0, 1]) 2)).toNat
        gl N ≤ 2147483647 := by
  have hgrid : ∀ k, k < 3 →
      calc_len Real.sqrt (arr [(1 : ℝ), 0, 0, 0, 1, 0, 0, 0, 1]) k / 2 < 2147483648 := by
    intro k hk
    rw [calc_len_cubic k hk]
    norm_num
  have hf := calc_grid_fp_id_fun isSqrt_real (arr [(1 : ℝ), 0, 0, 0, 1, 0, 0, 0, 1])
    (by norm_num : (0 : ℝ) < 2) hgrid
  have hN : ∀ k, k < 3 →
      1 ≤ calc_grid Real.sqrt (arr [(1 : ℝ), 0, 0, 0, 1, 0, 0, 0, 1]) 2 k :=
    fun k hk => le_of_eq (calc_grid_cubic_two k hk).symm
  have hcells : calc_grid Real.sqrt (arr [(1 : ℝ), 0, 0, 0, 1, 0, 0, 0, 1]) 2 0
      * calc_grid Real.sqrt (arr [(1 : ℝ), 0, 0, 0, 1, 0, 0, 0, 1]) 2 1
      * calc_grid Real.sqrt (arr [(1 : ℝ), 0, 0, 0, 1, 0, 0, 0, 1]) 2 2 ≤ 2147483647 := by
    rw [calc_grid_cubic_two 0 (by norm_num), calc_grid_cubic_two 1 (by norm_num),
      calc_grid_cubic_two 2 (by norm_num)]
    norm_num
  refine ⟨hgrid, by rw [hf]; exact hcells, ?_⟩
  intro gl b h
  rw [hf] at h ⊢
  rw [Ngridelem_fp_eq hN hcells]
  exact le_trans (nn_grid_capacity_le id _ N u hN hcells hu
    (fun n hn => grid_elem_fp_id hN hcells (hu n hn)) gl b h) hNN

theorem grid_path_fp_emits_iff_witness :
    IsSqrt Real.sqrt ∧ triple_product (arr [(1 : ℝ), 0, 0, 0, 1, 0, 0, 0, 1]) ≠ 0 ∧
    (0 : ℝ) < 2 ∧
    (∀ n, n < 2 → ∀ k, k < 3 → 0 ≤ atoms [[(0 : ℝ), 0, 0], [1 / 2, 0, 0]] n k ∧
      atoms [[(0 : ℝ), 0, 0], [1 / 2, 0, 0]] n k < 1) ∧
    (∀ k, k < 3 → calc_len Real.sqrt (arr [(1 : ℝ), 0, 0, 0, 1, 0, 0, 0, 1]) k / 2
      < 2147483648) ∧
    calc_grid_fp id Real.sqrt (arr [(1 : ℝ), 0, 0, 0, 1, 0, 0, 0, 1]) 2 0
        * calc_grid_fp id Real.sqrt (arr [(1 : ℝ), 0, 0, 0, 1, 0, 0, 0, 1]) 2 1
        * calc_grid_fp id Real.sqrt (arr [(1 : ℝ), 0, 0, 0, 1, 0, 0, 0, 1]) 2 2
      ≤ 2147483647 ∧
    (∀ gl b, populate_grid_fp id
        (calc_grid_fp id Real.sqrt (arr [(1 : ℝ), 0, 0, 0, 1, 0, 0, 0, 1]) 2)
        (make_grid (calc_grid_fp id Real.sqrt (arr [(1 : ℝ), 0, 0, 0, 1, 0, 0, 0, 1]) 2)) 2
        (atoms [[(0 : ℝ), 0, 0], [1 / 2, 0, 0]]) = some (gl, b) →
      nn_grid_capacity
        (Ngridelem_fp (calc_grid_fp id Real.sqrt (arr [(1 : ℝ), 0, 0, 0, 1, 0, 0, 0, 1]) 2)).toNat
        gl 2 ≤ 2147483647) ∧
    ∃ out, grid_path_fp id Real.sqrt (arr [(1 : ℝ), 0, 0, 0, 1, 0, 0, 0, 1]) 2
        (atoms [[0, 0, 0], [1 / 2, 0, 0]]) 2 = some out ∧
      (∀ i j r, (∃ p ∈ out, p.i = i ∧ p.j = j ∧ p.r = r) ↔
        (i < 2 ∧ j < 2 ∧ i ≠ j ∧
          r = Real.sqrt (grid_r2 (arr [(1 : ℝ), 0, 0, 0, 1, 0, 0, 0, 1])
            (atoms [[0, 0, 0], [1 / 2, 0, 0]]) i j) ∧ r ≤ 2)) ∧
      (∀ i j, out.countP (fun p => decide (p.i = i ∧ p.j = j)) =
        if i < 2 ∧ j < 2 ∧ i ≠ j ∧
          Real.sqrt (grid_r2 (arr [(1 : ℝ), 0, 0, 0, 1, 0, 0, 0, 1])
            (atoms [[0, 0, 0], [1 / 2, 0, 0]]) i j) ≤ 2 then 1 else 0) :=
  have hu := atoms_two_inside (1 / 2 : ℝ) 0 0 (by norm_num) (by norm_num) (by norm_num)
  have hs := grid_path_cubic_sizes 2 (atoms [[(0 : ℝ), 0, 0], [1 / 2, 0, 0]]) hu (by norm_num)
  ⟨isSqrt_real, triple_product_cubic, by norm_num, hu, hs.1, hs.2.1, hs.2.2,
    grid_path_fp_emits_iff Real.sqrt isSqrt_real _ 2 _ 2 triple_product_cubic (by norm_num)
      hu hs.1 hs.2.1 hs.2.2⟩

/-! ### The grid path outside the range of `int` -/

theorem make_grid_no_blocks (Ngrid : ℕ → ℤ) (h0 : Ngrid 0 = -2147483648)
    (h1 : Ngrid 1 = -2147483648) (h2 : Ngrid 2 = -2147483648) : make_grid Ngrid = [] := by
  have e : loop_incl 0 (-2147483648 - 1) = [] := by
    unfold loop_incl
    rfl
  have e2 : (-2147483648 * -2147483648 * -2147483648 : ℤ).toNat = 0 := by decide
  unfold make_grid grid_triples
  rw [h0, h1, h2, e, e2]
  rfl

theorem Ngridelem_fp_no_blocks (Ngrid : ℕ → ℤ) (h0 : Ngrid 0 = -2147483648)
    (h1 : Ngrid 1 = -2147483648) (h2 : Ngrid 2 = -2147483648) : Ngridelem_fp Ngrid = 0 := by
  unfold Ngridelem_fp
  rw [h0, h1, h2]
  decide

/-- With `Ngrid = (-2^31, -2^31, -2^31)` the grid has no block, and `populate_grid` reads
the block `0` for the first atom, which lies at the origin. -/
theorem populate_grid_fp_no_blocks (Ngrid : ℕ → ℤ) (h0 : Ngrid 0 = -2147483648)
    (h1 : Ngrid 1 = -2147483648) (h2 : Ngrid 2 = -2147483648) (N : ℕ) (u : ℕ → ℕ → α)
    (hu : ∀ k, k < 3 → u 0 k = 0) :
    populate_grid_fp id Ngrid (make_grid Ngrid) (N + 1) u = none := by
  have hz : double_to_int (0 : α) = 0 :=
    double_to_int_of_floor 0 (by norm_num) (by norm_num) (by norm_num) (by norm_num)
  have hg : grid_elem_fp id Ngrid (u 0) = 0 := by
    rw [grid_elem_fp_wrap]
    simp only [id, hu 0 (by norm_num), hu 1 (by norm_num), hu 2 (by norm_num), zero_mul, hz,
      mul_zero, add_zero]
    decide
  have hs : ∀ st : List grid_elem_type × List ℕ, st.1 = [] →
      populate_step_fp id Ngrid u st 0 = none := by
    intro st hst
    unfold populate_step_fp
    simp only [hg, hst]
    rfl
  unfold populate_grid_fp
  rw [Ngridelem_fp_no_blocks Ngrid h0 h1 h2, make_grid_no_blocks Ngrid h0 h1 h2,
    if_neg (by decide)]
  have hi : populate_init (0 : ℤ).toNat (populate_Nalloc0_fp (id : α → α) 0 (N + 1)) [] =
      some ([], []) := by
    unfold populate_init
    rfl
  rw [hi]
  simp only
  rw [List.range_succ_eq_map, List.foldlM_cons, hs _ rfl]
  rfl

theorem calc_grid_cubic_one (k : ℕ) (hk : k < 3) :
    calc_grid Real.sqrt (arr [(1 : ℝ), 0, 0, 0, 1, 0, 0, 0, 1]) 1 k = 1 := by
  have h : toInt ((1 : ℝ) / 1) = 1 :=
    toInt_of_floor 1 (by norm_num) (by norm_num) (by norm_num)
  unfold calc_grid
  rw [calc_len_cubic k hk, h]
  rfl

theorem grid_r2_cubic_le (N : ℕ) (u : ℕ → ℕ → α)
    (hu : ∀ n, n < N → ∀ k, k < 3 → 0 ≤ u n k ∧ u n k < 1) {i j : ℕ} (hi : i < N)
    (hj : j < N) : grid_r2 (arr [(1 : α), 0, 0, 0, 1, 0, 0, 0, 1]) u i j ≤ 1 * 1 := by
  have hd : ∀ k, k < 3 → diff (u j k - u i k) * diff (u j k - u i k) ≤ 1 / 4 := by
    intro k hk
    have a := hu i hi k hk
    have b := hu j hj k hk
    obtain ⟨m, -, -, -, h1, h2⟩ := diff_spec (x := u j k - u i k) (by linarith) (by linarith)
    nlinarith
  have h0 := hd 0 (by norm_num)
  have h1 := hd 1 (by norm_num)
  have h2 := hd 2 (by norm_num)
  rw [grid_r2_eq]
  simp only [arr, List.getD_cons_zero, List.getD_cons_succ, one_mul, zero_mul, add_zero,
    zero_add]
  linarith

/-- With `65536` atoms in the single block of the unit cubic lattice at cutoff `1`, the
size of the pair list, `65536*1*65536`, wraps to `0` and `nn_grid` stores a record past the
end of the list. -/
theorem grid_path_fp_many_atoms (u : ℕ → ℕ → ℝ)
    (hu : ∀ n, n < 65536 → ∀ k, k < 3 → 0 ≤ u n k ∧ u n k < 1) :
    ∃ gl, populate_grid_fp id (calc_grid_fp id Real.sqrt (arr [(1 : ℝ), 0, 0, 0, 1, 0, 0, 0, 1]) 1)
        (make_grid (calc_grid_fp id Real.sqrt (arr [(1 : ℝ), 0, 0, 0, 1, 0, 0, 0, 1]) 1))
        65536 u = some (gl, false) ∧
      nn_grid_npair 1 gl 65536 = 0 ∧
      nn_grid_stores_fp id Real.sqrt (arr [(1 : ℝ), 0, 0, 0, 1, 0, 0, 0, 1]) 1 gl u 1 ≠ [] ∧
      grid_path_fp id Real.sqrt (arr [(1 : ℝ), 0, 0, 0, 1, 0, 0, 0, 1]) 65536 u 1 = none := by
  have hgrid : ∀ k, k < 3 →
      calc_len Real.sqrt (arr [(1 : ℝ), 0, 0, 0, 1, 0, 0, 0, 1]) k / 1 < 2147483648 := by
    intro k hk
    rw [calc_len_cubic k hk]
    norm_num
  have hf := calc_grid_fp_id_fun isSqrt_real (arr [(1 : ℝ), 0, 0, 0, 1, 0, 0, 0, 1])
    (by norm_num : (0 : ℝ) < 1) hgrid
  have v0 := calc_grid_cubic_one 0 (by norm_num)
  have v1 := calc_grid_cubic_one 1 (by norm_num)
  have v2 := calc_grid_cubic_one 2 (by norm_num)
  have hN : ∀ k, k < 3 →
      1 ≤ calc_grid Real.sqrt (arr [(1 : ℝ), 0, 0, 0, 1, 0, 0, 0, 1]) 1 k :=
    fun k hk => le_of_eq (calc_grid_cubic_one k hk).symm
  have hcells : calc_grid Real.sqrt (arr [(1 : ℝ), 0, 0, 0, 1, 0, 0, 0, 1]) 1 0
      * calc_grid Real.sqrt (arr [(1 : ℝ), 0, 0, 0, 1, 0, 0, 0, 1]) 1 1
      * calc_grid Real.sqrt (arr [(1 : ℝ), 0, 0, 0, 1, 0, 0, 0, 1]) 1 2 ≤ 2147483647 := by
    rw [v0, v1, v2]
    norm_num
  have hM : (calc_grid Real.sqrt (arr [(1 : ℝ), 0, 0, 0, 1, 0, 0, 0, 1]) 1 0
      * calc_grid Real.sqrt (arr [(1 : ℝ), 0, 0, 0, 1, 0, 0, 0, 1]) 1 1
      * calc_grid Real.sqrt (arr [(1 : ℝ), 0, 0, 0, 1, 0, 0, 0, 1]) 1 2).toNat = 1 := by
    rw [v0, v1, v2]
    rfl
  have hge : ∀ n, n < 65536 →
      grid_elem_fp id (calc_grid Real.sqrt (arr [(1 : ℝ), 0, 0, 0, 1, 0, 0, 0, 1]) 1) (u n) =
        grid_elem (calc_grid Real.sqrt (arr [(1 : ℝ), 0, 0, 0, 1, 0, 0, 0, 1]) 1) (u n) :=
    fun n hn => grid_elem_fp_id hN hcells (hu n hn)
  rw [hf]
  obtain ⟨gl, hgl, hlen, hsum, hc⟩ := populate_grid_fp_spec id _ u (make_grid _) 65536 hN
    hcells (make_grid_length _) (fun n hn => grid_elem_bounds hN (hu n hn)) hge
  obtain ⟨gl', hgl', hA, hNL⟩ := grid_built_fp id _ 65536 u hN hcells hu hge
  rw [hgl] at hgl'
  have e : gl = gl' := (Prod.mk.inj (Option.some.inj hgl')).1
  subst e
  rw [make_grid_length, hM] at hlen
  obtain ⟨g, hg⟩ := List.length_eq_one.1 hlen
  have hgN : g.Natoms = 65536 := by
    rw [hg] at hsum
    simpa using hsum
  have hcell : (make_grid (calc_grid Real.sqrt (arr [(1 : ℝ), 0, 0, 0, 1, 0, 0, 0, 1]) 1)).getD
      0 default = make_cell (calc_grid Real.sqrt (arr [(1 : ℝ), 0, 0, 0, 1, 0, 0, 0, 1]) 1)
        (0, 0, 0) := by
    have ht : ((0 : ℤ), (0 : ℤ), (0 : ℤ)) ∈
        grid_triples (calc_grid Real.sqrt (arr [(1 : ℝ), 0, 0, 0, 1, 0, 0, 0, 1]) 1) := by
      rw [mem_grid_triples, v0, v1, v2]
      decide
    have h := make_grid_getElem? ht
    have e0 : trip2int (calc_grid Real.sqrt (arr [(1 : ℝ), 0, 0, 0, 1, 0, 0, 0, 1]) 1)
        0 0 0 = 0 := by
      unfold trip2int
      ring
    simp only at h
    rw [e0] at h
    rw [List.getD_eq_getElem?_getD]
    show Option.getD (make_grid (calc_grid Real.sqrt (arr [(1 : ℝ), 0, 0, 0, 1, 0, 0, 0, 1]) 1))[(0 : ℤ).toNat]? default = _
    rw [h]
    rfl
  have hgn : g.Nneigh = 1 := by
    have h := (hc 0).2.1
    rw [hcell, hg] at h
    simp only [List.getD_cons_zero] at h
    rw [h]
    unfold make_cell
    simp only
    rw [v0, v1, v2]
    rfl
  have hnp : nn_grid_npair 1 gl 65536 = 0 := by
    unfold nn_grid_npair
    rw [hg]
    have r1 : List.range 1 = [0] := rfl
    rw [r1]
    simp only [List.foldl_cons, List.foldl_nil, List.getD_cons_zero, hgN, hgn]
    decide
  have hkey : ∀ n, n < 65536 →
      (grid_elem (calc_grid Real.sqrt (arr [(1 : ℝ), 0, 0, 0, 1, 0, 0, 0, 1]) 1) (u n)).toNat
        < 1 := by
    intro n hn
    have := grid_elem_bounds hN (hu n hn)
    rw [v0, v1, v2] at this
    omega
  have hst : nn_grid_stores_fp id Real.sqrt (arr [(1 : ℝ), 0, 0, 0, 1, 0, 0, 0, 1]) 1 gl u 1
      ≠ [] := by
    rw [nn_grid_stores_fp_id Real.sqrt _ _ 1 65536 u 1 gl gl hu hA hNL hA hNL]
    obtain ⟨p, hp⟩ := grid_pair_isSome Real.sqrt (arr [(1 : ℝ), 0, 0, 0, 1, 0, 0, 0, 1]) u 1
      (i := 0) (j := 1) (by decide)
      (grid_r2_cubic_le 65536 u hu (by norm_num) (by norm_num))
    have hmem := (mem_nn_grid Real.sqrt (arr [(1 : ℝ), 0, 0, 0, 1, 0, 0, 0, 1]) _ 65536 u 1
      gl hN hu hA hNL p).2 ⟨0, 1, by norm_num, by norm_num,
        neigh_of_within_cutoff isSqrt_real _ 65536 u (by norm_num) hu (by norm_num)
          (by norm_num) (grid_pair_eq_some hp).2.2.2.2, hp⟩
    rw [hM] at hmem
    exact List.ne_nil_of_mem hmem
  refine ⟨gl, hgl, hnp, hst, ?_⟩
  unfold grid_path_fp
  rw [hf, hgl, Ngridelem_fp_eq hN hcells, hM]
  simp only
  unfold nn_grid_fp
  rw [hnp, if_neg (by decide), if_neg]
  rw [not_le]
  exact List.length_pos.2 hst

theorem grid_r2_cubic_tiny :
    grid_r2 (arr [(1 : ℝ), 0, 0, 0, 1, 0, 0, 0, 1])
        (atoms [[0, 0, 0], [1 / 8589934592, 0, 0]]) 0 1
      = 1 / 8589934592 * (1 / 8589934592) := by
  have e0 : atoms [[(0 : ℝ), 0, 0], [1 / 8589934592, 0, 0]] 1 0
      - atoms [[(0 : ℝ), 0, 0], [1 / 8589934592, 0, 0]] 0 0 = 1 / 8589934592 := by
    simp [atoms]
  have e1 : atoms [[(0 : ℝ), 0, 0], [1 / 8589934592, 0, 0]] 1 1
      - atoms [[(0 : ℝ), 0, 0], [1 / 8589934592, 0, 0]] 0 1 = 0 := by simp [atoms]
  have e2 : atoms [[(0 : ℝ), 0, 0], [1 / 8589934592, 0, 0]] 1 2
      - atoms [[(0 : ℝ), 0, 0], [1 / 8589934592, 0, 0]] 0 2 = 0 := by simp [atoms]
  have d : diff (1 / 8589934592 : ℝ) = 1 / 8589934592 := by
    rw [diff_of_floor 2 (by norm_num) (by norm_num) (by norm_num)]
    norm_num
  rw [grid_r2_eq, e0, e1, e2, d, diff_zero]
  simp only [arr, List.getD_cons_zero, List.getD_cons_succ]
  ring

/-- C1, as stated, fails in the code even in exact arithmetic, because the counts and the
size of the pair list are `int`s.  Unit cubic lattice in both cases.  With the cutoff
`2^-32` the quotient `len/Rcut = 2^32` does not fit an `int`: `calc_grid` returns
`-2^31` on every axis, `Ngrid[0]*Ngrid[1]*Ngrid[2]` wraps to `0`, the grid has no block and
`populate_grid` reads the block `0` for the first atom; the atoms `(0,0,0)` and
`(2^-33,0,0)` lie within the cutoff of each other, so the claim asks for the records `(0,1)`
and `(1,0)`.  With the cutoff `1` and the `65536` atoms `(n/65536, 0, 0)` the grid has one
block, the size `natoms*nneigh*Natoms = 65536*1*65536` of the pair list wraps to `0`, and
the first record is stored past its end. -/
theorem grid_path_int_overflow :
    ((∀ k, k < 3 → calc_grid_fp id Real.sqrt (arr [(1 : ℝ), 0, 0, 0, 1, 0, 0, 0, 1])
        (1 / 4294967296) k = -2147483648) ∧
      grid_path_fp id Real.sqrt (arr [(1 : ℝ), 0, 0, 0, 1, 0, 0, 0, 1]) 2
        (atoms [[0, 0, 0], [1 / 8589934592, 0, 0]]) (1 / 4294967296) = none ∧
      Real.sqrt (grid_r2 (arr [(1 : ℝ), 0, 0, 0, 1, 0, 0, 0, 1])
        (atoms [[0, 0, 0], [1 / 8589934592, 0, 0]]) 0 1) ≤ 1 / 4294967296) ∧
    ∃ gl, populate_grid_fp id
        (calc_grid_fp id Real.sqrt (arr [(1 : ℝ), 0, 0, 0, 1, 0, 0, 0, 1]) 1)
        (make_grid (calc_grid_fp id Real.sqrt (arr [(1 : ℝ), 0, 0, 0, 1, 0, 0, 0, 1]) 1))
        65536 (fun n k => if k = 0 then (n : ℝ) / 65536 else 0) = some (gl, false) ∧
      nn_grid_npair 1 gl 65536 = 0 ∧
      nn_grid_stores_fp id Real.sqrt (arr [(1 : ℝ), 0, 0, 0, 1, 0, 0, 0, 1]) 1 gl
        (fun n k => if k = 0 then (n : ℝ) / 65536 else 0) 1 ≠ [] ∧
      grid_path_fp id Real.sqrt (arr [(1 : ℝ), 0, 0, 0, 1, 0, 0, 0, 1]) 65536
        (fun n k => if k = 0 then (n : ℝ) / 65536 else 0) 1 = none := by
  refine ⟨⟨calc_grid_fp_cubic_tiny, ?_, ?_⟩, ?_⟩
  · unfold grid_path_fp
    rw [populate_grid_fp_no_blocks _ (calc_grid_fp_cubic_tiny 0 (by norm_num))
      (calc_grid_fp_cubic_tiny 1 (by norm_num)) (calc_grid_fp_cubic_tiny 2 (by norm_num)) 1
      (atoms [[0, 0, 0], [1 / 8589934592, 0, 0]])
      (by intro k hk; interval_cases k <;> simp [atoms])]
  · rw [sqrt_le_iff isSqrt_real (grid_r2_nonneg _ _ _ _) (by norm_num), grid_r2_cubic_tiny]
    norm_num
  · apply grid_path_fp_many_atoms
    intro n hn k _
    by_cases hk : k = 0
    · simp only [hk, if_true]
      have h1 : ((n : ℝ)) < 65536 := by exact_mod_cast hn
      constructor
      · positivity
      · rw [div_lt_one (by norm_num)]
        exact h1
    · simp only [hk, if_false]
      norm_num

/-! ### Two atoms `0.2` apart on doubles -/

theorem fl_fifth : fl (3602879701896397 / 18014398509481984 : ℝ)
    = 3602879701896397 / 18014398509481984 :=
  fl_of_double (-3) 7205759403792794 (by norm_num [abs_of_pos]) (by norm_num [abs_of_pos])
    (by norm_num)

theorem fl_neg_fifth : fl (-(3602879701896397 / 18014398509481984) : ℝ)
    = -(3602879701896397 / 18014398509481984) :=
  fl_of_double (-3) (-7205759403792794) (by norm_num [abs_of_neg]) (by norm_num [abs_of_neg])
    (by norm_num)

theorem double_to_int_two_point (x : ℝ) (h1 : 2 ≤ x) (h2 : x < 3) : double_to_int x = 2 :=
  double_to_int_of_floor 2 (by norm_num) (by norm_num) (by norm_num; exact h1)
    (by norm_num; exact h2)

theorem diff_fp_zero : diff_fp fl (0 : ℝ) = 0 := by
  have e1 : fl ((5 / 2 : ℝ)) = 5 / 2 :=
    fl_of_double 1 5629499534213120 (by norm_num [abs_of_pos]) (by norm_num [abs_of_pos])
      (by norm_num)
  unfold diff_fp
  rw [zero_add, zero_add, e1, fl_two, double_to_int_two_point _ (by norm_num) (by norm_num)]
  norm_num
  exact fl_zero

/-- On doubles `diff(0.2) = 0.20000000000000018`. -/
theorem diff_fp_fifth : diff_fp fl (3602879701896397 / 18014398509481984 : ℝ)
    = 225179981368525 / 1125899906842624 := by
  have e1 : fl ((3602879701896397 / 18014398509481984 : ℝ) + 5 / 2)
      = 3039929748475085 / 1125899906842624 := by
    rw [fl_eq_of_near 1 6079859496950170 (by norm_num [abs_of_pos])
      (by norm_num [abs_of_pos]) (by norm_num) (by norm_num)]
    norm_num
  have e2 : fl ((3602879701896397 / 18014398509481984 : ℝ) + 2)
      = 2476979795053773 / 1125899906842624 := by
    rw [fl_eq_of_near 1 4953959590107546 (by norm_num [abs_of_pos])
      (by norm_num [abs_of_pos]) (by norm_num) (by norm_num)]
    norm_num
  have e3 : fl (225179981368525 / 1125899906842624 : ℝ)
      = 225179981368525 / 1125899906842624 :=
    fl_of_double (-3) 7205759403792800 (by norm_num [abs_of_pos])
      (by norm_num [abs_of_pos]) (by norm_num)
  unfold diff_fp
  rw [e1, e2, double_to_int_two_point _ (by norm_num) (by norm_num)]
  norm_num
  exact e3

/-- On doubles `diff(-0.2) = -0.19999999999999996`, which is not `-diff(0.2)`. -/
theorem diff_fp_neg_fifth : diff_fp fl (-(3602879701896397 / 18014398509481984) : ℝ)
    = -(900719925474099 / 4503599627370496) := by
  have e1 : fl (-(3602879701896397 / 18014398509481984 : ℝ) + 5 / 2)
      = 2589569785738035 / 1125899906842624 := by
    rw [fl_eq_of_near 1 5179139571476070 (by norm_num [abs_of_pos])
      (by norm_num [abs_of_pos]) (by norm_num) (by norm_num)]
    norm_num
  have e2 : fl (-(3602879701896397 / 18014398509481984 : ℝ) + 2)
      = 8106479329266893 / 4503599627370496 := by
    rw [fl_eq_of_near 0 8106479329266893 (by norm_num [abs_of_pos])
      (by norm_num [abs_of_pos]) (by norm_num) (by norm_num)]
    norm_num
  have e3 : fl (-(900719925474099 / 4503599627370496) : ℝ)
      = -(900719925474099 / 4503599627370496) :=
    fl_of_double (-3) (-7205759403792792) (by norm_num [abs_of_neg])
      (by norm_num [abs_of_neg]) (by norm_num)
  unfold diff_fp
  rw [e1, e2, double_to_int_two_point _ (by norm_num) (by norm_num)]
  norm_num
  exact e3

theorem fl_fold_fifth : fl (225179981368525 / 1125899906842624 : ℝ)
    = 225179981368525 / 1125899906842624 :=
  fl_of_double (-3) 7205759403792800 (by norm_num [abs_of_pos])
    (by norm_num [abs_of_pos]) (by norm_num)

theorem fl_fold_neg_fifth : fl (-(900719925474099 / 4503599627370496) : ℝ)
    = -(900719925474099 / 4503599627370496) :=
  fl_of_double (-3) (-7205759403792792) (by norm_num [abs_of_neg])
    (by norm_num [abs_of_neg]) (by norm_num)

theorem fl_sq_fold_fifth :
    fl ((225179981368525 / 1125899906842624 : ℝ) * (225179981368525 / 1125899906842624))
      = 5764607523034245 / 144115188075855872 := by
  rw [fl_eq_of_near (-5) 5764607523034245 (by norm_num [abs_of_pos])
    (by norm_num [abs_of_pos]) (by norm_num) (by norm_num)]
  norm_num

theorem fl_sq_fold_neg_fifth :
    fl (-(900719925474099 / 4503599627370496 : ℝ) * -(900719925474099 / 4503599627370496))
      = 720575940379279 / 18014398509481984 := by
  rw [fl_eq_of_near (-5) 5764607523034232 (by norm_num [abs_of_pos])
    (by norm_num [abs_of_pos]) (by norm_num) (by norm_num)]
  norm_num

theorem fl_sq_fifth :
    fl ((3602879701896397 / 18014398509481984 : ℝ) * (3602879701896397 / 18014398509481984))
      = 1441151880758559 / 36028797018963968 := by
  rw [fl_eq_of_near (-5) 5764607523034236 (by norm_num [abs_of_pos])
    (by norm_num [abs_of_pos]) (by norm_num) (by norm_num)]
  norm_num

theorem fl_r2_01 : fl (5764607523034245 / 144115188075855872 : ℝ)
    = 5764607523034245 / 144115188075855872 :=
  fl_of_double (-5) 5764607523034245 (by norm_num [abs_of_pos])
    (by norm_num [abs_of_pos]) (by norm_num)

theorem fl_r2_10 : fl (720575940379279 / 18014398509481984 : ℝ)
    = 720575940379279 / 18014398509481984 :=
  fl_of_double (-5) 5764607523034232 (by norm_num [abs_of_pos])
    (by norm_num [abs_of_pos]) (by norm_num)

/-- On doubles, for the unit cubic lattice and the atoms `(0,0,0)`, `(0.2,0,0)`: the
squared separation from atom 0 to atom 1 is `0.04000000000000007`, from atom 1 to atom 0 it
is `0.03999999999999998`. -/
theorem grid_r2_fp_fifth :
    grid_r2_fp fl (arr [(1 : ℝ), 0, 0, 0, 1, 0, 0, 0, 1])
        (atoms [[0, 0, 0], [3602879701896397 / 18014398509481984, 0, 0]]) 0 1
      = 5764607523034245 / 144115188075855872 ∧
    grid_r2_fp fl (arr [(1 : ℝ), 0, 0, 0, 1, 0, 0, 0, 1])
        (atoms [[0, 0, 0], [3602879701896397 / 18014398509481984, 0, 0]]) 1 0
      = 720575940379279 / 18014398509481984 := by
  constructor
  · simp only [grid_r2_fp, grid_vect_fp, atoms, arr, List.getD_cons_zero, List.getD_cons_succ,
      sub_zero, sub_self, zero_sub, fl_zero, fl_fifth, fl_neg_fifth, diff_fp_zero,
      diff_fp_fifth, diff_fp_neg_fifth, one_mul, zero_mul, mul_zero, add_zero, zero_add,
      fl_fold_fifth, fl_fold_neg_fifth, fl_sq_fold_fifth, fl_sq_fold_neg_fifth, fl_r2_01,
      fl_r2_10]
  · simp only [grid_r2_fp, grid_vect_fp, atoms, arr, List.getD_cons_zero, List.getD_cons_succ,
      sub_zero, sub_self, zero_sub, fl_zero, fl_fifth, fl_neg_fifth, diff_fp_zero,
      diff_fp_fifth, diff_fp_neg_fifth, one_mul, zero_mul, mul_zero, add_zero, zero_add,
      fl_fold_fifth, fl_fold_neg_fifth, fl_sq_fold_fifth, fl_sq_fold_neg_fifth, fl_r2_01,
      fl_r2_10]

/-! ### Symmetry of the pair list -/

/-- C3, amended: in exact arithmetic, on a grid built by `make_grid` and `populate_grid`
(all block counts at least 1) whose number of blocks and whose size
`natoms*nneigh*Natoms` of the pair list are in the range of `int`, for atoms inside the cell
none of whose per-axis fractional differences is `±1/2`, `nn_grid` returns, it writes the
record `(j, i, r)` as many times as `(i, j, r)`, and the pair count is even. -/
theorem nn_grid_fp_generic_symmetric (sqrt : α → α) (cart : ℕ → α) (Ngrid : ℕ → ℤ)
    (Natoms : ℕ) (u : ℕ → ℕ → α) (Rcut : α)
    (hN : ∀ k, k < 3 → 1 ≤ Ngrid k)
    (hu : ∀ n, n < Natoms → ∀ k, k < 3 → 0 ≤ u n k ∧ u n k < 1)
    (hgen : ∀ i j, i < Natoms → j < Natoms → ∀ k, k < 3 → u j k - u i k ≠ 1 / 2)
    (hcells : Ngrid 0 * Ngrid 1 * Ngrid 2 ≤ 2147483647)
    (hbuf : ∀ gl b, populate_grid_fp id Ngrid (make_grid Ngrid) Natoms u = some (gl, b) →
      nn_grid_capacity (Ngridelem_fp Ngrid).toNat gl Natoms ≤ 2147483647) :
    ∃ gl out, populate_grid_fp id Ngrid (make_grid Ngrid) Natoms u = some (gl, false) ∧
      nn_grid_fp id sqrt cart (Ngridelem_fp Ngrid).toNat gl Natoms u Rcut = some out ∧
      (∀ i j r,
        out.countP (fun p => decide (p.i = j ∧ p.j = i ∧ p.r = r)) =
          out.countP (fun p => decide (p.i = i ∧ p.j = j ∧ p.r = r))) ∧
      Even out.length := by
  obtain ⟨gl1, hgl1, hA1, hNL1⟩ := grid_built_fp id Ngrid Natoms u hN hcells hu
    (fun n hn => grid_elem_fp_id hN hcells (hu n hn))
  obtain ⟨gl2, hgl2, hA2, hNL2⟩ := grid_built Ngrid Natoms u hN hu
  obtain ⟨gl3, hgl3, hsym, hev⟩ :=
    nn_grid_generic_symmetric sqrt cart Ngrid Natoms u Rcut hN hu hgen
  rw [hgl2] at hgl3
  have e : gl2 = gl3 := (Prod.mk.inj (Option.some.inj hgl3)).1
  subst e
  have hb := hbuf gl1 false hgl1
  have hM := Ngridelem_fp_eq hN hcells
  rw [hM] at hb ⊢
  have hkey : ∀ n, n < Natoms → (grid_elem Ngrid (u n)).toNat
      < (Ngrid 0 * Ngrid 1 * Ngrid 2).toNat := by
    intro n hn
    have := grid_elem_bounds hN (hu n hn)
    omega
  refine ⟨gl1, _, hgl1,
    nn_grid_fp_eq_some id sqrt cart _ Natoms gl1 u Rcut
      (fun n => (grid_elem Ngrid (u n)).toNat) hA1 hkey hb, ?_, ?_⟩
  · rw [nn_grid_stores_fp_id sqrt cart Ngrid _ Natoms u Rcut gl1 gl2 hu hA1 hNL1 hA2 hNL2]
    exact hsym
  · rw [nn_grid_stores_fp_id sqrt cart Ngrid _ Natoms u Rcut gl1 gl2 hu hA1 hNL1 hA2 hNL2]
    exact hev

theorem nn_grid_fp_generic_symmetric_witness :
    (∀ k, k < 3 → 1 ≤ arr [(2 : ℤ), 1, 1] k) ∧
    (∀ n, n < 2 → ∀ k, k < 3 → 0 ≤ atoms [[(0 : ℝ), 0, 0], [1 / 4, 0, 0]] n k ∧
      atoms [[(0 : ℝ), 0, 0], [1 / 4, 0, 0]] n k < 1) ∧
    (∀ i j, i < 2 → j < 2 → ∀ k, k < 3 →
      atoms [[(0 : ℝ), 0, 0], [1 / 4, 0, 0]] j k - atoms [[(0 : ℝ), 0, 0], [1 / 4, 0, 0]] i k
        ≠ 1 / 2) ∧
    arr [(2 : ℤ), 1, 1] 0 * arr [2, 1, 1] 1 * arr [2, 1, 1] 2 ≤ 2147483647 ∧
    (∀ gl b, populate_grid_fp id (arr [2, 1, 1]) (make_grid (arr [2, 1, 1])) 2
        (atoms [[(0 : ℝ), 0, 0], [1 / 4, 0, 0]]) = some (gl, b) →
      nn_grid_capacity (Ngridelem_fp (arr [2, 1, 1])).toNat gl 2 ≤ 2147483647) ∧
    ∃ gl out, populate_grid_fp id (arr [2, 1, 1]) (make_grid (arr [2, 1, 1])) 2
        (atoms [[(0 : ℝ), 0, 0], [1 / 4, 0, 0]]) = some (gl, false) ∧
      nn_grid_fp id Real.sqrt (arr [(1 : ℝ), 0, 0, 0, 1, 0, 0, 0, 1])
        (Ngridelem_fp (arr [2, 1, 1])).toNat gl 2
        (atoms [[(0 : ℝ), 0, 0], [1 / 4, 0, 0]]) (1 / 2) = some out ∧
      (∀ i j r,
        out.countP (fun p => decide (p.i = j ∧ p.j = i ∧ p.r = r)) =
          out.countP (fun p => decide (p.i = i ∧ p.j = j ∧ p.r = r))) ∧
      Even out.length :=
  have h1 : ∀ k, k < 3 → 1 ≤ arr [(2 : ℤ), 1, 1] k :=
    arr3_ge_one (by decide) (by decide) (by decide)
  have h2 := atoms_two_inside (1 / 4 : ℝ) 0 0 (by norm_num) (by norm_num) (by norm_num)
  have h3 : ∀ i j, i < 2 → j < 2 → ∀ k, k < 3 →
      atoms [[(0 : ℝ), 0, 0], [1 / 4, 0, 0]] j k - atoms [[(0 : ℝ), 0, 0], [1 / 4, 0, 0]] i k
        ≠ 1 / 2 := by
    intro i j hi hj k hk
    interval_cases i <;> interval_cases j <;> interval_cases k <;> norm_num [atoms]
  have h4 : arr [(2 : ℤ), 1, 1] 0 * arr [2, 1, 1] 1 * arr [2, 1, 1] 2 ≤ 2147483647 := by
    decide
  have h5 : ∀ gl b, populate_grid_fp id (arr [2, 1, 1]) (make_grid (arr [2, 1, 1])) 2
        (atoms [[(0 : ℝ), 0, 0], [1 / 4, 0, 0]]) = some (gl, b) →
      nn_grid_capacity (Ngridelem_fp (arr [2, 1, 1])).toNat gl 2 ≤ 2147483647 := by
    intro gl b h
    rw [Ngridelem_fp_eq h1 h4]
    exact le_trans (nn_grid_capacity_le id _ 2 _ h1 h4 h2
      (fun n hn => grid_elem_fp_id h1 h4 (h2 n hn)) gl b h) (by norm_num)
  ⟨h1, h2, h3, h4, h5,
    nn_grid_fp_generic_symmetric Real.sqrt _ _ 2 _ (1 / 2) h1 h2 h3 h4 h5⟩

theorem grid_elem_one_block (v : ℕ → ℝ) (hv : ∀ k, k < 3 → 0 ≤ v k ∧ v k < 1) :
    grid_elem (arr [1, 1, 1]) v = 0 := by
  have hN : ∀ k, k < 3 → 1 ≤ arr [(1 : ℤ), 1, 1] k :=
    arr3_ge_one (by decide) (by decide) (by decide)
  have h := grid_elem_bounds hN hv
  have e : arr [(1 : ℤ), 1, 1] 0 * arr [1, 1, 1] 1 * arr [1, 1, 1] 2 = 1 := by decide
  rw [e] at h
  omega

theorem grid_elem_fp_one_block_fifth (n : ℕ) (hn : n < 2) :
    grid_elem_fp fl (arr [1, 1, 1])
        (atoms [[(0 : ℝ), 0, 0], [3602879701896397 / 18014398509481984, 0, 0]] n) = 0 := by
  have hz : double_to_int (0 : ℝ) = 0 :=
    double_to_int_of_floor 0 (by norm_num) (by norm_num) (by norm_num) (by norm_num)
  have ha : double_to_int (3602879701896397 / 18014398509481984 : ℝ) = 0 :=
    double_to_int_of_floor 0 (by norm_num) (by norm_num) (by norm_num) (by norm_num)
  rw [grid_elem_fp_wrap]
  interval_cases n
  · simp only [atoms, arr, List.getD_cons_zero, List.getD_cons_succ, Int.cast_one, mul_one,
      fl_zero, hz]
    decide
  · simp only [atoms, arr, List.getD_cons_zero, List.getD_cons_succ, Int.cast_one, mul_one,
      fl_zero, fl_fifth, hz, ha]
    decide

/-- C3, as stated, fails in the code: on doubles `diff` is not odd.  Unit cubic lattice, one
block, the atoms `(0,0,0)` and `(0.2,0,0)` (no fractional difference is `±1/2`), cutoff
`0.2`: the folded separation from atom 0 to atom 1 is `0.20000000000000018`, its square
exceeds `Rcut*Rcut` and the pair `(0,1)` is skipped; from atom 1 to atom 0 it is
`-0.19999999999999996` and the pair `(1,0)` is written.  The list holds one record. -/
theorem nn_grid_double_not_symmetric :
    ∃ gl p, populate_grid_fp fl (arr [1, 1, 1]) (make_grid (arr [1, 1, 1])) 2
        (atoms [[(0 : ℝ), 0, 0], [3602879701896397 / 18014398509481984, 0, 0]])
          = some (gl, false) ∧
      nn_grid_fp fl Real.sqrt (arr [(1 : ℝ), 0, 0, 0, 1, 0, 0, 0, 1])
        (Ngridelem_fp (arr [1, 1, 1])).toNat gl 2
        (atoms [[(0 : ℝ), 0, 0], [3602879701896397 / 18014398509481984, 0, 0]])
        (3602879701896397 / 18014398509481984) = some [p] ∧
      p.i = 1 ∧ p.j = 0 := by
  have hN : ∀ k, k < 3 → 1 ≤ arr [(1 : ℤ), 1, 1] k :=
    arr3_ge_one (by decide) (by decide) (by decide)
  have hcells : arr [(1 : ℤ), 1, 1] 0 * arr [1, 1, 1] 1 * arr [1, 1, 1] 2 ≤ 2147483647 := by
    decide
  have hu := atoms_two_inside (3602879701896397 / 18014398509481984 : ℝ) 0 0
    (by norm_num) (by norm_num) (by norm_num)
  have hkey0 : ∀ n, n < 2 → grid_elem (arr [1, 1, 1])
      (atoms [[(0 : ℝ), 0, 0], [3602879701896397 / 18014398509481984, 0, 0]] n) = 0 :=
    fun n hn => grid_elem_one_block _ (hu n hn)
  have hge : ∀ n, n < 2 → grid_elem_fp fl (arr [1, 1, 1])
      (atoms [[(0 : ℝ), 0, 0], [3602879701896397 / 18014398509481984, 0, 0]] n) =
        grid_elem (arr [1, 1, 1])
          (atoms [[(0 : ℝ), 0, 0], [3602879701896397 / 18014398509481984, 0, 0]] n) := by
    intro n hn
    rw [grid_elem_fp_one_block_fifth n hn, hkey0 n hn]
  obtain ⟨gl, hgl, hA, hNL⟩ := grid_built_fp fl (arr [1, 1, 1]) 2 _ hN hcells hu hge
  have hM : (Ngridelem_fp (arr [1, 1, 1])).toNat = 1 := by decide
  have hM' : (arr [(1 : ℤ), 1, 1] 0 * arr [1, 1, 1] 1 * arr [1, 1, 1] 2).toNat = 1 := by
    decide
  have hb := nn_grid_capacity_le fl (arr [1, 1, 1]) 2 _ hN hcells hu hge gl false hgl
  rw [hM'] at hb
  have hcell : cell_atoms (gl.getD 0 default) = [0, 1] := by
    rw [hA 0]
    have r2 : List.range 2 = [0, 1] := rfl
    rw [List.filter_eq_self.2]
    · exact r2
    · intro n hn
      rw [List.mem_range] at hn
      rw [hkey0 n hn]
      rfl
  have hneigh : cell_neighs (gl.getD 0 default) = [0] := by
    have h := hNL 0 (by norm_num)
    rw [hkey0 0 (by norm_num)] at h
    rw [show (0 : ℤ).toNat = 0 from rfl] at h
    rw [h]
    have t : toInt ((0 : ℝ) * ((1 : ℤ) : ℝ)) = 0 := by simp [toInt]
    unfold atom_neighs
    simp only [atoms, arr, List.getD_cons_zero, List.getD_cons_succ, t]
    decide
  have hp00 : ∀ i, grid_pair_fp fl Real.sqrt (arr [(1 : ℝ), 0, 0, 0, 1, 0, 0, 0, 1])
      (atoms [[(0 : ℝ), 0, 0], [3602879701896397 / 18014398509481984, 0, 0]])
      (3602879701896397 / 18014398509481984) i i = none := by
    intro i
    unfold grid_pair_fp
    rw [if_pos rfl]
  have hp01 : grid_pair_fp fl Real.sqrt (arr [(1 : ℝ), 0, 0, 0, 1, 0, 0, 0, 1])
      (atoms [[(0 : ℝ), 0, 0], [3602879701896397 / 18014398509481984, 0, 0]])
      (3602879701896397 / 18014398509481984) 0 1 = none := by
    unfold grid_pair_fp
    rw [if_neg (by decide), grid_r2_fp_fifth.1, fl_sq_fifth, if_pos (by norm_num)]
  obtain ⟨p, hp, hpi, hpj⟩ : ∃ p, grid_pair_fp fl Real.sqrt
      (arr [(1 : ℝ), 0, 0, 0, 1, 0, 0, 0, 1])
      (atoms [[(0 : ℝ), 0, 0], [3602879701896397 / 18014398509481984, 0, 0]])
      (3602879701896397 / 18014398509481984) 1 0 = some p ∧ p.i = 1 ∧ p.j = 0 := by
    unfold grid_pair_fp
    rw [if_neg (by decide), grid_r2_fp_fifth.2, fl_sq_fifth, if_neg (by norm_num)]
    exact ⟨_, rfl, rfl, rfl⟩
  refine ⟨gl, p, hgl, ?_, hpi, hpj⟩
  rw [hM, nn_grid_fp_eq_some fl Real.sqrt _ 1 2 gl _ _
    (fun n => (grid_elem (arr [1, 1, 1])
      (atoms [[(0 : ℝ), 0, 0], [3602879701896397 / 18014398509481984, 0, 0]] n)).toNat) hA
    (fun n hn => by
      show (grid_elem (arr [1, 1, 1])
        (atoms [[(0 : ℝ), 0, 0], [3602879701896397 / 18014398509481984, 0, 0]] n)).toNat < 1
      rw [hkey0 n hn]
      decide) (le_trans hb (by norm_num))]
  have r1 : List.range 1 = [0] := rfl
  unfold nn_grid_stores_fp
  rw [r1]
  simp only [List.flatMap_cons, List.flatMap_nil, List.append_nil, hcell, hneigh,
    show (0 : ℤ).toNat = 0 from rfl, List.filterMap_cons, List.filterMap_nil, hp00, hp01, hp,
    List.nil_append]

/-! ### nn_raw in exact arithmetic with machine integers -/

theorem raw_maxn_fp_id {sqrt : α → α} (hsq : IsSqrt sqrt) (cart : ℕ → α) {Rcut : α}
    (hR : 0 < Rcut) (hr : Rcut / sqrt (raw_min_dist cart) + 1 < 2147483648) :
    raw_maxn_fp id sqrt cart Rcut = raw_maxn sqrt cart Rcut := by
  have h0 : 0 ≤ Rcut / sqrt (raw_min_dist cart) :=
    div_nonneg hR.le (hsq _ (raw_min_dist_nonneg cart)).1
  unfold raw_maxn_fp raw_maxn
  simp only [id, raw_min_dist_fp_id]
  exact double_to_int_of_range (by linarith) hr

theorem raw_pair_fp_id (sqrt : α → α) (cart : ℕ → α) (u : ℕ → ℕ → α) (Rcut : α) (i : ℕ)
    (n : ℤ × ℤ × ℤ) (j : ℕ) :
    raw_pair_fp id sqrt cart u Rcut i n j = raw_pair sqrt cart u Rcut i n j := rfl

theorem shifts_fp_eq {m : ℤ} (h0 : 0 ≤ m) (h1 : m ≤ 2147483647) : shifts_fp m = shifts m := by
  unfold shifts_fp shifts
  rw [wrap_int_eq_self (by omega) (by omega)]

theorem length_shifts {m : ℤ} : (shifts m).length = (2 * m + 1).toNat ^ 3 := by
  unfold shifts
  rw [length_flatMap_const _ _ ((2 * m + 1).toNat * (2 * m + 1).toNat), length_loop_incl]
  · rw [show m + 1 - -m = 2 * m + 1 by ring]
    ring
  · intro a _
    rw [length_flatMap_const _ _ (2 * m + 1).toNat, length_loop_incl]
    · rw [show m + 1 - -m = 2 * m + 1 by ring]
    · intro b _
      rw [List.length_map, length_loop_incl]
      rw [show m + 1 - -m = 2 * m + 1 by ring]

theorem nn_raw_length_le (sqrt : α → α) (cart : ℕ → α) (N : ℕ) (u : ℕ → ℕ → α) (Rcut : α) :
    (nn_raw sqrt cart N u Rcut).length
      ≤ N * ((2 * raw_maxn sqrt cart Rcut + 1).toNat ^ 3 * N) := by
  unfold nn_raw
  refine le_trans (length_flatMap_le _ _ _ ?_) (le_of_eq (by rw [List.length_range]))
  intro i _
  refine le_trans (length_flatMap_le _ _ N ?_) (le_of_eq (by rw [length_shifts]))
  intro n _
  exact le_trans (List.length_filterMap_le _ _) (le_of_eq (List.length_range _))

theorem wrap_int_idem (a : ℤ) : wrap_int (wrap_int a) = wrap_int a := by
  have h := wrap_int_mul_left a 1
  rwa [mul_one, mul_one] at h

theorem wrap_int_mul_congr {a b c d : ℤ} (h1 : wrap_int a = wrap_int c)
    (h2 : wrap_int b = wrap_int d) : wrap_int (a * b) = wrap_int (c * d) := by
  rw [← wrap_int_mul_left a, ← wrap_int_mul_right _ b, h1, h2, wrap_int_mul_left,
    wrap_int_mul_right]

theorem nn_raw_npair_eq (N : ℕ) (m : ℤ) :
    nn_raw_npair N m = wrap_int ((N : ℤ) * (N : ℤ) * (2 * m + 1) * (2 * m + 1) * (2 * m + 1)) := by
  have e : wrap_int (wrap_int (wrap_int (2 * m) + 1)) = wrap_int (2 * m + 1) := by
    rw [wrap_int_idem, wrap_int_add_left]
  unfold nn_raw_npair
  refine wrap_int_mul_congr ?_ e
  rw [wrap_int_idem]
  refine wrap_int_mul_congr ?_ e
  rw [wrap_int_idem]
  refine wrap_int_mul_congr ?_ e
  rw [wrap_int_idem]

/-- In exact arithmetic, with `maxn` and the size of the pair list in the range of `int`,
`nn_raw` in machine arithmetic returns the exact pair list. -/
theorem nn_raw_fp_id {sqrt : α → α} (hsq : IsSqrt sqrt) (cart : ℕ → α) (N : ℕ)
    (u : ℕ → ℕ → α) {Rcut : α} (hR : 0 < Rcut)
    (hr : Rcut / sqrt (raw_min_dist cart) + 1 < 2147483648)
    (hbuf : (N : ℤ) * (N : ℤ) * (2 * raw_maxn_fp id sqrt cart Rcut + 1) ^ 3 ≤ 2147483647) :
    nn_raw_fp id sqrt cart N u Rcut = some (nn_raw sqrt cart N u Rcut) := by
  have hm := raw_maxn_fp_id hsq cart hR hr
  have h1 := raw_maxn_ge_one hsq cart hR
  rw [hm] at hbuf
  have hmax : raw_maxn sqrt cart Rcut ≤ 2147483647 := by
    have : raw_maxn sqrt cart Rcut < 2147483648 := by
      unfold raw_maxn
      exact toInt_lt_of_lt 2147483648 (by norm_num) (by exact_mod_cast hr)
    omega
  have hst : nn_raw_stores_fp id sqrt cart N u Rcut = nn_raw sqrt cart N u Rcut := by
    unfold nn_raw_stores_fp nn_raw
    rw [hm, shifts_fp_eq (by omega) hmax]
    rfl
  have hlen := nn_raw_length_le sqrt cart N u Rcut
  have hpos : (0 : ℤ) ≤ (N : ℤ) * (N : ℤ) * (2 * raw_maxn sqrt cart Rcut + 1) ^ 3 := by
    positivity
  have hnp : nn_raw_npair N (raw_maxn sqrt cart Rcut)
      = (N : ℤ) * (N : ℤ) * (2 * raw_maxn sqrt cart Rcut + 1) ^ 3 := by
    rw [nn_raw_npair_eq, show (N : ℤ) * (N : ℤ) * (2 * raw_maxn sqrt cart Rcut + 1)
        * (2 * raw_maxn sqrt cart Rcut + 1) * (2 * raw_maxn sqrt cart Rcut + 1)
      = (N : ℤ) * (N : ℤ) * (2 * raw_maxn sqrt cart Rcut + 1) ^ 3 by ring,
      wrap_int_eq_self (by omega) hbuf]
  have hcast : ((N * ((2 * raw_maxn sqrt cart Rcut + 1).toNat ^ 3 * N) : ℕ) : ℤ)
      = (N : ℤ) * (N : ℤ) * (2 * raw_maxn sqrt cart Rcut + 1) ^ 3 := by
    push_cast
    rw [Int.toNat_of_nonneg (by omega)]
    ring
  unfold nn_raw_fp
  rw [hm, hnp, hst, if_neg (by omega), if_pos]
  have : ((nn_raw sqrt cart N u Rcut).length : ℤ)
      ≤ (N : ℤ) * (N : ℤ) * (2 * raw_maxn sqrt cart Rcut + 1) ^ 3 := by
    rw [← hcast]
    exact_mod_cast hlen
  omega

/-- When the counts of `calc_grid`, the number of blocks and `27 * Natoms^2` are in the
range of `int`, so is the size of the pair list of `nn_grid`. -/
theorem grid_path_sizes {sqrt : α → α} (hsq : IsSqrt sqrt) (cart : ℕ → α) (N : ℕ)
    (u : ℕ → ℕ → α) {Rcut : α} (hR : 0 < Rcut)
    (hu : ∀ n, n < N → ∀ k, k < 3 → 0 ≤ u n k ∧ u n k < 1)
    (hgrid : ∀ k, k < 3 → calc_len sqrt cart k / Rcut < 2147483648)
    (hcells : calc_grid sqrt cart Rcut 0 * calc_grid sqrt cart Rcut 1
      * calc_grid sqrt cart Rcut 2 ≤ 2147483647)
    (hNN : N * 27 * N ≤ 2147483647) :
    calc_grid_fp id sqrt cart Rcut 0 * calc_grid_fp id sqrt cart Rcut 1
        * calc_grid_fp id sqrt cart Rcut 2 ≤ 2147483647 ∧
    ∀ gl b, populate_grid_fp id (calc_grid_fp id sqrt cart Rcut)
        (make_grid (calc_grid_fp id sqrt cart Rcut)) N u = some (gl, b) →
      nn_grid_capacity (Ngridelem_fp (calc_grid_fp id sqrt cart Rcut)).toNat gl N
        ≤ 2147483647 := by
  have hf := calc_grid_fp_id_fun hsq cart hR hgrid
  have hN : ∀ k, k < 3 → 1 ≤ calc_grid sqrt cart Rcut k :=
    fun k _ => calc_grid_ge_one hsq cart hR k
  refine ⟨by rw [hf]; exact hcells, ?_⟩
  intro gl b h
  rw [hf] at h ⊢
  rw [Ngridelem_fp_eq hN hcells]
  exact le_trans (nn_grid_capacity_le id _ N u hN hcells hu
    (fun n hn => grid_elem_fp_id hN hcells (hu n hn)) gl b h) hNN

/-- C2, amended: in exact arithmetic, for a non-singular lattice, atoms inside the cell and
a positive cutoff below half of every perpendicular spacing, when the quotients
`len[k]/Rcut`, the number of blocks, `maxn` and the sizes of the two pair lists
(`natoms*nneigh*Natoms` and `Natoms*Natoms*(2*maxn+1)^3`) are in the range of `int`, the grid
path and `nn_raw` both return and write the same set of `(i, j, length)` triples. -/
theorem grid_path_fp_records_eq_nn_raw_fp (sqrt : α → α) (hsq : IsSqrt sqrt) (cart : ℕ → α)
    (Natoms : ℕ) (u : ℕ → ℕ → α) (Rcut : α) (hdet : triple_product cart ≠ 0) (hR : 0 < Rcut)
    (hu : ∀ n, n < Natoms → ∀ k, k < 3 → 0 ≤ u n k ∧ u n k < 1)
    (hhalf : ∀ k, k < 3 → Rcut < calc_len sqrt cart k / 2)
    (hgrid : ∀ k, k < 3 → calc_len sqrt cart k / Rcut < 2147483648)
    (hcells : calc_grid_fp id sqrt cart Rcut 0 * calc_grid_fp id sqrt cart Rcut 1
      * calc_grid_fp id sqrt cart Rcut 2 ≤ 2147483647)
    (hbuf : ∀ gl b, populate_grid_fp id (calc_grid_fp id sqrt cart Rcut)
        (make_grid (calc_grid_fp id sqrt cart Rcut)) Natoms u = some (gl, b) →
      nn_grid_capacity (Ngridelem_fp (calc_grid_fp id sqrt cart Rcut)).toNat gl Natoms
        ≤ 2147483647)
    (hmaxn : Rcut / sqrt (raw_min_dist cart) + 1 < 2147483648)
    (hrawbuf : (Natoms : ℤ) * (Natoms : ℤ) * (2 * raw_maxn_fp id sqrt cart Rcut + 1) ^ 3
      ≤ 2147483647) :
    ∃ out out_raw, grid_path_fp id sqrt cart Natoms u Rcut = some out ∧
      nn_raw_fp id sqrt cart Natoms u Rcut = some out_raw ∧
      ∀ i j r, (∃ p ∈ out, p.i = i ∧ p.j = j ∧ p.r = r) ↔
        (∃ p ∈ out_raw, p.i = i ∧ p.j = j ∧ p.r = r) := by
  obtain ⟨out, hout, h⟩ :=
    grid_path_records_eq_nn_raw sqrt hsq cart Natoms u Rcut hdet hR hu hhalf
  refine ⟨out, _, ?_, nn_raw_fp_id hsq cart Natoms u hR hmaxn hrawbuf, h⟩
  rw [grid_path_fp_id hsq cart Natoms u Rcut hR hu hgrid hcells hbuf]
  exact hout

theorem calc_grid_cubic_two_fifths (k : ℕ) (hk : k < 3) :
    calc_grid Real.sqrt (arr [(1 : ℝ), 0, 0, 0, 1, 0, 0, 0, 1]) (2 / 5) k = 2 := by
  have h : toInt ((1 : ℝ) / (2 / 5)) = 2 :=
    toInt_of_floor 2 (by norm_num) (by norm_num) (by norm_num)
  unfold calc_grid
  rw [calc_len_cubic k hk, h]
  rfl

theorem raw_maxn_cubic_two_fifths :
    raw_maxn Real.sqrt (arr [(1 : ℝ), 0, 0, 0, 1, 0, 0, 0, 1]) (2 / 5) = 1 := by
  rw [raw_maxn_cubic isSqrt_real]
  exact toInt_of_floor 1 (by norm_num) (by norm_num) (by norm_num)

theorem grid_path_fp_records_eq_nn_raw_fp_witness :
    IsSqrt Real.sqrt ∧ triple_product (arr [(1 : ℝ), 0, 0, 0, 1, 0, 0, 0, 1]) ≠ 0 ∧
    (0 : ℝ) < 2 / 5 ∧
    (∀ n, n < 2 → ∀ k, k < 3 → 0 ≤ atoms [[(0 : ℝ), 0, 0], [1 / 4, 0, 0]] n k ∧
      atoms [[(0 : ℝ), 0, 0], [1 / 4, 0, 0]] n k < 1) ∧
    (∀ k, k < 3 → 2 / 5 < calc_len Real.sqrt (arr [(1 : ℝ), 0, 0, 0, 1, 0, 0, 0, 1]) k / 2) ∧
    (∀ k, k < 3 → calc_len Real.sqrt (arr [(1 : ℝ), 0, 0, 0, 1, 0, 0, 0, 1]) k / (2 / 5)
      < 2147483648) ∧
    2 / 5 / Real.sqrt (raw_min_dist (arr [(1 : ℝ), 0, 0, 0, 1, 0, 0, 0, 1])) + 1
      < 2147483648 ∧
    ((2 : ℕ) : ℤ) * ((2 : ℕ) : ℤ)
      * (2 * raw_maxn_fp id Real.sqrt (arr [(1 : ℝ), 0, 0, 0, 1, 0, 0, 0, 1]) (2 / 5) + 1) ^ 3
      ≤ 2147483647 ∧
    ∃ out out_raw, grid_path_fp id Real.sqrt (arr [(1 : ℝ), 0, 0, 0, 1, 0, 0, 0, 1]) 2
        (atoms [[0, 0, 0], [1 / 4, 0, 0]]) (2 / 5) = some out ∧
      nn_raw_fp id Real.sqrt (arr [(1 : ℝ), 0, 0, 0, 1, 0, 0, 0, 1]) 2
        (atoms [[0, 0, 0], [1 / 4, 0, 0]]) (2 / 5) = some out_raw ∧
      ∀ i j r, (∃ p ∈ out, p.i = i ∧ p.j = j ∧ p.r = r) ↔
        (∃ p ∈ out_raw, p.i = i ∧ p.j = j ∧ p.r = r) :=
  have h2 := atoms_two_inside (1 / 4 : ℝ) 0 0 (by norm_num) (by norm_num) (by norm_num)
  have h3 : ∀ k, k < 3 →
      2 / 5 < calc_len Real.sqrt (arr [(1 : ℝ), 0, 0, 0, 1, 0, 0, 0, 1]) k / 2 := by
    intro k hk
    rw [calc_len_cubic k hk]
    norm_num
  have h4 : ∀ k, k < 3 →
      calc_len Real.sqrt (arr [(1 : ℝ), 0, 0, 0, 1, 0, 0, 0, 1]) k / (2 / 5) < 2147483648 := by
    intro k hk
    rw [calc_len_cubic k hk]
    norm_num
  have h5 : 2 / 5 / Real.sqrt (raw_min_dist (arr [(1 : ℝ), 0, 0, 0, 1, 0, 0, 0, 1])) + 1
      < 2147483648 := by
    rw [raw_min_dist_cubic, Real.sqrt_one]
    norm_num
  have h6 : ((2 : ℕ) : ℤ) * ((2 : ℕ) : ℤ)
      * (2 * raw_maxn_fp id Real.sqrt (arr [(1 : ℝ), 0, 0, 0, 1, 0, 0, 0, 1]) (2 / 5) + 1) ^ 3
      ≤ 2147483647 := by
    rw [raw_maxn_fp_id isSqrt_real _ (by norm_num) h5, raw_maxn_cubic_two_fifths]
    decide
  have h7 := grid_path_sizes isSqrt_real (arr [(1 : ℝ), 0, 0, 0, 1, 0, 0, 0, 1]) 2
    (atoms [[0, 0, 0], [1 / 4, 0, 0]]) (by norm_num : (0 : ℝ) < 2 / 5) h2 h4
    (by
      rw [calc_grid_cubic_two_fifths 0 (by norm_num), calc_grid_cubic_two_fifths 1 (by norm_num),
        calc_grid_cubic_two_fifths 2 (by norm_num)]
      decide)
    (by decide)
  ⟨isSqrt_real, triple_product_cubic, by norm_num, h2, h3, h4, h5, h6,
    grid_path_fp_records_eq_nn_raw_fp Real.sqrt isSqrt_real _ 2 _ (2 / 5) triple_product_cubic
      (by norm_num) h2 h3 h4 h7.1 h7.2 h5 h6⟩

/-! ### The two pair lists at the edge of the range of int -/

theorem make_grid_Nneigh_le_of (Ngrid : ℕ → ℤ) (B : ℕ)
    (hB : grid_nfactor (Ngrid 0) * grid_nfactor (Ngrid 1) * grid_nfactor (Ngrid 2) ≤ B)
    (c : ℕ) : ((make_grid Ngrid).getD c default).Nneigh ≤ B := by
  have hall : ∀ x ∈ make_grid Ngrid, x.Nneigh ≤ B := by
    unfold make_grid
    apply foldl_set_forall (fun i : ℤ × ℤ × ℤ => (trip2int Ngrid i.1 i.2.1 i.2.2).toNat)
      (make_cell Ngrid) (fun x => x.Nneigh ≤ B)
    · intro b _
      unfold make_cell
      simp only
      exact hB
    · intro x hx
      rw [List.eq_of_mem_replicate hx]
      exact Nat.zero_le _
  by_cases hc : c < (make_grid Ngrid).length
  · rw [List.getD_eq_getElem _ _ hc]
    exact hall _ (List.getElem_mem hc)
  · rw [List.getD_eq_getElem?_getD, List.getElem?_eq_none (by omega)]
    exact Nat.zero_le _

/-- On the grid that `make_grid` and `populate_grid` build, the size `natoms*nneigh*Natoms`
of the pair list is at most `nneigh * Natoms^2`, `nneigh` being the number of neighbours
`make_grid` gives every block. -/
theorem nn_grid_capacity_le_of (rnd : α → α) (Ngrid : ℕ → ℤ) (N : ℕ) (u : ℕ → ℕ → α)
    (hN : ∀ k, k < 3 → 1 ≤ Ngrid k) (hcells : Ngrid 0 * Ngrid 1 * Ngrid 2 ≤ 2147483647)
    (hu : ∀ n, n < N → ∀ k, k < 3 → 0 ≤ u n k ∧ u n k < 1)
    (hge : ∀ n, n < N → grid_elem_fp rnd Ngrid (u n) = grid_elem Ngrid (u n)) (B : ℕ)
    (hB : grid_nfactor (Ngrid 0) * grid_nfactor (Ngrid 1) * grid_nfactor (Ngrid 2) ≤ B)
    (gl : List grid_elem_type) (b : Bool)
    (h : populate_grid_fp rnd Ngrid (make_grid Ngrid) N u = some (gl, b)) :
    nn_grid_capacity (Ngrid 0 * Ngrid 1 * Ngrid 2).toNat gl N ≤ N * B * N := by
  obtain ⟨gl0, hgl0, -, hsum, hc⟩ := populate_grid_fp_spec rnd Ngrid u (make_grid Ngrid) N hN
    hcells (make_grid_length _) (fun n hn => grid_elem_bounds hN (hu n hn)) hge
  rw [hgl0] at h
  have e : gl0 = gl := (Prod.mk.inj (Option.some.inj h)).1
  subst e
  have hA : ∀ c, (gl0.getD c default).Natoms ≤ N := by
    intro c
    by_cases hcl : c < gl0.length
    · rw [List.getD_eq_getElem _ _ hcl, ← hsum]
      apply List.single_le_sum (fun x _ => Nat.zero_le x)
      exact List.mem_map.2 ⟨gl0[c], List.getElem_mem hcl, rfl⟩
    · rw [List.getD_eq_getElem?_getD, List.getElem?_eq_none (by omega)]
      exact Nat.zero_le _
  have hB2 : ∀ c, (gl0.getD c default).Nneigh ≤ B := by
    intro c
    rw [(hc c).2.1]
    exact make_grid_Nneigh_le_of Ngrid B hB c
  obtain ⟨h1, h2⟩ := capacity_fold_le gl0 (List.range (Ngrid 0 * Ngrid 1 * Ngrid 2).toNat) N B
    (fun ng _ => ⟨hA ng, hB2 ng⟩) (0, 0) (Nat.zero_le _) (Nat.zero_le _)
  unfold nn_grid_capacity
  simp only
  exact Nat.mul_le_mul (Nat.mul_le_mul h1 h2) (le_refl N)

/-- With `8919` atoms in the unit cubic cell and the cutoff `2/5` the grid path returns:
there are `2*2*2` blocks of `8` neighbours each, and the size of the pair list is at most
`8 * 8919^2`. -/
theorem grid_path_fp_returns_8919 (u : ℕ → ℕ → ℝ)
    (hu : ∀ n, n < 8919 → ∀ k, k < 3 → 0 ≤ u n k ∧ u n k < 1) :
    ∃ out, grid_path_fp id Real.sqrt (arr [(1 : ℝ), 0, 0, 0, 1, 0, 0, 0, 1]) 8919 u (2 / 5)
      = some out := by
  have hR : (0 : ℝ) < 2 / 5 := by norm_num
  have hgrid : ∀ k, k < 3 →
      calc_len Real.sqrt (arr [(1 : ℝ), 0, 0, 0, 1, 0, 0, 0, 1]) k / (2 / 5) < 2147483648 := by
    intro k hk
    rw [calc_len_cubic k hk]
    norm_num
  have hf := calc_grid_fp_id_fun isSqrt_real (arr [(1 : ℝ), 0, 0, 0, 1, 0, 0, 0, 1]) hR hgrid
  have hN : ∀ k, k < 3 →
      1 ≤ calc_grid Real.sqrt (arr [(1 : ℝ), 0, 0, 0, 1, 0, 0, 0, 1]) (2 / 5) k :=
    fun k _ => calc_grid_ge_one isSqrt_real _ hR k
  have c0 := calc_grid_cubic_two_fifths 0 (by norm_num)
  have c1 := calc_grid_cubic_two_fifths 1 (by norm_num)
  have c2 := calc_grid_cubic_two_fifths 2 (by norm_num)
  have hcells : calc_grid Real.sqrt (arr [(1 : ℝ), 0, 0, 0, 1, 0, 0, 0, 1]) (2 / 5) 0
      * calc_grid Real.sqrt (arr [(1 : ℝ), 0, 0, 0, 1, 0, 0, 0, 1]) (2 / 5) 1
      * calc_grid Real.sqrt (arr [(1 : ℝ), 0, 0, 0, 1, 0, 0, 0, 1]) (2 / 5) 2 ≤ 2147483647 := by
    rw [c0, c1, c2]
    decide
  have hbuf : ∀ gl b, populate_grid_fp id
      (calc_grid_fp id Real.sqrt (arr [(1 : ℝ), 0, 0, 0, 1, 0, 0, 0, 1]) (2 / 5))
      (make_grid (calc_grid_fp id Real.sqrt (arr [(1 : ℝ), 0, 0, 0, 1, 0, 0, 0, 1]) (2 / 5)))
        8919 u = some (gl, b) →
      nn_grid_capacity
        (Ngridelem_fp (calc_grid_fp id Real.sqrt (arr [(1 : ℝ), 0, 0, 0, 1, 0, 0, 0, 1])
          (2 / 5))).toNat gl 8919 ≤ 2147483647 := by
    intro gl b h
    rw [hf] at h ⊢
    rw [Ngridelem_fp_eq hN hcells]
    refine le_trans (nn_grid_capacity_le_of id _ 8919 u hN hcells hu
      (fun n hn => grid_elem_fp_id hN hcells (hu n hn)) 8 ?_ gl b h) (by norm_num)
    rw [c0, c1, c2]
    decide
  obtain ⟨out, hout, -⟩ := grid_path_spec isSqrt_real (arr [(1 : ℝ), 0, 0, 0, 1, 0, 0, 0, 1])
    8919 u (2 / 5) hR hu
  refine ⟨out, ?_⟩
  rw [grid_path_fp_id isSqrt_real _ 8919 u (2 / 5) hR hu hgrid (by rw [hf]; exact hcells) hbuf]
  exact hout

/-- With `8919` atoms in the unit cubic cell and the cutoff `2/5`, `maxn = 1` and the size
`Natoms*Natoms*3*3*3` of the pair list of `nn_raw` wraps to a negative `int`. -/
theorem nn_raw_fp_8919 (u : ℕ → ℕ → ℝ) :
    raw_maxn_fp id Real.sqrt (arr [(1 : ℝ), 0, 0, 0, 1, 0, 0, 0, 1]) (2 / 5) = 1 ∧
    nn_raw_npair 8919 1 = -2147156149 ∧
    nn_raw_fp id Real.sqrt (arr [(1 : ℝ), 0, 0, 0, 1, 0, 0, 0, 1]) 8919 u (2 / 5) = none := by
  have h5 : 2 / 5 / Real.sqrt (raw_min_dist (arr [(1 : ℝ), 0, 0, 0, 1, 0, 0, 0, 1])) + 1
      < 2147483648 := by
    rw [raw_min_dist_cubic, Real.sqrt_one]
    norm_num
  have hm : raw_maxn_fp id Real.sqrt (arr [(1 : ℝ), 0, 0, 0, 1, 0, 0, 0, 1]) (2 / 5) = 1 := by
    rw [raw_maxn_fp_id isSqrt_real _ (by norm_num) h5, raw_maxn_cubic_two_fifths]
  have hn : nn_raw_npair 8919 1 = -2147156149 := by decide
  refine ⟨hm, hn, ?_⟩
  unfold nn_raw_fp
  rw [hm, hn, if_pos (by decide)]

/-! ### The two paths on doubles: atoms `0.2` apart, cutoff `0.3` -/

theorem mem_nn_grid_stores_fp {rnd : α → α} {sqrt : α → α} {cart : ℕ → α} {M : ℕ}
    {gl : List grid_elem_type} {u : ℕ → ℕ → α} {Rcut : α} {p : nn_pair_type α}
    (h : p ∈ nn_grid_stores_fp rnd sqrt cart M gl u Rcut) :
    ∃ i j, grid_pair_fp rnd sqrt cart u Rcut i j = some p := by
  unfold nn_grid_stores_fp at h
  simp only [List.mem_flatMap, List.mem_filterMap] at h
  obtain ⟨_, _, i, _, _, _, j, _, hp⟩ := h
  exact ⟨i, j, hp⟩

theorem grid_pair_fp_some {rnd : α → α} {sqrt : α → α} {cart : ℕ → α} {u : ℕ → ℕ → α}
    {Rcut : α} {i j : ℕ} {p : nn_pair_type α}
    (h : grid_pair_fp rnd sqrt cart u Rcut i j = some p) :
    p.i = i ∧ p.j = j ∧ p.r = rnd (sqrt (grid_r2_fp rnd cart u i j)) := by
  unfold grid_pair_fp at h
  split_ifs at h
  have e := Option.some.inj h
  subst e
  exact ⟨rfl, rfl, rfl⟩

theorem nn_raw_stores_fp_length_le (rnd : α → α) (sqrt : α → α) (cart : ℕ → α) (N : ℕ)
    (u : ℕ → ℕ → α) (Rcut : α) :
    (nn_raw_stores_fp rnd sqrt cart N u Rcut).length
      ≤ N * ((shifts_fp (raw_maxn_fp rnd sqrt cart Rcut)).length * N) := by
  unfold nn_raw_stores_fp
  refine le_trans (length_flatMap_le _ _ _ ?_) (le_of_eq (by rw [List.length_range]))
  intro i _
  refine length_flatMap_le _ _ N ?_
  intro n _
  exact le_trans (List.length_filterMap_le _ _) (le_of_eq (List.length_range _))

theorem mem_nn_raw_stores_fp_of {rnd : α → α} {sqrt : α → α} {cart : ℕ → α} {N : ℕ}
    {u : ℕ → ℕ → α} {Rcut : α} {i j : ℕ} {n : ℤ × ℤ × ℤ} {p : nn_pair_type α}
    (hi : i < N) (hj : j < N) (hn : n ∈ shifts_fp (raw_maxn_fp rnd sqrt cart Rcut))
    (h : raw_pair_fp rnd sqrt cart u Rcut i n j = some p) :
    p ∈ nn_raw_stores_fp rnd sqrt cart N u Rcut := by
  unfold nn_raw_stores_fp
  simp only [List.mem_flatMap, List.mem_filterMap, List.mem_range]
  exact ⟨i, hi, n, hn, j, hj, h⟩

/-- The rounding of a square root that is not half-way between two doubles. -/
theorem fl_sqrt_eq_of_near {x : ℝ} (k m : ℤ) (h1 : ((2 : ℝ) ^ k) ^ 2 ≤ x)
    (h2 : x < ((2 : ℝ) ^ (k + 1)) ^ 2) (hm : (0 : ℝ) ≤ (m : ℝ) - 1 / 2)
    (h3 : (((m : ℝ) - 1 / 2) * (2 : ℝ) ^ (k - 52)) ^ 2 < x)
    (h4 : x < (((m : ℝ) + 1 / 2) * (2 : ℝ) ^ (k - 52)) ^ 2) :
    fl (Real.sqrt x) = (m : ℝ) * (2 : ℝ) ^ (k - 52) := by
  have hp : (0 : ℝ) < (2 : ℝ) ^ (k - 52) := by positivity
  apply fl_eq_of_near k m
  · rw [abs_of_nonneg (Real.sqrt_nonneg _)]
    exact Real.le_sqrt_of_sq_le h1
  · rw [abs_of_nonneg (Real.sqrt_nonneg _), Real.sqrt_lt' (by positivity)]
    exact h2
  · rw [lt_div_iff₀ hp, Real.lt_sqrt (mul_nonneg hm hp.le)]
    exact h3
  · rw [div_lt_iff₀ hp, Real.sqrt_lt' (mul_pos (by linarith) hp)]
    exact h4

theorem fl_sqrt_r2_fold :
    fl (Real.sqrt (5764607523034245 / 144115188075855872))
      = 225179981368525 / 1125899906842624 := by
  rw [fl_sqrt_eq_of_near (-3) 7205759403792800 (by norm_num) (by norm_num) (by norm_num)
    (by norm_num) (by norm_num)]
  norm_num

theorem fl_sqrt_r2_raw :
    fl (Real.sqrt (1441151880758559 / 36028797018963968))
      = 3602879701896397 / 18014398509481984 := by
  rw [fl_sqrt_eq_of_near (-3) 7205759403792794 (by norm_num) (by norm_num) (by norm_num)
    (by norm_num) (by norm_num)]
  norm_num

theorem fl_three_tenths : fl (5404319552844595 / 18014398509481984 : ℝ)
    = 5404319552844595 / 18014398509481984 :=
  fl_of_double (-2) 5404319552844595 (by norm_num [abs_of_pos]) (by norm_num [abs_of_pos])
    (by norm_num)

theorem fl_sq_three_tenths :
    fl ((5404319552844595 / 18014398509481984 : ℝ) * (5404319552844595 / 18014398509481984))
      = 3242591731706757 / 36028797018963968 := by
  rw [fl_eq_of_near (-4) 6485183463413514 (by norm_num [abs_of_pos])
    (by norm_num [abs_of_pos]) (by norm_num) (by norm_num)]
  norm_num

/-- On doubles, for the unit cubic lattice and the cutoff `0.3`, `calc_grid` gives three
blocks along every axis: `1/0.3` is rounded to `3.3333333333333335`. -/
theorem calc_grid_fp_cubic_three_tenths (k : ℕ) (hk : k < 3) :
    calc_grid_fp fl Real.sqrt (arr [(1 : ℝ), 0, 0, 0, 1, 0, 0, 0, 1])
      (5404319552844595 / 18014398509481984) k = 3 := by
  have e1 : fl ((1 : ℝ) / (5404319552844595 / 18014398509481984))
      = 7505999378950827 / 2251799813685248 := by
    rw [fl_eq_of_near 1 7505999378950827 (by norm_num [abs_of_pos])
      (by norm_num [abs_of_pos]) (by norm_num) (by norm_num)]
    norm_num
  have e2 : double_to_int (7505999378950827 / 2251799813685248 : ℝ) = 3 :=
    double_to_int_of_floor 3 (by norm_num) (by norm_num) (by norm_num) (by norm_num)
  unfold calc_grid_fp
  rw [calc_len_fp_cubic k hk, e1, e2]
  rfl

/-- On doubles, for the unit cubic lattice and the cutoff `0.3`, `maxn = 1` in `nn_raw`. -/
theorem raw_maxn_fp_cubic_three_tenths :
    raw_maxn_fp fl Real.sqrt (arr [(1 : ℝ), 0, 0, 0, 1, 0, 0, 0, 1])
      (5404319552844595 / 18014398509481984) = 1 := by
  have e1 : fl ((5404319552844595 / 18014398509481984 : ℝ) / 1)
      = 5404319552844595 / 18014398509481984 := by
    rw [div_one]
    exact fl_three_tenths
  have e2 : fl ((5404319552844595 / 18014398509481984 : ℝ) + 1)
      = 5854679515581645 / 4503599627370496 := by
    rw [fl_eq_of_near 0 5854679515581645 (by norm_num [abs_of_pos])
      (by norm_num [abs_of_pos]) (by norm_num) (by norm_num)]
    norm_num
  have e3 : double_to_int (5854679515581645 / 4503599627370496 : ℝ) = 1 :=
    double_to_int_of_floor 1 (by norm_num) (by norm_num) (by norm_num) (by norm_num)
  unfold raw_maxn_fp
  rw [raw_min_dist_fp_cubic, Real.sqrt_one, fl_one, e1, e2, e3]

/-- With three blocks along every axis both atoms lie in the block `0`, on doubles as in
exact arithmetic: `0.2 * 3` is rounded to `0.6000000000000001`. -/
theorem grid_elem_fp_three_blocks_fifth (G : ℕ → ℤ) (h0 : G 0 = 3) (h1 : G 1 = 3)
    (h2 : G 2 = 3) (n : ℕ) (hn : n < 2) :
    grid_elem_fp fl G
        (atoms [[(0 : ℝ), 0, 0], [3602879701896397 / 18014398509481984, 0, 0]] n) = 0 ∧
      grid_elem G
        (atoms [[(0 : ℝ), 0, 0], [3602879701896397 / 18014398509481984, 0, 0]] n) = 0 := by
  have hz : double_to_int (0 : ℝ) = 0 :=
    double_to_int_of_floor 0 (by norm_num) (by norm_num) (by norm_num) (by norm_num)
  have tz : toInt (0 : ℝ) = 0 := toInt_of_floor 0 (le_refl _) (by norm_num) (by norm_num)
  have e1 : fl ((3602879701896397 / 18014398509481984 : ℝ) * ((3 : ℤ) : ℝ))
      = 1351079888211149 / 2251799813685248 := by
    rw [fl_eq_of_tie_odd (-1) 5404319552844595 (by norm_num [abs_of_pos])
      (by norm_num [abs_of_pos]) (by norm_num) (by norm_num)]
    norm_num
  have ha : double_to_int (1351079888211149 / 2251799813685248 : ℝ) = 0 :=
    double_to_int_of_floor 0 (by norm_num) (by norm_num) (by norm_num) (by norm_num)
  have ta : toInt ((3602879701896397 / 18014398509481984 : ℝ) * ((3 : ℤ) : ℝ)) = 0 :=
    toInt_of_floor 0 (le_refl _) (by norm_num) (by norm_num)
  rw [grid_elem_fp_wrap]
  unfold grid_elem
  rw [h0, h1, h2]
  interval_cases n
  · simp only [atoms, List.getD_cons_zero, List.getD_cons_succ, zero_mul, fl_zero, hz, tz]
    decide
  · simp only [atoms, List.getD_cons_zero, List.getD_cons_succ, zero_mul, fl_zero, hz, tz,
      e1, ha, ta]
    decide

/-- On doubles, for the unit cubic lattice and the atoms `(0,0,0)`, `(0.2,0,0)`: the squared
separation `nn_raw` finds from atom 0 to atom 1 with the shift `(0,0,0)` is `0.2*0.2`
rounded. -/
theorem raw_r2_fp_fifth :
    raw_r2_fp fl (arr [(1 : ℝ), 0, 0, 0, 1, 0, 0, 0, 1])
        (atoms [[0, 0, 0], [3602879701896397 / 18014398509481984, 0, 0]]) 0 1 (0, 0, 0)
      = 1441151880758559 / 36028797018963968 := by
  have e : fl (1441151880758559 / 36028797018963968 : ℝ)
      = 1441151880758559 / 36028797018963968 :=
    fl_of_double (-5) 5764607523034236 (by norm_num [abs_of_pos])
      (by norm_num [abs_of_pos]) (by norm_num)
  simp only [raw_r2_fp, raw_vect_fp, atoms, arr, List.getD_cons_zero, List.getD_cons_succ,
    sub_zero, sub_self, Int.cast_zero, fl_zero, fl_fifth, one_mul, zero_mul, mul_zero,
    add_zero, zero_add, fl_sq_fifth, e]

/-- On doubles, for the unit cubic lattice, the atoms `(0,0,0)`, `(0.2,0,0)` and the cutoff
`0.3`, the grid path returns, and every record it writes for the pair `(0,1)` has the length
`0.20000000000000018`. -/
theorem grid_path_fp_fifth :
    ∃ out, grid_path_fp fl Real.sqrt (arr [(1 : ℝ), 0, 0, 0, 1, 0, 0, 0, 1]) 2
        (atoms [[0, 0, 0], [3602879701896397 / 18014398509481984, 0, 0]])
        (5404319552844595 / 18014398509481984) = some out ∧
      ∀ p ∈ out, p.i = 0 → p.j = 1 → p.r = 225179981368525 / 1125899906842624 := by
  have g0 := calc_grid_fp_cubic_three_tenths 0 (by norm_num)
  have g1 := calc_grid_fp_cubic_three_tenths 1 (by norm_num)
  have g2 := calc_grid_fp_cubic_three_tenths 2 (by norm_num)
  unfold grid_path_fp
  generalize calc_grid_fp fl Real.sqrt (arr [(1 : ℝ), 0, 0, 0, 1, 0, 0, 0, 1])
    (5404319552844595 / 18014398509481984) = G at g0 g1 g2
  have hN : ∀ k, k < 3 → 1 ≤ G k := by
    intro k hk
    interval_cases k
    · rw [g0]; decide
    · rw [g1]; decide
    · rw [g2]; decide
  have hcells : G 0 * G 1 * G 2 ≤ 2147483647 := by
    rw [g0, g1, g2]
    decide
  have hu := atoms_two_inside (3602879701896397 / 18014398509481984 : ℝ) 0 0
    (by norm_num) (by norm_num) (by norm_num)
  have hkey0 : ∀ n, n < 2 → grid_elem G
      (atoms [[(0 : ℝ), 0, 0], [3602879701896397 / 18014398509481984, 0, 0]] n) = 0 :=
    fun n hn => (grid_elem_fp_three_blocks_fifth G g0 g1 g2 n hn).2
  have hge : ∀ n, n < 2 → grid_elem_fp fl G
      (atoms [[(0 : ℝ), 0, 0], [3602879701896397 / 18014398509481984, 0, 0]] n) =
        grid_elem G
          (atoms [[(0 : ℝ), 0, 0], [3602879701896397 / 18014398509481984, 0, 0]] n) := by
    intro n hn
    rw [(grid_elem_fp_three_blocks_fifth G g0 g1 g2 n hn).1, hkey0 n hn]
  obtain ⟨gl, hgl, hA, -⟩ := grid_built_fp fl G 2 _ hN hcells hu hge
  have hM : Ngridelem_fp G = G 0 * G 1 * G 2 := Ngridelem_fp_eq hN hcells
  have hM27 : (G 0 * G 1 * G 2).toNat = 27 := by
    rw [g0, g1, g2]
    decide
  have hb := nn_grid_capacity_le fl G 2 _ hN hcells hu hge gl false hgl
  have hs := nn_grid_fp_eq_some fl Real.sqrt (arr [(1 : ℝ), 0, 0, 0, 1, 0, 0, 0, 1])
    (G 0 * G 1 * G 2).toNat 2 gl
    (atoms [[(0 : ℝ), 0, 0], [3602879701896397 / 18014398509481984, 0, 0]])
    (5404319552844595 / 18014398509481984)
    (fun n => (grid_elem G
      (atoms [[(0 : ℝ), 0, 0], [3602879701896397 / 18014398509481984, 0, 0]] n)).toNat) hA
    (fun n hn => by
      show (grid_elem G
        (atoms [[(0 : ℝ), 0, 0], [3602879701896397 / 18014398509481984, 0, 0]] n)).toNat
          < (G 0 * G 1 * G 2).toNat
      rw [hkey0 n hn, hM27]
      decide) (le_trans hb (by norm_num))
  refine ⟨nn_grid_stores_fp fl Real.sqrt (arr [(1 : ℝ), 0, 0, 0, 1, 0, 0, 0, 1])
    (G 0 * G 1 * G 2).toNat gl
    (atoms [[(0 : ℝ), 0, 0], [3602879701896397 / 18014398509481984, 0, 0]])
    (5404319552844595 / 18014398509481984), ?_, ?_⟩
  · rw [hgl]
    simp only
    rw [hM]
    exact hs
  · intro p hp hi hj
    obtain ⟨i, j, hij⟩ := mem_nn_grid_stores_fp hp
    obtain ⟨e1, e2, e3⟩ := grid_pair_fp_some hij
    rw [hi] at e1
    rw [hj] at e2
    rw [e3, ← e1, ← e2, grid_r2_fp_fifth.1, fl_sqrt_r2_fold]

/-- On doubles, for the unit cubic lattice, the atoms `(0,0,0)`, `(0.2,0,0)` and the cutoff
`0.3`, `nn_raw` returns and writes a record for the pair `(0,1)` with the length `0.2`. -/
theorem nn_raw_fp_fifth :
    ∃ out_raw, nn_raw_fp fl Real.sqrt (arr [(1 : ℝ), 0, 0, 0, 1, 0, 0, 0, 1]) 2
        (atoms [[0, 0, 0], [3602879701896397 / 18014398509481984, 0, 0]])
        (5404319552844595 / 18014398509481984) = some out_raw ∧
      ∃ p ∈ out_raw, p.i = 0 ∧ p.j = 1 ∧ p.r = 3602879701896397 / 18014398509481984 := by
  have hm := raw_maxn_fp_cubic_three_tenths
  have hlen := nn_raw_stores_fp_length_le fl Real.sqrt (arr [(1 : ℝ), 0, 0, 0, 1, 0, 0, 0, 1]) 2
    (atoms [[0, 0, 0], [3602879701896397 / 18014398509481984, 0, 0]])
    (5404319552844595 / 18014398509481984)
  have hsh : shifts_fp 1 = shifts 1 := shifts_fp_eq (by decide) (by decide)
  rw [hm, hsh, length_shifts] at hlen
  have hn : nn_raw_npair 2 1 = 108 := by decide
  have h27 : (2 * (1 : ℤ) + 1).toNat ^ 3 = 27 := by decide
  rw [h27] at hlen
  refine ⟨nn_raw_stores_fp fl Real.sqrt (arr [(1 : ℝ), 0, 0, 0, 1, 0, 0, 0, 1]) 2
    (atoms [[0, 0, 0], [3602879701896397 / 18014398509481984, 0, 0]])
    (5404319552844595 / 18014398509481984), ?_, ?_⟩
  · unfold nn_raw_fp
    rw [hm, hn, if_neg (by decide), if_pos]
    exact le_trans hlen (by decide)
  · obtain ⟨p, hp, hi, hj, hr⟩ : ∃ p, raw_pair_fp fl Real.sqrt
        (arr [(1 : ℝ), 0, 0, 0, 1, 0, 0, 0, 1])
        (atoms [[0, 0, 0], [3602879701896397 / 18014398509481984, 0, 0]])
        (5404319552844595 / 18014398509481984) 0 (0, 0, 0) 1 = some p ∧ p.i = 0 ∧ p.j = 1 ∧
          p.r = 3602879701896397 / 18014398509481984 := by
      unfold raw_pair_fp
      rw [if_neg (by decide), raw_r2_fp_fifth, fl_sq_three_tenths, if_neg (by norm_num)]
      exact ⟨_, rfl, rfl, rfl, fl_sqrt_r2_raw⟩
    refine ⟨p, mem_nn_raw_stores_fp_of (by norm_num) (by norm_num) ?_ hp, hi, hj, hr⟩
    rw [hm, hsh, mem_shifts]
    decide

/-- C2, as stated, fails in the code, in both directions in which the machine leaves exact
arithmetic.  Unit cubic lattice in both cases, the cutoff below half of every perpendicular
spacing `1`.  On doubles, with the atoms `(0,0,0)`, `(0.2,0,0)` and the cutoff `0.3`:
`nn_raw` takes the difference `0.2` as it is and writes `(0, 1, 0.2)`, the grid path folds it
through `diff(0.2) = fl(2.2) - 2 = 0.20000000000000018` and every record it writes for
`(0,1)` has this length; the two sets of triples differ.  With the `int`s, in exact
arithmetic, for the `8919` atoms `(n/8919, 0, 0)` and the cutoff `2/5`: the grid path
returns, while in `nn_raw` the size `Natoms*Natoms*3*3*3` of the pair list wraps to
`-2147156149` and the allocation fails. -/
theorem grid_path_differs_from_nn_raw :
    triple_product (arr [(1 : ℝ), 0, 0, 0, 1, 0, 0, 0, 1]) ≠ 0 ∧
    (∀ k, k < 3 → (5404319552844595 / 18014398509481984 : ℝ)
      < calc_len Real.sqrt (arr [(1 : ℝ), 0, 0, 0, 1, 0, 0, 0, 1]) k / 2) ∧
    (∃ out out_raw,
      grid_path_fp fl Real.sqrt (arr [(1 : ℝ), 0, 0, 0, 1, 0, 0, 0, 1]) 2
        (atoms [[0, 0, 0], [3602879701896397 / 18014398509481984, 0, 0]])
        (5404319552844595 / 18014398509481984) = some out ∧
      nn_raw_fp fl Real.sqrt (arr [(1 : ℝ), 0, 0, 0, 1, 0, 0, 0, 1]) 2
        (atoms [[0, 0, 0], [3602879701896397 / 18014398509481984, 0, 0]])
        (5404319552844595 / 18014398509481984) = some out_raw ∧
      (∃ p ∈ out_raw, p.i = 0 ∧ p.j = 1 ∧ p.r = 3602879701896397 / 18014398509481984) ∧
      (∀ p ∈ out, p.i = 0 → p.j = 1 → p.r = 225179981368525 / 1125899906842624) ∧
      ¬ ∀ i j r, (∃ p ∈ out, p.i = i ∧ p.j = j ∧ p.r = r) ↔
        (∃ p ∈ out_raw, p.i = i ∧ p.j = j ∧ p.r = r)) ∧
    (∀ k, k < 3 → (2 / 5 : ℝ)
      < calc_len Real.sqrt (arr [(1 : ℝ), 0, 0, 0, 1, 0, 0, 0, 1]) k / 2) ∧
    (∃ out, grid_path_fp id Real.sqrt (arr [(1 : ℝ), 0, 0, 0, 1, 0, 0, 0, 1]) 8919
      (fun n k => if k = 0 then (n : ℝ) / 8919 else 0) (2 / 5) = some out) ∧
    nn_raw_npair 8919
      (raw_maxn_fp id Real.sqrt (arr [(1 : ℝ), 0, 0, 0, 1, 0, 0, 0, 1]) (2 / 5))
        = -2147156149 ∧
    nn_raw_fp id Real.sqrt (arr [(1 : ℝ), 0, 0, 0, 1, 0, 0, 0, 1]) 8919
      (fun n k => if k = 0 then (n : ℝ) / 8919 else 0) (2 / 5) = none := by
  obtain ⟨out, hout, hall⟩ := grid_path_fp_fifth
  obtain ⟨out_raw, hraw, p, hp, hi, hj, hr⟩ := nn_raw_fp_fifth
  obtain ⟨hm, hn, hnone⟩ := nn_raw_fp_8919 (fun n k => if k = 0 then (n : ℝ) / 8919 else 0)
  refine ⟨triple_product_cubic, ?_, ⟨out, out_raw, hout, hraw, ⟨p, hp, hi, hj, hr⟩, hall, ?_⟩,
    ?_, ?_, ?_, hnone⟩
  · intro k hk
    rw [calc_len_cubic k hk]
    norm_num
  · intro h
    obtain ⟨q, hq, hqi, hqj, hqr⟩ := (h 0 1 (3602879701896397 / 18014398509481984)).2
      ⟨p, hp, hi, hj, hr⟩
    have e := hall q hq hqi hqj
    rw [hqr] at e
    norm_num at e
  · intro k hk
    rw [calc_len_cubic k hk]
    norm_num
  · apply grid_path_fp_returns_8919
    intro n hn k _
    by_cases hk : k = 0
    · simp only [hk, if_true]
      have h1 : ((n : ℝ)) < 8919 := by exact_mod_cast hn
      have h0 : (0 : ℝ) ≤ (n : ℝ) := Nat.cast_nonneg n
      constructor
      · positivity
      · rw [div_lt_one (by norm_num)]
        exact h1
    · simp only [hk, if_false]
      norm_num
  · rw [hm]
    exact hn

/-! ### construct_slab: the capacity of the arrays -/

end NNPair
